import Mathlib

/-!
# Single-path predicate synthesis (Patmos back-end)

A shallow embedding of `lib/Target/Patmos/SinglePath/SPScope.cpp` (the scoped
analysis) and `lib/Target/Patmos/PatmosSPPredicate.cpp` (the legacy, loop-free
pass), followed by theorems about them.

Conventions of the embedding
* a `MachineBasicBlock *` is a natural number (its handle); a pointer that may
  be `NULL` is an `Option`;
* a `std::set` is a `Finset`; where the source iterates one, the iteration is in
  ascending key order (`setIter`);
* a `std::map` that is only read through `operator[]`, `at`, `count` or `find`
  is a function into `Option` (or into the default value for `operator[]`);
* a failed `assert`, a thrown `std::out_of_range` and `llvm_unreachable` are the
  result `none`;
* recursion and unbounded loops of the source carry a fuel argument; running
  out of fuel is `none`;
* the member `LoopBound` is an `int` of 32 bits: a value stored there is reduced
  modulo 2^32 (`wrapInt32`); counters and indices (numbers of predicates,
  positions in a list) are natural numbers;
* a `SPScope *` is a position in the list of the allocated scopes (`ScopeHeap`);
  the scopes behind the pointers of a `HeaderMap` are read again after every
  store (`syncHeaderMaps`).
-/

namespace Patmos

/-! ## Data model -/

/-- Handle of a host basic block. -/
abbrev MBB := Nat

/-- A `const MachineBasicBlock *`, where `none` is `NULL`. -/
abbrev MBBPtr := Option MBB

/-- The type `SPScope::Edge`, a pair of block pointers. -/
abbrev Edge := MBBPtr × MBBPtr

/-- Generic update of a map represented as a function. -/
def upd {α β : Type} [DecidableEq α] (f : α → β) (a : α) (v : β) : α → β :=
  fun x => if x = a then v else f x

/-- A node of the FCFG (a `Node *`): the two synthetic nodes owned by the FCFG
object and one node per block (the entries of `FCFG::nodes`). -/
inductive Node where
  | nentry : Node
  | nexit : Node
  | blk (b : MBB) : Node
  deriving DecidableEq, Repr

/-- The field `Node::MBB`. -/
def Node.MBB : Node → MBBPtr
  | .blk b => some b
  | _ => none

/-- Stand-in for the address of a node, used only to order set elements. -/
def Node.addr : Node → Nat
  | .nentry => 0
  | .nexit => 1
  | .blk b => b + 2

/-- Stand-in for the address held by a block pointer (`NULL` is 0). -/
def ptrAddr : MBBPtr → Nat
  | none => 0
  | some b => b + 1

/-- An element of a scoped control-dependence set: `std::pair<Node*, Edge>`. -/
abbrev CDElem := Node × Edge

/-- The type `SPScope::CD_map_entry_t`: `std::set<std::pair<Node*, Edge>>`. -/
abbrev CDEntry := Finset CDElem

/-- Key by which `std::less` orders the elements of a `CD_map_entry_t`. -/
def cdKey (x : CDElem) : ℕ ×ₗ ℕ ×ₗ ℕ :=
  toLex (x.1.addr, toLex (ptrAddr x.2.1, ptrAddr x.2.2))

/-- Key by which `std::less` orders pairs of (non-null) block pointers. -/
def pairKey (x : MBB × MBB) : ℕ ×ₗ ℕ := toLex (x.1, x.2)

/-- Iteration over a `std::set`: its elements in ascending key order. -/
def setIter {α κ : Type} [LinearOrder κ] (key : α → κ)
    (hinj : Function.Injective key) (s : Finset α) : List α :=
  Quot.liftOn s.val (fun l => List.insertionSort (fun a b => key a ≤ key b) l) (by
    intro a b hab
    haveI : IsAntisymm α (fun a b => key a ≤ key b) :=
      ⟨fun x y h1 h2 => hinj (le_antisymm h1 h2)⟩
    haveI : IsTotal α (fun a b => key a ≤ key b) := ⟨fun x y => le_total _ _⟩
    haveI : IsTrans α (fun a b => key a ≤ key b) := ⟨fun x y z h1 h2 => le_trans h1 h2⟩
    exact List.eq_of_perm_of_sorted
      (((List.perm_insertionSort _ a).trans hab).trans (List.perm_insertionSort _ b).symm)
      (List.sorted_insertionSort _ a) (List.sorted_insertionSort _ b))

/-- Iteration over a scoped control-dependence set. -/
def CDEntry.iter (s : CDEntry) : List CDElem :=
  setIter cdKey (by
    rintro ⟨n1, s1, d1⟩ ⟨n2, s2, d2⟩ h
    simp only [cdKey, EmbeddingLike.apply_eq_iff_eq, Prod.mk.injEq] at h
    obtain ⟨h1, h2, h3⟩ := h
    have e1 : n1 = n2 := by
      cases n1 <;> cases n2 <;> simp [Node.addr] at h1 <;> first | rfl | omega | (subst h1; rfl)
    have e2 : s1 = s2 := by
      cases s1 <;> cases s2 <;> simp [ptrAddr] at h2 <;> first | rfl | (subst h2; rfl)
    have e3 : d1 = d2 := by
      cases d1 <;> cases d2 <;> simp [ptrAddr] at h3 <;> first | rfl | (subst h3; rfl)
    rw [e1, e2, e3]) s

/-- Modelled from the spec: the class `SPScope::Node` of `SPScope.h`, which is
not among the sources. A node has a predecessor list, a successor list, a
post-order number and an immediate post-dominator; `outedges` is the map from a
successor to the host edge that tags the connection. -/
structure NodeData where
  succs : List Node := []
  preds : List Node := []
  outedges : Node → Option Edge := fun _ => none
  num : Int := -1
  ipdom : Option Node := none

/-- Modelled from the spec: the class `SPScope::FCFG` of `SPScope.h`. The FCFG
owns `nentry`, `nexit` and the node of each block; `getNodeFor` creates a node
on first use, so the node table is a total function whose default is a fresh
node. -/
structure FCFG where
  nodes : Node → NodeData := fun _ => {}

/-- Modelled from the spec: `SPScope::PredDefInfo`, the predicate-define record
of a block, a sequence of (predicate, edge) pairs in the order of `define`. -/
abbrev PredDefInfo := List (Nat × Edge)

/-- The class `SPScope`, with the members that `SPScope.cpp` reads or writes
(the declaration in `SPScope.h` is not among the sources). `HeaderMap` holds the
child scopes by header; `Parent` names the parent scope by its header and is
`none` for `NULL`. -/
structure SPScope where
  Blocks : List MBB
  HeaderMap : List (MBB × SPScope)
  Parent : Option MBB := none
  ExitEdges : List Edge := []
  Latches : List MBB := []
  RootTopLevel : Bool := false
  LoopBound : Int := -1
  Depth : Nat := 0
  FCFG : FCFG := {}
  CD : MBBPtr → Option CDEntry := fun _ => none
  PredCount : Nat := 0
  PredUse : MBB → Option (List Nat) := fun _ => none
  NumPredDefEdges : List Nat := []
  PredDefs : MBBPtr → Option PredDefInfo := fun _ => none

/-- The accessor `SPScope::getHeader`: `Blocks.front()`. -/
def SPScope.getHeader (s : SPScope) : MBBPtr := s.Blocks.head?

/-! ## `SPScope::decompose` -/

/-- Inner loop of `decompose`: the first index `i` (counted from `i0`) with
`t == K[i]`; `none` stands for `q == -1`. -/
def lookupK {σ : Type} [DecidableEq σ] (t : σ) : List σ → Nat → Option Nat
  | [], _ => none
  | k :: ks, i => if t = k then some i else lookupK t ks (i + 1)

/-- Local variables of the first loop of `decompose`. -/
structure DecompAcc where
  mbbPreds : MBB → Option (List Nat) := fun _ => none
  K : List CDEntry := []
  p : Nat := 0

/-- One iteration of the first loop of `decompose`, for block `b`. -/
def decomposeStep (CD : MBBPtr → Option CDEntry) (acc : DecompAcc) (b : MBB) :
    Option DecompAcc :=
  match CD (some b) with
  | none => none
  | some t =>
    match acc.mbbPreds b with
    | some _ => none
    | none =>
      match lookupK t acc.K 0 with
      | some q => some { acc with mbbPreds := upd acc.mbbPreds b [q] }
      | none => some { mbbPreds := upd acc.mbbPreds b [acc.p], K := acc.K ++ [t], p := acc.p + 1 }

/-- First loop of `decompose`, over the blocks in `Blocks` order. -/
def decomposeLoop (CD : MBBPtr → Option CDEntry) : List MBB → DecompAcc → Option DecompAcc
  | [], acc => some acc
  | b :: bs, acc =>
    match decomposeStep CD acc b with
    | none => none
    | some acc' => decomposeLoop CD bs acc'

/-- Modelled from the spec: `PredDefInfo::define`, which appends a define of
predicate `i` along edge `e`; together with `getOrCreateDefInfo`. -/
def defineAt (defs : MBBPtr → Option PredDefInfo) (b : MBBPtr) (i : Nat) (e : Edge) :
    MBBPtr → Option PredDefInfo :=
  upd defs b (some ((defs b).getD [] ++ [(i, e)]))

/-- Body of the last loop of `decompose` for the elements of `K[i]`. -/
def decomposeDefs (header : MBBPtr) (i : Nat) :
    List CDElem → (MBBPtr → Option PredDefInfo) → Option (MBBPtr → Option PredDefInfo)
  | [], defs => some defs
  | (n, e) :: rest, defs =>
    if n = Node.nentry then
      if e.2 = header then decomposeDefs header i rest defs else none
    else decomposeDefs header i rest (defineAt defs n.MBB i e)

/-- Last loop of `decompose`, over the predicates `i0, i0+1, ...`. -/
def decomposeAllDefs (header : MBBPtr) :
    List CDEntry → Nat → (MBBPtr → Option PredDefInfo) → Option (MBBPtr → Option PredDefInfo)
  | [], _, defs => some defs
  | k :: ks, i, defs =>
    match decomposeDefs header i k.iter defs with
    | none => none
    | some defs' => decomposeAllDefs header ks (i + 1) defs'

/-- The list `K` built by `decompose`. -/
def decomposeK (s : SPScope) : Option (List CDEntry) :=
  (decomposeLoop s.CD s.Blocks {}).map (fun acc => acc.K)

/-- The function `SPScope::decompose`. -/
def decompose (s : SPScope) : Option SPScope :=
  match decomposeLoop s.CD s.Blocks {} with
  | none => none
  | some acc =>
    match decomposeAllDefs s.getHeader acc.K 0 s.PredDefs with
    | none => none
    | some defs =>
      some { s with
        PredCount := acc.K.length
        PredUse := acc.mbbPreds
        NumPredDefEdges := acc.K.map (fun k => k.card)
        PredDefs := defs }

/-- The function `SPScope::getPredUse`; `none` is the `NULL` result. -/
def getPredUse (s : SPScope) (b : MBB) : Option (List Nat) := s.PredUse b

/-! ## Host CFG and depth-first traversal -/

/-- Modelled from the spec: the host CFG, a `MachineFunction` of LLVM, which is
not among the sources. It has its blocks in layout order (the first one is the
entry, `MF.front()`), and every block has ordered lists of successors and
predecessors. -/
structure MachineFunction where
  blocks : List MBB
  succs : MBB → List MBB
  preds : MBB → List MBB

/-- The entry block `MF.front()`; an empty function has none. -/
def MachineFunction.front (MF : MachineFunction) : Option MBB := MF.blocks.head?

/-- State of a depth-first traversal: the visited set (latest first) and the
nodes finished so far, in finishing order. -/
structure DfsState (α : Type) where
  visited : List α := []
  order : List α := []

/-- Loop over the children `cs` of a node during a depth-first traversal:
each child not yet visited is traversed by `visit`. -/
def dfsChildren {α : Type} [DecidableEq α] (visit : α → DfsState α → Option (DfsState α)) :
    List α → DfsState α → Option (DfsState α)
  | [], st => some st
  | c :: cs, st =>
    if c ∈ st.visited then dfsChildren visit cs st
    else
      match visit c st with
      | none => none
      | some st' => dfsChildren visit cs st'

/-- Depth-first traversal from `n` along `next`: `n` is marked visited, its
children not yet visited are traversed in list order, then `n` is appended to
`order`. This is the recursion of `FCFG::_rdfs`, where `next` is the
predecessor list; the depth of the recursion is bounded by the fuel. -/
def dfsVisit {α : Type} [DecidableEq α] (next : α → List α) :
    Nat → α → DfsState α → Option (DfsState α)
  | 0, _, _ => none
  | f + 1, n, st =>
    match dfsChildren (dfsVisit next f) (next n) { st with visited := n :: st.visited } with
    | none => none
    | some st' => some { st' with order := st'.order ++ [n] }

/-- Modelled from the spec: `po_iterator` of `llvm/ADT/PostOrderIterator.h`,
which is not among the sources. The sequence `po_begin(start) .. po_end(start)`
lists the nodes reachable from `start` in depth-first post-order, taking the
children of a node in list order. -/
def postOrder {α : Type} [DecidableEq α] (next : α → List α) (fuel : Nat) (start : α) :
    Option (List α) :=
  (dfsVisit next fuel start {}).map (fun st => st.order)

/-- Modelled from the spec: `df_iterator` of `llvm/ADT/DepthFirstIterator.h`,
which is not among the sources. The sequence `df_begin(start) .. df_end(start)`
lists the nodes reachable from `start` in depth-first pre-order, the order in
which the traversal marks them visited. -/
def depthFirst {α : Type} [DecidableEq α] (next : α → List α) (fuel : Nat) (start : α) :
    Option (List α) :=
  (dfsVisit next fuel start {}).map (fun st => st.visited.reverse)

/-- Reachability along `next`: `b` is reached from `a` in zero or more steps. -/
def Reach {α : Type} (next : α → List α) (a b : α) : Prop :=
  Relation.ReflTransGen (fun x y => y ∈ next x) a b

/-- The graph of `next` has no cycle through a node of `U`: no edge out of a
node of `U` leads to a node that reaches its source. -/
def AcyclicOn {α : Type} (U : Finset α) (next : α → List α) : Prop :=
  ∀ a ∈ U, ∀ b ∈ next a, ¬ Reach next b a

/-- Number of nodes of `U` not yet visited, the measure of the remaining
depth of a traversal. -/
def unvisited {α : Type} [DecidableEq α] (U : Finset α) (st : DfsState α) : Nat :=
  (U.filter (fun x => x ∉ st.visited)).card

/-! ## The FCFG of a scope -/

/-- Modelled from the spec: `Node::connect(n)`, which appends `b` to the
successors of `a` and `a` to the predecessors of `b`. -/
def FCFG.connect (g : FCFG) (a b : Node) : FCFG :=
  let n1 := upd g.nodes a { g.nodes a with succs := (g.nodes a).succs ++ [b] }
  { nodes := upd n1 b { n1 b with preds := (n1 b).preds ++ [a] } }

/-- Modelled from the spec: `Node::connect(n, e)`, a connection tagged with the
host edge `e` (`outedges[&n] = e`, then `connect(n)`). -/
def FCFG.connectEdge (g : FCFG) (a b : Node) (e : Edge) : FCFG :=
  FCFG.connect
    { nodes := upd g.nodes a { g.nodes a with outedges := upd (g.nodes a).outedges b (some e) } }
    a b

/-- Modelled from the spec: `FCFG::toexit(n)`, an untagged edge to `nexit`. -/
def FCFG.toexit (g : FCFG) (a : Node) : FCFG := g.connect a Node.nexit

/-- Modelled from the spec: `FCFG::toexit(n, e)`, a tagged edge to `nexit`. -/
def FCFG.toexitEdge (g : FCFG) (a : Node) (e : Edge) : FCFG := g.connectEdge a Node.nexit e

/-- Modelled from the spec: `Node::edgeto(n)`, the tag of the connection to `n`,
`none` for `NULL`. -/
def FCFG.edgeto (g : FCFG) (a b : Node) : Option Edge := (g.nodes a).outedges b

/-- Modelled from the spec: `Node::dout()`, the number of successors. -/
def FCFG.dout (g : FCFG) (a : Node) : Nat := (g.nodes a).succs.length

/-- Modelled from the spec: the constructor `FCFG(header)` of `SPScope.h`. The
entry node is connected to `nexit` and, by the pseudo-edge `(NULL, header)`, to
the node of the header. With these two successors `ctrldep` charges the
pseudo-edge to the header and its post-dominators; this is what `decompose`
relies on when it reads `CD.at` for every block and skips the elements whose
node is `nentry`, asserting that their edge ends at the header. -/
def FCFG.init (header : MBB) : FCFG :=
  (FCFG.toexit {} Node.nentry).connectEdge Node.nentry (Node.blk header) (none, some header)

/-- The lookup `HeaderMap[MBB]` when `HeaderMap.count(MBB)`. -/
def headerMapFind : List (MBB × SPScope) → MBB → Option SPScope
  | [], _ => none
  | (h, sub) :: rest, b => if b = h then some sub else headerMapFind rest b

/-- The inner loop of `buildfcfg` over the outgoing edges of the node `n`. -/
def buildfcfgEdges (body : List MBB) (header : MBBPtr) (n : Node) : List Edge → FCFG → FCFG
  | [], g => g
  | e :: rest, g =>
    match e.2 with
    | some succ =>
      if succ ∈ body then buildfcfgEdges body header n rest (g.connectEdge n (Node.blk succ) e)
      else if e.2 ≠ header then buildfcfgEdges body header n rest (g.toexitEdge n e)
      else buildfcfgEdges body header n rest (g.toexit n)
    | none =>
      if e.2 ≠ header then buildfcfgEdges body header n rest (g.toexitEdge n e)
      else buildfcfgEdges body header n rest (g.toexit n)

/-- The outgoing edges collected for block `b` in `buildfcfg`. -/
def outedgesOf (MF : MachineFunction) (s : SPScope) (b : MBB) : List Edge :=
  match headerMapFind s.HeaderMap b with
  | some subloop => subloop.ExitEdges
  | none => (MF.succs b).map (fun succ => (some b, some succ))

/-- The outer loop of `buildfcfg` over the blocks. -/
def buildfcfgBlocks (MF : MachineFunction) (s : SPScope) (body : List MBB) :
    List MBB → FCFG → Option FCFG
  | [], g => some g
  | b :: bs, g =>
    let outedges := outedgesOf MF s b
    let g1 := buildfcfgEdges body s.getHeader (Node.blk b) outedges g
    if outedges.isEmpty then
      if s.Parent.isNone then buildfcfgBlocks MF s body bs (g1.toexit (Node.blk b)) else none
    else buildfcfgBlocks MF s body bs g1

/-- The function `SPScope::buildfcfg`. -/
def buildfcfg (MF : MachineFunction) (s : SPScope) : Option SPScope :=
  (buildfcfgBlocks MF s s.Blocks.tail s.Blocks s.FCFG).map (fun g => { s with FCFG := g })

/-- The function `SPScope::toposort`: the blocks of the nodes reached from
`nentry` along successors, in reverse post-order. -/
def toposort (fuel : Nat) (s : SPScope) : Option SPScope :=
  (postOrder (fun n => (s.FCFG.nodes n).succs) fuel Node.nentry).map
    (fun PO => { s with Blocks := (PO.filterMap Node.MBB).reverse })

/-- Assignment of the numbers `n->num = order.size()` made by `_rdfs`: every
node is numbered with its position in `order`. -/
def assignNums : List Node → Nat → (Node → NodeData) → (Node → NodeData)
  | [], _, nodes => nodes
  | n :: rest, i, nodes => assignNums rest (i + 1) (upd nodes n { nodes n with num := i })

/-- The graph with the numbers of `_rdfs` for the nodes of `order`. -/
def FCFG.withNums (g : FCFG) (order : List Node) : FCFG :=
  { nodes := assignNums order 0 g.nodes }

/-- The assignment `nexit.ipdom = &nexit` of `postdominators`. -/
def FCFG.initExit (g : FCFG) : FCFG :=
  { nodes := upd g.nodes Node.nexit { g.nodes Node.nexit with ipdom := some Node.nexit } }

/-- The function `FCFG::_rdfs`, a depth-first traversal along predecessors that
numbers the nodes in post-order; returns the graph and `order`. -/
def _rdfs (g : FCFG) (fuel : Nat) (n : Node) : Option (FCFG × List Node) :=
  (dfsVisit (fun x => (g.nodes x).preds) fuel n {}).map
    (fun st => (g.withNums st.order, st.order))

/-- An inner loop of `_intersect`: `while (finger->num < num) finger = finger->ipdom`. -/
def climb (g : FCFG) (num : Int) : Nat → Node → Option Node
  | 0, _ => none
  | f + 1, finger =>
    if (g.nodes finger).num < num then
      match (g.nodes finger).ipdom with
      | none => none
      | some up => climb g num f up
    else some finger

/-- The outer loop of `_intersect`. -/
def intersectLoop (g : FCFG) : Nat → Node → Node → Option Node
  | 0, _, _ => none
  | f + 1, finger1, finger2 =>
    if (g.nodes finger1).num ≠ (g.nodes finger2).num then
      match climb g (g.nodes finger2).num f finger1 with
      | none => none
      | some finger1' =>
        match climb g (g.nodes finger1').num f finger2 with
        | none => none
        | some finger2' => intersectLoop g f finger1' finger2'
    else some finger1

/-- The function `FCFG::_intersect`; the result is a node pointer, the outer
`Option` is failure. -/
def _intersect (g : FCFG) (fuel : Nat) (b1 : Option Node) (b2 : Node) : Option (Option Node) :=
  match (g.nodes b2).ipdom with
  | none => some b1
  | some _ => (intersectLoop g fuel (b1.getD b2) b2).map some

/-- The loop over the successors of a node in `postdominators`. -/
def intersectSuccs (g : FCFG) (fuel : Nat) : List Node → Option Node → Option (Option Node)
  | [], new_ipdom => some new_ipdom
  | s :: ss, new_ipdom =>
    match _intersect g fuel new_ipdom s with
    | none => none
    | some r => intersectSuccs g fuel ss r

/-- The loop of `postdominators` over the nodes in reverse post-order. -/
def postdomLoop (fuel : Nat) : List Node → FCFG → Option FCFG
  | [], g => some g
  | n :: rest, g =>
    match intersectSuccs g fuel (g.nodes n).succs none with
    | none => none
    | some new_ipdom =>
      postdomLoop fuel rest { nodes := upd g.nodes n { g.nodes n with ipdom := new_ipdom } }

/-- The function `FCFG::postdominators`. -/
def postdominators (fuel : Nat) (g : FCFG) : Option FCFG :=
  match _rdfs g fuel Node.nexit with
  | none => none
  | some (g1, order) => postdomLoop fuel order.reverse.tail g1.initExit

/-- The function `SPScope::_walkpdt(a, b, e, edgesrc)`. -/
def _walkpdt (g : FCFG) (a : Node) (e : Edge) (edgesrc : Node) :
    Nat → Option Node → (MBBPtr → Option CDEntry) → Option (MBBPtr → Option CDEntry)
  | 0, _, _ => none
  | f + 1, t, CD =>
    if t = (g.nodes a).ipdom then some CD
    else
      match t with
      | none => none
      | some tn =>
        _walkpdt g a e edgesrc f (g.nodes tn).ipdom
          (upd CD tn.MBB (some (insert (edgesrc, e) ((CD tn.MBB).getD ∅))))

/-- The function `SPScope::getDual`. -/
def getDual (MF : MachineFunction) (e : Edge) : Option Edge :=
  match e.1 with
  | none => none
  | some src =>
    if (MF.succs src).length = 2 then
      match (MF.succs src).find? (fun si => decide (some si ≠ e.2)) with
      | some si => some (some src, some si)
      | none => none
    else none

/-- The loop over the successors of `n` in the first part of `ctrldep`. -/
def ctrldepSuccs (g : FCFG) (fuel : Nat) (n : Node) :
    List Node → (MBBPtr → Option CDEntry) → Option (MBBPtr → Option CDEntry)
  | [], CD => some CD
  | it :: rest, CD =>
    match g.edgeto n it with
    | none => ctrldepSuccs g fuel n rest CD
    | some e =>
      match _walkpdt g n e n fuel (some it) CD with
      | none => none
      | some CD' => ctrldepSuccs g fuel n rest CD'

/-- The first loop of `ctrldep`, over the nodes in depth-first order. -/
def ctrldepNodes (g : FCFG) (fuel : Nat) :
    List Node → (MBBPtr → Option CDEntry) → Option (MBBPtr → Option CDEntry)
  | [], CD => some CD
  | n :: rest, CD =>
    if g.dout n ≥ 2 then
      match ctrldepSuccs g fuel n (g.nodes n).succs CD with
      | none => none
      | some CD' => ctrldepNodes g fuel rest CD'
    else ctrldepNodes g fuel rest CD

/-- The second loop of `ctrldep`, over the predecessors of `nexit`. -/
def ctrldepExits (MF : MachineFunction) (g : FCFG) (header : MBBPtr) (fuel : Nat) :
    List Node → (MBBPtr → Option CDEntry) → Option (MBBPtr → Option CDEntry)
  | [], CD => some CD
  | it :: rest, CD =>
    match g.edgeto it Node.nexit with
    | none => ctrldepExits MF g header fuel rest CD
    | some e =>
      match getDual MF e, header with
      | some dual, some h =>
        match _walkpdt g Node.nentry dual it fuel (some (Node.blk h)) CD with
        | none => none
        | some CD' => ctrldepExits MF g header fuel rest CD'
      | _, _ => none

/-- The function `SPScope::ctrldep`. -/
def ctrldep (MF : MachineFunction) (fuel : Nat) (s : SPScope) : Option SPScope :=
  match depthFirst (fun n => (s.FCFG.nodes n).succs) fuel Node.nentry with
  | none => none
  | some DF =>
    match ctrldepNodes s.FCFG fuel DF s.CD with
    | none => none
    | some CD1 =>
      (ctrldepExits MF s.FCFG s.getHeader fuel (s.FCFG.nodes Node.nexit).preds CD1).map
        (fun CD2 => { s with CD := CD2 })

/-- The function `SPScope::computePredInfos`. -/
def computePredInfos (MF : MachineFunction) (fuel : Nat) (s : SPScope) : Option SPScope :=
  match buildfcfg MF s with
  | none => none
  | some s1 =>
    match toposort fuel s1 with
    | none => none
    | some s2 =>
      match postdominators fuel s2.FCFG with
      | none => none
      | some g =>
        match ctrldep MF fuel { s2 with FCFG := g } with
        | none => none
        | some s3 => decompose s3

/-- The constructor `SPScope(header, isRootTopLevel)` of a root scope. -/
def SPScope.root (header : MBB) (isRootTopLevel : Bool) : SPScope :=
  { Blocks := [header]
    HeaderMap := []
    Parent := none
    RootTopLevel := isRootTopLevel
    LoopBound := -1
    Depth := 0
    FCFG := FCFG.init header }

/-- The function `SPScope::addMBB`. -/
def addMBB (s : SPScope) (b : MBB) : SPScope :=
  if s.Blocks.head? ≠ some b then { s with Blocks := s.Blocks ++ [b] } else s

/-! ## The legacy pass `PatmosSPPredicate` -/

/-- The legacy type `CD_map_entry_t`: a set of pairs of block pointers. -/
abbrev CD_map_entry_t := Finset (MBB × MBB)

/-- The legacy type `CD_map_t`, read and written through `operator[]` only:
a block without an entry has the empty set. -/
abbrev CD_map_t := MBB → CD_map_entry_t

/-- The legacy type `K_t`. -/
abbrev K_t := List CD_map_entry_t

/-- The legacy type `R_t`, a `std::map` from blocks to numbers, as the list of
its entries in ascending key order. -/
abbrev R_t := List (MBB × Nat)

/-- Assignment `m[k] = v` on a `std::map`. -/
def mapAssign : R_t → MBB → Nat → R_t
  | [], k, v => [(k, v)]
  | (k', v') :: rest, k, v =>
    if k < k' then (k, v) :: (k', v') :: rest
    else if k = k' then (k, v) :: rest
    else (k', v') :: mapAssign rest k v

/-- Lookup `m.find(k)` on a `std::map`. -/
def mapFind : R_t → MBB → Option Nat
  | [], _ => none
  | (k', v') :: rest, k => if k = k' then some v' else mapFind rest k

/-- Read access `m[k]` on a `std::map` of numbers: a missing key reads 0. -/
def mapGet (m : R_t) (k : MBB) : Nat := (mapFind m k).getD 0

/-- Iteration over a legacy control-dependence set. -/
def CD_map_entry_t.iter (s : CD_map_entry_t) : List (MBB × MBB) :=
  setIter pairKey (by
    rintro ⟨a1, b1⟩ ⟨a2, b2⟩ h
    simpa [pairKey] using h) s

/-- Modelled from the spec: the `MachinePostDominatorTree` of the host, which
is not among the sources. Every block has a tree node; `idom b` is the parent
of the node of `b` (`getIDom`, `none` for `NULL` at a root), and `roots` are the
roots of the tree. -/
structure PostDomTree where
  roots : List MBB
  idom : MBB → Option MBB

/-- Modelled from the spec: `PDT.dominates(a, b)`, true when the node of `a` is
the node of `b` or one of its ancestors in the tree. The walk up from `b` takes
at most `fuel` steps. -/
def PostDomTree.dominates (PDT : PostDomTree) : Nat → MBB → MBB → Bool
  | 0, a, b => decide (a = b)
  | f + 1, a, b =>
    if a = b then true
    else
      match PDT.idom b with
      | none => false
      | some c => PDT.dominates f a c

/-- The `while (t != ipdom)` loop of `computeControlDependence`, for the edge
`e`; `t` and `ipdom` are tree-node pointers. Dereferencing `NULL` is `none`. -/
def cdWalk (PDT : PostDomTree) (ipdom : Option MBB) (e : MBB × MBB) :
    Nat → Option MBB → CD_map_t → Option CD_map_t
  | 0, _, _ => none
  | f + 1, t, CD =>
    if t = ipdom then some CD
    else
      match t with
      | none => none
      | some b => cdWalk PDT ipdom e f (PDT.idom b) (upd CD b (insert e (CD b)))

/-- The loop over the successors of `b` in `computeControlDependence`. -/
def cdSuccs (PDT : PostDomTree) (fuel : Nat) (b : MBB) :
    List MBB → CD_map_t → Option CD_map_t
  | [], CD => some CD
  | s :: ss, CD =>
    if PDT.dominates fuel s b then cdSuccs PDT fuel b ss CD
    else
      match cdWalk PDT (PDT.idom b) (b, s) fuel (some s) CD with
      | none => none
      | some CD' => cdSuccs PDT fuel b ss CD'

/-- The loop over the blocks of the function in `computeControlDependence`. -/
def cdBlocks (MF : MachineFunction) (PDT : PostDomTree) (fuel : Nat) :
    List MBB → CD_map_t → Option CD_map_t
  | [], CD => some CD
  | b :: bs, CD =>
    match cdSuccs PDT fuel b (MF.succs b) CD with
    | none => none
    | some CD' => cdBlocks MF PDT fuel bs CD'

/-- The function `PatmosSPPredicate::computeControlDependence`. The assertion
on the number of roots of the post-dominator tree comes first. -/
def computeControlDependence (MF : MachineFunction) (PDT : PostDomTree) (fuel : Nat)
    (CD : CD_map_t) : Option CD_map_t :=
  if PDT.roots.length = 1 then cdBlocks MF PDT fuel MF.blocks CD else none

/-- Variables of the loop of `decomposeControlDependence`. -/
structure LegacyDecomp where
  K : K_t
  R : R_t
  p : Nat := 0

/-- One iteration of the loop of `decomposeControlDependence`. -/
def decomposeCDStep (CD : CD_map_t) (st : LegacyDecomp) (b : MBB) : LegacyDecomp :=
  match lookupK (CD b) st.K 0 with
  | some q => { st with R := mapAssign st.R b q }
  | none => { K := st.K ++ [CD b], R := mapAssign st.R b st.p, p := st.p + 1 }

/-- The function `PatmosSPPredicate::decomposeControlDependence`; `K` and `R`
are passed by reference and returned. -/
def decomposeControlDependence (MF : MachineFunction) (CD : CD_map_t) (K : K_t) (R : R_t) :
    K_t × R_t :=
  let st := MF.blocks.foldl (decomposeCDStep CD) { K := K, R := R }
  (st.K, st.R)

/-- Modelled from the spec: the class `BitVector` of `llvm/ADT/BitVector.h`,
which is not among the sources, as its length and the set of its set bits. -/
structure BitVector where
  size : Nat := 0
  bits : Finset Nat := ∅

/-- The constructor `BitVector(n)`: `n` bits, all clear. -/
def BitVector.ofSize (n : Nat) : BitVector := { size := n, bits := ∅ }

/-- The call `set(i)`; an index outside the vector is `none`. -/
def BitVector.set (v : BitVector) (i : Nat) : Option BitVector :=
  if i < v.size then some { v with bits := insert i v.bits } else none

/-- The call `set()`: all bits set. -/
def BitVector.setAll (v : BitVector) : BitVector := { v with bits := Finset.range v.size }

/-- The call `test(i)`. -/
def BitVector.test (v : BitVector) (i : Nat) : Bool := decide (i ∈ v.bits)

/-- The call `reset(RHS)`: clear the bits that are set in `RHS`. -/
def BitVector.reset (v rhs : BitVector) : BitVector := { v with bits := v.bits \ rhs.bits }

/-- The operator `|=`, which grows the vector to the length of `RHS`. -/
def BitVector.or (v rhs : BitVector) : BitVector :=
  { size := max v.size rhs.size, bits := v.bits ∪ rhs.bits }

/-- The operator `!=`: two vectors differ when their set bits differ. -/
def BitVector.ne (v rhs : BitVector) : Bool := decide (v.bits ≠ rhs.bits)

/-- The maps `gen` and `kill` of `computeUpwardsExposedUses`. -/
structure GenKill where
  gen : MBB → BitVector := fun _ => {}
  kill : MBB → BitVector := fun _ => {}

/-- First loop of `computeUpwardsExposedUses`, over the entries of `R`. -/
def fillGen (Ksize : Nat) : R_t → GenKill → Option GenKill
  | [], gk => some gk
  | (b, r) :: rest, gk =>
    match (BitVector.ofSize Ksize).set r with
    | none => none
    | some g =>
      fillGen Ksize rest { gen := upd gk.gen b g, kill := upd gk.kill b (BitVector.ofSize Ksize) }

/-- The loop over the defining edges of `K[i]` in `computeUpwardsExposedUses`. -/
def fillKillEdges (i : Nat) : List (MBB × MBB) → (MBB → BitVector) → Option (MBB → BitVector)
  | [], kill => some kill
  | (src, _) :: rest, kill =>
    match (kill src).set i with
    | none => none
    | some v => fillKillEdges i rest (upd kill src v)

/-- Second loop of `computeUpwardsExposedUses`, over the predicates `i, i+1, ...`. -/
def fillKill : K_t → Nat → (MBB → BitVector) → Option (MBB → BitVector)
  | [], _, kill => some kill
  | k :: ks, i, kill =>
    match fillKillEdges i k.iter kill with
    | none => none
    | some kill' => fillKill ks (i + 1) kill'

/-- Variables of the worklist iteration of `computeUpwardsExposedUses`. -/
structure UEUState where
  worklist : List MBB := []
  bvIn : MBB → BitVector := fun _ => {}

/-- The value `bvOut` computed for block `b` in the worklist iteration. -/
def ueuOut (MF : MachineFunction) (Ksize : Nat) (gk : GenKill) (bvIn : MBB → BitVector)
    (b : MBB) : BitVector :=
  (((MF.succs b).foldl (fun out s => out.or (bvIn s)) (BitVector.ofSize Ksize)).reset
    (gk.kill b)).or (gk.gen b)

/-- The worklist iteration of `computeUpwardsExposedUses`. -/
def ueuLoop (MF : MachineFunction) (Ksize : Nat) (gk : GenKill) :
    Nat → UEUState → Option UEUState
  | 0, _ => none
  | f + 1, st =>
    match st.worklist with
    | [] => some st
    | b :: rest =>
      let bvOut := ueuOut MF Ksize gk st.bvIn b
      if bvOut.ne (st.bvIn b) then
        ueuLoop MF Ksize gk f { worklist := rest ++ MF.preds b, bvIn := upd st.bvIn b bvOut }
      else ueuLoop MF Ksize gk f { st with worklist := rest }

/-- Initial filling of the worklist: the blocks in post-order, `In = gen`. -/
def ueuInit (gk : GenKill) (po : List MBB) : UEUState :=
  po.foldl (fun st b => { worklist := st.worklist ++ [b], bvIn := upd st.bvIn b (gk.gen b) }) {}

/-- The function `PatmosSPPredicate::computeUpwardsExposedUses`. The first
fuel bounds the depth-first traversal, the second the worklist iteration. -/
def computeUpwardsExposedUses (MF : MachineFunction) (K : K_t) (R : R_t)
    (fuelPO fuelWL : Nat) : Option BitVector :=
  match fillGen K.length R {} with
  | none => none
  | some gk0 =>
    match fillKill K 0 gk0.kill with
    | none => none
    | some kill =>
      let gk : GenKill := { gen := gk0.gen, kill := kill }
      match MF.front with
      | none => none
      | some entry =>
        match postOrder MF.succs fuelPO entry with
        | none => none
        | some po =>
          let st0 := ueuInit gk po
          match st0.worklist with
          | [] => none
          | first :: rest =>
            let st1 : UEUState :=
              { worklist := rest, bvIn := upd st0.bvIn first (st0.bvIn first).setAll }
            match ueuLoop MF K.length gk fuelWL st1 with
            | none => none
            | some st => some (st.bvIn entry)

/-! ## Machine instructions and `insertPredDefinitions` -/

/-- Modelled from the spec: a `MachineOperand` of LLVM, a register or an
immediate. -/
inductive MachineOperand where
  | reg (r : Nat) : MachineOperand
  | imm (v : Int) : MachineOperand
  deriving DecidableEq, Repr

/-- The opcodes the pass reads or emits; every other opcode is `other`. -/
inductive Opcode where
  | PCLR : Opcode
  | PMOV : Opcode
  | PCMOV2 : Opcode
  | PSEUDO_SP_PRED_BBEND : Opcode
  | PSEUDO_LOOPBOUND : Opcode
  | other (n : Nat) : Opcode
  deriving DecidableEq, Repr

/-- Modelled from the spec: a `MachineInstr` of LLVM, with the properties the
pass queries of the host. `predIdx` is the result of `findFirstPredOperandIdx`
(`none` for -1). -/
structure MachineInstr where
  opcode : Opcode
  operands : List MachineOperand
  isTerminator : Bool := false
  isPHI : Bool := false
  isReturn : Bool := false
  isPredicable : Bool := false
  isBundle : Bool := false
  predIdx : Option Nat := none
  deriving DecidableEq, Repr

/-- Result of a successful `AnalyzeBranch`: `TBB`, `FBB` and `Cond`. -/
structure BranchInfo where
  TBB : Option MBB
  FBB : Option MBB
  Cond : List MachineOperand

/-- Modelled from the spec: the answer of the incremental SSA updater to a
query `GetValueAtEndOfBlock`: the register that holds the value at the end of
the block, and the function as the query leaves it. The updater materializes
the phis of the joins, so a query may insert instructions, create virtual
registers and record further available values. -/
structure SSAQuery where
  value : Nat
  instrs : MBB → List MachineInstr
  nextVReg : Nat
  avail : List (MBB × Nat)

/-- Modelled from the spec: the host capabilities used by the predicate
materializer, which are not among the sources. `AnalyzeBranch` is `none` when
the branch cannot be analysed; `ReverseBranchCondition` rewrites `Cond`;
`GetValueAtEndOfBlock` is the query of the incremental SSA updater for a block,
given the values made available since `Initialize`, the instructions of the
function and the next virtual register. -/
structure TargetHooks where
  AnalyzeBranch : MBB → Option BranchInfo
  ReverseBranchCondition : List MachineOperand → List MachineOperand
  GetValueAtEndOfBlock : List (MBB × Nat) → MBB → (MBB → List MachineInstr) → Nat → SSAQuery

/-- Modelled from the spec: `getFirstTerminator`, the position at which the
suffix of terminators of the block starts. -/
def firstTerminatorIdx (instrs : List MachineInstr) : Nat :=
  instrs.length - (instrs.reverse.takeWhile (fun MI => MI.isTerminator)).length

/-- Modelled from the spec: `BuildMI(MBB, pos, ...)`, insertion of an
instruction before position `pos` of a block. -/
def insertInstrAt (instrs : List MachineInstr) (pos : Nat) (MI : MachineInstr) :
    List MachineInstr :=
  instrs.take pos ++ [MI] ++ instrs.drop pos

/-- The operands appended by `AddDefaultPred`: no register, flag 0. -/
def defaultPred : List MachineOperand := [MachineOperand.reg 0, MachineOperand.imm 0]

/-- State threaded through `insertPredDefinitions`: the instructions of the
blocks, the next virtual register of `RegInfo`, the values available in the SSA
updater, and `pred_use_vregs`. -/
structure PredDefState where
  instrs : MBB → List MachineInstr
  nextVReg : Nat
  avail : List (MBB × Nat) := []
  pred_use_vregs : R_t := []

/-- The condition written for the defining edge `(src, dst)`: the condition of
`AnalyzeBranch`, reversed when `dst` is not `TBB`. A failed analysis and an
empty `Cond` are assertion failures. -/
def edgeCond (TII : TargetHooks) (src dst : MBB) : Option (List MachineOperand) :=
  match TII.AnalyzeBranch src with
  | none => none
  | some bi =>
    if bi.Cond.isEmpty then none
    else if some dst ≠ bi.TBB then some (TII.ReverseBranchCondition bi.Cond)
    else some bi.Cond

/-- Body of the loop over the defining edges of `K[i]` in `insertPredDefinitions`
for the edge `(src, dst)`; `first` tells whether the edge is `K[i].begin()`, and
`entry` is `MF.front()`. -/
def defineEdge (TII : TargetHooks) (entry : Option MBB) (needsInit : BitVector) (i : Nat)
    (first : Bool) (src dst : MBB) (st : PredDefState) : Option PredDefState :=
  match edgeCond TII src dst with
  | none => none
  | some Cond =>
    match Cond with
    | c0 :: c1 :: _ =>
      let preg_cmp := st.nextVReg
      let st1 : PredDefState := { st with nextVReg := st.nextVReg + 1 }
      -- on the first real definition: initialize the SSA updater, check for initialization
      let st2 : PredDefState := if first then { st1 with avail := [] } else st1
      if first && needsInit.test i then
        match entry with
        | none => none
        | some front =>
          let preg_f := st2.nextVReg
          let instrs1 := upd st2.instrs front
            (insertInstrAt (st2.instrs front) 0
              { opcode := Opcode.PCLR, operands := [MachineOperand.reg preg_f] ++ defaultPred })
          let NewMI : MachineInstr :=
            { opcode := Opcode.PCMOV2
              operands := [MachineOperand.reg preg_cmp] ++ defaultPred ++
                [MachineOperand.reg preg_f, c0, c1] }
          some { st2 with
            nextVReg := st2.nextVReg + 1
            instrs := upd instrs1 src
              (insertInstrAt (instrs1 src) (firstTerminatorIdx (instrs1 src)) NewMI)
            avail := st2.avail ++ [(src, preg_cmp)] }
      else
        let NewMI : MachineInstr :=
          { opcode := Opcode.PMOV
            operands := [MachineOperand.reg preg_cmp] ++ defaultPred ++ [c0, c1] }
        some { st2 with
          instrs := upd st2.instrs src
            (insertInstrAt (st2.instrs src) (firstTerminatorIdx (st2.instrs src)) NewMI)
          avail := st2.avail ++ [(src, preg_cmp)] }
    | _ => none

/-- The loop over the defining edges of `K[i]` in `insertPredDefinitions`. -/
def defineEdges (TII : TargetHooks) (entry : Option MBB) (needsInit : BitVector) (i : Nat) :
    Bool → List (MBB × MBB) → PredDefState → Option PredDefState
  | _, [], st => some st
  | first, (src, dst) :: rest, st =>
    match defineEdge TII entry needsInit i first src dst st with
    | none => none
    | some st' => defineEdges TII entry needsInit i false rest st'

/-- The loop of `insertPredDefinitions` that records the use register of every
block using predicate `i`: the answer of the SSA updater, whose query leaves
the instructions, the register counter and the available values as the updater
has changed them. -/
def recordUses (TII : TargetHooks) (R : R_t) (i : Nat) : List MBB → PredDefState → PredDefState
  | [], st => st
  | b :: bs, st =>
    if mapGet R b ≠ i then recordUses TII R i bs st
    else
      let q := TII.GetValueAtEndOfBlock st.avail b st.instrs st.nextVReg
      recordUses TII R i bs
        { instrs := q.instrs
          nextVReg := q.nextVReg
          avail := q.avail
          pred_use_vregs := mapAssign st.pred_use_vregs b q.value }

/-- The loop of `insertPredDefinitions` over the predicates `i, i+1, ...`. -/
def insertPredLoop (TII : TargetHooks) (MF : MachineFunction) (R : R_t)
    (needsInit : BitVector) : K_t → Nat → PredDefState → Option PredDefState
  | [], _, st => some st
  | k :: ks, i, st =>
    if k.card = 0 then insertPredLoop TII MF R needsInit ks (i + 1) st
    else
      match defineEdges TII MF.front needsInit i true k.iter st with
      | none => none
      | some st' =>
        insertPredLoop TII MF R needsInit ks (i + 1) (recordUses TII R i MF.blocks st')

/-- The function `PatmosSPPredicate::insertPredDefinitions`. The state holds
the instructions of the function and the register counter on entry;
`pred_use_vregs` is passed by reference and returned in the state. -/
def insertPredDefinitions (TII : TargetHooks) (MF : MachineFunction) (K : K_t) (R : R_t)
    (needsInit : BitVector) (st : PredDefState) : Option PredDefState :=
  insertPredLoop TII MF R needsInit K 0 st

/-- Block `X` is the source of a defining edge of predicate `i`: `K[i]` holds an
edge that leaves `X`. -/
def definesPred (K : K_t) (i : Nat) (X : MBB) : Prop :=
  ∃ k, K[i]? = some k ∧ ∃ e ∈ k, e.1 = X

/-- Fuel that suffices for the worklist iteration of `computeUpwardsExposedUses`
on the function `MF` with `Ksize` predicates. -/
def ueuFuelBound (MF : MachineFunction) (Ksize : Nat) : Nat :=
  MF.blocks.toFinset.card +
    (MF.blocks.toFinset.sum (fun b => (MF.preds b).length)) *
      (MF.blocks.toFinset.card * Ksize) + 1

/-! ## The scenario CFGs -/

/-- Every path from `b` to a block without successors passes through `a`,
checked on the paths of at most `fuel` edges (post-dominance on a loop-free
CFG, as in the glossary). -/
def postDominatesBy (MF : MachineFunction) : Nat → MBB → MBB → Bool
  | 0, a, b => decide (a = b)
  | f + 1, a, b =>
    decide (a = b) || (!(MF.succs b).isEmpty && (MF.succs b).all (postDominatesBy MF f a))

/-- The legacy analyses up to the decomposition: `computeControlDependence` on
an empty map, then `decomposeControlDependence` on empty `K` and `R`. -/
def legacyDecomposition (MF : MachineFunction) (PDT : PostDomTree) (fuel : Nat) :
    Option (K_t × R_t) :=
  (computeControlDependence MF PDT fuel (fun _ => ∅)).map
    (fun CD => decomposeControlDependence MF CD [] [])

/-- The legacy analyses up to the initialization set, as `doConvertFunction`
chains them. -/
def legacyInitSet (MF : MachineFunction) (PDT : PostDomTree) (fuel : Nat) : Option BitVector :=
  (legacyDecomposition MF PDT fuel).bind
    (fun KR => computeUpwardsExposedUses MF KR.1 KR.2 fuel (fuel * fuel))

/-- Scenario S1, the diamond: entry = 0, A = 1, B = 2, join = 3, exit = 4. -/
def diamondMF : MachineFunction :=
  { blocks := [0, 1, 2, 3, 4]
    succs := fun b =>
      if b = 0 then [1, 2] else if b = 1 then [3] else if b = 2 then [3]
      else if b = 3 then [4] else []
    preds := fun b =>
      if b = 1 then [0] else if b = 2 then [0] else if b = 3 then [1, 2]
      else if b = 4 then [3] else [] }

/-- Post-dominator tree of the diamond. -/
def diamondPDT : PostDomTree :=
  { roots := [4]
    idom := fun b => if b = 0 ∨ b = 1 ∨ b = 2 then some 3 else if b = 3 then some 4 else none }

/-- Scenario S2, the triangle: entry = 0, A = 1, join = 2, exit = 3. -/
def triangleMF : MachineFunction :=
  { blocks := [0, 1, 2, 3]
    succs := fun b =>
      if b = 0 then [1, 2] else if b = 1 then [2] else if b = 2 then [3] else []
    preds := fun b =>
      if b = 1 then [0] else if b = 2 then [0, 1] else if b = 3 then [2] else [] }

/-- Post-dominator tree of the triangle. -/
def trianglePDT : PostDomTree :=
  { roots := [3]
    idom := fun b => if b = 0 ∨ b = 1 then some 2 else if b = 2 then some 3 else none }

/-- Scenario S3, the skewed diamond with early exit: entry = 0, A = 1, B = 2,
join = 3, exit = 4, with the extra edge from A to exit. -/
def skewedMF : MachineFunction :=
  { blocks := [0, 1, 2, 3, 4]
    succs := fun b =>
      if b = 0 then [1, 2] else if b = 1 then [3, 4] else if b = 2 then [3]
      else if b = 3 then [4] else []
    preds := fun b =>
      if b = 1 then [0] else if b = 2 then [0] else if b = 3 then [1, 2]
      else if b = 4 then [1, 3] else [] }

/-- Post-dominator tree of the skewed diamond. -/
def skewedPDT : PostDomTree :=
  { roots := [4]
    idom := fun b => if b = 0 ∨ b = 1 ∨ b = 3 then some 4 else if b = 2 then some 3 else none }

/-- Instructions of the diamond: every block holds one ordinary instruction;
the entry ends in a conditional branch on register 100 and a jump. -/
def diamondInstrs : MBB → List MachineInstr := fun b =>
  if b = 0 then
    [{ opcode := Opcode.other 1, operands := [], isPredicable := true },
     { opcode := Opcode.other 2, isTerminator := true,
       operands := [MachineOperand.reg 100, MachineOperand.imm 0] },
     { opcode := Opcode.other 3, operands := [], isTerminator := true }]
  else [{ opcode := Opcode.other 1, operands := [], isPredicable := true }]

/-- Host hooks for the diamond: the entry branches to A when register 100 is
true; reversal flips the flag operand; the SSA query returns the value last
made available and inserts no phi. -/
def diamondHooks : TargetHooks :=
  { AnalyzeBranch := fun b =>
      if b = 0 then
        some { TBB := some 1, FBB := some 2,
               Cond := [MachineOperand.reg 100, MachineOperand.imm 0] }
      else some { TBB := none, FBB := none, Cond := [] }
    ReverseBranchCondition := fun c =>
      match c with
      | [r, MachineOperand.imm v] => [r, MachineOperand.imm (1 - v)]
      | c => c
    GetValueAtEndOfBlock := fun avail _ instrs n =>
      { value := (avail.getLast?.map (fun x => x.2)).getD 0
        instrs := instrs
        nextVReg := n
        avail := avail } }

/-- The state after `insertPredDefinitions` on the diamond, run as
`doConvertFunction` chains it after the analyses. -/
def diamondDefined : Option PredDefState :=
  (legacyDecomposition diamondMF diamondPDT 5).bind (fun KR =>
    (computeUpwardsExposedUses diamondMF KR.1 KR.2 5 25).bind (fun needsInit =>
      insertPredDefinitions diamondHooks diamondMF KR.1 KR.2 needsInit
        { instrs := diamondInstrs, nextVReg := 1000 }))

/-- The list `K` of the diamond. -/
def diamondK : K_t := [∅, {(0, 1)}, {(0, 2)}]

/-- The map `R` of the diamond. -/
def diamondR : R_t := [(0, 0), (1, 1), (2, 2), (3, 0), (4, 0)]

/-- The state in which `insertPredDefinitions` starts on the diamond. -/
def diamondStart : PredDefState := { instrs := diamondInstrs, nextVReg := 1000 }

/-- The state in which `insertPredDefinitions` ends on the diamond, for the
initialization set that holds predicate 0. -/
def diamondEnd : PredDefState :=
  (insertPredDefinitions diamondHooks diamondMF diamondK diamondR
    { size := 3, bits := {0} } diamondStart).getD diamondStart

/-- The root scope of the diamond of S1, holding every block of the function. -/
def diamondScope : SPScope := diamondMF.blocks.foldl addMBB (SPScope.root 0 true)

/-- The root scope of the diamond after `computePredInfos`. -/
def diamondAnalysed : Option SPScope := computePredInfos diamondMF 10 diamondScope

/-- The FCFG built by `buildfcfg` for the root scope of the diamond. -/
def diamondFCFG : FCFG := ((buildfcfg diamondMF diamondScope).map (fun s => s.FCFG)).getD {}

/-- The nodes of the FCFG of the diamond. -/
def diamondNodes : Finset Node :=
  {Node.nentry, Node.nexit, Node.blk 0, Node.blk 1, Node.blk 2, Node.blk 3, Node.blk 4}

/-- A ranking of the nodes of the FCFG of the diamond that decreases along
every edge. -/
def diamondRank : Node → Nat
  | Node.nentry => 6
  | Node.nexit => 0
  | Node.blk b => 5 - b

/-- Scenario S4, the straight chain: entry = 0, A = 1, B = 2, C = 3, exit = 4. -/
def chainMF : MachineFunction :=
  { blocks := [0, 1, 2, 3, 4]
    succs := fun b => if b < 4 then [b + 1] else []
    preds := fun b => if 0 < b ∧ b ≤ 4 then [b - 1] else [] }

/-- Post-dominator tree of the chain. -/
def chainPDT : PostDomTree :=
  { roots := [4]
    idom := fun b => if b < 4 then some (b + 1) else none }

/-- The map `R` of the chain: every block uses predicate 0. -/
def chainR : R_t := [(0, 0), (1, 0), (2, 0), (3, 0), (4, 0)]

/-- A function with two exits: the entry 0 branches to the blocks 1 and 2, which
both leave the function. -/
def twoExitMF : MachineFunction :=
  { blocks := [0, 1, 2]
    succs := fun b => if b = 0 then [1, 2] else []
    preds := fun b => if b = 1 ∨ b = 2 then [0] else [] }

/-- Post-dominator tree of the function with two exits: it has two roots, and
the entry hangs below neither. -/
def twoExitPDT : PostDomTree :=
  { roots := [1, 2]
    idom := fun _ => none }

/-! ## The constructor of a loop scope -/

/-- Modelled from the spec: a `MachineLoop` of LLVM as the constructor of a loop
scope reads it through `getHeader`, `getLoopLatches` and `getExitEdges`;
`parentLoop` is `getParentLoop`, the position of the enclosing loop in the list
of the loops of the function, `none` for an outermost loop. -/
structure MachineLoop where
  header : MBB
  latches : List MBB := []
  exitEdges : List Edge := []
  parentLoop : Option Nat := none

/-- The scopes allocated so far: a `SPScope*` is a position in this list. A
`HeaderMap` holds pointers to the child scopes; the model keeps, for each
pointer, the scope it points to, and reads it again after every store to the
heap (`syncHeaderMaps`), so that a scope is always seen in the `HeaderMap` of
its parent as it is in its own cell. -/
abbrev ScopeHeap := List SPScope

/-- The scope `S` with the scopes `hm` behind the pointers of its `HeaderMap`. -/
def SPScope.withHeaderMap (S : SPScope) (hm : List (MBB × SPScope)) : SPScope :=
  { S with HeaderMap := hm }

/-- The heap with every `HeaderMap` read again through its pointers. The entry
for the header `h` in the `HeaderMap` of a scope points to the scope that was
constructed last with the header `h` and with that scope as parent. Children
are allocated after their parents, so the cells are brought up to date from the
last one backwards: a store to a scope is seen through the `HeaderMap` of all
its ancestors, as it is through the pointers of the code. -/
def syncHeaderMaps : ScopeHeap → ScopeHeap
  | [] => []
  | S :: rest =>
    S.withHeaderMap
      (S.HeaderMap.map (fun e =>
        (e.1, ((syncHeaderMaps rest).reverse.find?
          (fun T => decide (T.getHeader = some e.1 ∧ T.Parent = S.getHeader))).getD e.2))) ::
      syncHeaderMaps rest

/-- The value of the conversion of an integer to the 32-bit type `int`: the
number congruent to `x` modulo 2^32 in the range from -2^31 to 2^31 - 1. -/
def wrapInt32 (x : Int) : Int := (x + 2147483648) % 4294967296 - 2147483648

/-- The scan of the header for loop-bound information at the end of the
loop-scope constructor. The first `PSEUDO_LOOPBOUND` ends the scan and sets the
bound to `getOperand(1).getImm() + 1`; `none` when that operand is missing or is
no immediate. The immediate is a 64-bit integer and the member `LoopBound` an
`int` of 32 bits: the assignment keeps the sum modulo 2^32, and so does a sum
that leaves the 64 bits. -/
def scanLoopBound : List MachineInstr → Int → Option Int
  | [], LoopBound => some LoopBound
  | MI :: rest, LoopBound =>
    if MI.opcode = Opcode.PSEUDO_LOOPBOUND then
      match MI.operands[1]? with
      | some (MachineOperand.imm v) => some (wrapInt32 (v + 1))
      | _ => none
    else scanLoopBound rest LoopBound

/-- The assignment `HeaderMap[header] = child`. -/
def headerMapAssign : List (MBB × SPScope) → MBB → SPScope → List (MBB × SPScope)
  | [], h, c => [(h, c)]
  | (k, v) :: rest, h, c =>
    if h = k then (k, c) :: rest else (k, v) :: headerMapAssign rest h c

/-- The members of the new scope at the end of the constructor
`SPScope(parent, loop)`, for the parent `P` and the bound `lb` found by the scan
of the header. -/
def SPScope.loopMembers (P : SPScope) (loop : MachineLoop) (lb : Int) : SPScope :=
  { Blocks := [loop.header]
    HeaderMap := []
    Parent := P.getHeader
    ExitEdges := loop.exitEdges
    Latches := loop.latches
    RootTopLevel := false
    LoopBound := lb
    Depth := P.Depth + 1
    FCFG := FCFG.init loop.header }

/-- The parent `P` after the constructor `SPScope(parent, loop)` has entered the
pointer to the new scope `child` into `HeaderMap` and has called
`Parent->addMBB(header)`. -/
def SPScope.adopt (P : SPScope) (header : MBB) (child : SPScope) : SPScope :=
  addMBB { P with HeaderMap := headerMapAssign P.HeaderMap header child } header

/-- The constructor `SPScope(parent, loop)` of a loop scope. `instrs` gives the
instructions of a block. The result is the heap with the parent updated and the
new scope appended, and the pointer to the new scope; `none` when the assertion
on `parent` fails. `Subscopes` lists the children of `HeaderMap` in the order of
their creation and is not kept apart. -/
def SPScope.loop (heap : ScopeHeap) (parent : Option Nat) (loop : MachineLoop)
    (instrs : MBB → List MachineInstr) : Option (ScopeHeap × Nat) :=
  match parent with
  | none => none
  | some pi =>
    match heap[pi]? with
    | none => none
    | some P =>
      match scanLoopBound (instrs loop.header) (-1) with
      | none => none
      | some lb =>
        let child := SPScope.loopMembers P loop lb
        some (syncHeaderMaps (heap.set pi (P.adopt loop.header child) ++ [child]), heap.length)

/-- A header block with a loop-bound pseudo-op of maximum `v`. -/
def boundedHeader (v : Int) : List MachineInstr :=
  [{ opcode := Opcode.other 0, operands := [] },
   { opcode := Opcode.PSEUDO_LOOPBOUND, operands := [MachineOperand.imm 0, MachineOperand.imm v] },
   { opcode := Opcode.PSEUDO_LOOPBOUND, operands := [MachineOperand.imm 0, MachineOperand.imm 99] }]

/-- A loop with header 1 and latch 2, left by the edge from 1 to 3. -/
def exLoop : MachineLoop :=
  { header := 1, latches := [2], exitEdges := [(some 1, some 3)] }

/-- A function with a loop of the blocks 1 and 2 whose header 1 branches three
ways: into the loop body 2, and out of the loop to 3 and to 4. -/
def exitSwitchMF : MachineFunction :=
  { blocks := [0, 1, 2, 3, 4]
    succs := fun b => if b = 0 then [1] else if b = 1 then [2, 3, 4] else if b = 2 then [1] else []
    preds := fun b =>
      if b = 1 then [0, 2] else if b = 2 then [1] else if b = 3 ∨ b = 4 then [1] else [] }

/-- The scope of the loop of `exitSwitchMF` after `buildfcfg`, `toposort` and
`postdominators`. -/
def exitSwitchPrepared : SPScope :=
  let s0 : SPScope :=
    { Blocks := [1, 2]
      HeaderMap := []
      Parent := some 0
      ExitEdges := [(some 1, some 3), (some 1, some 4)]
      Latches := [2]
      Depth := 1
      FCFG := FCFG.init 1 }
  (((buildfcfg exitSwitchMF s0).bind (toposort 10)).bind
    (fun s2 => (postdominators 10 s2.FCFG).map (fun g => { s2 with FCFG := g }))).getD s0

/-- The root scope of the diamond after `buildfcfg`. -/
def diamondBuilt : SPScope := (buildfcfg diamondMF diamondScope).getD diamondScope

/-! ## The scope tree -/

/-- Modelled from the spec: the pointer to the scope that the tree builder keeps
for a loop of the forest, and for no loop. The root scope is allocated first
and the scopes of the loops follow in the order of the forest. -/
def scopeOf : Option Nat → Nat
  | none => 0
  | some i => i + 1

/-- Modelled from the spec: the walk of the tree builder over the loop forest,
top-down (a loop comes after its parent in the list): each loop gets a scope
below the scope of its parent, or below the root when it is outermost. -/
def createSubscopes (instrs : MBB → List MachineInstr) :
    List MachineLoop → ScopeHeap → Option ScopeHeap
  | [], heap => some heap
  | L :: rest, heap =>
    match SPScope.loop heap (some (scopeOf L.parentLoop)) L instrs with
    | none => none
    | some (heap', _) => createSubscopes instrs rest heap'

/-- Modelled from the spec: the post-assignment of the blocks by the tree
builder: each block of the function is added, with `addMBB`, to the scope of
its innermost loop `loopOf b`, or to the root scope when it is in no loop. -/
def assignBlocks (loopOf : MBB → Option Nat) : List MBB → ScopeHeap → Option ScopeHeap
  | [], heap => some heap
  | b :: bs, heap =>
    match heap[scopeOf (loopOf b)]? with
    | none => none
    | some S =>
      assignBlocks loopOf bs (syncHeaderMaps (heap.set (scopeOf (loopOf b)) (addMBB S b)))

/-- Modelled from the spec: the scope tree builder (its code is not among the
sources). A root scope is allocated with the entry block as header, the loops
of the forest `LF` get their scopes by the constructor of a loop scope, and the
blocks are assigned. The result is the heap of the scopes, the root first. -/
def createSPScopeTree (MF : MachineFunction) (isRootTopLevel : Bool) (LF : List MachineLoop)
    (loopOf : MBB → Option Nat) (instrs : MBB → List MachineInstr) : Option ScopeHeap :=
  match MF.front with
  | none => none
  | some entry =>
    (createSubscopes instrs LF [SPScope.root entry isRootTopLevel]).bind
      (assignBlocks loopOf MF.blocks)

/-- The `Blocks` lists of the scopes of a heap. -/
def blocksOf (heap : ScopeHeap) : List (List MBB) := heap.map (fun S => S.Blocks)

/-- Number of occurrences of block `b` in the `Blocks` lists of all scopes. -/
def occurrences (heap : ScopeHeap) (b : MBB) : Nat :=
  ((blocksOf heap).map (fun bl => bl.count b)).sum

/-- The effect of `addMBB(x)` on the list at position `i` of a list of `Blocks`
lists. -/
def pushAt : List (List MBB) → Nat → MBB → List (List MBB)
  | [], _, _ => []
  | bl :: rest, 0, x => (if bl.head? ≠ some x then bl ++ [x] else bl) :: rest
  | bl :: rest, i + 1, x => bl :: pushAt rest i x

/-- A function with one loop: the entry 0, the loop of the header 1 and the
latch 2, and the block 3 after the loop. -/
def loopMF : MachineFunction :=
  { blocks := [0, 1, 2, 3]
    succs := fun b => if b = 0 then [1] else if b = 1 then [2, 3] else if b = 2 then [1] else []
    preds := fun b => if b = 1 then [0, 2] else if b = 2 then [1] else if b = 3 then [1] else [] }

/-- The innermost loop of the blocks of `loopMF`. -/
def loopMFLoopOf (b : MBB) : Option Nat := if b = 1 ∨ b = 2 then some 0 else none

/-- The FCFG of the root scope of the diamond after `postdominators`. -/
def diamondPostdom : FCFG := (postdominators 16 diamondFCFG).getD diamondFCFG

/-! ## `applyPredicates` -/

/-- Modelled from the spec: `getFirstNonPHI`, the position after the PHI
instructions that start the block. -/
def firstNonPHIIdx (instrs : List MachineInstr) : Nat :=
  (instrs.takeWhile (fun MI => MI.isPHI)).length

/-- The pseudo instruction `PSEUDO_SP_PRED_BBEND` with the register `preg` as its
input operand. -/
def predBBEnd (preg : Nat) : MachineInstr :=
  { opcode := Opcode.PSEUDO_SP_PRED_BBEND, operands := [MachineOperand.reg preg] }

/-- Body of the loop of `applyPredicates` over the instructions of a block, for
the instruction `MI` and the register `preg` of the block. `isPredicated` is the
host hook `TII->isPredicated`, which is not among the sources. A failed
assertion is `none`. -/
def predicateInstr (isPredicated : MachineInstr → Bool) (preg : Nat) (MI : MachineInstr) :
    Option MachineInstr :=
  if MI.isBundle then none
  else if MI.isReturn then some MI
  else if MI.isPredicable then
    if !isPredicated MI then
      match MI.predIdx with
      | none => none
      | some i =>
        match MI.operands[i]?, MI.operands[i + 1]? with
        | some (MachineOperand.reg _), some (MachineOperand.imm _) =>
          some { MI with
            operands := (MI.operands.set i (MachineOperand.reg preg)).set (i + 1)
              (MachineOperand.imm 0) }
        | _, _ => none
    else some MI
  else some MI

/-- The loop of `applyPredicates` over the instructions from `MI` to `ME`. -/
def predicateRange (isPredicated : MachineInstr → Bool) (preg : Nat) :
    List MachineInstr → Option (List MachineInstr)
  | [] => some []
  | MI :: rest =>
    match predicateInstr isPredicated preg MI with
    | none => none
    | some MI' => (predicateRange isPredicated preg rest).map (fun l => MI' :: l)

/-- Body of the loop of `applyPredicates` over the blocks, for a block with the
use register `preg`: the instructions from the first non-PHI to the first
terminator are predicated, and the pseudo instruction is inserted before the
first terminator. Walking from `getFirstNonPHI` to a `getFirstTerminator` that
lies before it never ends at `ME`: `none`. Debug locations are not modelled. -/
def applyPredicatesBlock (isPredicated : MachineInstr → Bool) (preg : Nat)
    (instrs : List MachineInstr) : Option (List MachineInstr) :=
  if firstNonPHIIdx instrs ≤ firstTerminatorIdx instrs then
    (predicateRange isPredicated preg
        ((instrs.take (firstTerminatorIdx instrs)).drop (firstNonPHIIdx instrs))).map
      (fun mid => instrs.take (firstNonPHIIdx instrs) ++ mid ++ [predBBEnd preg] ++
        instrs.drop (firstTerminatorIdx instrs))
  else none

/-- The loop of `applyPredicates` over the blocks of the function. -/
def applyPredicatesLoop (isPredicated : MachineInstr → Bool) (pred_use_vregs : R_t) :
    List MBB → (MBB → List MachineInstr) → Option (MBB → List MachineInstr)
  | [], instrs => some instrs
  | b :: bs, instrs =>
    match mapFind pred_use_vregs b with
    | none => applyPredicatesLoop isPredicated pred_use_vregs bs instrs
    | some preg =>
      match applyPredicatesBlock isPredicated preg (instrs b) with
      | none => none
      | some l => applyPredicatesLoop isPredicated pred_use_vregs bs (upd instrs b l)

/-- The function `PatmosSPPredicate::applyPredicates`, on the instructions of
the blocks of the function. -/
def applyPredicates (isPredicated : MachineInstr → Bool) (MF : MachineFunction)
    (pred_use_vregs : R_t) (instrs : MBB → List MachineInstr) :
    Option (MBB → List MachineInstr) :=
  applyPredicatesLoop isPredicated pred_use_vregs MF.blocks instrs

/-- The instruction has a predicate operand pair: `findFirstPredOperandIdx`
finds a register operand followed by an immediate operand. -/
def hasPredOperands (MI : MachineInstr) : Bool :=
  match MI.predIdx with
  | none => false
  | some i =>
    match MI.operands[i]?, MI.operands[i + 1]? with
    | some (MachineOperand.reg _), some (MachineOperand.imm _) => true
    | _, _ => false

/-- The instruction is one that `applyPredicates` predicates: predicable, not
already predicated and no return. -/
def toPredicate (isPredicated : MachineInstr → Bool) (MI : MachineInstr) : Bool :=
  !MI.isReturn && MI.isPredicable && !isPredicated MI

/-- The block meets what `applyPredicates` asserts of it: the PHI instructions
that start it end before its terminators begin, there is no bundle between
them, and every instruction to predicate has a predicate operand pair. -/
abbrev BlockOK (isPredicated : MachineInstr → Bool) (instrs : List MachineInstr) : Prop :=
  firstNonPHIIdx instrs ≤ firstTerminatorIdx instrs ∧
  ∀ MI ∈ (instrs.take (firstTerminatorIdx instrs)).drop (firstNonPHIIdx instrs),
    MI.isBundle = false ∧ (toPredicate isPredicated MI = true → hasPredOperands MI = true)

/-- The instruction `MI` with its predicate operand pair set to `(preg, 0)`. -/
def withPredicate (preg : Nat) (MI : MachineInstr) : MachineInstr :=
  match MI.predIdx with
  | none => MI
  | some i =>
    { MI with
      operands := (MI.operands.set i (MachineOperand.reg preg)).set (i + 1)
        (MachineOperand.imm 0) }

/-- A block is well formed when its PHI instructions come first and its
terminators last: no PHI from the first non-PHI on, no terminator before the
first terminator. -/
def WellFormedBlock (instrs : List MachineInstr) : Prop :=
  (∀ MI ∈ instrs.drop (firstNonPHIIdx instrs), MI.isPHI = false) ∧
  ∀ MI ∈ instrs.take (firstTerminatorIdx instrs), MI.isTerminator = false

/-- Instructions of an example function of the blocks 0 and 1. Block 0 holds a
PHI, a predicable instruction guarded by the always-true pair, an instruction
that is already predicated by register 7, an instruction that is not
predicable, and two terminators; block 1 holds one predicable instruction. -/
def predExInstrs : MBB → List MachineInstr := fun b =>
  if b = 0 then
    [{ opcode := Opcode.other 0, operands := [MachineOperand.reg 50], isPHI := true },
     { opcode := Opcode.other 1, isPredicable := true, predIdx := some 1,
       operands := [MachineOperand.reg 51, MachineOperand.reg 0, MachineOperand.imm 0] },
     { opcode := Opcode.other 2, isPredicable := true, predIdx := some 1,
       operands := [MachineOperand.reg 52, MachineOperand.reg 7, MachineOperand.imm 0] },
     { opcode := Opcode.other 3, operands := [MachineOperand.reg 53] },
     { opcode := Opcode.other 4, isTerminator := true, isPredicable := true, predIdx := some 0,
       operands := [MachineOperand.reg 100, MachineOperand.imm 0] },
     { opcode := Opcode.other 5, operands := [], isTerminator := true }]
  else
    [{ opcode := Opcode.other 1, isPredicable := true, predIdx := some 1,
       operands := [MachineOperand.reg 54, MachineOperand.reg 0, MachineOperand.imm 0] }]

/-- The hook `isPredicated` of the example: the guard is a register other than
register 0, or the flag is set. -/
def predExIsPredicated (MI : MachineInstr) : Bool :=
  match MI.predIdx with
  | none => false
  | some i =>
    match MI.operands[i]?, MI.operands[i + 1]? with
    | some (MachineOperand.reg r), some (MachineOperand.imm v) => decide (r ≠ 0) || decide (v ≠ 0)
    | _, _ => false

/-- The example function: block 0 branches to block 1 or leaves. -/
def predExMF : MachineFunction :=
  { blocks := [0, 1]
    succs := fun b => if b = 0 then [1] else []
    preds := fun b => if b = 1 then [0] else [] }

/-! ## The skewed diamond with the entry at the higher address -/

/-- The skewed diamond of S3 with the blocks at other addresses: the function
starts with the entry block 1, which branches to A = 0 and B = 2; A branches to
the join 3 and to the exit 4. -/
def swappedMF : MachineFunction :=
  { blocks := [1, 0, 2, 3, 4]
    succs := fun b =>
      if b = 1 then [0, 2] else if b = 0 then [3, 4] else if b = 2 then [3]
      else if b = 3 then [4] else []
    preds := fun b =>
      if b = 0 then [1] else if b = 2 then [1] else if b = 3 then [0, 2]
      else if b = 4 then [0, 3] else [] }

/-- Post-dominator tree of `swappedMF`. -/
def swappedPDT : PostDomTree :=
  { roots := [4]
    idom := fun b => if b = 0 ∨ b = 1 ∨ b = 3 then some 4 else if b = 2 then some 3 else none }

/-- Instructions of `swappedMF`: the two branching blocks end in a conditional
branch and a jump. -/
def swappedInstrs : MBB → List MachineInstr := fun b =>
  if b = 0 ∨ b = 1 then
    [{ opcode := Opcode.other 1, operands := [] },
     { opcode := Opcode.other 2, isTerminator := true,
       operands := [MachineOperand.reg (100 + b), MachineOperand.imm 0] },
     { opcode := Opcode.other 3, operands := [], isTerminator := true }]
  else [{ opcode := Opcode.other 1, operands := [] }]

/-- Host hooks for `swappedMF`: the entry 1 branches to A when register 101 is
true, A branches to the join when register 100 is true. -/
def swappedHooks : TargetHooks :=
  { AnalyzeBranch := fun b =>
      if b = 1 then
        some { TBB := some 0, FBB := some 2,
               Cond := [MachineOperand.reg 101, MachineOperand.imm 0] }
      else if b = 0 then
        some { TBB := some 3, FBB := some 4,
               Cond := [MachineOperand.reg 100, MachineOperand.imm 0] }
      else some { TBB := none, FBB := none, Cond := [] }
    ReverseBranchCondition := fun c =>
      match c with
      | [r, MachineOperand.imm v] => [r, MachineOperand.imm (1 - v)]
      | c => c
    GetValueAtEndOfBlock := fun avail _ instrs n =>
      { value := (avail.getLast?.map (fun x => x.2)).getD 0
        instrs := instrs
        nextVReg := n
        avail := avail } }

/-- The list `K` of `swappedMF`. -/
def swappedK : K_t := [∅, {(1, 0)}, {(1, 2)}, {(1, 2), (0, 3)}]

/-- The map `R` of `swappedMF`. -/
def swappedR : R_t := [(0, 1), (1, 0), (2, 2), (3, 3), (4, 0)]

/-- The state in which `insertPredDefinitions` starts on `swappedMF`. -/
def swappedStart : PredDefState := { instrs := swappedInstrs, nextVReg := 1000 }

/-- The state in which `insertPredDefinitions` ends on `swappedMF`, for the
initialization set that holds predicate 0. -/
def swappedEnd : PredDefState :=
  (insertPredDefinitions swappedHooks swappedMF swappedK swappedR
    { size := 4, bits := {0} } swappedStart).getD swappedStart

/-- The state after `insertPredDefinitions` on `swappedMF`, run as
`doConvertFunction` chains it after the analyses. -/
def swappedDefined : Option PredDefState :=
  (legacyDecomposition swappedMF swappedPDT 5).bind (fun KR =>
    (computeUpwardsExposedUses swappedMF KR.1 KR.2 5 25).bind (fun needsInit =>
      insertPredDefinitions swappedHooks swappedMF KR.1 KR.2 needsInit swappedStart))

/-! ## The classification of the edges by `buildfcfg` -/

/-- Modelled from the spec: the classification of an outgoing edge of a block
of the scope `s`, as the FCFG node the edge is routed to and the tag of the
connection. An edge to a block of the scope other than the header leads to the
node of that block and is tagged with the edge; an edge to the header leads to
`nexit` untagged; every other edge leads to `nexit` tagged with the edge. -/
def specEdgeClass (s : SPScope) (e : Edge) : Node × Option Edge :=
  match e.2 with
  | some succ =>
    if succ ∈ s.Blocks ∧ some succ ≠ s.getHeader then (Node.blk succ, some e)
    else if some succ = s.getHeader then (Node.nexit, none)
    else (Node.nexit, some e)
  | none => if s.getHeader = none then (Node.nexit, none) else (Node.nexit, some e)

/-- Modelled from the spec: the tag found for the connection to the node `y`
after the edges `es` were classified in this order. The tag of a connection is
looked up by its end node (`edgeto`), so it is the tag of the last tagged edge
routed to `y`. -/
def specTag (s : SPScope) (es : List Edge) (y : Node) : Option Edge :=
  es.reverse.find? (fun e => decide ((specEdgeClass s e).1 = y) && (specEdgeClass s e).2.isSome)

/-- The nodes of the FCFG of the scope `s`: `nentry`, `nexit` and the nodes of
the blocks of the scope. -/
def fcfgNodes (s : SPScope) : Finset Node :=
  insert Node.nentry (insert Node.nexit (s.Blocks.toFinset.image Node.blk))

/-- A step in the host CFG of the scope `s`, its nested scopes collapsed to
their headers, that does not enter the header of `s`: `c` is a block of the
scope other than the header, and an outgoing edge of the block `b` of the scope
(an exit edge of the nested scope of which `b` is the header, or else a
successor edge of `b`) leads to `c`. -/
abbrev scopeStep (MF : MachineFunction) (s : SPScope) (b c : MBB) : Prop :=
  b ∈ s.Blocks ∧ c ∈ s.Blocks ∧ some c ≠ s.getHeader ∧
    ∃ e ∈ outedgesOf MF s b, e.2 = some c

/-- The graph after the block `b` was handled by `buildfcfg`. -/
def afterBlock (MF : MachineFunction) (s : SPScope) (b : MBB) (g : FCFG) : FCFG :=
  if outedgesOf MF s b = [] then
    (buildfcfgEdges s.Blocks.tail s.getHeader (Node.blk b) (outedgesOf MF s b) g).toexit
      (Node.blk b)
  else buildfcfgEdges s.Blocks.tail s.getHeader (Node.blk b) (outedgesOf MF s b) g


/-- The scope of the loop of `exitSwitchMF` as constructed: header 1, body 2,
left by the edges from 1 to 3 and from 1 to 4. -/
def exitSwitchLoop : SPScope :=
  { Blocks := [1, 2]
    HeaderMap := []
    Parent := some 0
    ExitEdges := [(some 1, some 3), (some 1, some 4)]
    Latches := [2]
    Depth := 1
    FCFG := FCFG.init 1 }

/-- The root scope of `exitSwitchMF` as constructed: the entry 0, the header 1
of the nested loop, and the blocks 3 and 4 after the loop. -/
def exitSwitchRoot : SPScope :=
  { Blocks := [0, 1, 3, 4]
    HeaderMap := [(1, exitSwitchLoop)]
    RootTopLevel := true
    FCFG := FCFG.init 0 }

/-- The scope of the loop of `exitSwitchMF` after `buildfcfg`. -/
def exitSwitchLoopBuilt : SPScope :=
  (buildfcfg exitSwitchMF exitSwitchLoop).getD exitSwitchLoop

/-- The root scope of `exitSwitchMF` after `buildfcfg`. -/
def exitSwitchRootBuilt : SPScope :=
  (buildfcfg exitSwitchMF exitSwitchRoot).getD exitSwitchRoot

/-! ## A loop nest left by two edges of the inner loop -/

/-- A function with two nested loops: the outer loop of the header 1 holds the
inner loop of the header 2, with the blocks 3 and 4, and the latch 5. The inner
loop is left by the edge from 2 to 5, which stays in the outer loop, and by the
edges from 3 to 6 and from 4 to 7, which leave both loops. Every branch is
two-way. -/
def nestMF : MachineFunction :=
  { blocks := [0, 1, 2, 3, 4, 5, 6, 7, 8]
    succs := fun b =>
      if b = 0 then [1] else if b = 1 then [2] else if b = 2 then [3, 5]
      else if b = 3 then [4, 6] else if b = 4 then [2, 7] else if b = 5 then [1]
      else if b = 6 ∨ b = 7 then [8] else []
    preds := fun b =>
      if b = 1 then [0, 5] else if b = 2 then [1, 4] else if b = 3 then [2]
      else if b = 4 then [3] else if b = 5 then [2] else if b = 6 then [3]
      else if b = 7 then [4] else if b = 8 then [6, 7] else [] }

/-- The function `nestMF` with a third way out of block 3, to the block 9. -/
def nestSwitchMF : MachineFunction :=
  { blocks := [0, 1, 2, 3, 4, 5, 6, 7, 8, 9]
    succs := fun b =>
      if b = 0 then [1] else if b = 1 then [2] else if b = 2 then [3, 5]
      else if b = 3 then [4, 6, 9] else if b = 4 then [2, 7] else if b = 5 then [1]
      else if b = 6 ∨ b = 7 ∨ b = 9 then [8] else []
    preds := fun b =>
      if b = 1 then [0, 5] else if b = 2 then [1, 4] else if b = 3 then [2]
      else if b = 4 then [3] else if b = 5 then [2] else if b = 6 then [3]
      else if b = 7 then [4] else if b = 8 then [6, 7, 9] else if b = 9 then [3] else [] }

/-- The scope of the inner loop of `nestSwitchMF` as constructed. -/
def nestSwitchInner : SPScope :=
  { Blocks := [2, 3, 4]
    HeaderMap := []
    Parent := some 1
    ExitEdges := [(some 2, some 5), (some 3, some 6), (some 3, some 9), (some 4, some 7)]
    Latches := [4]
    Depth := 2
    FCFG := FCFG.init 2 }

/-- The scope of the outer loop of `nestSwitchMF` as constructed. -/
def nestSwitchOuter : SPScope :=
  { Blocks := [1, 2, 5]
    HeaderMap := [(2, nestSwitchInner)]
    Parent := some 0
    ExitEdges := [(some 3, some 6), (some 3, some 9), (some 4, some 7)]
    Latches := [5]
    Depth := 1
    FCFG := FCFG.init 1 }

/-- The scope of the outer loop of `nestSwitchMF` as `computePredInfos` hands
it to `ctrldep`. -/
def nestSwitchOuterPrepared : SPScope :=
  (((buildfcfg nestSwitchMF nestSwitchOuter).bind (toposort 10)).bind
    (fun s2 => (postdominators 10 s2.FCFG).map (fun g => { s2 with FCFG := g }))).getD
      nestSwitchOuter

/-- The scope of the inner loop of `nestSwitchMF` as `computePredInfos` hands
it to `ctrldep`. -/
def nestSwitchInnerPrepared : SPScope :=
  (((buildfcfg nestSwitchMF nestSwitchInner).bind (toposort 10)).bind
    (fun s2 => (postdominators 10 s2.FCFG).map (fun g => { s2 with FCFG := g }))).getD
      nestSwitchInner

/-- The scope of the loop of `loopMF` as constructed: header 1, latch 2, left
by the edge from 1 to 3. -/
def loopMFScope : SPScope :=
  { Blocks := [1, 2]
    HeaderMap := []
    Parent := some 0
    ExitEdges := [(some 1, some 3)]
    Latches := [2]
    Depth := 1
    FCFG := FCFG.init 1 }

/-- The FCFG built by `buildfcfg` for the loop of `loopMF`. -/
def loopMFFCFG : FCFG := ((buildfcfg loopMF loopMFScope).map (fun s => s.FCFG)).getD {}

/-- The FCFG of the loop of `loopMF` after `postdominators`. -/
def loopMFPostdom : FCFG := (postdominators 16 loopMFFCFG).getD loopMFFCFG

/-- The maps `gen` and `kill` filled by the first two loops of
`computeUpwardsExposedUses`. -/
def ueuGenKill (K : K_t) (R : R_t) : Option GenKill :=
  match fillGen K.length R {} with
  | none => none
  | some gk0 =>
    match fillKill K 0 gk0.kill with
    | none => none
    | some kill => some { gen := gk0.gen, kill := kill }

/-- The variables of `computeUpwardsExposedUses` when its worklist iteration has
ended: the depth-first post-order that seeded the worklist, and the final state
with the map `bvIn`. -/
def ueuSolve (MF : MachineFunction) (K : K_t) (R : R_t) (fuelPO fuelWL : Nat) :
    Option (List MBB × UEUState) :=
  match ueuGenKill K R with
  | none => none
  | some gk =>
    match MF.front with
    | none => none
    | some entry =>
      match postOrder MF.succs fuelPO entry with
      | none => none
      | some po =>
        let st0 := ueuInit gk po
        match st0.worklist with
        | [] => none
        | first :: rest =>
          let st1 : UEUState :=
            { worklist := rest, bvIn := upd st0.bvIn first (st0.bvIn first).setAll }
          (ueuLoop MF K.length gk fuelWL st1).map (fun st => (po, st))

/-! ## `doConvertFunction` -/

/-- Modelled from the spec: the sequence `LI.begin() .. LI.end()` of a
`MachineLoopInfo`, which lists the top-level loops of the loop forest `LF`. -/
def topLevelLoops (LF : List MachineLoop) : List MachineLoop :=
  LF.filter (fun L => L.parentLoop.isNone)

/-- The function `PatmosSPPredicate::doConvertFunction`, on the instructions
`instrs` of the function and the register counter `nextVReg`; the result is the
instructions of the function after `applyPredicates`. The first step counts the
top-level loops and asserts that there is none. -/
def doConvertFunction (TII : TargetHooks) (isPredicated : MachineInstr → Bool)
    (MF : MachineFunction) (PDT : PostDomTree) (LF : List MachineLoop)
    (fuel fuelPO fuelWL : Nat) (instrs : MBB → List MachineInstr) (nextVReg : Nat) :
    Option (MBB → List MachineInstr) :=
  let loopcnt := (topLevelLoops LF).foldl (fun n _ => n + 1) 0
  if loopcnt ≠ 0 then none
  else
    match computeControlDependence MF PDT fuel (fun _ => ∅) with
    | none => none
    | some CD =>
      let KR := decomposeControlDependence MF CD [] []
      match computeUpwardsExposedUses MF KR.1 KR.2 fuelPO fuelWL with
      | none => none
      | some pred_initialize =>
        match insertPredDefinitions TII MF KR.1 KR.2 pred_initialize
            { instrs := instrs, nextVReg := nextVReg } with
        | none => none
        | some st => applyPredicates isPredicated MF st.pred_use_vregs st.instrs

/-- The function `runOnMachineFunction`: a function that is not selected
(`isToConvert` false) is left as it is and `changed` is false. -/
def runOnMachineFunction (TII : TargetHooks) (isPredicated : MachineInstr → Bool)
    ( isToConvert : Bool) (MF : MachineFunction) (PDT : PostDomTree) (LF : List MachineLoop)
    (fuel fuelPO fuelWL : Nat) (instrs : MBB → List MachineInstr) (nextVReg : Nat) :
    Option ((MBB → List MachineInstr) × Bool) :=
  if isToConvert then
    (doConvertFunction TII isPredicated MF PDT LF fuel fuelPO fuelWL instrs nextVReg).map
      (fun r => (r, true))
  else some (instrs, false)

/-- The loop forest of `loopMF` with a loop nested in the loop `exLoop`. -/
def nestedForest : List MachineLoop :=
  [exLoop, { header := 2, latches := [2], parentLoop := some 0 }]

/-- Instructions of the diamond with predicate operands: every block holds one
predicable instruction guarded by the always-true pair; the entry ends in a
conditional branch on register 100 and a jump. -/
def diamondPredInstrs : MBB → List MachineInstr := fun b =>
  if b = 0 then
    [{ opcode := Opcode.other 1, isPredicable := true, predIdx := some 1,
       operands := [MachineOperand.reg 50, MachineOperand.reg 0, MachineOperand.imm 0] },
     { opcode := Opcode.other 2, isTerminator := true,
       operands := [MachineOperand.reg 100, MachineOperand.imm 0] },
     { opcode := Opcode.other 3, operands := [], isTerminator := true }]
  else
    [{ opcode := Opcode.other 1, isPredicable := true, predIdx := some 1,
       operands := [MachineOperand.reg 51, MachineOperand.reg 0, MachineOperand.imm 0] }]

/-! ## A function with an unreachable block -/

/-- A function whose block 2 is not reachable from the entry 0: block 0
continues to the returning block 1, and so does block 2. -/
def deadMF : MachineFunction :=
  { blocks := [0, 1, 2]
    succs := fun b => if b = 0 ∨ b = 2 then [1] else []
    preds := fun b => if b = 1 then [0, 2] else [] }

/-- The root scope of `deadMF`, holding every block of the function. -/
def deadScope : SPScope := deadMF.blocks.foldl addMBB (SPScope.root 0 true)

/-- The root scope of `deadMF` after `buildfcfg`. -/
def deadBuilt : SPScope := (buildfcfg deadMF deadScope).getD deadScope

/-! ## The nodes visited by `_walkpdt` -/

/-- The body of the loop of `_walkpdt` for the node `t`:
`CD[t->MBB].insert(std::make_pair(edgesrc, e))`. -/
def chargeNode (edgesrc : Node) (e : Edge) (CD : MBBPtr → Option CDEntry) (t : Node) :
    MBBPtr → Option CDEntry :=
  upd CD t.MBB (some (insert (edgesrc, e) ((CD t.MBB).getD ∅)))

/-- The nodes for which the loop `while (t != a->ipdom)` of `_walkpdt` runs its
body, in the order of the walk from `t`. -/
def walkpdtNodes (g : FCFG) (a : Node) : Nat → Option Node → Option (List Node)
  | 0, _ => none
  | f + 1, t =>
    if t = (g.nodes a).ipdom then some []
    else
      match t with
      | none => none
      | some tn => (walkpdtNodes g a f (g.nodes tn).ipdom).map (fun ns => tn :: ns)

/-! ## The legacy and the scoped decomposition -/

/-- The scoped form of an element of a legacy control-dependence set: the edge
`(src, dst)` together with the node of its source. -/
def scopedElem (e : MBB × MBB) : CDElem := (Node.blk e.1, (some e.1, some e.2))

/-- The scoped form of a legacy control-dependence set. -/
def scopedEntry (t : CD_map_entry_t) : CDEntry := t.image scopedElem

/-- A scope over the blocks of the function `MF` whose control-dependence map
is the scoped form of the legacy map `CD`, with an entry for every block. -/
def scopedOf (MF : MachineFunction) (CD : CD_map_t) : SPScope :=
  { Blocks := MF.blocks
    HeaderMap := []
    CD := fun b =>
      match b with
      | some b => some (scopedEntry (CD b))
      | none => none }

/-- The legacy control-dependence map of the diamond. -/
def diamondCD : CD_map_t := fun b =>
  if b = 1 then {(0, 1)} else if b = 2 then {(0, 2)} else ∅

/-! ## The maps `gen` and `kill` of the diamond -/

/-- The maps `gen` and `kill` filled by `computeUpwardsExposedUses` for the
decomposition of the diamond. -/
def diamondGenKill : GenKill := (ueuGenKill diamondK diamondR).getD {}

/-- The initialization set computed for the diamond from its legacy
control-dependence map. -/
def diamondInit : BitVector :=
  (computeUpwardsExposedUses diamondMF (decomposeControlDependence diamondMF diamondCD [] []).1
    (decomposeControlDependence diamondMF diamondCD [] []).2 5 25).getD {}

/-! ## `SPScope::walk` -/

/-- A call of the `SPScopeWalker` interface: `enterSubscope(S)`, `nextMBB(MBB)`
or `exitSubscope(S)`. -/
inductive WalkEvent where
  | enterSubscope (S : SPScope) : WalkEvent
  | nextMBB (b : MBB) : WalkEvent
  | exitSubscope (S : SPScope) : WalkEvent

/-- The loop of `walk` over the blocks of a scope with the header map
`HeaderMap`; `walkSub` is the recursive call for a nested scope. The result is
the sequence of the calls made on the walker. -/
def walkBlocks (walkSub : SPScope → Option (List WalkEvent))
    (HeaderMap : List (MBB × SPScope)) : List MBB → Option (List WalkEvent)
  | [] => some []
  | b :: bs =>
    match headerMapFind HeaderMap b with
    | some sub =>
      match walkSub sub with
      | none => none
      | some tr => (walkBlocks walkSub HeaderMap bs).map (fun rest => tr ++ rest)
    | none => (walkBlocks walkSub HeaderMap bs).map (fun rest => WalkEvent.nextMBB b :: rest)

/-- The function `SPScope::walk`, as the sequence of the calls it makes on the
walker; the fuel bounds the depth of the recursion into nested scopes. -/
def walk : Nat → SPScope → Option (List WalkEvent)
  | 0, _ => none
  | f + 1, S =>
    (walkBlocks (walk f) S.HeaderMap S.Blocks).map
      (fun body => WalkEvent.enterSubscope S :: body ++ [WalkEvent.exitSubscope S])

/-- Properly nested sequences of walker calls: a sequence of blocks and of
nested sequences enclosed in `enterSubscope(S)` and `exitSubscope(S)` of the
same scope. -/
inductive Nested : List WalkEvent → Prop where
  | nil : Nested []
  | block (b : MBB) (rest : List WalkEvent) : Nested rest → Nested (WalkEvent.nextMBB b :: rest)
  | scope (S : SPScope) (body rest : List WalkEvent) : Nested body → Nested rest →
      Nested (WalkEvent.enterSubscope S :: body ++ WalkEvent.exitSubscope S :: rest)


/-- The calls made for the block `b` of a scope with the header map
`HeaderMap`: `nextMBB(b)` when `b` is not the header of a nested scope, and
else the whole sequence of the calls of `walk` on the nested scope, which is
enclosed in the `enterSubscope` and `exitSubscope` of that scope. -/
def walkSegment (HeaderMap : List (MBB × SPScope)) (b : MBB) (seg : List WalkEvent) : Prop :=
  (headerMapFind HeaderMap b = none ∧ seg = [WalkEvent.nextMBB b]) ∨
    ∃ sub segBody, headerMapFind HeaderMap b = some sub ∧
      (∀ fuel, sizeOf sub ≤ fuel → walk fuel sub = some seg) ∧
      seg = WalkEvent.enterSubscope sub :: segBody ++ [WalkEvent.exitSubscope sub] ∧
      Nested segBody

/-- A call of the walker by its kind (0 for `enterSubscope`, 1 for `nextMBB`,
2 for `exitSubscope`) and the header of its scope or its block. -/
def WalkEvent.code : WalkEvent → Nat × MBBPtr
  | WalkEvent.enterSubscope S => (0, S.getHeader)
  | WalkEvent.nextMBB b => (1, some b)
  | WalkEvent.exitSubscope S => (2, S.getHeader)

/-- The loop forest of `nestMF`: the outer loop and, below it, the inner loop. -/
def nestLoops : List MachineLoop :=
  [{ header := 1, latches := [5], exitEdges := [(some 3, some 6), (some 4, some 7)] },
   { header := 2, latches := [4],
     exitEdges := [(some 2, some 5), (some 3, some 6), (some 4, some 7)],
     parentLoop := some 0 }]

/-- The innermost loop of the blocks of `nestMF`. -/
def nestLoopOf (b : MBB) : Option Nat :=
  if b = 1 ∨ b = 5 then some 0 else if b = 2 ∨ b = 3 ∨ b = 4 then some 1 else none

/-! ## The instructions emitted by `insertPredDefinitions` -/

/-- Host hooks for `swappedMF` with an SSA updater that materializes a phi: a
query for the join 3, when two values are available, inserts at the start of
block 3 a phi that defines a new register and answers with that register; every
other query is answered with the value last made available. -/
def swappedPhiHooks : TargetHooks :=
  { AnalyzeBranch := swappedHooks.AnalyzeBranch
    ReverseBranchCondition := swappedHooks.ReverseBranchCondition
    GetValueAtEndOfBlock := fun avail b instrs n =>
      if b = 3 ∧ 2 ≤ avail.length then
        { value := n
          instrs := upd instrs 3
            (insertInstrAt (instrs 3) 0
              { opcode := Opcode.other 0, isPHI := true,
                operands := MachineOperand.reg n :: avail.map (fun x => MachineOperand.reg x.2) })
          nextVReg := n + 1
          avail := avail ++ [(3, n)] }
      else
        { value := (avail.getLast?.map (fun x => x.2)).getD 0
          instrs := instrs
          nextVReg := n
          avail := avail } }

/-- An initialization set for `swappedMF` that holds the predicates 0 and 3. -/
def swappedNeedsInit : BitVector := { size := 4, bits := {0, 3} }

/-- An initialization set for the diamond that holds the predicates 0 and 1. -/
def diamondNeedsInit : BitVector := { size := 3, bits := {0, 1} }

/-! ## Example scopes -/

/-- A scope of three blocks in which blocks 0 and 2 depend on the pseudo-edge
into the header and block 1 on the edge from block 0 to block 1. -/
def exScope : SPScope :=
  { Blocks := [0, 1, 2]
    HeaderMap := []
    CD := fun b =>
      if b = some 0 ∨ b = some 2 then some {(Node.nentry, (none, some 0))}
      else if b = some 1 then some {(Node.blk 0, (some 0, some 1))}
      else none }

/-- The scope `exScope` after `decompose`. -/
def exScopeDecomposed : SPScope := (decompose exScope).getD exScope

/-! ## Invariants used in the proofs -/

/-- Invariant of the traversal state. In an acyclic graph the finishing order
is topological: the children of a finished node are finished before it. -/
structure DfsInv {α : Type} [DecidableEq α] (U : Finset α) (next : α → List α)
    (st : DfsState α) : Prop where
  nodup : st.order.Nodup
  sub : ∀ x ∈ st.order, x ∈ st.visited
  closed : ∀ x ∈ st.order, ∀ y ∈ next x, y ∈ st.visited
  inU : ∀ x ∈ st.order, x ∈ U
  topo : AcyclicOn U next → ∀ x ∈ st.order, ∀ y ∈ next x,
    y ∈ st.order ∧ st.order.indexOf y < st.order.indexOf x

/-- In an acyclic graph every node that is visited but not finished reaches
the node `n`. -/
def GrayReach {α : Type} [DecidableEq α] (U : Finset α) (next : α → List α)
    (st : DfsState α) (n : α) : Prop :=
  AcyclicOn U next → ∀ g ∈ st.visited, g ∉ st.order → Reach next g n

/-- How a traversal from `root` extends the state. -/
structure DfsExt {α : Type} [DecidableEq α] (next : α → List α) (root : α)
    (st st' : DfsState α) : Prop where
  ext : ∃ L, st'.order = st.order ++ L ∧ ∀ x ∈ L, x ∉ st.visited ∧ Reach next root x
  mono : ∀ x ∈ st.visited, x ∈ st'.visited
  gray : ∀ g, (g ∈ st'.visited ∧ g ∉ st'.order) ↔ (g ∈ st.visited ∧ g ∉ st.order)

/-- Invariant of the first loop of `decompose` after the blocks `done`. -/
structure DecompInv (CD : MBBPtr → Option CDEntry) (done : List MBB) (acc : DecompAcc) :
    Prop where
  p_eq : acc.p = acc.K.length
  nodup : acc.K.Nodup
  used : ∀ b ∈ done, ∃ q t, CD (some b) = some t ∧ acc.mbbPreds b = some [q] ∧
    acc.K[q]? = some t
  unused : ∀ b, b ∉ done → acc.mbbPreds b = none
  fromBlocks : ∀ t ∈ acc.K, ∃ b ∈ done, CD (some b) = some t

/-- Invariant of `postdominators` on the set `P` of nodes whose immediate
post-dominator has been set: the numbers lie between 0 and the number `M` of
`nexit`, and the immediate post-dominator of every node but `nexit` is a node of
`P` with a larger number. -/
structure PInv (g : FCFG) (M : Int) (P : Node → Prop) : Prop where
  exitP : P Node.nexit
  exitNum : (g.nodes Node.nexit).num = M
  exitIpdom : (g.nodes Node.nexit).ipdom = some Node.nexit
  numLe : ∀ x, P x → 0 ≤ (g.nodes x).num ∧ (g.nodes x).num ≤ M
  up : ∀ x, P x → x ≠ Node.nexit →
    ∃ m, P m ∧ (g.nodes x).ipdom = some m ∧ (g.nodes x).num < (g.nodes m).num

/-- Invariant of the worklist iteration. `S` is the set of blocks seeded into
the worklist and `e` the first of them, whose set is never recomputed. -/
structure UEUInv (MF : MachineFunction) (Ksize : Nat) (gk : GenKill) (U : Finset MBB)
    (S : MBB → Prop) (e : MBB) (st : UEUState) : Prop where
  wlU : ∀ b ∈ st.worklist, b ∈ U
  wlNe : e ∉ st.worklist
  unstable : ∀ b, S b → b ≠ e →
    (st.bvIn b).bits ≠ (ueuOut MF Ksize gk st.bvIn b).bits → b ∈ st.worklist
  mono : ∀ b, b ≠ e → (st.bvIn b).bits ⊆ (ueuOut MF Ksize gk st.bvIn b).bits
  bound : ∀ b, (st.bvIn b).bits ⊆ Finset.range Ksize
  exitAll : (st.bvIn e).bits = Finset.range Ksize

/-- The number of bits that can still be set in the `In` sets of `U`. -/
def ueuSlack (Ksize : Nat) (U : Finset MBB) (bvIn : MBB → BitVector) : Nat :=
  U.sum (fun b => Ksize - (bvIn b).bits.card)

/-- Invariant of the tree builder on the `Blocks` lists `B` of the scopes, after
the scopes of the loops `done` were created and the blocks `extra` were pushed
by the assignment of the blocks. -/
structure TreeInv (entry : MBB) (done : List MachineLoop) (extra : List MBB)
    (B : List (List MBB)) : Prop where
  len : B.length = done.length + 1
  root : ∃ bl, B[0]? = some bl ∧ bl.head? = some entry
  sub : ∀ (i : Nat) (L : MachineLoop), done[i]? = some L →
    ∃ bl, B[i + 1]? = some bl ∧ bl.head? = some L.header
  occ : ∀ b : MBB, (B.map (fun bl => bl.count b)).sum =
    (if b = entry then 1 else 0) + 2 * (done.map (fun L => L.header)).count b + extra.count b
  parentHas : ∀ (i : Nat) (L : MachineLoop), done[i]? = some L →
    ∃ bl, B[scopeOf L.parentLoop]? = some bl ∧ L.header ∈ bl

/-- A path from a node to `nexit` along `next`, as the list of its nodes. -/
inductive PathToExit (next : Node → List Node) : Node → List Node → Prop where
  | exit : PathToExit next Node.nexit [Node.nexit]
  | step (a b : Node) (p : List Node) :
      b ∈ next a → PathToExit next b p → PathToExit next a (a :: p)

/-- Post-dominance: `t` lies on every path from `x` to `nexit`. -/
def PDom (next : Node → List Node) (t x : Node) : Prop :=
  ∀ p, PathToExit next x p → t ∈ p

/-- The node `t` is on the chain `x`, `x->ipdom`, `x->ipdom->ipdom`, ... of
immediate post-dominators that starts at `x`. -/
def IChain (g : FCFG) (x t : Node) : Prop :=
  Relation.ReflTransGen (fun a b => (g.nodes a).ipdom = some b) x t

/-- Invariant of the worklist iteration that gives its termination: the
worklist holds blocks of `U` other than `e`, the first block of the post-order;
the set of every other block is below the value the iteration would assign to
it, so an assignment can only add bits; and no set has a bit beyond the `Ksize`
predicates. -/
structure UEUTermInv (MF : MachineFunction) (Ksize : Nat) (gk : GenKill) (U : Finset MBB)
    (e : MBB) (st : UEUState) : Prop where
  wlU : ∀ b ∈ st.worklist, b ∈ U
  wlNe : e ∉ st.worklist
  mono : ∀ b, b ≠ e → (st.bvIn b).bits ⊆ (ueuOut MF Ksize gk st.bvIn b).bits
  bound : ∀ b, (st.bvIn b).bits ⊆ Finset.range Ksize

/-! # Theorems -/

/-! ## Depth-first traversal -/

theorem unvisited_mono {α : Type} [DecidableEq α] (U : Finset α) (st st' : DfsState α)
    (h : ∀ x ∈ st.visited, x ∈ st'.visited) : unvisited U st' ≤ unvisited U st := by
  unfold unvisited
  apply Finset.card_le_card
  intro x hx
  simp only [Finset.mem_filter] at hx ⊢
  exact ⟨hx.1, fun hv => hx.2 (h x hv)⟩

theorem unvisited_visit {α : Type} [DecidableEq α] (U : Finset α) (st : DfsState α) (n : α)
    (hn : n ∈ U) (hv : n ∉ st.visited) :
    unvisited U { st with visited := n :: st.visited } + 1 ≤ unvisited U st := by
  unfold unvisited
  have hsub : (U.filter (fun x => x ∉ n :: st.visited)) ⊂ (U.filter (fun x => x ∉ st.visited)) := by
    rw [Finset.ssubset_iff_of_subset]
    · refine ⟨n, by simp [hn, hv], by simp⟩
    · intro x hx
      simp only [Finset.mem_filter, List.mem_cons, not_or] at hx ⊢
      exact ⟨hx.1, hx.2.2⟩
  exact Finset.card_lt_card hsub

theorem dfsChildren_spec {α : Type} [DecidableEq α] (next : α → List α) (U : Finset α)
    (visit : α → DfsState α → Option (DfsState α)) (f : Nat)
    (hvisit : ∀ c st, c ∈ U → c ∉ st.visited → DfsInv U next st → GrayReach U next st c →
      unvisited U st ≤ f →
      ∃ st', visit c st = some st' ∧ DfsInv U next st' ∧ DfsExt next c st st' ∧ c ∈ st'.order)
    (n : α) (cs : List α) (st : DfsState α) (hcs : ∀ c ∈ cs, c ∈ next n ∧ c ∈ U)
    (hinv : DfsInv U next st) (hgray : GrayReach U next st n) (hm : unvisited U st ≤ f) :
    ∃ st', dfsChildren visit cs st = some st' ∧ DfsInv U next st' ∧ DfsExt next n st st' ∧
      ∀ c ∈ cs, c ∈ st'.visited := by
  induction cs generalizing st with
  | nil =>
    exact ⟨st, rfl, hinv, ⟨⟨[], by simp, by simp⟩, fun _ h => h, fun _ => Iff.rfl⟩, by simp⟩
  | cons c cs ih =>
    have hc := hcs c (by simp)
    have hcs' : ∀ c' ∈ cs, c' ∈ next n ∧ c' ∈ U := fun c' h => hcs c' (by simp [h])
    unfold dfsChildren
    by_cases hv : c ∈ st.visited
    · simp only [hv, if_true]
      obtain ⟨st', h1, h2, h3, h4⟩ := ih st hcs' hinv hgray hm
      refine ⟨st', h1, h2, h3, ?_⟩
      intro c' hc'
      rcases List.mem_cons.1 hc' with e | e
      · subst e
        exact h3.mono _ hv
      · exact h4 c' e
    · simp only [hv, if_false]
      have hg : GrayReach U next st c := fun hac g h1 h2 =>
        Relation.ReflTransGen.tail (hgray hac g h1 h2) hc.1
      obtain ⟨st1, e1, inv1, ext1, mem1⟩ := hvisit c st hc.2 hv hinv hg hm
      rw [e1]
      simp only []
      have hgray1 : GrayReach U next st1 n := fun hac g h1 h2 =>
        hgray hac g ((ext1.gray g).1 ⟨h1, h2⟩).1 ((ext1.gray g).1 ⟨h1, h2⟩).2
      have hm1 : unvisited U st1 ≤ f := le_trans (unvisited_mono U st st1 ext1.mono) hm
      obtain ⟨st', h1, h2, h3, h4⟩ := ih st1 hcs' inv1 hgray1 hm1
      refine ⟨st', h1, h2, ?_, ?_⟩
      · obtain ⟨L1, hL1, hL1'⟩ := ext1.ext
        obtain ⟨L2, hL2, hL2'⟩ := h3.ext
        refine ⟨⟨L1 ++ L2, by rw [hL2, hL1, List.append_assoc], ?_⟩, ?_, ?_⟩
        · intro x hx
          rcases List.mem_append.1 hx with hx | hx
          · exact ⟨(hL1' x hx).1,
              Relation.ReflTransGen.head (show c ∈ next n from hc.1) (hL1' x hx).2⟩
          · exact ⟨fun hxv => (hL2' x hx).1 (ext1.mono x hxv), (hL2' x hx).2⟩
        · exact fun x hx => h3.mono x (ext1.mono x hx)
        · exact fun g => (h3.gray g).trans (ext1.gray g)
      · intro c' hc'
        rcases List.mem_cons.1 hc' with e | e
        · subst e
          exact h3.mono _ (inv1.sub _ mem1)
        · exact h4 c' e

theorem dfsVisit_spec {α : Type} [DecidableEq α] (next : α → List α) (U : Finset α)
    (hU : ∀ x ∈ U, ∀ y ∈ next x, y ∈ U) (f : Nat) :
    ∀ n st, n ∈ U → n ∉ st.visited → DfsInv U next st → GrayReach U next st n →
      unvisited U st ≤ f →
      ∃ st', dfsVisit next f n st = some st' ∧ DfsInv U next st' ∧ DfsExt next n st st' ∧
        n ∈ st'.order ∧ ∃ pre, st'.order = pre ++ [n] := by
  induction f with
  | zero =>
    intro n st hn hv _ _ hm
    have := unvisited_visit U st n hn hv
    omega
  | succ f ih =>
    intro n st hn hv hinv hgray hm
    have hno : n ∉ st.order := fun h => hv (hinv.sub n h)
    have hinv1 : DfsInv U next { st with visited := n :: st.visited } :=
      ⟨hinv.nodup, fun x hx => List.mem_cons_of_mem _ (hinv.sub x hx),
        fun x hx y hy => List.mem_cons_of_mem _ (hinv.closed x hx y hy), hinv.inU, hinv.topo⟩
    have hgray1 : GrayReach U next { st with visited := n :: st.visited } n := by
      intro hac g h1 h2
      rcases List.mem_cons.1 h1 with e | e
      · subst e
        exact Relation.ReflTransGen.refl
      · exact hgray hac g e h2
    have hm1 : unvisited U { st with visited := n :: st.visited } ≤ f := by
      have := unvisited_visit U st n hn hv
      omega
    obtain ⟨st2, e2, inv2, ext2, mem2⟩ :=
      dfsChildren_spec next U (dfsVisit next f) f
        (fun c st h1 h2 h3 h4 h5 => by
          obtain ⟨st', a1, a2, a3, a4, _⟩ := ih c st h1 h2 h3 h4 h5
          exact ⟨st', a1, a2, a3, a4⟩) n (next n)
        { st with visited := n :: st.visited } (fun c hc => ⟨hc, hU n hn c hc⟩) hinv1 hgray1 hm1
    have hn2 : n ∈ st2.visited ∧ n ∉ st2.order :=
      (ext2.gray n).2 ⟨List.mem_cons_self _ _, hno⟩
    unfold dfsVisit
    rw [e2]
    simp only []
    refine ⟨_, rfl, ⟨?_, ?_, ?_, ?_, ?_⟩, ⟨?_, ?_, ?_⟩, by simp, ⟨st2.order, rfl⟩⟩
    · exact List.Nodup.append inv2.nodup (List.nodup_singleton n) (by simpa using hn2.2)
    · intro x hx
      rcases List.mem_append.1 hx with hx | hx
      · exact inv2.sub x hx
      · have : x = n := by simpa using hx
        subst this
        exact hn2.1
    · intro x hx y hy
      rcases List.mem_append.1 hx with hx | hx
      · exact inv2.closed x hx y hy
      · have : x = n := by simpa using hx
        subst this
        exact mem2 y hy
    · intro x hx
      rcases List.mem_append.1 hx with hx | hx
      · exact inv2.inU x hx
      · have : x = n := by simpa using hx
        subst this
        exact hn
    · intro hac x hx y hy
      simp only []
      rcases List.mem_append.1 hx with hx | hx
      · obtain ⟨h1, h2⟩ := inv2.topo hac x hx y hy
        refine ⟨List.mem_append_left _ h1, ?_⟩
        rw [List.indexOf_append_of_mem h1, List.indexOf_append_of_mem hx]
        exact h2
      · have : x = n := by simpa using hx
        subst this
        have hy2 : y ∈ st2.order := by
          by_contra hyo
          have hg := (ext2.gray y).1 ⟨mem2 y hy, hyo⟩
          exact hac x hn y hy (hgray1 hac y hg.1 hg.2)
        refine ⟨List.mem_append_left _ hy2, ?_⟩
        rw [List.indexOf_append_of_mem hy2, List.indexOf_append_of_not_mem hn2.2]
        have := List.indexOf_lt_length.2 hy2
        simp
        omega
    · obtain ⟨L, hL, hL'⟩ := ext2.ext
      refine ⟨L ++ [n], by simp [hL], ?_⟩
      intro x hx
      rcases List.mem_append.1 hx with hx | hx
      · exact ⟨fun h => (hL' x hx).1 (List.mem_cons_of_mem _ h), (hL' x hx).2⟩
      · have : x = n := by simpa using hx
        subst this
        exact ⟨hv, Relation.ReflTransGen.refl⟩
    · exact fun x hx => ext2.mono x (List.mem_cons_of_mem _ hx)
    · intro g
      simp only [List.mem_append, List.mem_singleton, not_or]
      constructor
      · rintro ⟨h1, h2, h3⟩
        have := (ext2.gray g).1 ⟨h1, h2⟩
        rcases List.mem_cons.1 this.1 with e | e
        · exact absurd e h3
        · exact ⟨e, this.2⟩
      · rintro ⟨h1, h2⟩
        have := (ext2.gray g).2 ⟨List.mem_cons_of_mem _ h1, h2⟩
        exact ⟨this.1, this.2, fun e => hv (e ▸ h1)⟩


/-- A traversal from `root` on an empty state, with fuel for every node of the
closed node set `U`: it completes, and `order` lists without repetition exactly
the nodes reachable from `root`, ends with `root`, and in an acyclic graph lists
the children of a node before the node. -/
theorem dfsVisit_from_empty {α : Type} [DecidableEq α] (next : α → List α) (U : Finset α)
    (hU : ∀ x ∈ U, ∀ y ∈ next x, y ∈ U) (root : α) (hroot : root ∈ U) (f : Nat)
    (hf : U.card ≤ f) :
    ∃ st', dfsVisit next f root {} = some st' ∧ DfsInv U next st' ∧
      (∀ x, x ∈ st'.order ↔ Reach next root x) ∧ (∀ x, x ∈ st'.visited ↔ x ∈ st'.order) ∧
      ∃ pre, st'.order = pre ++ [root] := by
  have hinv0 : DfsInv U next ({} : DfsState α) :=
    ⟨List.nodup_nil, by simp, by simp, by simp, by simp⟩
  have hm : unvisited U ({} : DfsState α) ≤ f := by
    unfold unvisited
    exact le_trans (Finset.card_filter_le _ _) hf
  obtain ⟨st', h1, h2, h3, h4, h5⟩ :=
    dfsVisit_spec next U hU f root {} hroot (by simp) hinv0 (fun _ g hg => by simp at hg) hm
  have hvo : ∀ x, x ∈ st'.visited ↔ x ∈ st'.order := by
    intro x
    constructor
    · intro hx
      by_contra hno
      have := (h3.gray x).1 ⟨hx, hno⟩
      simp at this
    · exact h2.sub x
  refine ⟨st', h1, h2, ?_, hvo, h5⟩
  intro x
  constructor
  · intro hx
    obtain ⟨L, hL, hL'⟩ := h3.ext
    rw [hL] at hx
    simp only [List.nil_append] at hx
    exact (hL' x hx).2
  · intro hx
    induction hx with
    | refl => exact h4
    | tail _ hbc ih => exact (hvo _).1 (h2.closed _ ih _ hbc)
/-! ## The decomposition loop -/

theorem lookupK_some {σ : Type} [DecidableEq σ] (t : σ) (K : List σ) (i q : Nat)
    (h : lookupK t K i = some q) : ∃ j, q = i + j ∧ K[j]? = some t := by
  induction K generalizing i with
  | nil => simp [lookupK] at h
  | cons k ks ih =>
    unfold lookupK at h
    split at h
    · rename_i htk
      refine ⟨0, ?_, ?_⟩
      · simpa using (Option.some.inj h).symm
      · simp [htk]
    · obtain ⟨j, hj, hk⟩ := ih (i + 1) h
      exact ⟨j + 1, by omega, by simpa using hk⟩

theorem lookupK_none {σ : Type} [DecidableEq σ] (t : σ) (K : List σ) (i : Nat)
    (h : lookupK t K i = none) : t ∉ K := by
  induction K generalizing i with
  | nil => simp
  | cons k ks ih =>
    unfold lookupK at h
    split at h
    · simp at h
    · rename_i htk
      simp only [List.mem_cons, not_or]
      exact ⟨htk, ih (i + 1) h⟩

/-- Among equal candidates `lookupK` returns the first index. -/
theorem lookupK_first {σ : Type} [DecidableEq σ] (t : σ) (K : List σ) (i q : Nat)
    (h : lookupK t K i = some q) : ∀ j, i + j < q → K[j]? ≠ some t := by
  induction K generalizing i with
  | nil => simp [lookupK] at h
  | cons k ks ih =>
    unfold lookupK at h
    split at h
    · intro j hj
      have := Option.some.inj h
      omega
    · rename_i htk
      intro j hj
      cases j with
      | zero => simpa using fun h' => htk h'.symm
      | succ j =>
        simpa using ih (i + 1) h j (by omega)

theorem decompInv_init (CD : MBBPtr → Option CDEntry) : DecompInv CD [] {} where
  p_eq := rfl
  nodup := List.nodup_nil
  used := by simp
  unused := by simp
  fromBlocks := by simp

theorem decomposeStep_inv (CD : MBBPtr → Option CDEntry) (done : List MBB)
    (acc acc' : DecompAcc) (b : MBB) (hinv : DecompInv CD done acc)
    (h : decomposeStep CD acc b = some acc') : DecompInv CD (done ++ [b]) acc' := by
  unfold decomposeStep at h
  split at h
  · simp at h
  · rename_i t ht
    split at h
    · simp at h
    · rename_i hb
      have hbdone : b ∉ done := by
        intro hmem
        obtain ⟨q, t', _, hq, _⟩ := hinv.used b hmem
        rw [hq] at hb
        simp at hb
      split at h
      · rename_i q hq
        have hacc := Option.some.inj h
        subst hacc
        obtain ⟨j, hj, hk⟩ := lookupK_some t acc.K 0 q hq
        have hqj : q = j := by omega
        subst hqj
        refine ⟨hinv.p_eq, hinv.nodup, ?_, ?_, ?_⟩
        · intro b' hb'
          rcases List.mem_append.1 hb' with hb' | hb'
          · obtain ⟨q', t', h1, h2, h3⟩ := hinv.used b' hb'
            refine ⟨q', t', h1, ?_, h3⟩
            have : b' ≠ b := fun e => hbdone (e ▸ hb')
            simp [upd, this, h2]
          · have : b' = b := by simpa using hb'
            subst this
            exact ⟨q, t, ht, by simp [upd], hk⟩
        · intro b' hb'
          have h1 : b' ∉ done := fun e => hb' (List.mem_append_left _ e)
          have h2 : b' ≠ b := fun e => hb' (by simp [e])
          simp [upd, h2, hinv.unused b' h1]
        · intro t' ht'
          obtain ⟨b', hb', hcd⟩ := hinv.fromBlocks t' ht'
          exact ⟨b', List.mem_append_left _ hb', hcd⟩
      · rename_i hq
        have hacc := Option.some.inj h
        subst hacc
        have htK : t ∉ acc.K := lookupK_none t acc.K 0 hq
        refine ⟨?_, ?_, ?_, ?_, ?_⟩
        · simp [hinv.p_eq]
        · exact List.Nodup.append hinv.nodup (List.nodup_singleton t) (by simpa using htK)
        · intro b' hb'
          rcases List.mem_append.1 hb' with hb' | hb'
          · obtain ⟨q', t', h1, h2, h3⟩ := hinv.used b' hb'
            refine ⟨q', t', h1, ?_, ?_⟩
            · have : b' ≠ b := fun e => hbdone (e ▸ hb')
              simp [upd, this, h2]
            · have hlt : q' < acc.K.length := by
                by_contra hge
                rw [List.getElem?_eq_none (by omega)] at h3
                simp at h3
              simp only []
              rw [List.getElem?_append_left hlt]
              exact h3
          · have : b' = b := by simpa using hb'
            subst this
            refine ⟨acc.p, t, ht, by simp [upd], ?_⟩
            simp [hinv.p_eq]
        · intro b' hb'
          have h1 : b' ∉ done := fun e => hb' (List.mem_append_left _ e)
          have h2 : b' ≠ b := fun e => hb' (by simp [e])
          simp [upd, h2, hinv.unused b' h1]
        · intro t' ht'
          rcases List.mem_append.1 ht' with ht' | ht'
          · obtain ⟨b', hb', hcd⟩ := hinv.fromBlocks t' ht'
            exact ⟨b', List.mem_append_left _ hb', hcd⟩
          · have : t' = t := by simpa using ht'
            subst this
            exact ⟨b, by simp, ht⟩

theorem decomposeLoop_inv (CD : MBBPtr → Option CDEntry) (bs done : List MBB)
    (acc acc' : DecompAcc) (hinv : DecompInv CD done acc)
    (h : decomposeLoop CD bs acc = some acc') : DecompInv CD (done ++ bs) acc' := by
  induction bs generalizing done acc with
  | nil =>
    simp only [decomposeLoop, Option.some.injEq] at h
    subst h
    simpa using hinv
  | cons b bs ih =>
    unfold decomposeLoop at h
    split at h
    · simp at h
    · rename_i acc1 h1
      have := ih (done ++ [b]) acc1 (decomposeStep_inv CD done acc acc1 b hinv h1) h
      simpa using this

/-- What `decompose` leaves behind, in terms of the first loop. -/
theorem decompose_eq (s s' : SPScope) (h : decompose s = some s') :
    ∃ acc, decomposeLoop s.CD s.Blocks {} = some acc ∧ s'.PredCount = acc.K.length ∧
      s'.PredUse = acc.mbbPreds ∧ s'.Blocks = s.Blocks ∧ s'.CD = s.CD := by
  unfold decompose at h
  split at h
  · simp at h
  · rename_i acc hacc
    split at h
    · simp at h
    · have := Option.some.inj h
      subst this
      exact ⟨acc, hacc, rfl, rfl, rfl, rfl⟩

theorem decomposeLoop_succeeds (CD : MBBPtr → Option CDEntry) (bs : List MBB)
    (acc : DecompAcc) (hnd : bs.Nodup) (hcd : ∀ b ∈ bs, (CD (some b)).isSome)
    (hfresh : ∀ b ∈ bs, acc.mbbPreds b = none) : (decomposeLoop CD bs acc).isSome := by
  induction bs generalizing acc with
  | nil => simp [decomposeLoop]
  | cons b bs ih =>
    obtain ⟨t, ht⟩ := Option.isSome_iff_exists.1 (hcd b (by simp))
    have hb : acc.mbbPreds b = none := hfresh b (by simp)
    have hnd' := List.nodup_cons.1 hnd
    have hstep : ∃ acc1, decomposeStep CD acc b = some acc1 ∧
        ∀ b' ∈ bs, acc1.mbbPreds b' = none := by
      unfold decomposeStep
      rw [ht, hb]
      simp only []
      cases hq : lookupK t acc.K 0 with
      | some q =>
        refine ⟨_, rfl, ?_⟩
        intro b' hb'
        have hne : b' ≠ b := fun e => hnd'.1 (e ▸ hb')
        simp [upd, hne, hfresh b' (by simp [hb'])]
      | none =>
        refine ⟨_, rfl, ?_⟩
        intro b' hb'
        have hne : b' ≠ b := fun e => hnd'.1 (e ▸ hb')
        simp [upd, hne, hfresh b' (by simp [hb'])]
    obtain ⟨acc1, h1, h2⟩ := hstep
    unfold decomposeLoop
    rw [h1]
    exact ih acc1 hnd'.2 (fun b' hb' => hcd b' (by simp [hb'])) h2

/-! ## C1, C2, C4: predicates stand for the distinct control-dependence sets -/

/-- C1: after `SPScope::decompose`, two blocks of the `Blocks` list have the same
predicate id exactly when their control-dependence sets are equal as sets of
(node, edge) pairs. -/
theorem decompose_same_pred_iff_same_cd (s s' : SPScope) (h : decompose s = some s')
    (B1 B2 : MBB) (h1 : B1 ∈ s.Blocks) (h2 : B2 ∈ s.Blocks) :
    getPredUse s' B1 = getPredUse s' B2 ↔ s.CD (some B1) = s.CD (some B2) := by
  obtain ⟨acc, hloop, _, huse, _, _⟩ := decompose_eq s s' h
  have hinv := decomposeLoop_inv s.CD s.Blocks [] {} acc (decompInv_init s.CD) hloop
  simp only [List.nil_append] at hinv
  obtain ⟨q1, t1, hc1, hp1, hk1⟩ := hinv.used B1 h1
  obtain ⟨q2, t2, hc2, hp2, hk2⟩ := hinv.used B2 h2
  simp only [getPredUse, huse, hp1, hp2, hc1, hc2, Option.some.injEq, List.cons.injEq,
    and_true]
  constructor
  · intro hq
    subst hq
    rw [hk1] at hk2
    exact Option.some.inj hk2
  · intro ht
    subst ht
    have hl1 : q1 < acc.K.length := by
      by_contra hge
      rw [List.getElem?_eq_none (by omega)] at hk1
      simp at hk1
    have hl2 : q2 < acc.K.length := by
      by_contra hge
      rw [List.getElem?_eq_none (by omega)] at hk2
      simp at hk2
    rw [List.getElem?_eq_getElem hl1] at hk1
    rw [List.getElem?_eq_getElem hl2] at hk2
    exact (List.Nodup.getElem_inj_iff hinv.nodup).1
      ((Option.some.inj hk1).trans (Option.some.inj hk2).symm)

/-- Witness of C1 on `exScope`: blocks 0 and 2 share their set and their id. -/
theorem decompose_same_pred_iff_same_cd_witness :
    getPredUse exScopeDecomposed 0 = getPredUse exScopeDecomposed 2 ↔
      exScope.CD (some 0) = exScope.CD (some 2) :=
  decompose_same_pred_iff_same_cd exScope exScopeDecomposed rfl 0 2 (by decide) (by decide)

/-- C2: after `SPScope::decompose`, `PredCount` is the number of distinct
control-dependence sets among the blocks of `Blocks`, and the accumulator `K`
holds no set twice. -/
theorem decompose_predCount_distinct (s s' : SPScope) (h : decompose s = some s') :
    s'.PredCount = ((s.Blocks.filterMap (fun b => s.CD (some b))).toFinset).card ∧
      ∃ K, decomposeK s = some K ∧ K.Nodup ∧ s'.PredCount = K.length := by
  obtain ⟨acc, hloop, hcount, _, _, _⟩ := decompose_eq s s' h
  have hinv := decomposeLoop_inv s.CD s.Blocks [] {} acc (decompInv_init s.CD) hloop
  simp only [List.nil_append] at hinv
  refine ⟨?_, acc.K, by simp [decomposeK, hloop], hinv.nodup, hcount⟩
  rw [hcount, ← List.toFinset_card_of_nodup hinv.nodup]
  congr 1
  ext t
  simp only [List.mem_toFinset, List.mem_filterMap]
  constructor
  · intro ht
    obtain ⟨b, hb, hcd⟩ := hinv.fromBlocks t ht
    exact ⟨b, hb, hcd⟩
  · rintro ⟨b, hb, hcd⟩
    obtain ⟨q, t', hc, _, hk⟩ := hinv.used b hb
    rw [hcd] at hc
    have := Option.some.inj hc
    subst this
    exact List.getElem?_mem hk

/-- Witness of C2 on `exScope`, which has two distinct sets. -/
theorem decompose_predCount_distinct_witness :
    exScopeDecomposed.PredCount = 2 ∧
    exScopeDecomposed.PredCount =
      ((exScope.Blocks.filterMap (fun b => exScope.CD (some b))).toFinset).card :=
  ⟨rfl, (decompose_predCount_distinct exScope exScopeDecomposed rfl).1⟩

/-- C4: when `SPScope::decompose` runs on a duplicate-free `Blocks` list whose
blocks all have a control-dependence entry, its first loop completes, and in the
resulting scope `getPredUse` of every block is non-null, lists at least one
predicate id, and lists only ids below `PredCount`. -/
theorem decompose_predUse_covers (s s' : SPScope) (hnd : s.Blocks.Nodup)
    (hcd : ∀ b ∈ s.Blocks, (s.CD (some b)).isSome) (h : decompose s = some s') :
    (decomposeLoop s.CD s.Blocks {}).isSome ∧
    ∀ B ∈ s'.Blocks, ∃ l, getPredUse s' B = some l ∧ 1 ≤ l.length ∧
      ∀ q ∈ l, q < s'.PredCount := by
  refine ⟨decomposeLoop_succeeds s.CD s.Blocks {} hnd hcd (fun _ _ => rfl), ?_⟩
  obtain ⟨acc, hloop, hcount, huse, hblocks, _⟩ := decompose_eq s s' h
  have hinv := decomposeLoop_inv s.CD s.Blocks [] {} acc (decompInv_init s.CD) hloop
  simp only [List.nil_append] at hinv
  intro B hB
  rw [hblocks] at hB
  obtain ⟨q, t, _, hp, hk⟩ := hinv.used B hB
  refine ⟨[q], by simp [getPredUse, huse, hp], by simp, ?_⟩
  intro q' hq'
  have : q' = q := by simpa using hq'
  subst this
  rw [hcount]
  by_contra hge
  rw [List.getElem?_eq_none (by omega)] at hk
  simp at hk

/-- Witness of C4 on `exScope`. -/
theorem decompose_predUse_covers_witness :
    ∃ l, getPredUse exScopeDecomposed 1 = some l ∧
      1 ≤ l.length ∧ ∀ q ∈ l, q < exScopeDecomposed.PredCount :=
  (decompose_predUse_covers exScope exScopeDecomposed (by decide) (by decide) rfl).2 1
    (by decide)

/-! ## C9, C10: the legacy analyses on the scenario CFGs -/

/-- The trees given for the scenarios are the post-dominator trees of their
CFGs: tree ancestry coincides with post-dominance on paths. -/
theorem scenario_trees_are_postdominator_trees :
    (∀ a ∈ diamondMF.blocks, ∀ b ∈ diamondMF.blocks,
      diamondPDT.dominates 5 a b = postDominatesBy diamondMF 5 a b) ∧
    (∀ a ∈ triangleMF.blocks, ∀ b ∈ triangleMF.blocks,
      trianglePDT.dominates 5 a b = postDominatesBy triangleMF 5 a b) ∧
    (∀ a ∈ skewedMF.blocks, ∀ b ∈ skewedMF.blocks,
      skewedPDT.dominates 5 a b = postDominatesBy skewedMF 5 a b) := by
  refine ⟨?_, ?_, ?_⟩ <;> decide

/-- The decomposition of the diamond and of the triangle, as in S1 and S2. -/
theorem scenario_decompositions :
    legacyDecomposition diamondMF diamondPDT 5 =
      some ([∅, {(0, 1)}, {(0, 2)}], [(0, 0), (1, 1), (2, 2), (3, 0), (4, 0)]) ∧
    legacyDecomposition triangleMF trianglePDT 5 =
      some ([∅, {(0, 1)}], [(0, 0), (1, 1), (2, 0), (3, 0)]) := by
  refine ⟨?_, ?_⟩ <;> decide

/-- C9 as stated fails: on the diamond of S1 the set returned by
`computeUpwardsExposedUses` is not empty. -/
theorem diamond_initSet_not_empty :
    ¬ ((legacyInitSet diamondMF diamondPDT 5).map (fun v => v.bits) = some ∅) := by
  decide

/-- C9 amended: for the diamond and for the triangle, with `K` and `R` from the
control-dependence decomposition, `computeUpwardsExposedUses` returns the set
that holds predicate 0 alone, the predicate of the entry block, which has no
defining edge (`K[0]` is empty); no predicate with a defining edge is in it. -/
theorem scenario_initSet_is_entry_predicate :
    (legacyInitSet diamondMF diamondPDT 5).map (fun v => v.bits) = some {0} ∧
    (legacyInitSet triangleMF trianglePDT 5).map (fun v => v.bits) = some {0} ∧
    (legacyDecomposition diamondMF diamondPDT 5).map (fun KR => (KR.1[0]?, mapFind KR.2 0)) =
      some (some ∅, some 0) ∧
    (legacyDecomposition triangleMF trianglePDT 5).map (fun KR => (KR.1[0]?, mapFind KR.2 0)) =
      some (some ∅, some 0) := by
  refine ⟨?_, ?_, ?_, ?_⟩ <;> decide

/-- C10: on the skewed diamond with early exit of S3, `computeControlDependence`
with the post-dominator tree of the function followed by
`decomposeControlDependence` yields exactly four predicates. -/
theorem skewed_diamond_has_four_predicates :
    (legacyDecomposition skewedMF skewedPDT 5).map (fun KR => KR.1.length) = some 4 ∧
    (legacyDecomposition skewedMF skewedPDT 5).map (fun KR => KR.1.map CD_map_entry_t.iter) =
      some [[], [(0, 1)], [(0, 2)], [(0, 2), (1, 3)]] := by
  refine ⟨?_, ?_⟩ <;> decide

/-! ## C8: the scoped analysis on the diamond -/

/-- C8 as stated fails: on the diamond of S1, with the successors of the entry
in the order A, B, `computePredInfos` does not give `R[A] = {1}`, `R[B] = {2}`. -/
theorem diamond_scoped_ids_not_as_stated :
    ¬ (diamondAnalysed.map (fun s =>
        (s.PredCount, [getPredUse s 0, getPredUse s 3, getPredUse s 1, getPredUse s 2])) =
      some (3, [some [0], some [0], some [1], some [2]])) := by
  decide

/-- C8 amended: on the root scope of the diamond of S1 (entry = 0, A = 1, B = 2,
join = 3, exit = 4, successors of the entry in the order A, B),
`computePredInfos` gives `PredCount = 3`, `R[entry] = R[join] = {0}`,
`R[B] = {1}` and `R[A] = {2}`: `toposort` leaves `Blocks` in the reverse
post-order entry, B, A, join, exit, and `decompose` numbers the predicates in
that order. -/
theorem diamond_scoped_ids :
    diamondAnalysed.map (fun s =>
        (s.PredCount, [getPredUse s 0, getPredUse s 3, getPredUse s 1, getPredUse s 2])) =
      some (3, [some [0], some [0], some [2], some [1]]) ∧
    diamondAnalysed.map (fun s => s.Blocks) = some [0, 2, 1, 3, 4] := by
  refine ⟨?_, ?_⟩ <;> decide

/-- The result on the diamond does not depend on the order in which the blocks
other than the header were added to the scope. -/
theorem diamond_scoped_ids_any_insertion_order :
    ∀ bs ∈ [[1, 2, 3, 4], [4, 3, 2, 1], [2, 1, 3, 4], [3, 1, 4, 2], [2, 4, 1, 3]],
      (computePredInfos diamondMF 10 (bs.foldl addMBB (SPScope.root 0 true))).map
        (fun s => (s.Blocks, s.PredCount, getPredUse s 1, getPredUse s 2)) =
      some ([0, 2, 1, 3, 4], 3, some [2], some [1]) := by
  decide

/-! ## C5: which blocks get a use register -/

theorem mapFind_mapAssign (m : R_t) (k : MBB) (v : Nat) (k' : MBB) :
    mapFind (mapAssign m k v) k' = if k' = k then some v else mapFind m k' := by
  induction m with
  | nil => simp [mapAssign, mapFind]
  | cons hd tl ih =>
    obtain ⟨a, b⟩ := hd
    unfold mapAssign
    by_cases h1 : k < a
    · simp only [h1, if_true]
      by_cases h2 : k' = k
      · simp [mapFind, h2]
      · simp [mapFind, h2]
    · simp only [h1, if_false]
      by_cases h3 : k = a
      · subst h3
        simp only [if_true]
        by_cases h2 : k' = k
        · simp [mapFind, h2]
        · simp [mapFind, h2]
      · simp only [h3, if_false]
        by_cases h2 : k' = k
        · subst h2
          simp [mapFind, h3, ih]
        · by_cases h4 : k' = a
          · subst h4
            simp [mapFind, h2]
          · simp [mapFind, h4, h2, ih]

theorem defineEdge_pred_use_vregs (TII : TargetHooks) (entry : Option MBB)
    (needsInit : BitVector) (i : Nat) (first : Bool) (src dst : MBB) (st st' : PredDefState)
    (h : defineEdge TII entry needsInit i first src dst st = some st') :
    st'.pred_use_vregs = st.pred_use_vregs := by
  unfold defineEdge at h
  cases hc : edgeCond TII src dst with
  | none => simp [hc] at h
  | some Cond =>
    rw [hc] at h
    match Cond, h with
    | [], h => simp at h
    | [_], h => simp at h
    | c0 :: c1 :: _, h =>
      cases first <;> cases hn : needsInit.test i <;> cases entry <;>
        simp [hn] at h <;> (subst h; rfl)

theorem defineEdges_pred_use_vregs (TII : TargetHooks) (entry : Option MBB)
    (needsInit : BitVector) (i : Nat) (first : Bool) (es : List (MBB × MBB))
    (st st' : PredDefState)
    (h : defineEdges TII entry needsInit i first es st = some st') :
    st'.pred_use_vregs = st.pred_use_vregs := by
  induction es generalizing first st with
  | nil =>
    simp only [defineEdges, Option.some.injEq] at h
    subst h
    rfl
  | cons e es ih =>
    obtain ⟨src, dst⟩ := e
    unfold defineEdges at h
    split at h
    · simp at h
    · rename_i st1 h1
      rw [ih false st1 h, defineEdge_pred_use_vregs TII entry needsInit i first src dst st st1 h1]

theorem recordUses_isSome (TII : TargetHooks) (R : R_t) (i : Nat) (bs : List MBB)
    (st : PredDefState) (B : MBB) :
    (mapFind (recordUses TII R i bs st).pred_use_vregs B).isSome ↔
      (mapFind st.pred_use_vregs B).isSome ∨ (B ∈ bs ∧ mapGet R B = i) := by
  induction bs generalizing st with
  | nil => simp [recordUses]
  | cons b bs ih =>
    unfold recordUses
    by_cases hb : mapGet R b = i
    · simp only [hb, ne_eq, not_true_eq_false, if_false]
      rw [ih]
      simp only [mapFind_mapAssign, List.mem_cons]
      by_cases hB : B = b
      · subst hB
        simp [hb]
      · simp [hB]
    · simp only [ne_eq, hb, not_false_eq_true, if_true]
      rw [ih]
      simp only [List.mem_cons]
      constructor
      · rintro (h | ⟨h1, h2⟩)
        · exact Or.inl h
        · exact Or.inr ⟨Or.inr h1, h2⟩
      · rintro (h | ⟨h1 | h1, h2⟩)
        · exact Or.inl h
        · subst h1
          exact absurd h2 hb
        · exact Or.inr ⟨h1, h2⟩

theorem insertPredLoop_isSome (TII : TargetHooks) (MF : MachineFunction) (R : R_t)
    (needsInit : BitVector) (ks : K_t) (i : Nat) (st st' : PredDefState)
    (h : insertPredLoop TII MF R needsInit ks i st = some st') (B : MBB) :
    (mapFind st'.pred_use_vregs B).isSome ↔
      (mapFind st.pred_use_vregs B).isSome ∨
        (B ∈ MF.blocks ∧ ∃ j k, ks[j]? = some k ∧ k ≠ ∅ ∧ mapGet R B = i + j) := by
  induction ks generalizing i st with
  | nil =>
    simp only [insertPredLoop, Option.some.injEq] at h
    subst h
    simp
  | cons k ks ih =>
    unfold insertPredLoop at h
    split at h
    · rename_i hk
      have hk' : k = ∅ := Finset.card_eq_zero.1 hk
      rw [ih (i + 1) st h]
      constructor
      · rintro (h1 | ⟨h1, j, k', h2, h3, h4⟩)
        · exact Or.inl h1
        · exact Or.inr ⟨h1, j + 1, k', by simpa using h2, h3, by omega⟩
      · rintro (h1 | ⟨h1, j, k', h2, h3, h4⟩)
        · exact Or.inl h1
        · cases j with
          | zero =>
            simp only [List.getElem?_cons_zero, Option.some.injEq] at h2
            exact absurd (h2 ▸ hk') h3
          | succ j =>
            exact Or.inr ⟨h1, j, k', by simpa using h2, h3, by omega⟩
    · rename_i hk
      have hk' : k ≠ ∅ := fun e => hk (by simp [e])
      split at h
      · simp at h
      · rename_i st1 h1
        rw [ih (i + 1) _ h, recordUses_isSome,
          defineEdges_pred_use_vregs TII MF.front needsInit i true k.iter st st1 h1]
        constructor
        · rintro ((h2 | ⟨h2, h3⟩) | ⟨h2, j, k', h3, h4, h5⟩)
          · exact Or.inl h2
          · exact Or.inr ⟨h2, 0, k, by simp, hk', by omega⟩
          · exact Or.inr ⟨h2, j + 1, k', by simpa using h3, h4, by omega⟩
        · rintro (h2 | ⟨h2, j, k', h3, h4, h5⟩)
          · exact Or.inl (Or.inl h2)
          · cases j with
            | zero => exact Or.inl (Or.inr ⟨h2, by omega⟩)
            | succ j => exact Or.inr ⟨h2, j, k', by simpa using h3, h4, by omega⟩

/-- C5 as stated fails: after `insertPredDefinitions` on the diamond, run after
the analyses as in `doConvertFunction`, `pred_use_vregs` has no entry for the
entry block. -/
theorem diamond_entry_has_no_use_reg :
    diamondDefined.map (fun st => diamondMF.blocks.map (mapFind st.pred_use_vregs)) =
      some [none, some 1000, some 1001, none, none] := by
  decide

/-- C5 amended: after `insertPredDefinitions` (started with an empty
`pred_use_vregs`), `pred_use_vregs` has an entry for `B` exactly when `B` is a
block of the function whose predicate `R[B]` has at least one defining edge
(`K[R[B]]` is not empty). The predicates without defining edge are skipped, so
their blocks, the entry block among them, get no use register. -/
theorem insertPredDefinitions_use_reg_iff (TII : TargetHooks) (MF : MachineFunction)
    (K : K_t) (R : R_t) (needsInit : BitVector) (st st' : PredDefState)
    (h0 : st.pred_use_vregs = [])
    (h : insertPredDefinitions TII MF K R needsInit st = some st') (B : MBB) :
    (mapFind st'.pred_use_vregs B).isSome ↔
      (B ∈ MF.blocks ∧ ∃ k, K[mapGet R B]? = some k ∧ k ≠ ∅) := by
  unfold insertPredDefinitions at h
  rw [insertPredLoop_isSome TII MF R needsInit K 0 st st' h B, h0]
  simp only [mapFind, Option.isSome_none, Bool.false_eq_true, false_or, zero_add]
  constructor
  · rintro ⟨h1, j, k, h2, h3, h4⟩
    exact ⟨h1, k, h4 ▸ h2, h3⟩
  · rintro ⟨h1, k, h2, h3⟩
    exact ⟨h1, _, k, h2, h3, rfl⟩

/-- Witness of C5 amended on the diamond: block A gets a use register. -/
theorem insertPredDefinitions_use_reg_iff_witness :
    (mapFind diamondEnd.pred_use_vregs 1).isSome ↔
      (1 ∈ diamondMF.blocks ∧ ∃ k, diamondK[mapGet diamondR 1]? = some k ∧ k ≠ ∅) :=
  insertPredDefinitions_use_reg_iff diamondHooks diamondMF diamondK diamondR
    { size := 3, bits := {0} } diamondStart diamondEnd rfl rfl 1

/-! ## C7: the condition written for a defining edge -/

theorem reach_reverse {α : Type} (U : Finset α) (next prev : α → List α)
    (hcons : ∀ a ∈ U, ∀ b ∈ U, (b ∈ next a ↔ a ∈ prev b))
    (hU : ∀ x ∈ U, ∀ y ∈ next x, y ∈ U) (a b : α) (ha : a ∈ U) (h : Reach next a b) :
    b ∈ U ∧ Reach prev b a := by
  induction h with
  | refl => exact ⟨ha, Relation.ReflTransGen.refl⟩
  | @tail x y _ hbc ih =>
    have hy := hU x ih.1 y hbc
    exact ⟨hy, Relation.ReflTransGen.head ((hcons x ih.1 y hy).1 hbc) ih.2⟩

theorem acyclicOn_reverse {α : Type} (U : Finset α) (next prev : α → List α)
    (hcons : ∀ a ∈ U, ∀ b ∈ U, (b ∈ next a ↔ a ∈ prev b))
    (hUp : ∀ x ∈ U, ∀ y ∈ prev x, y ∈ U)
    (hac : AcyclicOn U next) : AcyclicOn U prev := by
  intro a ha b hb hr
  have hbU := hUp a ha b hb
  have hcons' : ∀ a ∈ U, ∀ b ∈ U, (b ∈ prev a ↔ a ∈ next b) :=
    fun a ha b hb => (hcons b hb a ha).symm
  have := reach_reverse U prev next hcons' hUp b a hbU hr
  exact hac b hbU a ((hcons b hbU a ha).2 hb) this.2

/-- The numbers assigned by `assignNums`, for a list without repetition. -/
theorem assignNums_spec (order : List Node) (i : Nat) (nodes : Node → NodeData)
    (hnd : order.Nodup) (x : Node) :
    (assignNums order i nodes x).succs = (nodes x).succs ∧
    (assignNums order i nodes x).preds = (nodes x).preds ∧
    (assignNums order i nodes x).ipdom = (nodes x).ipdom ∧
    (assignNums order i nodes x).outedges = (nodes x).outedges ∧
    (x ∈ order → (assignNums order i nodes x).num = ((i + order.indexOf x : Nat) : Int)) := by
  induction order generalizing i nodes with
  | nil => simp [assignNums]
  | cons n rest ih =>
    have hnd' := List.nodup_cons.1 hnd
    unfold assignNums
    obtain ⟨h1, h2, h3, h4, h5⟩ := ih (i + 1) (upd nodes n { nodes n with num := i }) hnd'.2
    refine ⟨?_, ?_, ?_, ?_, ?_⟩
    · rw [h1]; unfold upd; split <;> simp_all
    · rw [h2]; unfold upd; split <;> simp_all
    · rw [h3]; unfold upd; split <;> simp_all
    · rw [h4]; unfold upd; split <;> simp_all
    · intro hx
      by_cases hxn : x = n
      · subst hxn
        have hnot : x ∉ rest := hnd'.1
        have key : ∀ (l : List Node) (j : Nat) (nd : Node → NodeData), x ∉ l →
            (assignNums l j nd x).num = (nd x).num := by
          intro l
          induction l with
          | nil => intro j nd _; rfl
          | cons m l ihl =>
            intro j nd hxl
            simp only [List.mem_cons, not_or] at hxl
            unfold assignNums
            rw [ihl _ _ hxl.2]
            simp [upd, hxl.1]
        rw [key rest (i + 1) _ hnot]
        simp [upd]
      · have hxr : x ∈ rest := by
          rcases List.mem_cons.1 hx with e | e
          · exact absurd e hxn
          · exact e
        rw [h5 hxr, List.indexOf_cons_ne _ (fun e => hxn e.symm)]
        push_cast
        omega

theorem climb_spec (g : FCFG) (M : Int) (P : Node → Prop) (hP : PInv g M P) (t : Int)
    (ht : t ≤ M) (f : Nat) :
    ∀ x, P x → (M - (g.nodes x).num).toNat < f →
      ∃ r, climb g t f x = some r ∧ P r ∧ (g.nodes x).num ≤ (g.nodes r).num ∧
        t ≤ (g.nodes r).num ∧ (t ≤ (g.nodes x).num → r = x) := by
  induction f with
  | zero => intro x _ h; omega
  | succ f ih =>
    intro x hx hf
    unfold climb
    by_cases hlt : (g.nodes x).num < t
    · simp only [hlt, if_true]
      have hxne : x ≠ Node.nexit := by
        intro e
        rw [e, hP.exitNum] at hlt
        omega
      obtain ⟨m, hm, hip, hnum⟩ := hP.up x hx hxne
      rw [hip]
      simp only []
      have hmle := (hP.numLe m hm).2
      obtain ⟨r, h1, h2, h3, h4, _⟩ := ih m hm (by omega)
      exact ⟨r, h1, h2, by omega, h4, fun h => by omega⟩
    · simp only [hlt, if_false]
      exact ⟨x, rfl, hx, le_refl _, by omega, fun _ => rfl⟩

theorem intersectLoop_spec (g : FCFG) (M : Int) (P : Node → Prop) (hP : PInv g M P)
    (f : Nat) :
    ∀ f1 f2, P f1 → P f2 →
      (M - (g.nodes f1).num).toNat + (M - (g.nodes f2).num).toNat < f →
      ∃ r, intersectLoop g (f + 1) f1 f2 = some r ∧ P r ∧
        (g.nodes f1).num ≤ (g.nodes r).num ∧ (g.nodes f2).num ≤ (g.nodes r).num := by
  induction f with
  | zero => intro f1 f2 _ _ h; omega
  | succ f ih =>
    intro f1 f2 h1 h2 hf
    unfold intersectLoop
    by_cases hne : (g.nodes f1).num ≠ (g.nodes f2).num
    · simp only [hne, ne_eq, not_false_eq_true, if_true]
      have b1 := hP.numLe f1 h1
      have b2 := hP.numLe f2 h2
      obtain ⟨r1, e1, p1, le1, ge1, same1⟩ :=
        climb_spec g M P hP (g.nodes f2).num b2.2 (f + 1) f1 h1 (by omega)
      rw [e1]
      simp only []
      have c1 := hP.numLe r1 p1
      obtain ⟨r2, e2, p2, le2, ge2, same2⟩ :=
        climb_spec g M P hP (g.nodes r1).num c1.2 (f + 1) f2 h2 (by omega)
      rw [e2]
      simp only []
      have c2 := hP.numLe r2 p2
      have hdec : (M - (g.nodes r1).num).toNat + (M - (g.nodes r2).num).toNat < f := by
        rcases lt_or_gt_of_ne hne with hlt | hgt
        · omega
        · have : r1 = f1 := same1 (by omega)
          subst this
          omega
      obtain ⟨r, e, p, l1, l2⟩ := ih r1 r2 p1 p2 hdec
      exact ⟨r, e, p, by omega, by omega⟩
    · simp only [hne, if_false]
      exact ⟨f1, rfl, h1, le_refl _, by push_neg at hne; omega⟩

theorem PInv.congr {g : FCFG} {M : Int} {P Q : Node → Prop} (h : ∀ x, P x ↔ Q x)
    (hP : PInv g M P) : PInv g M Q where
  exitP := (h _).1 hP.exitP
  exitNum := hP.exitNum
  exitIpdom := hP.exitIpdom
  numLe := fun x hx => hP.numLe x ((h x).2 hx)
  up := fun x hx hne => by
    obtain ⟨m, h1, h2, h3⟩ := hP.up x ((h x).2 hx) hne
    exact ⟨m, (h m).1 h1, h2, h3⟩

theorem PInv.ipdom_isSome {g : FCFG} {M : Int} {P : Node → Prop} (hP : PInv g M P)
    (x : Node) (hx : P x) : ∃ m, (g.nodes x).ipdom = some m := by
  by_cases hne : x = Node.nexit
  · exact ⟨Node.nexit, hne ▸ hP.exitIpdom⟩
  · obtain ⟨m, _, h, _⟩ := hP.up x hx hne
    exact ⟨m, h⟩

theorem intersect_spec (g : FCFG) (M : Int) (P : Node → Prop) (hP : PInv g M P)
    (fuel : Nat) (hfuel : 2 * M.toNat + 2 ≤ fuel) (b1 : Option Node) (b2 : Node)
    (h1 : ∀ x, b1 = some x → P x) (h2 : P b2) :
    ∃ r, _intersect g fuel b1 b2 = some (some r) ∧ P r ∧
      (g.nodes b2).num ≤ (g.nodes r).num ∧ ∀ x, b1 = some x → (g.nodes x).num ≤ (g.nodes r).num := by
  obtain ⟨m, hm⟩ := hP.ipdom_isSome b2 h2
  unfold _intersect
  rw [hm]
  simp only []
  have hf1 : P (b1.getD b2) := by
    cases b1 with
    | none => exact h2
    | some x => exact h1 x rfl
  have n1 := hP.numLe _ hf1
  have n2 := hP.numLe _ h2
  obtain ⟨f, hf⟩ : ∃ f, fuel = f + 1 := ⟨fuel - 1, by omega⟩
  subst hf
  obtain ⟨r, e, p, l1, l2⟩ := intersectLoop_spec g M P hP f (b1.getD b2) b2 hf1 h2 (by omega)
  rw [e]
  refine ⟨r, rfl, p, l2, ?_⟩
  intro x hx
  subst hx
  exact l1

theorem intersectSuccs_spec (g : FCFG) (M : Int) (P : Node → Prop) (hP : PInv g M P)
    (fuel : Nat) (hfuel : 2 * M.toNat + 2 ≤ fuel) (ss : List Node) (acc : Option Node)
    (hss : ∀ s ∈ ss, P s) (hacc : ∀ x, acc = some x → P x) :
    ∃ r, intersectSuccs g fuel ss acc = some r ∧ (∀ x, r = some x → P x) ∧
      (∀ s ∈ ss, ∃ x, r = some x ∧ (g.nodes s).num ≤ (g.nodes x).num) ∧
      (∀ a, acc = some a → ∃ x, r = some x ∧ (g.nodes a).num ≤ (g.nodes x).num) := by
  induction ss generalizing acc with
  | nil =>
    exact ⟨acc, rfl, hacc, by simp, fun a ha => ⟨a, ha, le_refl _⟩⟩
  | cons s ss ih =>
    obtain ⟨r1, e1, p1, l1, l2⟩ := intersect_spec g M P hP fuel hfuel acc s hacc (hss s (by simp))
    unfold intersectSuccs
    rw [e1]
    simp only []
    obtain ⟨r, e, p, k1, k2⟩ := ih (some r1) (fun s' h => hss s' (by simp [h]))
      (fun x hx => by cases hx; exact p1)
    obtain ⟨x, hx, hxn⟩ := k2 r1 rfl
    refine ⟨r, e, p, ?_, ?_⟩
    · intro s' hs'
      rcases List.mem_cons.1 hs' with e' | e'
      · subst e'
        exact ⟨x, hx, le_trans l1 hxn⟩
      · exact k1 s' e'
    · intro a ha
      exact ⟨x, hx, le_trans (l2 a ha) hxn⟩

theorem postdomLoop_spec (fuel : Nat) (M : Int) (hfuel : 2 * M.toNat + 2 ≤ fuel)
    (ns : List Node) :
    ∀ (g : FCFG) (P : Node → Prop), PInv g M P →
      (∀ l1 n l2, ns = l1 ++ n :: l2 →
        n ≠ Node.nexit ∧ ¬ P n ∧ n ∉ l1 ∧ 0 ≤ (g.nodes n).num ∧ (g.nodes n).num ≤ M ∧
        (g.nodes n).succs ≠ [] ∧
        ∀ s ∈ (g.nodes n).succs, (P s ∨ s ∈ l1) ∧ (g.nodes n).num < (g.nodes s).num) →
      ∃ g', postdomLoop fuel ns g = some g' ∧ PInv g' M (fun x => P x ∨ x ∈ ns) ∧
        ∀ y, (g'.nodes y).num = (g.nodes y).num ∧ (g'.nodes y).succs = (g.nodes y).succs ∧
          (g'.nodes y).preds = (g.nodes y).preds := by
  induction ns with
  | nil =>
    intro g P hP _
    exact ⟨g, rfl, hP.congr (by simp), fun _ => ⟨rfl, rfl, rfl⟩⟩
  | cons n rest ih =>
    intro g P hP hready
    obtain ⟨hne, hnP, _, hn0, hnM, hsne, hsucc⟩ := hready [] n rest rfl
    obtain ⟨r, e, p, k1, _⟩ := intersectSuccs_spec g M P hP fuel hfuel (g.nodes n).succs none
      (fun s hs => by
        rcases (hsucc s hs).1 with h | h
        · exact h
        · simp at h)
      (by simp)
    obtain ⟨s0, hs0⟩ := List.exists_mem_of_ne_nil _ hsne
    obtain ⟨x, hx, hxn⟩ := k1 s0 hs0
    subst hx
    have hxP : P x := p x rfl
    unfold postdomLoop
    rw [e]
    simp only []
    -- the graph after the assignment `n->ipdom = new_ipdom`
    have hshape : ∀ y, ((upd g.nodes n { g.nodes n with ipdom := some x }) y).num = (g.nodes y).num ∧
        ((upd g.nodes n { g.nodes n with ipdom := some x }) y).succs = (g.nodes y).succs ∧
        ((upd g.nodes n { g.nodes n with ipdom := some x }) y).preds = (g.nodes y).preds := by
      intro y
      unfold upd
      split
      · rename_i h; subst h; exact ⟨rfl, rfl, rfl⟩
      · exact ⟨rfl, rfl, rfl⟩
    have hip : ∀ y, y ≠ n →
        ((upd g.nodes n { g.nodes n with ipdom := some x }) y).ipdom = (g.nodes y).ipdom := by
      intro y hy
      simp [upd, hy]
    have hipn : ((upd g.nodes n { g.nodes n with ipdom := some x }) n).ipdom = some x := by
      simp [upd]
    have hP1 : PInv { nodes := upd g.nodes n { g.nodes n with ipdom := some x } } M
        (fun y => P y ∨ y = n) := by
      refine ⟨Or.inl hP.exitP, ?_, ?_, ?_, ?_⟩
      · rw [(hshape _).1]; exact hP.exitNum
      · simp only []
        rw [hip _ (fun e => hne e.symm)]; exact hP.exitIpdom
      · intro y hy
        simp only []
        rw [(hshape y).1]
        rcases hy with hy | hy
        · exact hP.numLe y hy
        · subst hy; exact ⟨hn0, hnM⟩
      · intro y hy hyne
        simp only []
        rcases hy with hy | hy
        · have hyn : y ≠ n := fun e => hnP (e ▸ hy)
          obtain ⟨m, m1, m2, m3⟩ := hP.up y hy hyne
          refine ⟨m, Or.inl m1, ?_, ?_⟩
          · rw [hip y hyn]; exact m2
          · rw [(hshape y).1, (hshape m).1]; exact m3
        · subst hy
          refine ⟨x, Or.inl hxP, hipn, ?_⟩
          rw [(hshape y).1, (hshape x).1]
          exact lt_of_lt_of_le (hsucc s0 hs0).2 hxn
    obtain ⟨g', e', p', sh'⟩ := ih { nodes := upd g.nodes n { g.nodes n with ipdom := some x } }
      (fun y => P y ∨ y = n) hP1 (by
        intro l1 m l2 hsplit
        obtain ⟨a1, a2, a3, a4, a5, a6, a7⟩ := hready (n :: l1) m l2 (by simp [hsplit])
        simp only [List.mem_cons, not_or] at a3
        simp only []
        rw [(hshape m).1, (hshape m).2.1]
        refine ⟨a1, ?_, a3.2, a4, a5, a6, ?_⟩
        · rintro (h | h)
          · exact a2 h
          · exact a3.1 h
        · intro s hs
          rw [(hshape s).1]
          refine ⟨?_, (a7 s hs).2⟩
          rcases (a7 s hs).1 with h | h
          · exact Or.inl (Or.inl h)
          · rcases List.mem_cons.1 h with h | h
            · exact Or.inl (Or.inr h)
            · exact Or.inr h)
    refine ⟨g', e', p'.congr ?_, ?_⟩
    · intro y
      simp only [List.mem_cons]
      tauto
    · intro y
      obtain ⟨b1, b2, b3⟩ := sh' y
      obtain ⟨c1, c2, c3⟩ := hshape y
      exact ⟨b1.trans c1, b2.trans c2, b3.trans c3⟩

/-- C6: on an acyclic FCFG, given by its node set `U` with consistent successor
and predecessor lists, in which every node reaches `nexit`,
`FCFG::postdominators` completes (with fuel for twice the number of nodes),
`nexit.ipdom = nexit`, every node has an immediate post-dominator, and
`ipdom(n) = ipdom(ipdom(n))` holds only when `ipdom(n) = nexit`: no node other
than `nexit` is its own immediate post-dominator. -/
theorem postdominators_own_ipdom_only_nexit (g : FCFG) (U : Finset Node) (fuel : Nat)
    (hexit : Node.nexit ∈ U)
    (hcons : ∀ a ∈ U, ∀ b ∈ U, (b ∈ (g.nodes a).succs ↔ a ∈ (g.nodes b).preds))
    (hUs : ∀ x ∈ U, ∀ y ∈ (g.nodes x).succs, y ∈ U)
    (hUp : ∀ x ∈ U, ∀ y ∈ (g.nodes x).preds, y ∈ U)
    (hac : AcyclicOn U (fun x => (g.nodes x).succs))
    (hreach : ∀ x ∈ U, Reach (fun x => (g.nodes x).succs) x Node.nexit)
    (hfuel : 2 * U.card + 2 ≤ fuel) :
    ∃ g', postdominators fuel g = some g' ∧
      (g'.nodes Node.nexit).ipdom = some Node.nexit ∧
      (∀ n ∈ U, ∃ m ∈ U, (g'.nodes n).ipdom = some m) ∧
      ∀ n ∈ U, ∀ m, (g'.nodes n).ipdom = some m → (g'.nodes m).ipdom = some m →
        m = Node.nexit := by
  have hacp : AcyclicOn U (fun x => (g.nodes x).preds) :=
    acyclicOn_reverse U (fun x => (g.nodes x).succs) (fun x => (g.nodes x).preds) hcons hUp hac
  obtain ⟨st, est, inv, hord, _, pre, hpre⟩ :=
    dfsVisit_from_empty (fun x => (g.nodes x).preds) U hUp Node.nexit hexit fuel (by omega)
  have hmemU : ∀ x, x ∈ st.order ↔ x ∈ U := by
    intro x
    constructor
    · exact inv.inU x
    · intro hx
      exact (hord x).2 (reach_reverse U _ _ hcons hUs x Node.nexit hx (hreach x hx)).2
  have hnd : (pre ++ [Node.nexit]).Nodup := hpre ▸ inv.nodup
  have hexpre : Node.nexit ∉ pre := by
    intro h
    have := List.disjoint_of_nodup_append hnd h
    simp at this
  have hprend : pre.Nodup := (List.nodup_append.1 hnd).1
  have hlen : pre.length < U.card := by
    have h1 : st.order.toFinset ⊆ U := fun x hx => inv.inU x (List.mem_toFinset.1 hx)
    have h2 := Finset.card_le_card h1
    rw [List.toFinset_card_of_nodup inv.nodup, hpre] at h2
    simp at h2
    omega
  -- the graph after `_rdfs` and the initialisation of `nexit`
  have hnums := fun x => assignNums_spec st.order 0 g.nodes inv.nodup x
  have hrdfs : _rdfs g fuel Node.nexit = some (g.withNums st.order, st.order) := by
    simp [_rdfs, est]
  have hshape2 : ∀ y,
      (((g.withNums st.order).initExit.nodes) y).num =
        ((g.withNums st.order).nodes y).num ∧
      (((g.withNums st.order).initExit.nodes) y).succs =
        (g.nodes y).succs := by
    intro y
    unfold FCFG.initExit FCFG.withNums upd
    simp only []
    split
    · rename_i h; subst h; exact ⟨rfl, (hnums _).1⟩
    · exact ⟨rfl, (hnums _).1⟩
  have hnum2 : ∀ y, y ∈ st.order →
      (((g.withNums st.order).initExit.nodes) y).num =
        ((st.order.indexOf y : Nat) : Int) := by
    intro y hy
    rw [(hshape2 y).1]
    show (assignNums st.order 0 g.nodes y).num = _
    rw [(hnums y).2.2.2.2 hy]
    simp
  have hidxexit : st.order.indexOf Node.nexit = pre.length := by
    rw [hpre, List.indexOf_append_of_not_mem hexpre]
    simp
  have hP2 : PInv (g.withNums st.order).initExit (pre.length : Int)
      (fun x => x = Node.nexit) := by
    have hex : Node.nexit ∈ st.order := by rw [hpre]; simp
    refine ⟨rfl, ?_, by simp [FCFG.initExit, upd], ?_, ?_⟩
    · rw [hnum2 _ hex, hidxexit]
    · intro x hx
      subst hx
      rw [hnum2 _ hex, hidxexit]
      omega
    · intro x hx hne
      exact absurd hx hne
  have hready : ∀ l1 n l2, pre.reverse = l1 ++ n :: l2 →
      n ≠ Node.nexit ∧ ¬ (n = Node.nexit) ∧ n ∉ l1 ∧
      0 ≤ (((g.withNums st.order).initExit.nodes) n).num ∧
      (((g.withNums st.order).initExit.nodes) n).num ≤
        (pre.length : Int) ∧
      (((g.withNums st.order).initExit.nodes) n).succs ≠ [] ∧
      ∀ s ∈ (((g.withNums st.order).initExit.nodes) n).succs,
        (s = Node.nexit ∨ s ∈ l1) ∧
        (((g.withNums st.order).initExit.nodes) n).num <
        (((g.withNums st.order).initExit.nodes) s).num := by
    intro l1 n l2 hsplit
    have hpre' : pre = l2.reverse ++ n :: l1.reverse := by
      have := congrArg List.reverse hsplit
      simpa using this
    have hnpre : n ∈ pre := by rw [hpre']; simp
    have hnord : n ∈ st.order := by rw [hpre]; simp [hnpre]
    have hnU : n ∈ U := (hmemU n).1 hnord
    have hne : n ≠ Node.nexit := fun e => hexpre (e ▸ hnpre)
    have hrnd : (l1 ++ n :: l2).Nodup := hsplit ▸ (List.nodup_reverse.2 hprend)
    have hnl1 : n ∉ l1 := by
      intro h
      have := List.disjoint_of_nodup_append hrnd h
      simp at this
    have hnl2 : n ∉ l2.reverse := by
      intro h
      have h' : n ∈ l2 := List.mem_reverse.1 h
      have := (List.nodup_cons.1 (List.nodup_append.1 hrnd).2.1).1
      exact this h'
    have hidxn : st.order.indexOf n = l2.length := by
      rw [hpre, hpre', List.append_assoc, List.indexOf_append_of_not_mem hnl2]
      simp
    rw [(hshape2 n).2, hnum2 n hnord, hidxn]
    have hl2 : l2.length < pre.length := by
      rw [hpre']
      simp
    refine ⟨hne, hne, hnl1, by omega, by omega, ?_, ?_⟩
    · intro hnil
      have := hreach n hnU
      rcases Relation.ReflTransGen.cases_head this with e | ⟨c, hc, _⟩
      · exact hne e
      · simp only [] at hc
        rw [hnil] at hc
        simp at hc
    · intro s hs
      have hsU : s ∈ U := hUs n hnU s hs
      have hsord : s ∈ st.order := (hmemU s).2 hsU
      have hnp : n ∈ (g.nodes s).preds := (hcons n hnU s hsU).1 hs
      have htopo := (inv.topo hacp s hsord n hnp).2
      rw [hnum2 s hsord]
      refine ⟨?_, by omega⟩
      by_cases hse : s = Node.nexit
      · exact Or.inl hse
      · right
        have hspre : s ∈ pre := by
          rw [hpre] at hsord
          rcases List.mem_append.1 hsord with h | h
          · exact h
          · simp at h; exact absurd h hse
        rw [hpre'] at hspre
        rcases List.mem_append.1 hspre with h | h
        · exfalso
          have : st.order.indexOf s < l2.length := by
            rw [hpre, hpre', List.append_assoc, List.indexOf_append_of_mem h]
            have := List.indexOf_lt_length.2 h
            simpa using this
          omega
        · rcases List.mem_cons.1 h with h | h
          · subst h; omega
          · exact List.mem_reverse.1 h
  obtain ⟨g', eg', pinv, _⟩ := postdomLoop_spec fuel (pre.length : Int) (by simp; omega)
    pre.reverse _ _ hP2 hready
  have hPmem : ∀ x, (x = Node.nexit ∨ x ∈ pre.reverse) ↔ x ∈ U := by
    intro x
    rw [← hmemU x, hpre]
    simp only [List.mem_reverse, List.mem_append, List.mem_singleton]
    tauto
  refine ⟨g', ?_, pinv.exitIpdom, ?_, ?_⟩
  · unfold postdominators
    rw [hrdfs]
    simp only []
    have htail : st.order.reverse.tail = pre.reverse := by rw [hpre]; simp
    rw [htail]
    exact eg'
  · intro n hn
    have hPn := (hPmem n).2 hn
    by_cases hne : n = Node.nexit
    · exact ⟨Node.nexit, hexit, hne ▸ pinv.exitIpdom⟩
    · obtain ⟨m, m1, m2, _⟩ := pinv.up n hPn hne
      exact ⟨m, (hPmem m).1 m1, m2⟩
  · intro n hn m hnm hmm
    have hPn := (hPmem n).2 hn
    have hPm : m = Node.nexit ∨ m ∈ pre.reverse := by
      by_cases hne : n = Node.nexit
      · subst hne
        rw [pinv.exitIpdom] at hnm
        exact Or.inl (Option.some.inj hnm).symm
      · obtain ⟨m', m1, m2, _⟩ := pinv.up n hPn hne
        rw [m2] at hnm
        exact (Option.some.inj hnm) ▸ m1
    by_contra hme
    obtain ⟨m', _, m2, m3⟩ := pinv.up m hPm hme
    rw [hmm] at m2
    have := Option.some.inj m2
    subst this
    exact lt_irrefl _ m3

theorem rank_le_of_reach {α : Type} (U : Finset α) (next : α → List α) (rank : α → Nat)
    (hU : ∀ x ∈ U, ∀ y ∈ next x, y ∈ U)
    (hr : ∀ a ∈ U, ∀ b ∈ next a, rank b < rank a) (a b : α) (ha : a ∈ U)
    (h : Reach next a b) : b ∈ U ∧ rank b ≤ rank a := by
  induction h with
  | refl => exact ⟨ha, le_refl _⟩
  | @tail x y _ hxy ih =>
    exact ⟨hU x ih.1 y hxy, le_trans (le_of_lt (hr x ih.1 y hxy)) ih.2⟩

/-- A graph with a ranking that decreases along every edge has no cycle. -/
theorem acyclicOn_of_rank {α : Type} (U : Finset α) (next : α → List α) (rank : α → Nat)
    (hU : ∀ x ∈ U, ∀ y ∈ next x, y ∈ U)
    (hr : ∀ a ∈ U, ∀ b ∈ next a, rank b < rank a) : AcyclicOn U next := by
  intro a ha b hb hreach
  have h1 := hr a ha b hb
  have h2 := (rank_le_of_reach U next rank hU hr b a (hU a ha b hb) hreach).2
  omega

/-- In a graph with a ranking that decreases along every edge, in which every
node but `sink` has a successor, every node reaches `sink`. -/
theorem reach_sink_of_rank {α : Type} (U : Finset α) (next : α → List α) (rank : α → Nat)
    (sink : α) (hU : ∀ x ∈ U, ∀ y ∈ next x, y ∈ U)
    (hr : ∀ a ∈ U, ∀ b ∈ next a, rank b < rank a)
    (hsucc : ∀ x ∈ U, x ≠ sink → next x ≠ []) : ∀ x ∈ U, Reach next x sink := by
  have key : ∀ n x, rank x ≤ n → x ∈ U → Reach next x sink := by
    intro n
    induction n with
    | zero =>
      intro x hx hxU
      by_cases hs : x = sink
      · subst hs; exact Relation.ReflTransGen.refl
      · obtain ⟨y, hy⟩ := List.exists_mem_of_ne_nil _ (hsucc x hxU hs)
        have := hr x hxU y hy
        omega
    | succ n ih =>
      intro x hx hxU
      by_cases hs : x = sink
      · subst hs; exact Relation.ReflTransGen.refl
      · obtain ⟨y, hy⟩ := List.exists_mem_of_ne_nil _ (hsucc x hxU hs)
        have := hr x hxU y hy
        exact Relation.ReflTransGen.head hy (ih y (by omega) (hU x hxU y hy))
  exact fun x hx => key (rank x) x (le_refl _) hx

/-- Witness of C6 on the FCFG that `buildfcfg` builds for the diamond. -/
theorem postdominators_own_ipdom_only_nexit_witness :
    ∃ g', postdominators 16 diamondFCFG = some g' ∧
      (g'.nodes Node.nexit).ipdom = some Node.nexit ∧
      (∀ n ∈ diamondNodes, ∃ m ∈ diamondNodes, (g'.nodes n).ipdom = some m) ∧
      ∀ n ∈ diamondNodes, ∀ m, (g'.nodes n).ipdom = some m → (g'.nodes m).ipdom = some m →
        m = Node.nexit :=
  postdominators_own_ipdom_only_nexit diamondFCFG diamondNodes 16 (by decide) (by decide)
    (by decide) (by decide)
    (acyclicOn_of_rank diamondNodes _ diamondRank (by decide) (by decide))
    (reach_sink_of_rank diamondNodes _ diamondRank Node.nexit (by decide) (by decide)
      (by decide))
    (by decide)

/-! ## C3: soundness of `computeUpwardsExposedUses` -/

theorem mem_setIter {α κ : Type} [LinearOrder κ] (key : α → κ)
    (hinj : Function.Injective key) (s : Finset α) (x : α) :
    x ∈ setIter key hinj s ↔ x ∈ s := by
  obtain ⟨l, hl⟩ := Quot.exists_rep s.val
  have h1 : setIter key hinj s = List.insertionSort (fun a b => key a ≤ key b) l := by
    unfold setIter
    rw [← hl]
  rw [h1, (List.perm_insertionSort _ l).mem_iff, Finset.mem_def, ← hl]
  rfl

theorem mem_legacy_iter (s : CD_map_entry_t) (x : MBB × MBB) : x ∈ s.iter ↔ x ∈ s := by
  unfold CD_map_entry_t.iter
  exact mem_setIter _ _ s x

theorem mapFind_eq_some_iff (R : R_t) (hnd : (R.map Prod.fst).Nodup) (b : MBB) (i : Nat) :
    mapFind R b = some i ↔ (b, i) ∈ R := by
  induction R with
  | nil => simp [mapFind]
  | cons hd tl ih =>
    obtain ⟨k, v⟩ := hd
    simp only [List.map_cons, List.nodup_cons] at hnd
    unfold mapFind
    by_cases hbk : b = k
    · subst hbk
      simp only [if_true, Option.some.injEq, List.mem_cons, Prod.mk.injEq, true_and]
      constructor
      · intro h; exact Or.inl h.symm
      · rintro (h | h)
        · exact h.symm
        · exact absurd (List.mem_map_of_mem Prod.fst h) hnd.1
    · simp only [hbk, if_false, List.mem_cons, Prod.mk.injEq, false_and, false_or]
      exact ih hnd.2

theorem mapFind_isSome_iff (R : R_t) (b : MBB) :
    (mapFind R b).isSome ↔ b ∈ R.map Prod.fst := by
  induction R with
  | nil => simp [mapFind]
  | cons hd tl ih =>
    obtain ⟨k, v⟩ := hd
    unfold mapFind
    by_cases hbk : b = k
    · simp [hbk]
    · simp only [hbk, if_false, List.map_cons, List.mem_cons, false_or]
      exact ih

/-- The maps `gen` and `kill` after the first loop of `computeUpwardsExposedUses`. -/
theorem fillGen_spec (Ksize : Nat) (R : R_t) (gk : GenKill)
    (hnd : (R.map Prod.fst).Nodup) (hlt : ∀ e ∈ R, e.2 < Ksize) :
    ∃ gk', fillGen Ksize R gk = some gk' ∧
      ∀ b, (gk'.gen b = match mapFind R b with
              | some r => { size := Ksize, bits := {r} }
              | none => gk.gen b) ∧
           (gk'.kill b = match mapFind R b with
              | some _ => BitVector.ofSize Ksize
              | none => gk.kill b) := by
  induction R generalizing gk with
  | nil => exact ⟨gk, rfl, fun b => ⟨rfl, rfl⟩⟩
  | cons hd tl ih =>
    obtain ⟨k, v⟩ := hd
    simp only [List.map_cons, List.nodup_cons] at hnd
    have hv : v < Ksize := hlt (k, v) (by simp)
    unfold fillGen
    simp only [BitVector.set, BitVector.ofSize, hv, if_true]
    obtain ⟨gk', e, h⟩ := ih
      { gen := upd gk.gen k { size := Ksize, bits := insert v ∅ },
        kill := upd gk.kill k { size := Ksize, bits := ∅ } } hnd.2
      (fun e he => hlt e (by simp [he]))
    refine ⟨gk', e, ?_⟩
    intro b
    obtain ⟨h1, h2⟩ := h b
    have hk : mapFind tl k = none := by
      cases hf : mapFind tl k with
      | none => rfl
      | some r =>
        have := (mapFind_isSome_iff tl k).1 (by simp [hf])
        exact absurd this hnd.1
    unfold mapFind
    by_cases hbk : b = k
    · subst hbk
      rw [h1, h2, hk]
      simp [upd, BitVector.ofSize]
    · rw [h1, h2]
      simp only [hbk, if_false]
      cases mapFind tl b with
      | none => simp [upd, hbk]
      | some r => simp [BitVector.ofSize]

theorem fillKillEdges_spec (i : Nat) (es : List (MBB × MBB)) (kill : MBB → BitVector)
    (hsz : ∀ e ∈ es, i < (kill e.1).size) :
    ∃ kill', fillKillEdges i es kill = some kill' ∧
      ∀ b, (kill' b).size = (kill b).size ∧
        ∀ j, j ∈ (kill' b).bits ↔ j ∈ (kill b).bits ∨ (j = i ∧ ∃ e ∈ es, e.1 = b) := by
  induction es generalizing kill with
  | nil => exact ⟨kill, rfl, fun b => ⟨rfl, fun j => by simp⟩⟩
  | cons hd tl ih =>
    obtain ⟨src, dst⟩ := hd
    have h0 : i < (kill src).size := hsz (src, dst) (by simp)
    unfold fillKillEdges
    simp only [BitVector.set, h0, if_true]
    obtain ⟨kill', e, h⟩ := ih (upd kill src { kill src with bits := insert i (kill src).bits })
      (by
        intro e he
        have := hsz e (by simp [he])
        unfold upd
        split
        · rename_i heq; rw [heq] at this; exact this
        · exact this)
    refine ⟨kill', e, ?_⟩
    intro b
    obtain ⟨h1, h2⟩ := h b
    constructor
    · rw [h1]
      unfold upd
      split
      · rename_i heq; rw [heq]
      · rfl
    · intro j
      rw [h2 j]
      by_cases hb : b = src
      · subst hb
        simp only [upd, if_true, Finset.mem_insert, List.mem_cons, exists_eq_or_imp, true_or,
          and_true]
        tauto
      · simp only [upd, hb, if_false, List.mem_cons, exists_eq_or_imp]
        have : ¬ src = b := fun e => hb e.symm
        simp [this]

theorem fillKill_spec (K : K_t) (i0 : Nat) (kill : MBB → BitVector)
    (hsz : ∀ k ∈ K, ∀ e ∈ k, i0 + K.length ≤ (kill e.1).size) :
    ∃ kill', fillKill K i0 kill = some kill' ∧
      ∀ b j, j ∈ (kill' b).bits ↔
        j ∈ (kill b).bits ∨ ∃ n k, K[n]? = some k ∧ j = i0 + n ∧ ∃ e ∈ k, e.1 = b := by
  induction K generalizing i0 kill with
  | nil => exact ⟨kill, rfl, fun b j => by simp⟩
  | cons k ks ih =>
    have h0 : ∀ e ∈ k.iter, i0 < (kill e.1).size := by
      intro e he
      have := hsz k (by simp) e ((mem_legacy_iter k e).1 he)
      simp at this
      omega
    obtain ⟨kill1, e1, h1⟩ := fillKillEdges_spec i0 k.iter kill h0
    unfold fillKill
    rw [e1]
    simp only []
    obtain ⟨kill', e', h'⟩ := ih (i0 + 1) kill1 (by
      intro k' hk' e he
      have := hsz k' (by simp [hk']) e he
      rw [(h1 e.1).1]
      simp at this
      omega)
    refine ⟨kill', e', ?_⟩
    intro b j
    rw [h' b j, (h1 b).2 j]
    constructor
    · rintro ((h | ⟨h, e, he, hb⟩) | ⟨n, k', hk', hj, hex⟩)
      · exact Or.inl h
      · exact Or.inr ⟨0, k, by simp, by omega, e, (mem_legacy_iter k e).1 he, hb⟩
      · exact Or.inr ⟨n + 1, k', by simpa using hk', by omega, hex⟩
    · rintro (h | ⟨n, k', hk', hj, hex⟩)
      · exact Or.inl (Or.inl h)
      · cases n with
        | zero =>
          simp only [List.getElem?_cons_zero, Option.some.injEq] at hk'
          subst hk'
          obtain ⟨e, he, hb⟩ := hex
          exact Or.inl (Or.inr ⟨by omega, e, (mem_legacy_iter k e).2 he, hb⟩)
        | succ n =>
          exact Or.inr ⟨n, k', by simpa using hk', by omega, hex⟩

theorem ueuInit_fold (gk : GenKill) (po : List MBB) (st : UEUState) :
    (po.foldl (fun st b =>
        ({ worklist := st.worklist ++ [b], bvIn := upd st.bvIn b (gk.gen b) } : UEUState))
      st).worklist = st.worklist ++ po ∧
    ∀ b, (po.foldl (fun st b =>
        ({ worklist := st.worklist ++ [b], bvIn := upd st.bvIn b (gk.gen b) } : UEUState))
      st).bvIn b = if b ∈ po then gk.gen b else st.bvIn b := by
  induction po generalizing st with
  | nil => simp
  | cons a po ih =>
    simp only [List.foldl_cons]
    obtain ⟨h1, h2⟩ := ih { worklist := st.worklist ++ [a], bvIn := upd st.bvIn a (gk.gen a) }
    refine ⟨by rw [h1]; simp, ?_⟩
    intro b
    rw [h2 b]
    by_cases hb : b ∈ po
    · simp [hb]
    · by_cases hba : b = a
      · subst hba; simp [upd]
      · simp [hb, hba, upd]

theorem ueuInit_spec (gk : GenKill) (po : List MBB) :
    (ueuInit gk po).worklist = po ∧
    ∀ b, (ueuInit gk po).bvIn b = if b ∈ po then gk.gen b else {} := by
  obtain ⟨h1, h2⟩ := ueuInit_fold gk po {}
  exact ⟨by simpa [ueuInit] using h1, fun b => by simpa [ueuInit] using h2 b⟩

theorem mem_foldl_or (bvIn : MBB → BitVector) (ss : List MBB) (init : BitVector) (i : Nat) :
    i ∈ (ss.foldl (fun out s => out.or (bvIn s)) init).bits ↔
      i ∈ init.bits ∨ ∃ s ∈ ss, i ∈ (bvIn s).bits := by
  induction ss generalizing init with
  | nil => simp
  | cons s ss ih =>
    simp only [List.foldl_cons]
    rw [ih]
    simp only [BitVector.or, Finset.mem_union, List.mem_cons, exists_eq_or_imp]
    tauto

/-- The bits of `bvOut`: the backward equation of the data-flow problem. -/
theorem mem_ueuOut (MF : MachineFunction) (Ksize : Nat) (gk : GenKill)
    (bvIn : MBB → BitVector) (b : MBB) (i : Nat) :
    i ∈ (ueuOut MF Ksize gk bvIn b).bits ↔
      i ∈ (gk.gen b).bits ∨
        (i ∉ (gk.kill b).bits ∧ ∃ s ∈ MF.succs b, i ∈ (bvIn s).bits) := by
  unfold ueuOut
  have h1 : ∀ (v w : BitVector), i ∈ (v.or w).bits ↔ i ∈ v.bits ∨ i ∈ w.bits := by
    intro v w
    simp [BitVector.or]
  have h2 : ∀ (v w : BitVector), i ∈ (v.reset w).bits ↔ i ∈ v.bits ∧ i ∉ w.bits := by
    intro v w
    simp [BitVector.reset]
  rw [h1, h2, mem_foldl_or]
  simp only [BitVector.ofSize, Finset.not_mem_empty, false_or]
  constructor
  · rintro (⟨h, hk⟩ | h)
    · exact Or.inr ⟨hk, h⟩
    · exact Or.inl h
  · rintro (h | ⟨hk, h⟩)
    · exact Or.inr h
    · exact Or.inl ⟨h, hk⟩

theorem ueuOut_mono (MF : MachineFunction) (Ksize : Nat) (gk : GenKill)
    (in1 in2 : MBB → BitVector) (h : ∀ x, (in1 x).bits ⊆ (in2 x).bits) (b : MBB) :
    (ueuOut MF Ksize gk in1 b).bits ⊆ (ueuOut MF Ksize gk in2 b).bits := by
  intro i hi
  rw [mem_ueuOut] at hi ⊢
  rcases hi with hi | ⟨h1, s, hs, h2⟩
  · exact Or.inl hi
  · exact Or.inr ⟨h1, s, hs, h s h2⟩

theorem ueuOut_bound (MF : MachineFunction) (Ksize : Nat) (gk : GenKill)
    (bvIn : MBB → BitVector) (hgen : ∀ b, (gk.gen b).bits ⊆ Finset.range Ksize)
    (hin : ∀ b, (bvIn b).bits ⊆ Finset.range Ksize) (b : MBB) :
    (ueuOut MF Ksize gk bvIn b).bits ⊆ Finset.range Ksize := by
  intro i hi
  rw [mem_ueuOut] at hi
  rcases hi with hi | ⟨_, s, _, h2⟩
  · exact hgen b hi
  · exact hin s h2

theorem ueuSlack_update (Ksize : Nat) (U : Finset MBB) (bvIn : MBB → BitVector) (b : MBB)
    (v : BitVector) (hb : b ∈ U) (hsub : (bvIn b).bits ⊆ v.bits) (hne : v.bits ≠ (bvIn b).bits)
    (hv : v.bits ⊆ Finset.range Ksize) :
    ueuSlack Ksize U (upd bvIn b v) + 1 ≤ ueuSlack Ksize U bvIn := by
  unfold ueuSlack
  have hlt : (bvIn b).bits.card < v.bits.card :=
    Finset.card_lt_card (Finset.ssubset_iff_subset_ne.2 ⟨hsub, fun e => hne e.symm⟩)
  have hle : v.bits.card ≤ Ksize := by
    have := Finset.card_le_card hv
    simpa using this
  have : U.sum (fun x => Ksize - ((upd bvIn b v) x).bits.card) <
      U.sum (fun x => Ksize - (bvIn x).bits.card) := by
    apply Finset.sum_lt_sum
    · intro x _
      unfold upd
      split
      · rename_i h; subst h; omega
      · exact le_refl _
    · refine ⟨b, hb, ?_⟩
      simp only [upd, if_true]
      omega
  omega

/-- The worklist iteration terminates, with an empty worklist and the invariant
intact, when the fuel exceeds the worklist length plus the remaining slack
weighted by the number of predecessor entries. -/
theorem ueuLoop_spec (MF : MachineFunction) (Ksize : Nat) (gk : GenKill) (U : Finset MBB)
    (S : MBB → Prop) (e : MBB)
    (hS : ∀ b, S b → b ∈ U) (he : e ∈ U) (hesucc : MF.succs e = [])
    (hcons : ∀ a ∈ U, ∀ b ∈ U, (b ∈ MF.succs a ↔ a ∈ MF.preds b))
    (hUp : ∀ x ∈ U, ∀ y ∈ MF.preds x, y ∈ U)
    (hgen : ∀ b, (gk.gen b).bits ⊆ Finset.range Ksize) (f : Nat) :
    ∀ st, UEUInv MF Ksize gk U S e st →
      st.worklist.length + (U.sum (fun b => (MF.preds b).length)) * ueuSlack Ksize U st.bvIn < f →
      ∃ st', ueuLoop MF Ksize gk f st = some st' ∧ UEUInv MF Ksize gk U S e st' ∧
        st'.worklist = [] := by
  induction f with
  | zero => intro st _ h; omega
  | succ f ih =>
    intro st hinv hf
    unfold ueuLoop
    cases hwl : st.worklist with
    | nil => exact ⟨st, rfl, hinv, hwl⟩
    | cons b rest =>
      simp only []
      have hbU : b ∈ U := hinv.wlU b (by simp [hwl])
      have hbe : b ≠ e := fun h => hinv.wlNe (by simp [hwl, h])
      have hrestU : ∀ x ∈ rest, x ∈ U := fun x hx => hinv.wlU x (by simp [hwl, hx])
      have hrestNe : e ∉ rest := fun h => hinv.wlNe (by simp [hwl, h])
      by_cases hch : (ueuOut MF Ksize gk st.bvIn b).bits ≠ (st.bvIn b).bits
      · -- the set of `b` changes
        have hne : (ueuOut MF Ksize gk st.bvIn b).ne (st.bvIn b) = true := by
          simp [BitVector.ne, hch]
        simp only [hne, if_true]
        have hpw : ∀ x, (st.bvIn x).bits ⊆
            ((upd st.bvIn b (ueuOut MF Ksize gk st.bvIn b)) x).bits := by
          intro x
          unfold upd
          split
          · rename_i h; subst h; exact hinv.mono x hbe
          · exact Finset.Subset.refl _
        have hinv' : UEUInv MF Ksize gk U S e
            { worklist := rest ++ MF.preds b,
              bvIn := upd st.bvIn b (ueuOut MF Ksize gk st.bvIn b) } := by
          refine ⟨?_, ?_, ?_, ?_, ?_, ?_⟩
          · intro x hx
            rcases List.mem_append.1 hx with h | h
            · exact hrestU x h
            · exact hUp b hbU x h
          · intro h
            rcases List.mem_append.1 h with h | h
            · exact hrestNe h
            · have := (hcons e he b hbU).2 h
              rw [hesucc] at this
              simp at this
          · intro x hxS hxe hun
            simp only [] at hun ⊢
            by_cases hbs : b ∈ MF.succs x
            · exact List.mem_append_right _ ((hcons x (hS x hxS) b hbU).1 hbs)
            · have hout : (ueuOut MF Ksize gk (upd st.bvIn b (ueuOut MF Ksize gk st.bvIn b)) x).bits
                  = (ueuOut MF Ksize gk st.bvIn x).bits := by
                ext i
                rw [mem_ueuOut, mem_ueuOut]
                have : ∀ s ∈ MF.succs x,
                    (upd st.bvIn b (ueuOut MF Ksize gk st.bvIn b)) s = st.bvIn s := by
                  intro s hs
                  have : s ≠ b := fun h => hbs (h ▸ hs)
                  simp [upd, this]
                constructor
                · rintro (h | ⟨h1, s, hs, h2⟩)
                  · exact Or.inl h
                  · exact Or.inr ⟨h1, s, hs, this s hs ▸ h2⟩
                · rintro (h | ⟨h1, s, hs, h2⟩)
                  · exact Or.inl h
                  · exact Or.inr ⟨h1, s, hs, (this s hs).symm ▸ h2⟩
              rw [hout] at hun
              by_cases hxb : x = b
              · subst hxb
                simp [upd] at hun
              · have hx' : (upd st.bvIn b (ueuOut MF Ksize gk st.bvIn b)) x = st.bvIn x := by
                  simp [upd, hxb]
                rw [hx'] at hun
                have := hinv.unstable x hxS hxe hun
                rw [hwl] at this
                rcases List.mem_cons.1 this with h | h
                · exact absurd h hxb
                · exact List.mem_append_left _ h
          · intro x hxe
            simp only []
            have h1 := ueuOut_mono MF Ksize gk st.bvIn _ hpw x
            by_cases hxb : x = b
            · subst hxb
              simpa [upd] using ueuOut_mono MF Ksize gk st.bvIn _ hpw x
            · have hx' : (upd st.bvIn b (ueuOut MF Ksize gk st.bvIn b)) x = st.bvIn x := by
                simp [upd, hxb]
              rw [hx']
              exact Finset.Subset.trans (hinv.mono x hxe) h1
          · intro x
            simp only []
            unfold upd
            split
            · exact ueuOut_bound MF Ksize gk st.bvIn hgen hinv.bound b
            · exact hinv.bound x
          · simp only []
            have : e ≠ b := fun h => hbe h.symm
            simp [upd, this, hinv.exitAll]
        have hslack := ueuSlack_update Ksize U st.bvIn b (ueuOut MF Ksize gk st.bvIn b) hbU
          (hinv.mono b hbe) hch (ueuOut_bound MF Ksize gk st.bvIn hgen hinv.bound b)
        have hD : (MF.preds b).length ≤ U.sum (fun x => (MF.preds x).length) :=
          Finset.single_le_sum (f := fun x => (MF.preds x).length) (fun _ _ => Nat.zero_le _) hbU
        refine ih _ hinv' ?_
        simp only [List.length_append]
        rw [hwl] at hf
        simp only [List.length_cons] at hf
        have hmul : U.sum (fun x => (MF.preds x).length) *
            (ueuSlack Ksize U (upd st.bvIn b (ueuOut MF Ksize gk st.bvIn b)) + 1) ≤
            U.sum (fun x => (MF.preds x).length) * ueuSlack Ksize U st.bvIn :=
          Nat.mul_le_mul_left _ hslack
        rw [Nat.mul_add, Nat.mul_one] at hmul
        omega
      · -- the set of `b` is unchanged
        push_neg at hch
        have hne : (ueuOut MF Ksize gk st.bvIn b).ne (st.bvIn b) = false := by
          simp [BitVector.ne, hch]
        simp only [hne, Bool.false_eq_true, if_false]
        have hinv' : UEUInv MF Ksize gk U S e { st with worklist := rest } := by
          refine ⟨hrestU, hrestNe, ?_, hinv.mono, hinv.bound, hinv.exitAll⟩
          intro x hxS hxe hun
          have := hinv.unstable x hxS hxe hun
          rw [hwl] at this
          rcases List.mem_cons.1 this with h | h
          · subst h
            exact absurd hch.symm hun
          · exact h
        refine ih _ hinv' ?_
        rw [hwl] at hf
        simp only [List.length_cons] at hf
        simp only []
        omega

/-- C3: on a loop-free CFG whose blocks all have a predicate below `|K|` in `R`
and whose defining edges leave blocks known to `R`, `computeUpwardsExposedUses`
returns (given the fuel `ueuFuelBound` for the worklist), and its result is
sound: for a block `B` with predicate `i = R[B]`, if `i` is not in the returned
set then every CFG path from the entry to `B` contains, strictly before `B`, a
block that is the source of a defining edge of `K[i]`. (A block with such a path
is reachable from the entry; the number of exits plays no role.) -/
theorem upwardsExposedUses_sound (MF : MachineFunction) (K : K_t) (R : R_t) (entry : MBB)
    (hentry : MF.front = some entry)
    (hcons : ∀ a ∈ MF.blocks.toFinset, ∀ b ∈ MF.blocks.toFinset,
      (b ∈ MF.succs a ↔ a ∈ MF.preds b))
    (hUs : ∀ x ∈ MF.blocks.toFinset, ∀ y ∈ MF.succs x, y ∈ MF.blocks.toFinset)
    (hUp : ∀ x ∈ MF.blocks.toFinset, ∀ y ∈ MF.preds x, y ∈ MF.blocks.toFinset)
    (hac : AcyclicOn MF.blocks.toFinset MF.succs)
    (hRkeys : (R.map Prod.fst).Nodup)
    (hRcov : ∀ b ∈ MF.blocks.toFinset, b ∈ R.map Prod.fst)
    (hRlt : ∀ e ∈ R, e.2 < K.length)
    (hKsrc : ∀ k ∈ K, ∀ e ∈ k, e.1 ∈ R.map Prod.fst)
    (fuelPO fuelWL : Nat) (hfPO : MF.blocks.toFinset.card ≤ fuelPO)
    (hfWL : ueuFuelBound MF K.length ≤ fuelWL) :
    ∃ init, computeUpwardsExposedUses MF K R fuelPO fuelWL = some init ∧
      ∀ B i, (B, i) ∈ R → i ∉ init.bits →
        ∀ p : List MBB, List.Chain' (fun a b => b ∈ MF.succs a) p → p.head? = some entry →
          p.getLast? = some B → ∃ X ∈ p.dropLast, definesPred K i X := by
  have hentryU : entry ∈ MF.blocks.toFinset := by
    unfold MachineFunction.front at hentry
    exact List.mem_toFinset.2 (List.mem_of_mem_head? hentry)
  -- gen and kill
  obtain ⟨gk0, e0, hgk0⟩ := fillGen_spec K.length R {} hRkeys hRlt
  have hk0 : ∀ b, (gk0.kill b).bits = ∅ := by
    intro b
    rw [(hgk0 b).2]
    cases mapFind R b <;> simp [BitVector.ofSize]
  obtain ⟨kill, ek, hkill⟩ := fillKill_spec K 0 gk0.kill (by
    intro k hk e he
    have := (mapFind_isSome_iff R e.1).2 (hKsrc k hk e he)
    obtain ⟨r, hr⟩ := Option.isSome_iff_exists.1 this
    rw [(hgk0 e.1).2, hr]
    simp [BitVector.ofSize])
  have hgenR : ∀ b i, (b, i) ∈ R → gk0.gen b = { size := K.length, bits := {i} } := by
    intro b i hbi
    rw [(hgk0 b).1, (mapFind_eq_some_iff R hRkeys b i).2 hbi]
  have hgen : ∀ b, (gk0.gen b).bits ⊆ Finset.range K.length := by
    intro b
    rw [(hgk0 b).1]
    cases hf : mapFind R b with
    | none => simp
    | some r =>
      have := hRlt (b, r) ((mapFind_eq_some_iff R hRkeys b r).1 hf)
      simpa using this
  have hkillbits : ∀ b i, i ∈ (kill b).bits ↔ definesPred K i b := by
    intro b i
    rw [hkill b i, hk0 b]
    simp only [Finset.not_mem_empty, false_or, zero_add, definesPred]
    constructor
    · rintro ⟨n, k, h1, h2, h3⟩
      exact ⟨k, h2 ▸ h1, h3⟩
    · rintro ⟨k, h1, h3⟩
      exact ⟨i, k, h1, rfl, h3⟩
  -- the post-order
  obtain ⟨dst, edst, inv, _, _, pre, hpre⟩ :=
    dfsVisit_from_empty MF.succs MF.blocks.toFinset hUs entry hentryU fuelPO hfPO
  have hpo : postOrder MF.succs fuelPO entry = some dst.order := by
    simp [postOrder, edst]
  obtain ⟨first, rest, hord⟩ : ∃ first rest, dst.order = first :: rest := by
    cases h : dst.order with
    | nil => rw [h] at hpre; simp at hpre
    | cons a l => exact ⟨a, l, rfl⟩
  have hfirstmem : first ∈ dst.order := by rw [hord]; simp
  have hfirstU : first ∈ MF.blocks.toFinset := inv.inU first hfirstmem
  have hnd : (first :: rest).Nodup := hord ▸ inv.nodup
  have hesucc : MF.succs first = [] := by
    cases hs : MF.succs first with
    | nil => rfl
    | cons y ys =>
      have := (inv.topo hac first hfirstmem y (by rw [hs]; simp)).2
      rw [hord] at this
      simp at this
  obtain ⟨hwl0, hin0⟩ := ueuInit_spec { gen := gk0.gen, kill := kill } dst.order
  have hfirstgen : ∃ i, gk0.gen first = { size := K.length, bits := {i} } := by
    obtain ⟨⟨b, i⟩, hi, hb⟩ := List.mem_map.1 (hRcov first hfirstU)
    simp only [] at hb
    subst hb
    exact ⟨i, hgenR b i hi⟩
  have hin1 : ∀ x, x ≠ first →
      (upd (ueuInit { gen := gk0.gen, kill := kill } dst.order).bvIn first
        ((ueuInit { gen := gk0.gen, kill := kill } dst.order).bvIn first).setAll) x =
      if x ∈ dst.order then gk0.gen x else {} := by
    intro x hx
    simp only [upd, hx, if_false]
    exact hin0 x
  have hin1e : ((upd (ueuInit { gen := gk0.gen, kill := kill } dst.order).bvIn first
        ((ueuInit { gen := gk0.gen, kill := kill } dst.order).bvIn first).setAll) first).bits =
      Finset.range K.length := by
    obtain ⟨i, hi⟩ := hfirstgen
    simp only [upd, if_true]
    rw [hin0 first]
    simp [hfirstmem, hi, BitVector.setAll]
  have hinv1 : UEUInv MF K.length { gen := gk0.gen, kill := kill } MF.blocks.toFinset
      (fun b => b ∈ dst.order) first
      { worklist := rest,
        bvIn := upd (ueuInit { gen := gk0.gen, kill := kill } dst.order).bvIn first
          ((ueuInit { gen := gk0.gen, kill := kill } dst.order).bvIn first).setAll } := by
    refine ⟨?_, (List.nodup_cons.1 hnd).1, ?_, ?_, ?_, hin1e⟩
    · intro b hb
      exact inv.inU b (by rw [hord]; simp [hb])
    · intro b hb hbe _
      simp only [] at hb
      rw [hord] at hb
      rcases List.mem_cons.1 hb with h | h
      · exact absurd h hbe
      · exact h
    · intro b hbe
      simp only []
      rw [hin1 b hbe]
      intro i hi
      rw [mem_ueuOut]
      left
      split at hi
      · exact hi
      · simp at hi
    · intro b
      simp only []
      by_cases hbe : b = first
      · subst hbe; rw [hin1e]
      · rw [hin1 b hbe]
        split
        · exact hgen b
        · simp
  have hfuel : rest.length + (MF.blocks.toFinset.sum (fun b => (MF.preds b).length)) *
      ueuSlack K.length MF.blocks.toFinset
        (upd (ueuInit { gen := gk0.gen, kill := kill } dst.order).bvIn first
          ((ueuInit { gen := gk0.gen, kill := kill } dst.order).bvIn first).setAll) < fuelWL := by
    have h1 : rest.length < MF.blocks.toFinset.card := by
      have hs : dst.order.toFinset ⊆ MF.blocks.toFinset :=
        fun x hx => inv.inU x (List.mem_toFinset.1 hx)
      have := Finset.card_le_card hs
      rw [List.toFinset_card_of_nodup inv.nodup, hord] at this
      simp at this
      omega
    have h2 : ∀ bvIn, ueuSlack K.length MF.blocks.toFinset bvIn ≤
        MF.blocks.toFinset.card * K.length := by
      intro bvIn
      unfold ueuSlack
      have := Finset.sum_le_sum (s := MF.blocks.toFinset)
        (f := fun b => K.length - (bvIn b).bits.card) (g := fun _ => K.length)
        (fun b _ => Nat.sub_le _ _)
      simpa using this
    have h3 := Nat.mul_le_mul_left (MF.blocks.toFinset.sum (fun b => (MF.preds b).length))
      (h2 (upd (ueuInit { gen := gk0.gen, kill := kill } dst.order).bvIn first
          ((ueuInit { gen := gk0.gen, kill := kill } dst.order).bvIn first).setAll))
    unfold ueuFuelBound at hfWL
    omega
  obtain ⟨fin, efin, invfin, hwlfin⟩ :=
    ueuLoop_spec MF K.length { gen := gk0.gen, kill := kill } MF.blocks.toFinset
      (fun b => b ∈ dst.order) first (fun b hb => inv.inU b hb) hfirstU hesucc hcons hUp hgen
      fuelWL _ hinv1 hfuel
  refine ⟨fin.bvIn entry, ?_, ?_⟩
  · unfold computeUpwardsExposedUses
    rw [e0]
    simp only []
    rw [ek]
    simp only [hentry, hpo]
    rw [hwl0, hord]
    simp only []
    rw [← hord, efin]
  · -- soundness at the fixed point
    have hfix : ∀ b, b ∈ dst.order → b ≠ first →
        (fin.bvIn b).bits = (ueuOut MF K.length { gen := gk0.gen, kill := kill } fin.bvIn b).bits := by
      intro b hb hbe
      by_contra hne
      have := invfin.unstable b hb hbe hne
      rw [hwlfin] at this
      simp at this
    have hclosed : ∀ a, a ∈ dst.order → ∀ y ∈ MF.succs a, y ∈ dst.order := by
      intro a ha y hy
      have hv := inv.closed a ha y hy
      by_contra hno
      have hg : y ∈ dst.visited ∧ y ∉ dst.order := ⟨hv, hno⟩
      have hall := (dfsVisit_from_empty MF.succs MF.blocks.toFinset hUs entry hentryU fuelPO hfPO)
      obtain ⟨st2, e2, _, _, hvo, _⟩ := hall
      rw [edst] at e2
      have := Option.some.inj e2
      subst this
      exact hno ((hvo y).1 hv)
    intro B i hBi hnot p
    have key : ∀ (p : List MBB) (a : MBB), List.Chain' (fun a b => b ∈ MF.succs a) p →
        p.head? = some a → a ∈ dst.order → p.getLast? = some B →
        (∀ X ∈ p.dropLast, ¬ definesPred K i X) → i ∈ (fin.bvIn a).bits := by
      intro p
      induction p with
      | nil => intro a _ h; simp at h
      | cons x tl ih =>
        intro a hchain hhead ha hlast hno
        simp only [List.head?_cons, Option.some.injEq] at hhead
        subst hhead
        cases tl with
        | nil =>
          simp only [List.getLast?_singleton, Option.some.injEq] at hlast
          subst hlast
          by_cases hxe : x = first
          · rw [hxe, invfin.exitAll]
            simpa using hRlt (x, i) hBi
          · rw [hfix x ha hxe, mem_ueuOut]
            left
            simp [hgenR x i hBi]
        | cons y rest' =>
          rw [List.chain'_cons] at hchain
          have hy : y ∈ dst.order := hclosed x ha y hchain.1
          have hlast' : (y :: rest').getLast? = some B := by
            simpa [List.getLast?_cons_cons] using hlast
          have hiy := ih y hchain.2 rfl hy hlast' (by
            intro X hX
            exact hno X (by simp [List.dropLast_cons₂, hX]))
          have hxe : x ≠ first := by
            intro h
            rw [h, hesucc] at hchain
            simp at hchain
          rw [hfix x ha hxe, mem_ueuOut]
          right
          refine ⟨?_, y, hchain.1, hiy⟩
          rw [hkillbits]
          exact hno x (by simp [List.dropLast_cons₂])
    intro hchain hhead hlast
    by_contra hnone
    push_neg at hnone
    have hentryord : entry ∈ dst.order := by rw [hpre]; simp
    exact hnot (key p entry hchain hhead hentryord hlast hnone)

/-- Witness of C3 on the diamond of S1 with its decomposition. -/
theorem upwardsExposedUses_sound_witness :
    ∃ init, computeUpwardsExposedUses diamondMF diamondK diamondR 5 81 = some init ∧
      ∀ B i, (B, i) ∈ diamondR → i ∉ init.bits →
        ∀ p : List MBB, List.Chain' (fun a b => b ∈ diamondMF.succs a) p →
          p.head? = some 0 → p.getLast? = some B →
          ∃ X ∈ p.dropLast, definesPred diamondK i X :=
  upwardsExposedUses_sound diamondMF diamondK diamondR 0 rfl (by decide) (by decide)
    (by decide)
    (acyclicOn_of_rank diamondMF.blocks.toFinset _ (fun b => 5 - b) (by decide) (by decide))
    (by decide) (by decide) (by decide) (by decide) 5 81 (by decide) (by decide)

/-! ## C11, C18: the legacy pass on the chain and on a function with two exits -/

/-- The tree given for the chain is its post-dominator tree. -/
theorem chain_tree_is_postdominator_tree :
    ∀ a ∈ chainMF.blocks, ∀ b ∈ chainMF.blocks,
      chainPDT.dominates 5 a b = postDominatesBy chainMF 5 a b := by
  decide

/-- C11: on the straight chain of S4 the legacy pipeline gives one predicate
(`|K| = 1`, with `K[0]` empty), every block uses predicate 0, and
`insertPredDefinitions`, for whatever host hooks, initialization set and
instructions, returns its state unchanged: it emits no predicate move and no
clear instruction, allocates no register and records no use register. -/
theorem chain_has_one_predicate_and_no_defines :
    legacyDecomposition chainMF chainPDT 5 = some ([∅], chainR) ∧
    (legacyDecomposition chainMF chainPDT 5).map (fun KR => KR.1.length) = some 1 ∧
    (∀ b ∈ chainMF.blocks, mapFind chainR b = some 0) ∧
    (legacyInitSet chainMF chainPDT 5).map (fun v => v.bits) = some {0} ∧
    ∀ (TII : TargetHooks) (needsInit : BitVector) (st : PredDefState),
      insertPredDefinitions TII chainMF [∅] chainR needsInit st = some st := by
  refine ⟨by decide, by decide, by decide, by decide, ?_⟩
  intro TII needsInit st
  simp [insertPredDefinitions, insertPredLoop]

/-- C18: when the post-dominator tree of the function has more than one root,
`computeControlDependence` fails on its assertion and produces no
control-dependence map. -/
theorem computeControlDependence_rejects_multiple_roots (MF : MachineFunction)
    (PDT : PostDomTree) (fuel : Nat) (CD : CD_map_t) (h : 1 < PDT.roots.length) :
    computeControlDependence MF PDT fuel CD = none := by
  unfold computeControlDependence
  have : ¬ PDT.roots.length = 1 := by omega
  simp [this]

/-- Witness of C18 on a function with two exits. -/
theorem computeControlDependence_rejects_multiple_roots_witness :
    computeControlDependence twoExitMF twoExitPDT 5 (fun _ => ∅) = none :=
  computeControlDependence_rejects_multiple_roots twoExitMF twoExitPDT 5 (fun _ => ∅)
    (by decide)

/-! ## C20: the numbering of the predicates -/

theorem decomposeLoop_append (CD : MBBPtr → Option CDEntry) (l1 l2 : List MBB)
    (acc : DecompAcc) :
    decomposeLoop CD (l1 ++ l2) acc = (decomposeLoop CD l1 acc).bind (decomposeLoop CD l2) := by
  induction l1 generalizing acc with
  | nil => simp [decomposeLoop]
  | cons b l1 ih =>
    simp only [List.cons_append, decomposeLoop]
    cases decomposeStep CD acc b with
    | none => simp
    | some acc1 => simpa using ih acc1

theorem decomposeStep_K_prefix (CD : MBBPtr → Option CDEntry) (acc acc' : DecompAcc) (b : MBB)
    (h : decomposeStep CD acc b = some acc') : ∃ ext, acc'.K = acc.K ++ ext := by
  unfold decomposeStep at h
  split at h
  · simp at h
  · split at h
    · simp at h
    · split at h
      · have := Option.some.inj h
        subst this
        exact ⟨[], by simp⟩
      · have := Option.some.inj h
        subst this
        exact ⟨_, rfl⟩

theorem decomposeLoop_K_prefix (CD : MBBPtr → Option CDEntry) (bs : List MBB)
    (acc acc' : DecompAcc) (h : decomposeLoop CD bs acc = some acc') :
    ∃ ext, acc'.K = acc.K ++ ext := by
  induction bs generalizing acc with
  | nil =>
    simp only [decomposeLoop, Option.some.injEq] at h
    subst h
    exact ⟨[], by simp⟩
  | cons b bs ih =>
    unfold decomposeLoop at h
    split at h
    · simp at h
    · rename_i acc1 h1
      obtain ⟨e1, he1⟩ := decomposeStep_K_prefix CD acc acc1 b h1
      obtain ⟨e2, he2⟩ := ih acc1 h
      exact ⟨e1 ++ e2, by rw [he2, he1, List.append_assoc]⟩

/-- A new control-dependence set is appended to `K`. -/
theorem decomposeStep_new (CD : MBBPtr → Option CDEntry) (acc acc' : DecompAcc) (b : MBB)
    (t : CDEntry) (ht : CD (some b) = some t) (hnew : t ∉ acc.K)
    (h : decomposeStep CD acc b = some acc') : acc'.K = acc.K ++ [t] := by
  unfold decomposeStep at h
  rw [ht] at h
  simp only [] at h
  split at h
  · simp at h
  · split at h
    · rename_i q hq
      obtain ⟨j, _, hj⟩ := lookupK_some t acc.K 0 q hq
      exact absurd (List.getElem?_mem hj) hnew
    · have := Option.some.inj h
      subst this
      rfl

theorem getElem?_inj_of_nodup {σ : Type} (K : List σ) (hnd : K.Nodup) (i j : Nat) (t : σ)
    (hi : K[i]? = some t) (hj : K[j]? = some t) : i = j := by
  have hl1 : i < K.length := by
    by_contra hge
    rw [List.getElem?_eq_none (by omega)] at hi
    simp at hi
  have hl2 : j < K.length := by
    by_contra hge
    rw [List.getElem?_eq_none (by omega)] at hj
    simp at hj
  rw [List.getElem?_eq_getElem hl1] at hi
  rw [List.getElem?_eq_getElem hl2] at hj
  exact (List.Nodup.getElem_inj_iff hnd).1 ((Option.some.inj hi).trans (Option.some.inj hj).symm)

/-- C20: `SPScope::decompose` numbers the predicates by first encounter in
`Blocks` order. For a block `b` preceded in `Blocks` by the blocks `pre`: its id
`r` is 0 when it is the first block; it is the id of every earlier block with an
equal control-dependence set (so of the earliest one); and when no earlier block
has an equal set, `r` is the number of distinct sets among the earlier blocks,
every earlier id is smaller than `r`, and (for a later block) some earlier block
has the id `r - 1`: `r` is 1 + the maximum id assigned before. -/
theorem decompose_numbering_first_encounter (s s' : SPScope) (h : decompose s = some s')
    (pre : List MBB) (b : MBB) (post : List MBB) (hsplit : s.Blocks = pre ++ b :: post) :
    ∃ r, getPredUse s' b = some [r] ∧
      (pre = [] → r = 0) ∧
      (∀ b' ∈ pre, s.CD (some b') = s.CD (some b) → getPredUse s' b' = some [r]) ∧
      ((∀ b' ∈ pre, s.CD (some b') ≠ s.CD (some b)) →
        r = ((pre.filterMap (fun x => s.CD (some x))).toFinset).card ∧
        (∀ b' ∈ pre, ∃ r', getPredUse s' b' = some [r'] ∧ r' < r) ∧
        (pre ≠ [] → 1 ≤ r ∧ ∃ b' ∈ pre, getPredUse s' b' = some [r - 1])) := by
  obtain ⟨accF, hloop, _, huse, _, _⟩ := decompose_eq s s' h
  have hinvF := decomposeLoop_inv s.CD s.Blocks [] {} accF (decompInv_init s.CD) hloop
  simp only [List.nil_append] at hinvF
  -- the state after the blocks `pre`, and after `b`
  rw [hsplit, decomposeLoop_append] at hloop
  obtain ⟨acc1, h1, hrest⟩ := Option.bind_eq_some.1 hloop
  have hinv1 := decomposeLoop_inv s.CD pre [] {} acc1 (decompInv_init s.CD) h1
  simp only [List.nil_append] at hinv1
  unfold decomposeLoop at hrest
  cases h2 : decomposeStep s.CD acc1 b with
  | none => rw [h2] at hrest; simp at hrest
  | some acc2 =>
    rw [h2] at hrest
    simp only [] at hrest
    obtain ⟨ext, hext⟩ := decomposeLoop_K_prefix s.CD post acc2 accF hrest
    have hbmem : b ∈ s.Blocks := by rw [hsplit]; simp
    have hpremem : ∀ b' ∈ pre, b' ∈ s.Blocks := fun b' hb' => by rw [hsplit]; simp [hb']
    obtain ⟨r, t, hcd, hp, hk⟩ := hinvF.used b hbmem
    -- the final id of an earlier block indexes its set in the final `K`
    have hearlier : ∀ b' ∈ pre, ∃ r' t', s.CD (some b') = some t' ∧
        getPredUse s' b' = some [r'] ∧ accF.K[r']? = some t' ∧ t' ∈ acc1.K := by
      intro b' hb'
      obtain ⟨r', t', c1, c2, c3⟩ := hinvF.used b' (hpremem b' hb')
      obtain ⟨q1, t1, d1, _, d3⟩ := hinv1.used b' hb'
      rw [c1] at d1
      have := Option.some.inj d1
      subst this
      exact ⟨r', t', c1, by simp [getPredUse, huse, c2], c3, List.getElem?_mem d3⟩
    have hK1F : ∀ (j : Nat) (t' : CDEntry), acc1.K[j]? = some t' → accF.K[j]? = some t' := by
      intro j t' hj
      obtain ⟨e1, he1⟩ := decomposeStep_K_prefix s.CD acc1 acc2 b h2
      have hl : j < acc1.K.length := by
        by_contra hge
        rw [List.getElem?_eq_none (by omega)] at hj
        simp at hj
      rw [hext, he1, List.append_assoc, List.getElem?_append_left hl]
      exact hj
    have hnoearlier : (∀ b' ∈ pre, s.CD (some b') ≠ s.CD (some b)) → r = acc1.K.length := by
      intro hno
      have hnew : t ∉ acc1.K := by
        intro hmem
        obtain ⟨b', hb', hcd'⟩ := hinv1.fromBlocks t hmem
        exact hno b' hb' (hcd'.trans hcd.symm)
      have hK2 := decomposeStep_new s.CD acc1 acc2 b t hcd hnew h2
      have : accF.K[acc1.K.length]? = some t := by
        rw [hext, hK2, List.append_assoc, List.getElem?_append_right (le_refl _)]
        simp
      exact getElem?_inj_of_nodup accF.K hinvF.nodup _ _ t hk this
    refine ⟨r, by simp [getPredUse, huse, hp], ?_, ?_, ?_⟩
    · intro hpre
      subst hpre
      have := hnoearlier (by simp)
      simp only [decomposeLoop, Option.some.injEq] at h1
      subst h1
      simpa using this
    · intro b' hb' heq
      obtain ⟨r', t', c1, c2, c3, _⟩ := hearlier b' hb'
      rw [c2]
      rw [heq, hcd] at c1
      have := Option.some.inj c1
      subst this
      rw [getElem?_inj_of_nodup accF.K hinvF.nodup _ _ _ c3 hk]
    · intro hno
      have hr := hnoearlier hno
      refine ⟨?_, ?_, ?_⟩
      · rw [hr, ← List.toFinset_card_of_nodup hinv1.nodup]
        congr 1
        ext t'
        simp only [List.mem_toFinset, List.mem_filterMap]
        constructor
        · intro ht'
          obtain ⟨b', hb', hcd'⟩ := hinv1.fromBlocks t' ht'
          exact ⟨b', hb', hcd'⟩
        · rintro ⟨b', hb', hcd'⟩
          obtain ⟨_, t'', c1, _, _, c4⟩ := hearlier b' hb'
          rw [hcd'] at c1
          exact (Option.some.inj c1) ▸ c4
      · intro b' hb'
        obtain ⟨r', t', _, c2, c3, c4⟩ := hearlier b' hb'
        refine ⟨r', c2, ?_⟩
        obtain ⟨j, hj⟩ := List.getElem?_of_mem c4
        have hjl : j < acc1.K.length := by
          by_contra hge
          rw [List.getElem?_eq_none (by omega)] at hj
          simp at hj
        have := getElem?_inj_of_nodup accF.K hinvF.nodup _ _ _ c3 (hK1F j t' hj)
        omega
      · intro hpre
        obtain ⟨b0, hb0⟩ := List.exists_mem_of_ne_nil _ hpre
        obtain ⟨_, t0, _, _, _, c4⟩ := hearlier b0 hb0
        have hpos : 0 < acc1.K.length := List.length_pos_of_mem c4
        refine ⟨by omega, ?_⟩
        obtain ⟨tl, hlast⟩ : ∃ tl, acc1.K[acc1.K.length - 1]? = some tl :=
          ⟨_, List.getElem?_eq_getElem (by omega)⟩
        obtain ⟨b', hb', hcd'⟩ := hinv1.fromBlocks _ (List.getElem?_mem hlast)
        obtain ⟨r', t', c1, c2, c3, _⟩ := hearlier b' hb'
        rw [hcd'] at c1
        have := Option.some.inj c1
        subst this
        have := getElem?_inj_of_nodup accF.K hinvF.nodup _ _ _ c3 (hK1F _ _ hlast)
        refine ⟨b', hb', ?_⟩
        rw [c2, this, hr]

/-- Witness of C20 on `exScope`: block 2 follows the blocks 0 and 1 and shares
the set, hence the id, of block 0. -/
theorem decompose_numbering_first_encounter_witness :
    ∃ r, getPredUse exScopeDecomposed 2 = some [r] ∧
      (([0, 1] : List MBB) = [] → r = 0) ∧
      (∀ b' ∈ ([0, 1] : List MBB), exScope.CD (some b') = exScope.CD (some 2) →
        getPredUse exScopeDecomposed b' = some [r]) ∧
      ((∀ b' ∈ ([0, 1] : List MBB), exScope.CD (some b') ≠ exScope.CD (some 2)) →
        r = ((([0, 1] : List MBB).filterMap (fun x => exScope.CD (some x))).toFinset).card ∧
        (∀ b' ∈ ([0, 1] : List MBB), ∃ r', getPredUse exScopeDecomposed b' = some [r'] ∧ r' < r) ∧
        (([0, 1] : List MBB) ≠ [] →
          1 ≤ r ∧ ∃ b' ∈ ([0, 1] : List MBB), getPredUse exScopeDecomposed b' = some [r - 1])) :=
  decompose_numbering_first_encounter exScope exScopeDecomposed rfl [0, 1] 2 [] rfl

/-! ## C16, C17: the loop bound of a loop scope -/

/-- Reading the pointers again changes no member of a scope other than the
scopes seen through its `HeaderMap`. -/
theorem syncHeaderMaps_getElem? (l : ScopeHeap) (i : Nat) (S : SPScope) (h : l[i]? = some S) :
    ∃ hm, (syncHeaderMaps l)[i]? = some (S.withHeaderMap hm) := by
  induction l generalizing i with
  | nil => simp at h
  | cons S0 rest ih =>
    cases i with
    | zero =>
      simp only [List.getElem?_cons_zero, Option.some.injEq] at h
      subst h
      refine ⟨S0.HeaderMap.map (fun e =>
        (e.1, ((syncHeaderMaps rest).reverse.find?
          (fun T => decide (T.getHeader = some e.1 ∧ T.Parent = S0.getHeader))).getD e.2)), ?_⟩
      simp [syncHeaderMaps]
    | succ i =>
      simp only [List.getElem?_cons_succ] at h
      obtain ⟨hm, e⟩ := ih i h
      exact ⟨hm, by simpa [syncHeaderMaps] using e⟩

theorem dfsChildren_order {α : Type} [DecidableEq α]
    (visit : α → DfsState α → Option (DfsState α))
    (hvisit : ∀ c st st', visit c st = some st' →
      (∃ mid, st'.order = st.order ++ mid) ∧ (∀ x ∈ st.visited, x ∈ st'.visited) ∧
        c ∈ st'.visited)
    (cs : List α) (st st' : DfsState α) (h : dfsChildren visit cs st = some st') :
    (∃ mid, st'.order = st.order ++ mid) ∧ (∀ x ∈ st.visited, x ∈ st'.visited) ∧
      ∀ c ∈ cs, c ∈ st'.visited := by
  induction cs generalizing st with
  | nil =>
    simp only [dfsChildren, Option.some.injEq] at h
    subst h
    exact ⟨⟨[], by simp⟩, fun x hx => hx, by simp⟩
  | cons c cs ih =>
    unfold dfsChildren at h
    split at h
    · rename_i hc
      obtain ⟨h1, h2, h3⟩ := ih st h
      refine ⟨h1, h2, ?_⟩
      intro x hx
      rcases List.mem_cons.1 hx with hx | hx
      · subst hx; exact h2 _ hc
      · exact h3 x hx
    · split at h
      · simp at h
      · rename_i st1 hv
        obtain ⟨⟨m1, hm1⟩, g2, g3⟩ := hvisit c st st1 hv
        obtain ⟨⟨m2, hm2⟩, h2, h3⟩ := ih st1 h
        refine ⟨⟨m1 ++ m2, by rw [hm2, hm1, List.append_assoc]⟩, fun x hx => h2 x (g2 x hx), ?_⟩
        intro x hx
        rcases List.mem_cons.1 hx with hx | hx
        · subst hx; exact h2 _ g3
        · exact h3 x hx

/-- A traversal from `n` extends `order` and ends it with `n`. -/
theorem dfsVisit_order {α : Type} [DecidableEq α] (next : α → List α) (f : Nat) :
    ∀ n st st', dfsVisit next f n st = some st' →
      (∃ mid, st'.order = st.order ++ mid ++ [n]) ∧ (∀ x ∈ st.visited, x ∈ st'.visited) ∧
        n ∈ st'.visited := by
  induction f with
  | zero => intro n st st' h; simp [dfsVisit] at h
  | succ f ih =>
    intro n st st' h
    unfold dfsVisit at h
    split at h
    · simp at h
    · rename_i stc hc
      have := Option.some.inj h
      subst this
      have hv : ∀ c st st', dfsVisit next f c st = some st' →
          (∃ mid, st'.order = st.order ++ mid) ∧ (∀ x ∈ st.visited, x ∈ st'.visited) ∧
            c ∈ st'.visited := by
        intro c s1 s2 h12
        obtain ⟨⟨mid, hmid⟩, h2, h3⟩ := ih c s1 s2 h12
        exact ⟨⟨mid ++ [c], by rw [hmid, List.append_assoc]⟩, h2, h3⟩
      obtain ⟨⟨mid, hmid⟩, h2, _⟩ := dfsChildren_order (dfsVisit next f) hv _ _ _ hc
      refine ⟨⟨mid, by simp [hmid]⟩, ?_, ?_⟩
      · intro x hx
        exact h2 x (by simp [hx])
      · exact h2 n (by simp)

/-- The traversal of the children of `nentry` by `toposort`, when each of them
is `nexit` or the node of the header `h`: once the node of `h` is visited, it
is the last node of a block in `order`. -/
theorem toposort_children (next : Node → List Node) (h : MBB)
    (hexit : next Node.nexit = []) (f : Nat) (cs : List Node)
    (hcs : ∀ c ∈ cs, c = Node.nexit ∨ c = Node.blk h) (st st' : DfsState Node)
    (hJ : (Node.blk h ∉ st.visited ∧ st.order.filterMap Node.MBB = []) ∨
      ∃ A, st.order.filterMap Node.MBB = A ++ [h])
    (hrun : dfsChildren (dfsVisit next f) cs st = some st') :
    ((Node.blk h ∉ st'.visited ∧ st'.order.filterMap Node.MBB = []) ∨
      ∃ A, st'.order.filterMap Node.MBB = A ++ [h]) ∧
    ∀ c ∈ cs, c ∈ st'.visited := by
  induction cs generalizing st with
  | nil =>
    simp only [dfsChildren, Option.some.injEq] at hrun
    subst hrun
    exact ⟨hJ, by simp⟩
  | cons c cs ih =>
    have hmono : ∀ (s1 s2 : DfsState Node), dfsChildren (dfsVisit next f) cs s1 = some s2 →
        ∀ x ∈ s1.visited, x ∈ s2.visited := by
      intro s1 s2 h12
      refine (dfsChildren_order (dfsVisit next f) ?_ cs s1 s2 h12).2.1
      intro c s3 s4 h34
      obtain ⟨⟨mid, hmid⟩, h2, h3⟩ := dfsVisit_order next f c s3 s4 h34
      exact ⟨⟨mid ++ [c], by rw [hmid, List.append_assoc]⟩, h2, h3⟩
    have hcs' : ∀ c ∈ cs, c = Node.nexit ∨ c = Node.blk h := fun x hx => hcs x (by simp [hx])
    unfold dfsChildren at hrun
    split at hrun
    · rename_i hc
      obtain ⟨h1, h2⟩ := ih hcs' st hJ hrun
      refine ⟨h1, ?_⟩
      intro x hx
      rcases List.mem_cons.1 hx with hx | hx
      · subst hx; exact hmono st st' hrun _ hc
      · exact h2 x hx
    · rename_i hc
      split at hrun
      · simp at hrun
      · rename_i st1 hv
        obtain ⟨⟨mid, hmid⟩, g2, g3⟩ := dfsVisit_order next f c st st1 hv
        have hJ1 : (Node.blk h ∉ st1.visited ∧ st1.order.filterMap Node.MBB = []) ∨
            ∃ A, st1.order.filterMap Node.MBB = A ++ [h] := by
          rcases hcs c (by simp) with hcn | hcb
          · subst hcn
            -- the exit node has no successor: the visit appends it alone
            cases f with
            | zero => simp [dfsVisit] at hv
            | succ f' =>
              simp only [dfsVisit, hexit, dfsChildren, Option.some.injEq] at hv
              subst hv
              rcases hJ with ⟨hnv, hord⟩ | ⟨A, hA⟩
              · left
                refine ⟨?_, ?_⟩
                · simp [hnv]
                · simp [List.filterMap_append, hord, Node.MBB]
              · right
                exact ⟨A, by simp [List.filterMap_append, hA, Node.MBB]⟩
          · subst hcb
            right
            refine ⟨st.order.filterMap Node.MBB ++ mid.filterMap Node.MBB, ?_⟩
            rw [hmid]
            simp [List.filterMap_append, Node.MBB]
        obtain ⟨h1, h2⟩ := ih hcs' st1 hJ1 hrun
        refine ⟨h1, ?_⟩
        intro x hx
        rcases List.mem_cons.1 hx with hx | hx
        · subst hx; exact hmono st1 st' hrun _ g3
        · exact h2 x hx

/-- The function `toposort` puts the header first when the successors of
`nentry` are `nexit` and the node of the header. -/
theorem toposort_header_first (fuel : Nat) (s : SPScope) (h : MBB) (U : Finset Node)
    (hU : ∀ x ∈ U, ∀ y ∈ (s.FCFG.nodes x).succs, y ∈ U) (hin : Node.nentry ∈ U)
    (hf : U.card ≤ fuel)
    (hsucc : ∀ c ∈ (s.FCFG.nodes Node.nentry).succs, c = Node.nexit ∨ c = Node.blk h)
    (hmem : Node.blk h ∈ (s.FCFG.nodes Node.nentry).succs)
    (hexit : (s.FCFG.nodes Node.nexit).succs = []) :
    ∃ s', toposort fuel s = some s' ∧ s'.Blocks.head? = some h := by
  obtain ⟨st', hrun, _⟩ :=
    dfsVisit_from_empty (fun n => (s.FCFG.nodes n).succs) U hU Node.nentry hin fuel hf
  cases fuel with
  | zero => simp [dfsVisit] at hrun
  | succ f =>
    have hrun0 := hrun
    unfold dfsVisit at hrun
    split at hrun
    · simp at hrun
    · rename_i stc hc
      have := Option.some.inj hrun
      subst this
      obtain ⟨hJ, hvis⟩ := toposort_children (fun n => (s.FCFG.nodes n).succs) h hexit f _ hsucc
        { visited := [Node.nentry], order := [] } stc (Or.inl ⟨by simp, rfl⟩) hc
      have hA : ∃ A, stc.order.filterMap Node.MBB = A ++ [h] := by
        rcases hJ with ⟨hnv, _⟩ | hA
        · exact absurd (hvis _ hmem) hnv
        · exact hA
      obtain ⟨A, hA⟩ := hA
      refine ⟨_, by simp only [toposort, postOrder, hrun0, Option.map_some']; rfl, ?_⟩
      simp [List.filterMap_append, hA, Node.MBB]

theorem addMBB_head (s : SPScope) (h b : MBB) (hs : s.Blocks.head? = some h) :
    (addMBB s b).Blocks.head? = some h := by
  unfold addMBB
  split
  · cases hb : s.Blocks with
    | nil => rw [hb] at hs; simp at hs
    | cons x xs => rw [hb] at hs; simpa using hs
  · exact hs

/-- C15: the header is the first element of `Blocks`. It is so after the
constructor of a root scope; after the constructor of a loop scope, for the new
scope and still for its parent; `addMBB` keeps the first element, and `addMBB`
of the header changes nothing; and `toposort`, which returns when given fuel
for the nodes of the FCFG, puts the header first when the successors of `nentry`
are `nexit` and the node of the header (`nexit` having no successor). -/
theorem header_is_first_block (header : MBB) (isRootTopLevel : Bool) (heap : ScopeHeap)
    (pi : Nat) (P : SPScope) (ph : MBB) (loop : MachineLoop)
    (instrs : MBB → List MachineInstr) (lb : Int) (s : SPScope) (h b : MBB) (fuel : Nat)
    (U : Finset Node)
    (hP : heap[pi]? = some P) (hPh : P.Blocks.head? = some ph)
    (hscan : scanLoopBound (instrs loop.header) (-1) = some lb)
    (hs : s.Blocks.head? = some h)
    (hU : ∀ x ∈ U, ∀ y ∈ (s.FCFG.nodes x).succs, y ∈ U) (hin : Node.nentry ∈ U)
    (hf : U.card ≤ fuel)
    (hsucc : ∀ c ∈ (s.FCFG.nodes Node.nentry).succs, c = Node.nexit ∨ c = Node.blk h)
    (hmem : Node.blk h ∈ (s.FCFG.nodes Node.nentry).succs)
    (hexit : (s.FCFG.nodes Node.nexit).succs = []) :
    (SPScope.root header isRootTopLevel).Blocks.head? = some header ∧
    (∃ heap' child P', SPScope.loop heap (some pi) loop instrs = some (heap', heap.length) ∧
      heap'[heap.length]? = some child ∧ child.Blocks.head? = some loop.header ∧
      heap'[pi]? = some P' ∧ P'.Blocks.head? = some ph) ∧
    (addMBB s b).Blocks.head? = some h ∧ addMBB s h = s ∧
    ∃ s', toposort fuel s = some s' ∧ s'.Blocks.head? = some h := by
  refine ⟨rfl, ?_, addMBB_head s h b hs, by simp [addMBB, hs],
    toposort_header_first fuel s h U hU hin hf hsucc hmem hexit⟩
  have hlt : pi < heap.length := by
    by_contra hge
    rw [List.getElem?_eq_none (by omega)] at hP
    simp at hP
  simp only [SPScope.loop, hP, hscan]
  obtain ⟨hm1, hc⟩ := syncHeaderMaps_getElem?
    (heap.set pi (P.adopt loop.header (SPScope.loopMembers P loop lb)) ++
      [SPScope.loopMembers P loop lb]) heap.length (SPScope.loopMembers P loop lb)
    (by rw [List.getElem?_append_right (by simp)]; simp)
  obtain ⟨hm2, hp⟩ := syncHeaderMaps_getElem?
    (heap.set pi (P.adopt loop.header (SPScope.loopMembers P loop lb)) ++
      [SPScope.loopMembers P loop lb]) pi (P.adopt loop.header (SPScope.loopMembers P loop lb))
    (by rw [List.getElem?_append_left (by simpa using hlt)]; simp [List.getElem?_set, hlt])
  exact ⟨_, _, _, rfl, hc, rfl, hp, addMBB_head _ ph _ hPh⟩

theorem adopt_blocks (P : SPScope) (header : MBB) (child : SPScope) :
    (P.adopt header child).Blocks =
      if P.Blocks.head? ≠ some header then P.Blocks ++ [header] else P.Blocks := by
  unfold SPScope.adopt addMBB
  split <;> rfl

/-- Witness of C15: the root scope of block 0, the loop of header 1 created
below it, and the root scope of the diamond after `buildfcfg`. -/
theorem header_is_first_block_witness :
    (SPScope.root 0 true).Blocks.head? = some 0 ∧
    (∃ heap' child P', SPScope.loop [SPScope.root 0 true] (some 0) exLoop
        (fun _ => boundedHeader 7) = some (heap', 1) ∧
      heap'[1]? = some child ∧ child.Blocks.head? = some 1 ∧
      heap'[0]? = some P' ∧ P'.Blocks.head? = some 0) ∧
    (addMBB diamondBuilt 3).Blocks.head? = some 0 ∧ addMBB diamondBuilt 0 = diamondBuilt ∧
    ∃ s', toposort 16 diamondBuilt = some s' ∧ s'.Blocks.head? = some 0 :=
  header_is_first_block 0 true [SPScope.root 0 true] 0 (SPScope.root 0 true) 0 exLoop
    (fun _ => boundedHeader 7) 8 diamondBuilt 0 3 16 diamondNodes rfl rfl (by decide) (by decide)
    (by decide) (by decide) (by decide) (by decide) (by decide) (by decide)


theorem connect_succs_ne (g : FCFG) (a b x : Node) (hx : x ≠ a) :
    ((g.connect a b).nodes x).succs = (g.nodes x).succs := by
  unfold FCFG.connect upd
  by_cases hb : x = b
  · subst hb
    simp [hx]
  · simp [hx, hb]

theorem connectEdge_succs_ne (g : FCFG) (a b x : Node) (e : Edge) (hx : x ≠ a) :
    ((g.connectEdge a b e).nodes x).succs = (g.nodes x).succs := by
  unfold FCFG.connectEdge
  rw [connect_succs_ne _ a b x hx]
  simp [upd, hx]

theorem buildfcfgEdges_succs_ne (body : List MBB) (header : MBBPtr) (n x : Node) (hx : x ≠ n)
    (edges : List Edge) (g : FCFG) :
    ((buildfcfgEdges body header n edges g).nodes x).succs = (g.nodes x).succs := by
  induction edges generalizing g with
  | nil => rfl
  | cons e rest ih =>
    unfold buildfcfgEdges
    split
    · split
      · rw [ih, connectEdge_succs_ne _ _ _ _ _ hx]
      · split
        · rw [ih]
          exact connectEdge_succs_ne _ _ _ _ _ hx
        · rw [ih]
          exact connect_succs_ne _ _ _ _ hx
    · split
      · rw [ih]
        exact connectEdge_succs_ne _ _ _ _ _ hx
      · rw [ih]
        exact connect_succs_ne _ _ _ _ hx

theorem buildfcfgBlocks_succs_ne (MF : MachineFunction) (s : SPScope) (body : List MBB)
    (x : Node) (hx : ∀ b, x ≠ Node.blk b) (bs : List MBB) (g g' : FCFG)
    (h : buildfcfgBlocks MF s body bs g = some g') :
    (g'.nodes x).succs = (g.nodes x).succs := by
  induction bs generalizing g with
  | nil =>
    simp only [buildfcfgBlocks, Option.some.injEq] at h
    subst h
    rfl
  | cons b bs ih =>
    unfold buildfcfgBlocks at h
    simp only [] at h
    split at h
    · split at h
      · rw [ih _ h]
        unfold FCFG.toexit
        rw [connect_succs_ne _ _ _ _ (hx b), buildfcfgEdges_succs_ne _ _ _ _ (hx b)]
      · simp at h
    · rw [ih _ h, buildfcfgEdges_succs_ne _ _ _ _ (hx b)]

/-- After `buildfcfg` on a scope whose FCFG is as constructed for the header `h`,
the successors of `nentry` are `nexit` and the node of `h`, and `nexit` has no
successor: `toposort` then puts `h` first. -/
theorem toposort_after_buildfcfg (MF : MachineFunction) (s s1 : SPScope) (h : MBB)
    (fuel : Nat) (U : Finset Node) (hinit : s.FCFG = FCFG.init h)
    (hbuild : buildfcfg MF s = some s1)
    (hU : ∀ x ∈ U, ∀ y ∈ (s1.FCFG.nodes x).succs, y ∈ U) (hin : Node.nentry ∈ U)
    (hf : U.card ≤ fuel) :
    ∃ s2, toposort fuel s1 = some s2 ∧ s2.Blocks.head? = some h := by
  unfold buildfcfg at hbuild
  obtain ⟨g, hg, hs1⟩ := Option.map_eq_some'.1 hbuild
  have hentry : (s1.FCFG.nodes Node.nentry).succs = [Node.nexit, Node.blk h] := by
    rw [← hs1]
    simp only []
    rw [buildfcfgBlocks_succs_ne MF s _ Node.nentry (by simp) _ _ _ hg, hinit]
    rfl
  have hexit : (s1.FCFG.nodes Node.nexit).succs = [] := by
    rw [← hs1]
    simp only []
    rw [buildfcfgBlocks_succs_ne MF s _ Node.nexit (by simp) _ _ _ hg, hinit]
    rfl
  exact toposort_header_first fuel s1 h U hU hin hf (by simp [hentry]) (by simp [hentry]) hexit

/-! ## C14: the blocks of the scopes of a tree -/

theorem pushAt_length (B : List (List MBB)) (i : Nat) (x : MBB) :
    (pushAt B i x).length = B.length := by
  induction B generalizing i with
  | nil => rfl
  | cons bl rest ih =>
    cases i with
    | zero => simp [pushAt]
    | succ i => simp [pushAt, ih]

theorem pushAt_getElem?_eq (B : List (List MBB)) (i : Nat) (x : MBB) (bl : List MBB)
    (h : B[i]? = some bl) :
    (pushAt B i x)[i]? = some (if bl.head? ≠ some x then bl ++ [x] else bl) := by
  induction B generalizing i with
  | nil => simp at h
  | cons b0 rest ih =>
    cases i with
    | zero =>
      simp only [List.getElem?_cons_zero, Option.some.injEq] at h
      subst h
      simp [pushAt]
    | succ i =>
      simp only [List.getElem?_cons_succ] at h
      simpa [pushAt] using ih i h

theorem pushAt_getElem?_ne (B : List (List MBB)) (i j : Nat) (x : MBB) (hij : j ≠ i) :
    (pushAt B i x)[j]? = B[j]? := by
  induction B generalizing i j with
  | nil => rfl
  | cons b0 rest ih =>
    cases i with
    | zero =>
      cases j with
      | zero => exact absurd rfl hij
      | succ j => simp [pushAt]
    | succ i =>
      cases j with
      | zero => simp [pushAt]
      | succ j =>
        simp only [pushAt, List.getElem?_cons_succ]
        exact ih i j (by omega)

theorem pushAt_sum_count (B : List (List MBB)) (i : Nat) (x b : MBB) (bl : List MBB)
    (h : B[i]? = some bl) :
    ((pushAt B i x).map (fun l => l.count b)).sum =
      (B.map (fun l => l.count b)).sum + (if bl.head? ≠ some x ∧ x = b then 1 else 0) := by
  induction B generalizing i with
  | nil => simp at h
  | cons b0 rest ih =>
    cases i with
    | zero =>
      simp only [List.getElem?_cons_zero, Option.some.injEq] at h
      subst h
      by_cases hh : b0.head? = some x
      · simp [pushAt, hh]
      · by_cases hx : x = b
        · subst hx
          simp [pushAt, hh, List.count_append]
          omega
        · simp [pushAt, hh, hx, List.count_append, List.count_singleton]
    | succ i =>
      simp only [List.getElem?_cons_succ] at h
      simp only [pushAt, List.map_cons, List.sum_cons, ih i h]
      omega

/-- What a slot holds is kept by `pushAt`: the list there keeps its first
element and its elements. -/
theorem pushAt_slot (B : List (List MBB)) (i j : Nat) (x : MBB) (bl : List MBB)
    (h : B[j]? = some bl) :
    ∃ bl', (pushAt B i x)[j]? = some bl' ∧ (∀ y ∈ bl, y ∈ bl') ∧
      ∀ z, bl.head? = some z → bl'.head? = some z := by
  by_cases hij : j = i
  · subst hij
    refine ⟨_, pushAt_getElem?_eq B j x bl h, ?_, ?_⟩
    · intro y hy
      split
      · simp [hy]
      · exact hy
    · intro z hz
      split
      · cases bl with
        | nil => simp at hz
        | cons a l => simpa using hz
      · exact hz
  · exact ⟨bl, by rw [pushAt_getElem?_ne B i j x hij]; exact h, fun y hy => hy, fun z hz => hz⟩

theorem blocksOf_set_addMBB (heap : ScopeHeap) (i : Nat) (S : SPScope) (b : MBB)
    (h : heap[i]? = some S) :
    blocksOf (heap.set i (addMBB S b)) = pushAt (blocksOf heap) i b := by
  induction heap generalizing i with
  | nil => simp at h
  | cons S0 rest ih =>
    cases i with
    | zero =>
      simp only [List.getElem?_cons_zero, Option.some.injEq] at h
      subst h
      simp only [blocksOf, List.set_cons_zero, List.map_cons, pushAt, addMBB]
      congr 1
      split <;> rfl
    | succ i =>
      simp only [List.getElem?_cons_succ] at h
      have := ih i h
      simp only [blocksOf] at this ⊢
      simp only [List.set_cons_succ, List.map_cons, pushAt, this]

theorem blocksOf_getElem? (heap : ScopeHeap) (i : Nat) :
    (blocksOf heap)[i]? = (heap[i]?).map (fun S => S.Blocks) := by
  simp [blocksOf]

/-- Reading the pointers again leaves the `Blocks` lists as they are. -/
theorem blocksOf_syncHeaderMaps (l : ScopeHeap) : blocksOf (syncHeaderMaps l) = blocksOf l := by
  induction l with
  | nil => rfl
  | cons S rest ih =>
    simp only [blocksOf] at ih
    simp only [syncHeaderMaps, blocksOf, List.map_cons, ih]
    rfl

/-- The `Blocks` lists after the constructor of a loop scope. -/
theorem blocksOf_loop (heap heap' : ScopeHeap) (pi c : Nat) (L : MachineLoop)
    (instrs : MBB → List MachineInstr)
    (h : SPScope.loop heap (some pi) L instrs = some (heap', c)) :
    blocksOf heap' = pushAt (blocksOf heap) pi L.header ++ [[L.header]] := by
  unfold SPScope.loop at h
  simp only [] at h
  split at h
  · simp at h
  · rename_i P hP
    split at h
    · simp at h
    · rename_i lb hlb
      simp only [Option.some.injEq, Prod.mk.injEq] at h
      rw [← h.1, blocksOf_syncHeaderMaps, ← blocksOf_set_addMBB heap pi _ L.header
        (show heap[pi]? = some P from hP)]
      simp only [blocksOf, List.map_append, List.map_cons, List.map_nil]
      congr 1
      have hlt : pi < heap.length := by
        by_contra hge
        rw [List.getElem?_eq_none (by omega)] at hP
        simp at hP
      apply List.ext_getElem?
      intro j
      simp only [List.getElem?_map, List.getElem?_set]
      by_cases hj : pi = j
      · subst hj
        simp [hlt, SPScope.adopt, addMBB]
        split <;> rfl
      · simp [hj]

/-- One step of the walk over the loop forest keeps the invariant. -/
theorem loop_step_inv (entry : MBB) (done : List MachineLoop) (L : MachineLoop)
    (B : List (List MBB)) (hinv : TreeInv entry done [] B)
    (hpar : ∀ j, L.parentLoop = some j → j < done.length)
    (hne : L.header ≠ entry) (hnew : L.header ∉ done.map (fun L => L.header)) :
    TreeInv entry (done ++ [L]) [] (pushAt B (scopeOf L.parentLoop) L.header ++ [[L.header]]) := by
  have hlen : (pushAt B (scopeOf L.parentLoop) L.header).length = done.length + 1 := by
    rw [pushAt_length, hinv.len]
  -- the list of the parent and its first element, which is not the new header
  have hparent : ∃ bl, B[scopeOf L.parentLoop]? = some bl ∧ bl.head? ≠ some L.header := by
    cases hp : L.parentLoop with
    | none =>
      obtain ⟨bl, h1, h2⟩ := hinv.root
      refine ⟨bl, h1, ?_⟩
      rw [h2]
      intro h
      exact hne (Option.some.inj h).symm
    | some j =>
      have hj := hpar j hp
      obtain ⟨Lj, hLj⟩ : ∃ Lj, done[j]? = some Lj := ⟨_, List.getElem?_eq_getElem hj⟩
      obtain ⟨bl, h1, h2⟩ := hinv.sub j Lj hLj
      refine ⟨bl, h1, ?_⟩
      rw [h2]
      intro h
      apply hnew
      rw [← Option.some.inj h]
      exact List.mem_map.2 ⟨Lj, List.getElem?_mem hLj, rfl⟩
  obtain ⟨pbl, hpbl, hphead⟩ := hparent
  have hold : ∀ (j : Nat) (bl : List MBB), B[j]? = some bl →
      ∃ bl', (pushAt B (scopeOf L.parentLoop) L.header ++ [[L.header]])[j]? = some bl' ∧
        (∀ y ∈ bl, y ∈ bl') ∧ ∀ z, bl.head? = some z → bl'.head? = some z := by
    intro j bl hj
    obtain ⟨bl', h1, h2, h3⟩ := pushAt_slot B (scopeOf L.parentLoop) j L.header bl hj
    have hjl : j < (pushAt B (scopeOf L.parentLoop) L.header).length := by
      by_contra hge
      rw [List.getElem?_eq_none (by omega)] at h1
      simp at h1
    exact ⟨bl', by rw [List.getElem?_append_left hjl]; exact h1, h2, h3⟩
  refine ⟨by simp [hlen], ?_, ?_, ?_, ?_⟩
  · obtain ⟨bl, h1, h2⟩ := hinv.root
    obtain ⟨bl', g1, _, g3⟩ := hold 0 bl h1
    exact ⟨bl', g1, g3 _ h2⟩
  · intro i Li hi
    by_cases hil : i < done.length
    · rw [List.getElem?_append_left hil] at hi
      obtain ⟨bl, h1, h2⟩ := hinv.sub i Li hi
      obtain ⟨bl', g1, _, g3⟩ := hold (i + 1) bl h1
      exact ⟨bl', g1, g3 _ h2⟩
    · have hil' : i = done.length := by
        by_contra hne'
        rw [List.getElem?_eq_none (by simp; omega)] at hi
        simp at hi
      subst hil'
      rw [List.getElem?_append_right (le_refl _)] at hi
      simp only [Nat.sub_self, List.getElem?_cons_zero, Option.some.injEq] at hi
      subst hi
      refine ⟨[L.header], ?_, rfl⟩
      rw [List.getElem?_append_right (by omega)]
      simp [hlen]
  · intro b
    rw [List.map_append, List.sum_append, pushAt_sum_count B _ L.header b pbl hpbl, hinv.occ b]
    simp only [hphead, ne_eq, not_false_eq_true, true_and, List.map_cons, List.map_nil,
      List.sum_cons, List.sum_nil, List.map_append, List.count_append, List.count_nil]
    by_cases hb : L.header = b
    · subst hb
      simp
      omega
    · simp [hb, List.count_singleton]
  · intro i Li hi
    by_cases hil : i < done.length
    · rw [List.getElem?_append_left hil] at hi
      obtain ⟨bl, h1, h2⟩ := hinv.parentHas i Li hi
      obtain ⟨bl', g1, g2, _⟩ := hold _ bl h1
      exact ⟨bl', g1, g2 _ h2⟩
    · have hil' : i = done.length := by
        by_contra hne'
        rw [List.getElem?_eq_none (by simp; omega)] at hi
        simp at hi
      subst hil'
      rw [List.getElem?_append_right (le_refl _)] at hi
      simp only [Nat.sub_self, List.getElem?_cons_zero, Option.some.injEq] at hi
      subst hi
      have hpl : scopeOf L.parentLoop < (pushAt B (scopeOf L.parentLoop) L.header).length := by
        rw [pushAt_length]
        by_contra hge
        rw [List.getElem?_eq_none (by omega)] at hpbl
        simp at hpbl
      refine ⟨_, by rw [List.getElem?_append_left hpl]; exact pushAt_getElem?_eq B _ _ pbl hpbl, ?_⟩
      simp [hphead]


theorem head?_mem {σ : Type} (l : List σ) (z : σ) (h : l.head? = some z) : z ∈ l := by
  cases l with
  | nil => simp at h
  | cons a l =>
    simp only [List.head?_cons, Option.some.injEq] at h
    subst h
    simp

/-- The walk over the loop forest returns and establishes the invariant. -/
theorem createSubscopes_inv (entry : MBB) (instrs : MBB → List MachineInstr)
    (LF : List MachineLoop) (hhd : (LF.map (fun L => L.header)).Nodup)
    (hentry : entry ∉ LF.map (fun L => L.header))
    (hpar : ∀ (i : Nat) (L : MachineLoop), LF[i]? = some L →
      ∀ j, L.parentLoop = some j → j < i)
    (hscan : ∀ L ∈ LF, ∃ lb, scanLoopBound (instrs L.header) (-1) = some lb) :
    ∀ (rest done : List MachineLoop) (heap : ScopeHeap), LF = done ++ rest →
      TreeInv entry done [] (blocksOf heap) →
      ∃ heap', createSubscopes instrs rest heap = some heap' ∧
        TreeInv entry LF [] (blocksOf heap') := by
  intro rest
  induction rest with
  | nil =>
    intro done heap hLF hinv
    simp only [List.append_nil] at hLF
    subst hLF
    exact ⟨heap, rfl, hinv⟩
  | cons L rest ih =>
    intro done heap hLF hinv
    have hLmem : L ∈ LF := by rw [hLF]; simp
    have hLidx : LF[done.length]? = some L := by
      rw [hLF, List.getElem?_append_right (le_refl _)]
      simp
    have hparL : ∀ j, L.parentLoop = some j → j < done.length := hpar _ L hLidx
    have hne : L.header ≠ entry := by
      intro h
      exact hentry (h ▸ List.mem_map.2 ⟨L, hLmem, rfl⟩)
    have hnew : L.header ∉ done.map (fun L => L.header) := by
      rw [hLF, List.map_append, List.map_cons] at hhd
      have := (List.nodup_append.1 hhd).2.2
      intro hmem
      exact this hmem (by simp)
    -- the parent scope exists
    have hpi : scopeOf L.parentLoop < heap.length := by
      have hl := hinv.len
      simp only [blocksOf, List.length_map] at hl
      cases hp : L.parentLoop with
      | none => simp [scopeOf]; omega
      | some j => have := hparL j hp; simp [scopeOf]; omega
    obtain ⟨P, hP⟩ : ∃ P, heap[scopeOf L.parentLoop]? = some P :=
      ⟨_, List.getElem?_eq_getElem hpi⟩
    obtain ⟨lb, hlb⟩ := hscan L hLmem
    have hloop : SPScope.loop heap (some (scopeOf L.parentLoop)) L instrs =
        some (syncHeaderMaps
          (heap.set (scopeOf L.parentLoop) (P.adopt L.header (SPScope.loopMembers P L lb)) ++
            [SPScope.loopMembers P L lb]), heap.length) := by
      simp only [SPScope.loop, hP, hlb]
    have hB := blocksOf_loop heap _ _ _ L instrs hloop
    have hstep := loop_step_inv entry done L (blocksOf heap) hinv hparL hne hnew
    rw [← hB] at hstep
    obtain ⟨heap', h1, h2⟩ := ih (done ++ [L]) _ (by rw [hLF]; simp) hstep
    refine ⟨heap', ?_, h2⟩
    simp only [createSubscopes, hloop]
    exact h1

/-- One step of the assignment of the blocks keeps the invariant, and puts the
block into the list of its scope. -/
theorem assign_step_inv (entry : MBB) (LF : List MachineLoop) (loopOf : MBB → Option Nat)
    (hlt : ∀ b i, loopOf b = some i → i < LF.length)
    (hhd : ∀ (i : Nat) (L : MachineLoop), LF[i]? = some L → loopOf L.header = some i)
    (hel : loopOf entry = none) (extra : List MBB) (B : List (List MBB)) (b : MBB)
    (hinv : TreeInv entry LF extra B) :
    TreeInv entry LF
        (extra ++ if b ≠ entry ∧ b ∉ LF.map (fun L => L.header) then [b] else [])
        (pushAt B (scopeOf (loopOf b)) b) ∧
      ∃ bl, (pushAt B (scopeOf (loopOf b)) b)[scopeOf (loopOf b)]? = some bl ∧ b ∈ bl := by
  have hslot : ∃ bl, B[scopeOf (loopOf b)]? = some bl ∧
      (bl.head? = some b ↔ ¬ (b ≠ entry ∧ b ∉ LF.map (fun L => L.header))) := by
    cases hl : loopOf b with
    | none =>
      obtain ⟨bl, h1, h2⟩ := hinv.root
      refine ⟨bl, h1, ?_⟩
      rw [h2]
      constructor
      · intro h hb
        exact hb.1 (Option.some.inj h).symm
      · intro h
        by_cases hbe : b = entry
        · rw [hbe]
        · exfalso
          apply h
          refine ⟨hbe, ?_⟩
          intro hmem
          obtain ⟨L, hL, hLb⟩ := List.mem_map.1 hmem
          obtain ⟨i, hi⟩ := List.getElem?_of_mem hL
          have := hhd i L hi
          rw [hLb, hl] at this
          simp at this
    | some i =>
      have hi := hlt b i hl
      obtain ⟨L, hL⟩ : ∃ L, LF[i]? = some L := ⟨_, List.getElem?_eq_getElem hi⟩
      obtain ⟨bl, h1, h2⟩ := hinv.sub i L hL
      refine ⟨bl, h1, ?_⟩
      rw [h2]
      constructor
      · intro h hb
        apply hb.2
        rw [← Option.some.inj h]
        exact List.mem_map.2 ⟨L, List.getElem?_mem hL, rfl⟩
      · intro h
        by_cases hbe : b = entry
        · rw [hbe, hel] at hl
          simp at hl
        · have hmem : b ∈ LF.map (fun L => L.header) := by
            by_contra hnm
            exact h ⟨hbe, hnm⟩
          obtain ⟨L', hL', hLb⟩ := List.mem_map.1 hmem
          obtain ⟨i', hi'⟩ := List.getElem?_of_mem hL'
          have := hhd i' L' hi'
          rw [hLb, hl] at this
          have hii : i = i' := Option.some.inj this
          subst hii
          rw [hL] at hi'
          have := Option.some.inj hi'
          subst this
          rw [hLb]
  obtain ⟨bl, hbl, hhead⟩ := hslot
  have hold : ∀ (j : Nat) (l : List MBB), B[j]? = some l →
      ∃ l', (pushAt B (scopeOf (loopOf b)) b)[j]? = some l' ∧ (∀ y ∈ l, y ∈ l') ∧
        ∀ z, l.head? = some z → l'.head? = some z :=
    fun j l hj => pushAt_slot B _ j b l hj
  refine ⟨⟨by rw [pushAt_length, hinv.len], ?_, ?_, ?_, ?_⟩, ?_⟩
  · obtain ⟨l, h1, h2⟩ := hinv.root
    obtain ⟨l', g1, _, g3⟩ := hold 0 l h1
    exact ⟨l', g1, g3 _ h2⟩
  · intro i L hi
    obtain ⟨l, h1, h2⟩ := hinv.sub i L hi
    obtain ⟨l', g1, _, g3⟩ := hold _ l h1
    exact ⟨l', g1, g3 _ h2⟩
  · intro x
    have e1 : (if bl.head? ≠ some b ∧ b = x then 1 else 0) =
        List.count x (if b ≠ entry ∧ b ∉ LF.map (fun L => L.header) then [b] else []) := by
      by_cases hp : b ≠ entry ∧ b ∉ LF.map (fun L => L.header)
      · have hh : bl.head? ≠ some b := fun h => (hhead.1 h) hp
        rw [if_pos hp]
        by_cases hx : b = x
        · subst hx
          rw [if_pos (show bl.head? ≠ some b ∧ b = b from ⟨hh, rfl⟩)]
          simp
        · rw [if_neg (show ¬ (bl.head? ≠ some b ∧ b = x) from fun h => hx h.2)]
          exact (List.count_eq_zero.2 (by simp; exact fun h => hx h.symm)).symm
      · have hh : bl.head? = some b := hhead.2 hp
        rw [if_neg hp, if_neg (show ¬ (bl.head? ≠ some b ∧ b = x) from fun h => h.1 hh)]
        rfl
    rw [pushAt_sum_count B _ b x bl hbl, hinv.occ x, List.count_append, e1]
    omega
  · intro i L hi
    obtain ⟨l, h1, h2⟩ := hinv.parentHas i L hi
    obtain ⟨l', g1, g2, _⟩ := hold _ l h1
    exact ⟨l', g1, g2 _ h2⟩
  · refine ⟨_, pushAt_getElem?_eq B _ b bl hbl, ?_⟩
    split
    · simp
    · rename_i hh
      exact head?_mem bl b (not_not.1 hh)

/-- The assignment of the blocks returns, keeps the invariant and puts every
block into the list of its scope. -/
theorem assignBlocks_inv (entry : MBB) (LF : List MachineLoop) (loopOf : MBB → Option Nat)
    (hlt : ∀ b i, loopOf b = some i → i < LF.length)
    (hhd : ∀ (i : Nat) (L : MachineLoop), LF[i]? = some L → loopOf L.header = some i)
    (hel : loopOf entry = none) :
    ∀ (rest processed : List MBB) (heap : ScopeHeap),
      TreeInv entry LF
        (processed.filter (fun b => decide (b ≠ entry ∧ b ∉ LF.map (fun L => L.header))))
        (blocksOf heap) →
      (∀ b ∈ processed, ∃ bl, (blocksOf heap)[scopeOf (loopOf b)]? = some bl ∧ b ∈ bl) →
      ∃ heap', assignBlocks loopOf rest heap = some heap' ∧
        TreeInv entry LF
          ((processed ++ rest).filter
            (fun b => decide (b ≠ entry ∧ b ∉ LF.map (fun L => L.header))))
          (blocksOf heap') ∧
        ∀ b ∈ processed ++ rest,
          ∃ bl, (blocksOf heap')[scopeOf (loopOf b)]? = some bl ∧ b ∈ bl := by
  intro rest
  induction rest with
  | nil =>
    intro processed heap hinv hown
    exact ⟨heap, rfl, by simpa using hinv, by simpa using hown⟩
  | cons b rest ih =>
    intro processed heap hinv hown
    have hidx : scopeOf (loopOf b) < heap.length := by
      have hl := hinv.len
      simp only [blocksOf, List.length_map] at hl
      cases hp : loopOf b with
      | none => simp [scopeOf]; omega
      | some j => have := hlt b j hp; simp [scopeOf]; omega
    obtain ⟨S, hS⟩ : ∃ S, heap[scopeOf (loopOf b)]? = some S :=
      ⟨_, List.getElem?_eq_getElem hidx⟩
    obtain ⟨hstep, hb⟩ := assign_step_inv entry LF loopOf hlt hhd hel _ (blocksOf heap) b hinv
    rw [← blocksOf_set_addMBB heap _ S b hS, ← blocksOf_syncHeaderMaps] at hstep hb
    have hfilter : (processed ++ [b]).filter
          (fun b => decide (b ≠ entry ∧ b ∉ LF.map (fun L => L.header))) =
        processed.filter (fun b => decide (b ≠ entry ∧ b ∉ LF.map (fun L => L.header))) ++
          if b ≠ entry ∧ b ∉ LF.map (fun L => L.header) then [b] else [] := by
      rw [List.filter_append]
      congr 1
      by_cases hp : b ≠ entry ∧ b ∉ LF.map (fun L => L.header)
      · rw [if_pos hp]
        simp only [List.filter_cons, List.filter_nil]
        rw [if_pos (decide_eq_true hp)]
      · rw [if_neg hp]
        simp only [List.filter_cons, List.filter_nil]
        rw [if_neg (fun h => hp (of_decide_eq_true h))]
    rw [← hfilter] at hstep
    have hown' : ∀ x ∈ processed ++ [b], ∃ bl,
        (blocksOf (syncHeaderMaps
          (heap.set (scopeOf (loopOf b)) (addMBB S b))))[scopeOf (loopOf x)]? = some bl ∧
          x ∈ bl := by
      intro x hx
      rcases List.mem_append.1 hx with hx | hx
      · obtain ⟨l, h1, h2⟩ := hown x hx
        rw [blocksOf_syncHeaderMaps, blocksOf_set_addMBB heap _ S b hS]
        obtain ⟨l', g1, g2, _⟩ := pushAt_slot (blocksOf heap) (scopeOf (loopOf b)) _ b l h1
        exact ⟨l', g1, g2 _ h2⟩
      · simp only [List.mem_singleton] at hx
        subst hx
        exact hb
    obtain ⟨heap', h1, h2, h3⟩ := ih (processed ++ [b]) _ hstep hown'
    refine ⟨heap', ?_, by simpa using h2, by simpa using h3⟩
    simp only [assignBlocks, hS]
    exact h1

/-- C14, as the code has it: the tree builder returns, and in its tree a block
that is no loop header occurs exactly once in the `Blocks` lists of all scopes,
while the header of a loop occurs exactly twice: in the list of the scope of
its loop and in the list of the parent scope, where the constructor of the loop
scope adds it. Every block is in the list of the scope of its innermost loop
(the root scope for a block in no loop). The loops are listed parents first and
have distinct headers other than the entry block, the header of a loop has this
loop as its innermost loop, and the loop-bound pseudo-ops are well formed. -/
theorem scope_tree_block_occurrences (MF : MachineFunction) (isRootTopLevel : Bool)
    (LF : List MachineLoop) (loopOf : MBB → Option Nat) (instrs : MBB → List MachineInstr)
    (entry : MBB) (hfront : MF.front = some entry) (hnd : MF.blocks.Nodup)
    (hhd : (LF.map (fun L => L.header)).Nodup)
    (hentry : entry ∉ LF.map (fun L => L.header))
    (hpar : ∀ (i : Nat) (L : MachineLoop), LF[i]? = some L →
      ∀ j, L.parentLoop = some j → j < i)
    (hscan : ∀ L ∈ LF, ∃ lb, scanLoopBound (instrs L.header) (-1) = some lb)
    (hlt : ∀ b i, loopOf b = some i → i < LF.length)
    (hown : ∀ (i : Nat) (L : MachineLoop), LF[i]? = some L → loopOf L.header = some i)
    (hel : loopOf entry = none) :
    ∃ heap, createSPScopeTree MF isRootTopLevel LF loopOf instrs = some heap ∧
      (∀ b ∈ MF.blocks,
        occurrences heap b = (if b ∈ LF.map (fun L => L.header) then 2 else 1) ∧
        ∃ S, heap[scopeOf (loopOf b)]? = some S ∧ b ∈ S.Blocks) ∧
      ∀ (i : Nat) (L : MachineLoop), LF[i]? = some L →
        ∃ S P, heap[i + 1]? = some S ∧ S.Blocks.head? = some L.header ∧
          heap[scopeOf L.parentLoop]? = some P ∧ L.header ∈ P.Blocks ∧
          scopeOf L.parentLoop ≠ i + 1 := by
  have hinit : TreeInv entry [] [] (blocksOf [SPScope.root entry isRootTopLevel]) :=
    ⟨rfl, ⟨[entry], rfl, rfl⟩, by simp, by intro b; by_cases hb : b = entry <;>
      simp [blocksOf, SPScope.root, hb, List.count_singleton], by simp⟩
  obtain ⟨heap1, h1, hinv1⟩ := createSubscopes_inv entry instrs LF hhd hentry hpar hscan LF []
    _ rfl hinit
  obtain ⟨heap2, h2, hinv2, hown2⟩ := assignBlocks_inv entry LF loopOf hlt hown hel MF.blocks []
    heap1 (by simpa using hinv1) (by simp)
  simp only [List.nil_append] at hinv2 hown2
  refine ⟨heap2, by simp only [createSPScopeTree, hfront, h1, Option.some_bind]; exact h2,
    ?_, ?_⟩
  · intro b hb
    constructor
    · unfold occurrences
      rw [hinv2.occ b]
      have hc : MF.blocks.count b = 1 := List.count_eq_one_of_mem hnd hb
      by_cases hh : b ∈ LF.map (fun L => L.header)
      · have hbe : b ≠ entry := fun h => hentry (h ▸ hh)
        have hf : (MF.blocks.filter
            (fun b => decide (b ≠ entry ∧ b ∉ LF.map (fun L => L.header)))).count b = 0 := by
          rw [List.count_eq_zero]
          intro hmem
          have := (List.mem_filter.1 hmem).2
          simp only [decide_eq_true_eq] at this
          exact this.2 hh
        rw [hf, List.count_eq_one_of_mem hhd hh, if_pos hh]
        simp [hbe]
      · rw [List.count_eq_zero.2 hh, if_neg hh]
        by_cases hbe : b = entry
        · have hf : (MF.blocks.filter
              (fun b => decide (b ≠ entry ∧ b ∉ LF.map (fun L => L.header)))).count b = 0 := by
            rw [List.count_eq_zero]
            intro hmem
            have := (List.mem_filter.1 hmem).2
            simp only [decide_eq_true_eq] at this
            exact this.1 hbe
          rw [hf]
          simp [hbe]
        · have hf : (MF.blocks.filter
              (fun b => decide (b ≠ entry ∧ b ∉ LF.map (fun L => L.header)))).count b = 1 := by
            apply List.count_eq_one_of_mem (hnd.filter _)
            exact List.mem_filter.2 ⟨hb, by simp [hbe, hh]⟩
          rw [hf]
          simp [hbe]
    · obtain ⟨bl, g1, g2⟩ := hown2 b hb
      rw [blocksOf_getElem?] at g1
      obtain ⟨S, hS, hSb⟩ := Option.map_eq_some'.1 g1
      exact ⟨S, hS, hSb ▸ g2⟩
  · intro i L hi
    obtain ⟨bl, g1, g2⟩ := hinv2.sub i L hi
    obtain ⟨pl, p1, p2⟩ := hinv2.parentHas i L hi
    rw [blocksOf_getElem?] at g1 p1
    obtain ⟨S, hS, hSb⟩ := Option.map_eq_some'.1 g1
    obtain ⟨P, hP, hPb⟩ := Option.map_eq_some'.1 p1
    refine ⟨S, P, hS, hSb ▸ g2, hP, hPb ▸ p2, ?_⟩
    cases hp : L.parentLoop with
    | none => simp [scopeOf]
    | some j => have := hpar i L hi j hp; simp [scopeOf]; omega


/-- Witness of the amended C14: the tree of `loopMF`, with the one loop of
header 1. -/
theorem scope_tree_block_occurrences_witness :
    ∃ heap, createSPScopeTree loopMF true [exLoop] loopMFLoopOf (fun _ => []) = some heap ∧
      (∀ b ∈ loopMF.blocks,
        occurrences heap b = (if b ∈ [exLoop].map (fun L => L.header) then 2 else 1) ∧
        ∃ S, heap[scopeOf (loopMFLoopOf b)]? = some S ∧ b ∈ S.Blocks) ∧
      ∀ (i : Nat) (L : MachineLoop), [exLoop][i]? = some L →
        ∃ S P, heap[i + 1]? = some S ∧ S.Blocks.head? = some L.header ∧
          heap[scopeOf L.parentLoop]? = some P ∧ L.header ∈ P.Blocks ∧
          scopeOf L.parentLoop ≠ i + 1 :=
  scope_tree_block_occurrences loopMF true [exLoop] loopMFLoopOf (fun _ => []) 0 rfl
    (by decide) (by decide) (by decide)
    (by
      intro i L hi j hj
      cases i with
      | zero =>
        simp only [List.getElem?_cons_zero, Option.some.injEq] at hi
        subst hi
        simp [exLoop] at hj
      | succ i => simp at hi)
    (fun _ _ => ⟨-1, rfl⟩)
    (by
      intro b i h
      unfold loopMFLoopOf at h
      split at h
      · simp only [Option.some.injEq] at h
        subst h
        simp
      · simp at h)
    (by
      intro i L hi
      cases i with
      | zero =>
        simp only [List.getElem?_cons_zero, Option.some.injEq] at hi
        subst hi
        rfl
      | succ i => simp at hi)
    rfl

/-- Counterexample to C14 as stated: in the tree of `loopMF` the header 1 of the
loop is in the `Blocks` list of the root scope and in that of the scope of the
loop. The constructor of the loop scope alone puts it into both lists. -/
theorem loop_header_is_in_two_scopes :
    (createSPScopeTree loopMF true [exLoop] loopMFLoopOf (fun _ => [])).map blocksOf =
      some [[0, 1, 3], [1, 2]] ∧
    (createSPScopeTree loopMF true [exLoop] loopMFLoopOf (fun _ => [])).map
      (fun heap => occurrences heap 1) = some 2 ∧
    (SPScope.loop [SPScope.root 0 true] (some 0) exLoop (fun _ => [])).map
      (fun r => blocksOf r.1) = some [[0, 1], [1]] := by
  refine ⟨by decide, by decide, by decide⟩

/-! ## C13: the immediate post-dominators are the true ones -/

theorem path_head_mem (next : Node → List Node) (x : Node) (p : List Node)
    (h : PathToExit next x p) : x ∈ p := by
  cases h with
  | exit => simp
  | step a b p hb hp => simp

theorem path_reach (next : Node → List Node) (x : Node) (p : List Node)
    (h : PathToExit next x p) : ∀ y ∈ p, Reach next x y := by
  induction h with
  | exit =>
    intro y hy
    simp only [List.mem_singleton] at hy
    subst hy
    exact Relation.ReflTransGen.refl
  | step a b p hb _ ih =>
    intro y hy
    rcases List.mem_cons.1 hy with h | h
    · subst h
      exact Relation.ReflTransGen.refl
    · exact Relation.ReflTransGen.head hb (ih y h)

/-- From a node of a path, the rest of the path is a path. -/
theorem path_suffix (next : Node → List Node) (x : Node) (p : List Node)
    (h : PathToExit next x p) : ∀ y ∈ p, ∃ q, PathToExit next y q ∧ ∀ z ∈ q, z ∈ p := by
  induction h with
  | exit =>
    intro y hy
    simp only [List.mem_singleton] at hy
    subst hy
    exact ⟨[Node.nexit], PathToExit.exit, fun z hz => hz⟩
  | step a b p hb hp ih =>
    intro y hy
    rcases List.mem_cons.1 hy with h | h
    · subst h
      exact ⟨y :: p, PathToExit.step y b p hb hp, fun z hz => hz⟩
    · obtain ⟨q, hq, hsub⟩ := ih y h
      exact ⟨q, hq, fun z hz => List.mem_cons_of_mem _ (hsub z hz)⟩

theorem exists_path (next : Node → List Node) (x : Node) (h : Reach next x Node.nexit) :
    ∃ p, PathToExit next x p := by
  induction h using Relation.ReflTransGen.head_induction_on with
  | refl => exact ⟨_, PathToExit.exit⟩
  | head hab _ ih =>
    obtain ⟨p, hp⟩ := ih
    exact ⟨_, PathToExit.step _ _ p hab hp⟩

/-- Only `nexit` post-dominates `nexit`. -/
theorem pdom_exit (next : Node → List Node) (t : Node) :
    PDom next t Node.nexit ↔ t = Node.nexit := by
  constructor
  · intro h
    simpa using h [Node.nexit] PathToExit.exit
  · intro h p hp
    subst h
    exact path_head_mem next _ p hp

/-- A node other than `nexit` is post-dominated by itself and by the nodes that
post-dominate all its successors. -/
theorem pdom_step (next : Node → List Node) (x t : Node) (hx : x ≠ Node.nexit) :
    PDom next t x ↔ t = x ∨ ∀ s ∈ next x, PDom next t s := by
  constructor
  · intro h
    by_cases htx : t = x
    · exact Or.inl htx
    · right
      intro s hs p hp
      have := h (x :: p) (PathToExit.step x s p hs hp)
      rcases List.mem_cons.1 this with e | e
      · exact absurd e htx
      · exact e
  · intro h p hp
    rcases h with h | h
    · subst h
      exact path_head_mem next _ p hp
    · cases hp with
      | exit => exact absurd rfl hx
      | step a b q hb hq => exact List.mem_cons_of_mem _ (h b hb q hq)

theorem pdom_trans (next : Node → List Node) (y t' t : Node) (h1 : PDom next y t')
    (h2 : PDom next t' t) : PDom next y t := by
  intro p hp
  obtain ⟨q, hq, hsub⟩ := path_suffix next t p hp t' (h2 p hp)
  exact hsub y (h1 q hq)

theorem ichain_P (g : FCFG) (M : Int) (P : Node → Prop) (hP : PInv g M P) (x y : Node)
    (h : IChain g x y) (hx : P x) : P y ∧ (g.nodes x).num ≤ (g.nodes y).num := by
  induction h with
  | refl => exact ⟨hx, le_refl _⟩
  | @tail a b _ hab ih =>
    by_cases ha : a = Node.nexit
    · subst ha
      rw [hP.exitIpdom] at hab
      have := Option.some.inj hab
      subst this
      exact ih
    · obtain ⟨m, m1, m2, m3⟩ := hP.up a ih.1 ha
      rw [m2] at hab
      have := Option.some.inj hab
      subst this
      exact ⟨m1, by omega⟩

theorem ichain_head (g : FCFG) (x y : Node) (h : IChain g x y) :
    y = x ∨ ∃ c, (g.nodes x).ipdom = some c ∧ IChain g c y := by
  rcases Relation.ReflTransGen.cases_head h with e | ⟨c, hc, hcy⟩
  · exact Or.inl e.symm
  · exact Or.inr ⟨c, hc, hcy⟩

/-- The result of `climb` is on the chain of `x`, below every node of the chain
whose number is at least `t`. -/
theorem climb_chain (g : FCFG) (M : Int) (P : Node → Prop) (hP : PInv g M P) (t : Int)
    (f : Nat) : ∀ x r, P x → climb g t f x = some r →
      IChain g x r ∧ ∀ y, IChain g x y → t ≤ (g.nodes y).num → IChain g r y := by
  induction f with
  | zero => intro x r _ h; simp [climb] at h
  | succ f ih =>
    intro x r hx h
    unfold climb at h
    split at h
    · rename_i hlt
      split at h
      · simp at h
      · rename_i up hup
        have hupP : P up := (ichain_P g M P hP x up
          (Relation.ReflTransGen.single hup) hx).1
        obtain ⟨h1, h2⟩ := ih up r hupP h
        refine ⟨Relation.ReflTransGen.head hup h1, ?_⟩
        intro y hy hty
        rcases ichain_head g x y hy with e | ⟨c, hc, hcy⟩
        · subst e; omega
        · rw [hup] at hc
          have := Option.some.inj hc
          subst this
          exact h2 y hcy hty
    · have := Option.some.inj h
      subst this
      exact ⟨Relation.ReflTransGen.refl, fun y hy _ => hy⟩

/-- The result of the loop of `_intersect` starts the common part of the two
chains. -/
theorem intersectLoop_chain (g : FCFG) (M : Int) (P : Node → Prop) (hP : PInv g M P)
    (hinj : ∀ x y, P x → P y → (g.nodes x).num = (g.nodes y).num → x = y) (f : Nat) :
    ∀ f1 f2 r, P f1 → P f2 → intersectLoop g f f1 f2 = some r →
      ∀ y, IChain g r y ↔ IChain g f1 y ∧ IChain g f2 y := by
  induction f with
  | zero => intro f1 f2 r _ _ h; simp [intersectLoop] at h
  | succ f ih =>
    intro f1 f2 r h1 h2 h
    unfold intersectLoop at h
    split at h
    · split at h
      · simp at h
      · rename_i r1 e1
        split at h
        · simp at h
        · rename_i r2 e2
          obtain ⟨c1, d1⟩ := climb_chain g M P hP _ f f1 r1 h1 e1
          obtain ⟨c2, d2⟩ := climb_chain g M P hP _ f f2 r2 h2 e2
          have p1 := (ichain_P g M P hP f1 r1 c1 h1).1
          have p2 := (ichain_P g M P hP f2 r2 c2 h2).1
          intro y
          rw [ih r1 r2 r p1 p2 h y]
          constructor
          · rintro ⟨a, b⟩
            exact ⟨Relation.ReflTransGen.trans c1 a, Relation.ReflTransGen.trans c2 b⟩
          · rintro ⟨a, b⟩
            have ha : IChain g r1 y := d1 y a (ichain_P g M P hP f2 y b h2).2
            exact ⟨ha, d2 y b (ichain_P g M P hP r1 y ha p1).2⟩
    · rename_i heq
      have := Option.some.inj h
      subst this
      have : f1 = f2 := hinj f1 f2 h1 h2 (not_not.1 heq)
      subst this
      intro y
      simp

theorem intersect_chain (g : FCFG) (M : Int) (P : Node → Prop) (hP : PInv g M P)
    (hinj : ∀ x y, P x → P y → (g.nodes x).num = (g.nodes y).num → x = y) (fuel : Nat)
    (b1 : Option Node) (b2 : Node) (r : Option Node) (h1 : ∀ x, b1 = some x → P x)
    (h2 : P b2) (h : _intersect g fuel b1 b2 = some r) :
    ∃ x, r = some x ∧ P x ∧
      ∀ y, IChain g x y ↔ (∀ a, b1 = some a → IChain g a y) ∧ IChain g b2 y := by
  obtain ⟨m, hm⟩ := hP.ipdom_isSome b2 h2
  unfold _intersect at h
  rw [hm] at h
  simp only [] at h
  obtain ⟨x, hx, hxr⟩ := Option.map_eq_some'.1 h
  have hf1 : P (b1.getD b2) := by
    cases b1 with
    | none => exact h2
    | some a => exact h1 a rfl
  have hchar := intersectLoop_chain g M P hP hinj fuel _ _ x hf1 h2 hx
  have hxP : P x :=
    (ichain_P g M P hP b2 x ((hchar x).1 Relation.ReflTransGen.refl).2 h2).1
  refine ⟨x, hxr.symm, hxP, ?_⟩
  intro y
  rw [hchar y]
  cases b1 with
  | none => simp
  | some a => simp

theorem intersectSuccs_chain (g : FCFG) (M : Int) (P : Node → Prop) (hP : PInv g M P)
    (hinj : ∀ x y, P x → P y → (g.nodes x).num = (g.nodes y).num → x = y) (fuel : Nat)
    (ss : List Node) : ∀ (acc r : Option Node), (∀ s ∈ ss, P s) → (∀ x, acc = some x → P x) →
      intersectSuccs g fuel ss acc = some r →
      ∀ x, r = some x → ∀ y,
        IChain g x y ↔ (∀ a, acc = some a → IChain g a y) ∧ ∀ s ∈ ss, IChain g s y := by
  induction ss with
  | nil =>
    intro acc r _ _ h x hx y
    simp only [intersectSuccs, Option.some.injEq] at h
    subst h
    subst hx
    simp
  | cons s ss ih =>
    intro acc r hss hacc h x hx y
    unfold intersectSuccs at h
    split at h
    · simp at h
    · rename_i r1 e1
      obtain ⟨x1, hx1, hx1P, hchar1⟩ :=
        intersect_chain g M P hP hinj fuel acc s r1 hacc (hss s (by simp)) e1
      subst hx1
      have := ih (some x1) r (fun s' hs' => hss s' (by simp [hs']))
        (fun a ha => by cases ha; exact hx1P) h x hx y
      rw [this]
      simp only [Option.some.injEq, forall_eq', List.mem_cons, forall_eq_or_imp]
      rw [hchar1 y]
      tauto


/-- The chains from the nodes of `P` are the same in two graphs that agree on
the immediate post-dominators of the nodes of `P`. -/
theorem ichain_congr (g g1 : FCFG) (P : Node → Prop)
    (hsame : ∀ z, P z → (g1.nodes z).ipdom = (g.nodes z).ipdom)
    (hclosed : ∀ z y, P z → (g.nodes z).ipdom = some y → P y) (z t : Node)
    (h : IChain g z t) (hz : P z) : IChain g1 z t := by
  induction h using Relation.ReflTransGen.head_induction_on with
  | refl => exact Relation.ReflTransGen.refl
  | @head a c hac _ ih =>
    exact Relation.ReflTransGen.head (by rw [hsame a hz]; exact hac) (ih (hclosed a c hz hac))

theorem PInv.closed {g : FCFG} {M : Int} {P : Node → Prop} (hP : PInv g M P) (z y : Node)
    (hz : P z) (h : (g.nodes z).ipdom = some y) : P y :=
  (ichain_P g M P hP z y (Relation.ReflTransGen.single h) hz).1

/-- The loop of `postdominators`, with the post-dominators of every node whose
immediate post-dominator is set being the nodes of its chain. -/
theorem postdomLoop_correct (next : Node → List Node) (fuel : Nat) (M : Int)
    (hfuel : 2 * M.toNat + 2 ≤ fuel) (ns : List Node) :
    ∀ (g : FCFG) (P : Node → Prop), PInv g M P →
      (∀ y, (g.nodes y).succs = next y) →
      (∀ x y, (P x ∨ x ∈ ns) → (P y ∨ y ∈ ns) → (g.nodes x).num = (g.nodes y).num → x = y) →
      (∀ x, P x → ∀ t, PDom next t x ↔ IChain g x t) →
      (∀ l1 n l2, ns = l1 ++ n :: l2 →
        n ≠ Node.nexit ∧ ¬ P n ∧ n ∉ l1 ∧ 0 ≤ (g.nodes n).num ∧ (g.nodes n).num ≤ M ∧
        (g.nodes n).succs ≠ [] ∧
        ∀ s ∈ (g.nodes n).succs, (P s ∨ s ∈ l1) ∧ (g.nodes n).num < (g.nodes s).num) →
      ∃ g', postdomLoop fuel ns g = some g' ∧ PInv g' M (fun x => P x ∨ x ∈ ns) ∧
        (∀ x, P x ∨ x ∈ ns → ∀ t, PDom next t x ↔ IChain g' x t) ∧
        ∀ y, (g'.nodes y).num = (g.nodes y).num ∧ (g'.nodes y).succs = (g.nodes y).succs := by
  induction ns with
  | nil =>
    intro g P hP _ _ hsound _
    refine ⟨g, rfl, hP.congr (by simp), ?_, fun _ => ⟨rfl, rfl⟩⟩
    intro x hx
    simp only [List.not_mem_nil, or_false] at hx
    exact hsound x hx
  | cons n rest ih =>
    intro g P hP hnext hinj hsound hready
    obtain ⟨hne, hnP, _, hn0, hnM, hsne, hsucc⟩ := hready [] n rest rfl
    have hsP : ∀ s ∈ (g.nodes n).succs, P s := by
      intro s hs
      rcases (hsucc s hs).1 with h | h
      · exact h
      · simp at h
    obtain ⟨r, e, p, k1, _⟩ := intersectSuccs_spec g M P hP fuel hfuel (g.nodes n).succs none
      hsP (by simp)
    obtain ⟨s0, hs0⟩ := List.exists_mem_of_ne_nil _ hsne
    obtain ⟨x, hx, hxn⟩ := k1 s0 hs0
    subst hx
    have hxP : P x := p x rfl
    have hinjP : ∀ a b, P a → P b → (g.nodes a).num = (g.nodes b).num → a = b :=
      fun a b ha hb => hinj a b (Or.inl ha) (Or.inl hb)
    have hchar := intersectSuccs_chain g M P hP hinjP fuel (g.nodes n).succs none (some x)
      hsP (by simp) e x rfl
    unfold postdomLoop
    rw [e]
    simp only []
    -- the graph after the assignment `n->ipdom = new_ipdom`
    have hshape : ∀ y, ((upd g.nodes n { g.nodes n with ipdom := some x }) y).num = (g.nodes y).num ∧
        ((upd g.nodes n { g.nodes n with ipdom := some x }) y).succs = (g.nodes y).succs := by
      intro y
      unfold upd
      split
      · rename_i h; subst h; exact ⟨rfl, rfl⟩
      · exact ⟨rfl, rfl⟩
    have hip : ∀ y, y ≠ n →
        ((upd g.nodes n { g.nodes n with ipdom := some x }) y).ipdom = (g.nodes y).ipdom := by
      intro y hy
      simp [upd, hy]
    have hipn : ((upd g.nodes n { g.nodes n with ipdom := some x }) n).ipdom = some x := by
      simp [upd]
    have hP1 : PInv { nodes := upd g.nodes n { g.nodes n with ipdom := some x } } M
        (fun y => P y ∨ y = n) := by
      refine ⟨Or.inl hP.exitP, ?_, ?_, ?_, ?_⟩
      · rw [(hshape _).1]; exact hP.exitNum
      · simp only []
        rw [hip _ (fun e => hne e.symm)]; exact hP.exitIpdom
      · intro y hy
        simp only []
        rw [(hshape y).1]
        rcases hy with hy | hy
        · exact hP.numLe y hy
        · subst hy; exact ⟨hn0, hnM⟩
      · intro y hy hyne
        simp only []
        rcases hy with hy | hy
        · have hyn : y ≠ n := fun e => hnP (e ▸ hy)
          obtain ⟨m, m1, m2, m3⟩ := hP.up y hy hyne
          refine ⟨m, Or.inl m1, ?_, ?_⟩
          · rw [hip y hyn]; exact m2
          · rw [(hshape y).1, (hshape m).1]; exact m3
        · subst hy
          refine ⟨x, Or.inl hxP, hipn, ?_⟩
          rw [(hshape y).1, (hshape x).1]
          exact lt_of_lt_of_le (hsucc s0 hs0).2 hxn
    -- the chains of the nodes of `P` are not changed by the assignment
    have hsameP : ∀ z, P z →
        ((upd g.nodes n { g.nodes n with ipdom := some x }) z).ipdom = (g.nodes z).ipdom :=
      fun z hz => hip z (fun e => hnP (e ▸ hz))
    have hto : ∀ z t, P z → IChain g z t →
        IChain { nodes := upd g.nodes n { g.nodes n with ipdom := some x } } z t :=
      fun z t hz h => ichain_congr g _ P hsameP (fun a b => hP.closed a b) z t h hz
    have hfrom : ∀ z t, P z →
        IChain { nodes := upd g.nodes n { g.nodes n with ipdom := some x } } z t →
        IChain g z t :=
      fun z t hz h => ichain_congr _ g P (fun a ha => (hsameP a ha).symm)
        (fun a b ha hab => hP.closed a b ha (by rw [← hsameP a ha]; exact hab)) z t h hz
    have hsound1 : ∀ z, P z ∨ z = n → ∀ t,
        PDom next t z ↔
          IChain { nodes := upd g.nodes n { g.nodes n with ipdom := some x } } z t := by
      intro z hz t
      rcases hz with hz | hz
      · rw [hsound z hz t]
        exact ⟨hto z t hz, hfrom z t hz⟩
      · subst hz
        rw [pdom_step next z t hne, ← hnext z]
        constructor
        · rintro (h | h)
          · subst h
            exact Relation.ReflTransGen.refl
          · refine Relation.ReflTransGen.head hipn (hto x t hxP ?_)
            rw [hchar t]
            exact ⟨by simp, fun s hs => (hsound s (hsP s hs) t).1 (h s hs)⟩
        · intro h
          rcases ichain_head _ z t h with e | ⟨c, hc, hct⟩
          · exact Or.inl e
          · right
            rw [hipn] at hc
            have := Option.some.inj hc
            subst this
            intro s hs
            rw [hsound s (hsP s hs) t]
            exact ((hchar t).1 (hfrom _ t hxP hct)).2 s hs
    obtain ⟨g', e', p', s', sh'⟩ := ih { nodes := upd g.nodes n { g.nodes n with ipdom := some x } }
      (fun y => P y ∨ y = n) hP1
      (fun y => by simp only []; rw [(hshape y).2]; exact hnext y)
      (by
        intro a b ha hb hab
        simp only [] at hab
        rw [(hshape a).1, (hshape b).1] at hab
        refine hinj a b ?_ ?_ hab
        · rcases ha with (h | h) | h
          · exact Or.inl h
          · exact Or.inr (by simp [h])
          · exact Or.inr (by simp [h])
        · rcases hb with (h | h) | h
          · exact Or.inl h
          · exact Or.inr (by simp [h])
          · exact Or.inr (by simp [h]))
      hsound1
      (by
        intro l1 m l2 hsplit
        obtain ⟨a1, a2, a3, a4, a5, a6, a7⟩ := hready (n :: l1) m l2 (by simp [hsplit])
        simp only [List.mem_cons, not_or] at a3
        simp only []
        rw [(hshape m).1, (hshape m).2]
        refine ⟨a1, ?_, a3.2, a4, a5, a6, ?_⟩
        · rintro (h | h)
          · exact a2 h
          · exact a3.1 h
        · intro s hs
          rw [(hshape s).1]
          refine ⟨?_, (a7 s hs).2⟩
          rcases (a7 s hs).1 with h | h
          · exact Or.inl (Or.inl h)
          · rcases List.mem_cons.1 h with h | h
            · exact Or.inl (Or.inr h)
            · exact Or.inr h)
    refine ⟨g', e', p'.congr ?_, ?_, ?_⟩
    · intro y
      simp only [List.mem_cons]
      tauto
    · intro y hy
      apply s' y
      rcases hy with h | h
      · exact Or.inl (Or.inl h)
      · rcases List.mem_cons.1 h with h | h
        · exact Or.inl (Or.inr h)
        · exact Or.inr h
    · intro y
      obtain ⟨b1, b2⟩ := sh' y
      obtain ⟨c1, c2⟩ := hshape y
      exact ⟨b1.trans c1, b2.trans c2⟩


/-- The function `postdominators` on an acyclic FCFG in which every node
reaches `nexit`: it returns, and the post-dominators of every node are the
nodes of its chain of immediate post-dominators. -/
theorem postdominators_correct (g : FCFG) (U : Finset Node) (fuel : Nat)
    (hexit : Node.nexit ∈ U)
    (hcons : ∀ a ∈ U, ∀ b ∈ U, (b ∈ (g.nodes a).succs ↔ a ∈ (g.nodes b).preds))
    (hUs : ∀ x ∈ U, ∀ y ∈ (g.nodes x).succs, y ∈ U)
    (hUp : ∀ x ∈ U, ∀ y ∈ (g.nodes x).preds, y ∈ U)
    (hac : AcyclicOn U (fun x => (g.nodes x).succs))
    (hreach : ∀ x ∈ U, Reach (fun x => (g.nodes x).succs) x Node.nexit)
    (hfuel : 2 * U.card + 2 ≤ fuel) :
    ∃ g' M, postdominators fuel g = some g' ∧ PInv g' M (fun x => x ∈ U) ∧
      (∀ x ∈ U, ∀ t, PDom (fun x => (g.nodes x).succs) t x ↔ IChain g' x t) ∧
      ∀ y, (g'.nodes y).succs = (g.nodes y).succs := by
  have hacp : AcyclicOn U (fun x => (g.nodes x).preds) :=
    acyclicOn_reverse U (fun x => (g.nodes x).succs) (fun x => (g.nodes x).preds) hcons hUp hac
  obtain ⟨st, est, inv, hord, _, pre, hpre⟩ :=
    dfsVisit_from_empty (fun x => (g.nodes x).preds) U hUp Node.nexit hexit fuel (by omega)
  have hmemU : ∀ x, x ∈ st.order ↔ x ∈ U := by
    intro x
    constructor
    · exact inv.inU x
    · intro hx
      exact (hord x).2 (reach_reverse U _ _ hcons hUs x Node.nexit hx (hreach x hx)).2
  have hnd : (pre ++ [Node.nexit]).Nodup := hpre ▸ inv.nodup
  have hexpre : Node.nexit ∉ pre := by
    intro h
    have := List.disjoint_of_nodup_append hnd h
    simp at this
  have hprend : pre.Nodup := (List.nodup_append.1 hnd).1
  have hlen : pre.length < U.card := by
    have h1 : st.order.toFinset ⊆ U := fun x hx => inv.inU x (List.mem_toFinset.1 hx)
    have h2 := Finset.card_le_card h1
    rw [List.toFinset_card_of_nodup inv.nodup, hpre] at h2
    simp at h2
    omega
  -- the graph after `_rdfs` and the initialisation of `nexit`
  have hnums := fun x => assignNums_spec st.order 0 g.nodes inv.nodup x
  have hrdfs : _rdfs g fuel Node.nexit = some (g.withNums st.order, st.order) := by
    simp [_rdfs, est]
  have hshape2 : ∀ y,
      (((g.withNums st.order).initExit.nodes) y).num =
        ((g.withNums st.order).nodes y).num ∧
      (((g.withNums st.order).initExit.nodes) y).succs =
        (g.nodes y).succs := by
    intro y
    unfold FCFG.initExit FCFG.withNums upd
    simp only []
    split
    · rename_i h; subst h; exact ⟨rfl, (hnums _).1⟩
    · exact ⟨rfl, (hnums _).1⟩
  have hnum2 : ∀ y, y ∈ st.order →
      (((g.withNums st.order).initExit.nodes) y).num =
        ((st.order.indexOf y : Nat) : Int) := by
    intro y hy
    rw [(hshape2 y).1]
    show (assignNums st.order 0 g.nodes y).num = _
    rw [(hnums y).2.2.2.2 hy]
    simp
  have hidxexit : st.order.indexOf Node.nexit = pre.length := by
    rw [hpre, List.indexOf_append_of_not_mem hexpre]
    simp
  have hex : Node.nexit ∈ st.order := by rw [hpre]; simp
  have hP2 : PInv (g.withNums st.order).initExit (pre.length : Int)
      (fun x => x = Node.nexit) := by
    refine ⟨rfl, ?_, by simp [FCFG.initExit, upd], ?_, ?_⟩
    · rw [hnum2 _ hex, hidxexit]
    · intro x hx
      subst hx
      rw [hnum2 _ hex, hidxexit]
      omega
    · intro x hx hne
      exact absurd hx hne
  have hready : ∀ l1 n l2, pre.reverse = l1 ++ n :: l2 →
      n ≠ Node.nexit ∧ ¬ (n = Node.nexit) ∧ n ∉ l1 ∧
      0 ≤ (((g.withNums st.order).initExit.nodes) n).num ∧
      (((g.withNums st.order).initExit.nodes) n).num ≤
        (pre.length : Int) ∧
      (((g.withNums st.order).initExit.nodes) n).succs ≠ [] ∧
      ∀ s ∈ (((g.withNums st.order).initExit.nodes) n).succs,
        (s = Node.nexit ∨ s ∈ l1) ∧
        (((g.withNums st.order).initExit.nodes) n).num <
        (((g.withNums st.order).initExit.nodes) s).num := by
    intro l1 n l2 hsplit
    have hpre' : pre = l2.reverse ++ n :: l1.reverse := by
      have := congrArg List.reverse hsplit
      simpa using this
    have hnpre : n ∈ pre := by rw [hpre']; simp
    have hnord : n ∈ st.order := by rw [hpre]; simp [hnpre]
    have hnU : n ∈ U := (hmemU n).1 hnord
    have hne : n ≠ Node.nexit := fun e => hexpre (e ▸ hnpre)
    have hrnd : (l1 ++ n :: l2).Nodup := hsplit ▸ (List.nodup_reverse.2 hprend)
    have hnl1 : n ∉ l1 := by
      intro h
      have := List.disjoint_of_nodup_append hrnd h
      simp at this
    have hnl2 : n ∉ l2.reverse := by
      intro h
      have h' : n ∈ l2 := List.mem_reverse.1 h
      have := (List.nodup_cons.1 (List.nodup_append.1 hrnd).2.1).1
      exact this h'
    have hidxn : st.order.indexOf n = l2.length := by
      rw [hpre, hpre', List.append_assoc, List.indexOf_append_of_not_mem hnl2]
      simp
    rw [(hshape2 n).2, hnum2 n hnord, hidxn]
    have hl2 : l2.length < pre.length := by
      rw [hpre']
      simp
    refine ⟨hne, hne, hnl1, by omega, by omega, ?_, ?_⟩
    · intro hnil
      have := hreach n hnU
      rcases Relation.ReflTransGen.cases_head this with e | ⟨c, hc, _⟩
      · exact hne e
      · simp only [] at hc
        rw [hnil] at hc
        simp at hc
    · intro s hs
      have hsU : s ∈ U := hUs n hnU s hs
      have hsord : s ∈ st.order := (hmemU s).2 hsU
      have hnp : n ∈ (g.nodes s).preds := (hcons n hnU s hsU).1 hs
      have htopo := (inv.topo hacp s hsord n hnp).2
      rw [hnum2 s hsord]
      refine ⟨?_, by omega⟩
      by_cases hse : s = Node.nexit
      · exact Or.inl hse
      · right
        have hspre : s ∈ pre := by
          rw [hpre] at hsord
          rcases List.mem_append.1 hsord with h | h
          · exact h
          · simp at h; exact absurd h hse
        rw [hpre'] at hspre
        rcases List.mem_append.1 hspre with h | h
        · exfalso
          have : st.order.indexOf s < l2.length := by
            rw [hpre, hpre', List.append_assoc, List.indexOf_append_of_mem h]
            have := List.indexOf_lt_length.2 h
            simpa using this
          omega
        · rcases List.mem_cons.1 h with h | h
          · subst h; omega
          · exact List.mem_reverse.1 h
  have hPmem : ∀ x, (x = Node.nexit ∨ x ∈ pre.reverse) ↔ x ∈ U := by
    intro x
    rw [← hmemU x, hpre]
    simp only [List.mem_reverse, List.mem_append, List.mem_singleton]
    tauto
  -- the numbers are the positions in `order`, which has no repetition
  have hinj : ∀ x y, (x = Node.nexit ∨ x ∈ pre.reverse) → (y = Node.nexit ∨ y ∈ pre.reverse) →
      (((g.withNums st.order).initExit.nodes) x).num =
        (((g.withNums st.order).initExit.nodes) y).num → x = y := by
    intro x y hx hy hxy
    have hxo := (hmemU x).2 ((hPmem x).1 hx)
    have hyo := (hmemU y).2 ((hPmem y).1 hy)
    rw [hnum2 x hxo, hnum2 y hyo] at hxy
    exact (List.indexOf_inj hxo hyo).1 (by exact_mod_cast hxy)
  -- the chain of `nexit` is `nexit` alone
  have hsound0 : ∀ x, x = Node.nexit → ∀ t,
      PDom (fun x => (g.nodes x).succs) t x ↔ IChain (g.withNums st.order).initExit x t := by
    intro x hx t
    subst hx
    rw [pdom_exit]
    constructor
    · intro h
      subst h
      exact Relation.ReflTransGen.refl
    · intro h
      induction h with
      | refl => rfl
      | @tail a b _ hab ih =>
        subst ih
        rw [hP2.exitIpdom] at hab
        exact (Option.some.inj hab).symm
  obtain ⟨g', eg', pinv, hsound, hsh⟩ := postdomLoop_correct (fun x => (g.nodes x).succs) fuel
    (pre.length : Int) (by simp; omega) pre.reverse _ _ hP2 (fun y => (hshape2 y).2) hinj
    hsound0 hready
  refine ⟨g', (pre.length : Int), ?_, pinv.congr hPmem, ?_, ?_⟩
  · unfold postdominators
    rw [hrdfs]
    simp only []
    have htail : st.order.reverse.tail = pre.reverse := by rw [hpre]; simp
    rw [htail]
    exact eg'
  · intro x hx t
    exact hsound x ((hPmem x).2 hx) t
  · intro y
    rw [(hsh y).2, (hshape2 y).2]

/-- C13: on an acyclic FCFG, given by its node set `U` with consistent successor
and predecessor lists, in which every node reaches `nexit`, the single pass of
`FCFG::postdominators` completes (with fuel for twice the number of nodes) and
gives every node `n` other than `nexit` its true immediate post-dominator:
`ipdom(n)` is a node other than `n` that lies on every path from `n` to `nexit`,
and every node other than `n` that lies on every path from `n` to `nexit` lies
on every path from `ipdom(n)` to `nexit`. -/
theorem postdominators_ipdom_is_immediate (g : FCFG) (U : Finset Node) (fuel : Nat)
    (hexit : Node.nexit ∈ U)
    (hcons : ∀ a ∈ U, ∀ b ∈ U, (b ∈ (g.nodes a).succs ↔ a ∈ (g.nodes b).preds))
    (hUs : ∀ x ∈ U, ∀ y ∈ (g.nodes x).succs, y ∈ U)
    (hUp : ∀ x ∈ U, ∀ y ∈ (g.nodes x).preds, y ∈ U)
    (hac : AcyclicOn U (fun x => (g.nodes x).succs))
    (hreach : ∀ x ∈ U, Reach (fun x => (g.nodes x).succs) x Node.nexit)
    (hfuel : 2 * U.card + 2 ≤ fuel) :
    ∃ g', postdominators fuel g = some g' ∧
      ∀ n ∈ U, n ≠ Node.nexit →
        ∃ m ∈ U, (g'.nodes n).ipdom = some m ∧ m ≠ n ∧
          PDom (fun x => (g.nodes x).succs) m n ∧
          ∀ t, t ≠ n → PDom (fun x => (g.nodes x).succs) t n →
            PDom (fun x => (g.nodes x).succs) t m := by
  obtain ⟨g', M, hrun, pinv, hsound, _⟩ :=
    postdominators_correct g U fuel hexit hcons hUs hUp hac hreach hfuel
  refine ⟨g', hrun, ?_⟩
  intro n hn hne
  obtain ⟨m, hm, hip, hnum⟩ := pinv.up n hn hne
  refine ⟨m, hm, hip, ?_, ?_, ?_⟩
  · intro e
    subst e
    exact lt_irrefl _ hnum
  · rw [hsound n hn m]
    exact Relation.ReflTransGen.single hip
  · intro t htn ht
    rw [hsound n hn t] at ht
    rw [hsound m hm t]
    rcases ichain_head g' n t ht with e | ⟨c, hc, hct⟩
    · exact absurd e htn
    · rw [hip] at hc
      exact (Option.some.inj hc) ▸ hct

/-- Witness of C13 on the FCFG that `buildfcfg` builds for the diamond. -/
theorem postdominators_ipdom_is_immediate_witness :
    ∃ g', postdominators 16 diamondFCFG = some g' ∧
      ∀ n ∈ diamondNodes, n ≠ Node.nexit →
        ∃ m ∈ diamondNodes, (g'.nodes n).ipdom = some m ∧ m ≠ n ∧
          PDom (fun x => (diamondFCFG.nodes x).succs) m n ∧
          ∀ t, t ≠ n → PDom (fun x => (diamondFCFG.nodes x).succs) t n →
            PDom (fun x => (diamondFCFG.nodes x).succs) t m :=
  postdominators_ipdom_is_immediate diamondFCFG diamondNodes 16 (by decide) (by decide)
    (by decide) (by decide)
    (acyclicOn_of_rank diamondNodes _ diamondRank (by decide) (by decide))
    (reach_sink_of_rank diamondNodes _ diamondRank Node.nexit (by decide) (by decide)
      (by decide))
    (by decide)



/-! ## C12: the walk of `_walkpdt` -/

theorem reach_mem (next : Node → List Node) (U : Finset Node)
    (hU : ∀ x ∈ U, ∀ y ∈ next x, y ∈ U) (a b : Node) (ha : a ∈ U) (h : Reach next a b) :
    b ∈ U := by
  induction h with
  | refl => exact ha
  | @tail x y _ hxy ih => exact hU x ih y hxy

/-- A post-dominator of a node of `U` is reached from it. -/
theorem pdom_reach (next : Node → List Node) (U : Finset Node)
    (hreach : ∀ x ∈ U, Reach next x Node.nexit) (a b : Node) (hb : b ∈ U)
    (h : PDom next a b) : Reach next b a := by
  obtain ⟨p, hp⟩ := exists_path next b (hreach b hb)
  exact path_reach next b p hp a (h p hp)

/-- In an acyclic graph two nodes that post-dominate each other are equal. -/
theorem pdom_antisymm (next : Node → List Node) (U : Finset Node)
    (hU : ∀ x ∈ U, ∀ y ∈ next x, y ∈ U) (hac : AcyclicOn U next)
    (hreach : ∀ x ∈ U, Reach next x Node.nexit) (a b : Node) (hb : b ∈ U)
    (hab : PDom next a b) (hba : PDom next b a) : a = b := by
  by_contra hne
  have h1 : Reach next b a := pdom_reach next U hreach a b hb hab
  have haU : a ∈ U := reach_mem next U hU b a hb h1
  have h2 : Reach next a b := pdom_reach next U hreach b a haU hba
  rcases Relation.ReflTransGen.cases_head h1 with e | ⟨c, hc, hca⟩
  · exact hne e.symm
  · exact hac b hb c hc (Relation.ReflTransGen.trans hca h2)

theorem pdom_refl (next : Node → List Node) (x : Node) : PDom next x x :=
  fun p hp => path_head_mem next x p hp

/-- The walk of `_walkpdt` from a node `t` post-dominated by `m`, the immediate
post-dominator of `a`: it ends, and charges `(edgesrc, e)` to the nodes that
post-dominate `t` but not `m`. The nodes of `seen` were walked before. -/
theorem walkpdt_spec (g : FCFG) (U : Finset Node) (a edgesrc m : Node) (e : Edge)
    (hUs : ∀ x ∈ U, ∀ y ∈ (g.nodes x).succs, y ∈ U)
    (hac : AcyclicOn U (fun x => (g.nodes x).succs))
    (hreach : ∀ x ∈ U, Reach (fun x => (g.nodes x).succs) x Node.nexit)
    (hcorrect : ∀ x ∈ U, x ≠ Node.nexit →
      ∃ d, (g.nodes x).ipdom = some d ∧ d ≠ x ∧ PDom (fun x => (g.nodes x).succs) d x ∧
        ∀ t, t ≠ x → PDom (fun x => (g.nodes x).succs) t x →
          PDom (fun x => (g.nodes x).succs) t d)
    (ham : (g.nodes a).ipdom = some m) (fuel : Nat) :
    ∀ (t : Node) (seen : Finset Node) (CD : MBBPtr → Option CDEntry), t ∈ U →
      PDom (fun x => (g.nodes x).succs) m t → seen ⊆ U →
      (∀ v ∈ seen, v ≠ t ∧ PDom (fun x => (g.nodes x).succs) t v) →
      U.card < fuel + seen.card →
      ∃ CD', _walkpdt g a e edgesrc fuel (some t) CD = some CD' ∧
        ∀ k y, y ∈ (CD' k).getD ∅ ↔
          y ∈ (CD k).getD ∅ ∨ (y = (edgesrc, e) ∧ ∃ v : Node, v.MBB = k ∧
            PDom (fun x => (g.nodes x).succs) v t ∧ ¬ PDom (fun x => (g.nodes x).succs) v m) := by
  induction fuel with
  | zero =>
    intro t seen CD ht _ hseen _ hfuel
    exfalso
    have := Finset.card_le_card hseen
    omega
  | succ f ih =>
    intro t seen CD ht hmt hseen hprev hfuel
    unfold _walkpdt
    by_cases htm : t = m
    · subst htm
      simp only [ham, if_true]
      refine ⟨CD, rfl, ?_⟩
      intro k y
      constructor
      · exact fun h => Or.inl h
      · rintro (h | ⟨_, v, _, h1, h2⟩)
        · exact h
        · exact absurd h1 h2
    · have hif : ¬ (some t = (g.nodes a).ipdom) := by
        rw [ham]
        intro h
        exact htm (Option.some.inj h)
      simp only [hif, if_false]
      have htne : t ≠ Node.nexit := by
        intro h
        subst h
        exact htm ((pdom_exit _ m).1 hmt).symm
      obtain ⟨d, hd, hdt, hdp, hdmin⟩ := hcorrect t ht htne
      rw [hd]
      have hdU : d ∈ U := reach_mem _ U hUs t d ht (pdom_reach _ U hreach d t ht hdp)
      have hmd : PDom (fun x => (g.nodes x).succs) m d := hdmin m (fun h => htm h.symm) hmt
      have hseen' : insert t seen ⊆ U := Finset.insert_subset ht hseen
      have htseen : t ∉ seen := fun h => (hprev t h).1 rfl
      have hprev' : ∀ v ∈ insert t seen,
          v ≠ d ∧ PDom (fun x => (g.nodes x).succs) d v := by
        intro v hv
        rcases Finset.mem_insert.1 hv with h | h
        · subst h
          exact ⟨fun h => hdt h.symm, hdp⟩
        · have hvU : v ∈ U := hseen h
          have hvd : PDom (fun x => (g.nodes x).succs) d v :=
            pdom_trans _ d t v hdp (hprev v h).2
          refine ⟨?_, hvd⟩
          intro hvd'
          subst hvd'
          exact hdt (pdom_antisymm _ U hUs hac hreach v t ht hdp (hprev v h).2)
      obtain ⟨CD', hrun, hchar⟩ := ih d (insert t seen)
        (upd CD t.MBB (some (insert (edgesrc, e) ((CD t.MBB).getD ∅)))) hdU hmd hseen' hprev'
        (by rw [Finset.card_insert_of_not_mem htseen]; omega)
      refine ⟨CD', hrun, ?_⟩
      intro k y
      rw [hchar k y]
      have hupd : y ∈ ((upd CD t.MBB (some (insert (edgesrc, e) ((CD t.MBB).getD ∅)))) k).getD ∅ ↔
          y ∈ (CD k).getD ∅ ∨ (y = (edgesrc, e) ∧ t.MBB = k) := by
        unfold upd
        by_cases hk : k = t.MBB
        · subst hk
          simp only [if_true, Option.getD_some, Finset.mem_insert]
          tauto
        · simp only [hk, if_false]
          constructor
          · exact fun h => Or.inl h
          · rintro (h | ⟨_, h⟩)
            · exact h
            · exact absurd h.symm hk
      rw [hupd]
      have htnm : ¬ PDom (fun x => (g.nodes x).succs) t m := by
        intro h
        exact htm (pdom_antisymm _ U hUs hac hreach t m
          (reach_mem _ U hUs t m ht (pdom_reach _ U hreach m t ht hmt)) h hmt)
      constructor
      · rintro ((h | ⟨h1, h2⟩) | ⟨h1, v, h2, h3, h4⟩)
        · exact Or.inl h
        · exact Or.inr ⟨h1, t, h2, pdom_refl _ t, htnm⟩
        · exact Or.inr ⟨h1, v, h2, pdom_trans _ v d t h3 hdp, h4⟩
      · rintro (h | ⟨h1, v, h2, h3, h4⟩)
        · exact Or.inl (Or.inl h)
        · by_cases hvt : v = t
          · subst hvt
            exact Or.inl (Or.inr ⟨h1, h2⟩)
          · exact Or.inr ⟨h1, v, h2, hdmin v hvt h3, h4⟩

/-- C12: in an acyclic FCFG, given by its node set `U`, in which every node
reaches `nexit` and every node other than `nexit` has its true immediate
post-dominator as `ipdom`, the call `_walkpdt(n, s, e)` for a successor `s` of a
node `n` (with any number of successors, two or more among them) ends, with fuel
for the nodes of `U`, and adds `(n, e)` to the set `CD[t]` of exactly the nodes
`t` that post-dominate `s` and do not post-dominate `n`; the other elements of
the sets are kept. -/
theorem walkpdt_adds_control_dependence (g : FCFG) (U : Finset Node) (n s : Node) (e : Edge)
    (fuel : Nat) (CD : MBBPtr → Option CDEntry)
    (hUs : ∀ x ∈ U, ∀ y ∈ (g.nodes x).succs, y ∈ U)
    (hac : AcyclicOn U (fun x => (g.nodes x).succs))
    (hreach : ∀ x ∈ U, Reach (fun x => (g.nodes x).succs) x Node.nexit)
    (hcorrect : ∀ x ∈ U, x ≠ Node.nexit →
      ∃ d, (g.nodes x).ipdom = some d ∧ d ≠ x ∧ PDom (fun x => (g.nodes x).succs) d x ∧
        ∀ t, t ≠ x → PDom (fun x => (g.nodes x).succs) t x →
          PDom (fun x => (g.nodes x).succs) t d)
    (hn : n ∈ U) (hs : s ∈ (g.nodes n).succs)
    (hfuel : U.card < fuel) :
    ∃ CD', _walkpdt g n e n fuel (some s) CD = some CD' ∧
      ∀ k y, y ∈ (CD' k).getD ∅ ↔
        y ∈ (CD k).getD ∅ ∨ (y = (n, e) ∧ ∃ t : Node, t.MBB = k ∧
          PDom (fun x => (g.nodes x).succs) t s ∧ ¬ PDom (fun x => (g.nodes x).succs) t n) := by
  have hsU : s ∈ U := hUs n hn s hs
  have hne : n ≠ Node.nexit := by
    intro h
    subst h
    exact hac _ hn s hs (hreach s hsU)
  obtain ⟨m, hm, hmn, hmp, hmmin⟩ := hcorrect n hn hne
  have hms : PDom (fun x => (g.nodes x).succs) m s := by
    rcases (pdom_step _ n m hne).1 hmp with h | h
    · exact absurd h hmn
    · exact h s hs
  obtain ⟨CD', hrun, hchar⟩ := walkpdt_spec g U n n m e hUs hac hreach hcorrect hm fuel s ∅ CD
    hsU hms (by simp) (by simp) (by simpa using hfuel)
  refine ⟨CD', hrun, ?_⟩
  intro k y
  rw [hchar k y]
  have hns : ¬ PDom (fun x => (g.nodes x).succs) n s := by
    intro h
    exact hac n hn s hs (pdom_reach _ U hreach n s hsU h)
  constructor
  · rintro (h | ⟨h1, v, h2, h3, h4⟩)
    · exact Or.inl h
    · refine Or.inr ⟨h1, v, h2, h3, ?_⟩
      intro hvn
      by_cases hv : v = n
      · subst hv
        exact hns h3
      · exact h4 (hmmin v hv hvn)
  · rintro (h | ⟨h1, v, h2, h3, h4⟩)
    · exact Or.inl h
    · exact Or.inr ⟨h1, v, h2, h3, fun hvm => h4 (pdom_trans _ v m n hvm hmp)⟩


/-- The result of `postdominators`, in terms of the graph returned: every node
other than `nexit` has its true immediate post-dominator. -/
theorem postdominators_result_correct (g : FCFG) (U : Finset Node) (fuel : Nat)
    (hexit : Node.nexit ∈ U)
    (hcons : ∀ a ∈ U, ∀ b ∈ U, (b ∈ (g.nodes a).succs ↔ a ∈ (g.nodes b).preds))
    (hUs : ∀ x ∈ U, ∀ y ∈ (g.nodes x).succs, y ∈ U)
    (hUp : ∀ x ∈ U, ∀ y ∈ (g.nodes x).preds, y ∈ U)
    (hac : AcyclicOn U (fun x => (g.nodes x).succs))
    (hreach : ∀ x ∈ U, Reach (fun x => (g.nodes x).succs) x Node.nexit)
    (hfuel : 2 * U.card + 2 ≤ fuel) :
    ∃ g', postdominators fuel g = some g' ∧
      (∀ y, (g'.nodes y).succs = (g.nodes y).succs) ∧
      ∀ n ∈ U, n ≠ Node.nexit →
        ∃ d, (g'.nodes n).ipdom = some d ∧ d ≠ n ∧
          PDom (fun x => (g'.nodes x).succs) d n ∧
          ∀ t, t ≠ n → PDom (fun x => (g'.nodes x).succs) t n →
            PDom (fun x => (g'.nodes x).succs) t d := by
  obtain ⟨g', M, hrun, pinv, hsound, hsh⟩ :=
    postdominators_correct g U fuel hexit hcons hUs hUp hac hreach hfuel
  have hfun : (fun x => (g'.nodes x).succs) = (fun x => (g.nodes x).succs) := funext hsh
  refine ⟨g', hrun, hsh, ?_⟩
  rw [hfun]
  intro n hn hne
  obtain ⟨m, hm, hip, hnum⟩ := pinv.up n hn hne
  refine ⟨m, hip, ?_, ?_, ?_⟩
  · intro e
    subst e
    exact lt_irrefl _ hnum
  · rw [hsound n hn m]
    exact Relation.ReflTransGen.single hip
  · intro t htn ht
    rw [hsound n hn t] at ht
    rw [hsound m hm t]
    rcases ichain_head g' n t ht with e | ⟨c, hc, hct⟩
    · exact absurd e htn
    · rw [hip] at hc
      exact (Option.some.inj hc) ▸ hct

/-- The immediate post-dominators that `postdominators` computes for the
diamond are the true ones. -/
theorem diamond_ipdoms_correct : ∀ x ∈ diamondNodes, x ≠ Node.nexit →
    ∃ d, (diamondPostdom.nodes x).ipdom = some d ∧ d ≠ x ∧
      PDom (fun x => (diamondPostdom.nodes x).succs) d x ∧
      ∀ t, t ≠ x → PDom (fun x => (diamondPostdom.nodes x).succs) t x →
        PDom (fun x => (diamondPostdom.nodes x).succs) t d := by
  obtain ⟨g', hrun, _, hc⟩ := postdominators_result_correct diamondFCFG diamondNodes 16
    (by decide) (by decide) (by decide) (by decide)
    (acyclicOn_of_rank diamondNodes _ diamondRank (by decide) (by decide))
    (reach_sink_of_rank diamondNodes _ diamondRank Node.nexit (by decide) (by decide)
      (by decide))
    (by decide)
  have h : diamondPostdom = g' := by
    unfold diamondPostdom
    rw [hrun]
    rfl
  rw [h]
  exact hc

/-- Witness of C12 on the diamond after `postdominators`: the walk for the edge
from the entry block 0 to its successor 1. -/
theorem walkpdt_adds_control_dependence_witness :
    ∃ CD', _walkpdt diamondPostdom (Node.blk 0) (some 0, some 1) (Node.blk 0) 8
        (some (Node.blk 1)) (fun _ => none) = some CD' ∧
      ∀ k y, y ∈ (CD' k).getD ∅ ↔
        y ∈ (((fun _ => none) : MBBPtr → Option CDEntry) k).getD ∅ ∨
          (y = (Node.blk 0, (some 0, some 1)) ∧ ∃ t : Node, t.MBB = k ∧
            PDom (fun x => (diamondPostdom.nodes x).succs) t (Node.blk 1) ∧
            ¬ PDom (fun x => (diamondPostdom.nodes x).succs) t (Node.blk 0)) :=
  walkpdt_adds_control_dependence diamondPostdom diamondNodes (Node.blk 0) (Node.blk 1)
    (some 0, some 1) 8 (fun _ => none) (by decide)
    (acyclicOn_of_rank diamondNodes _ diamondRank (by decide) (by decide))
    (reach_sink_of_rank diamondNodes _ diamondRank Node.nexit (by decide) (by decide)
      (by decide))
    diamond_ipdoms_correct (by decide) (by decide) (by decide)

/-! ## C24, C25, C26: `applyPredicates` -/

theorem predicateInstr_of_toPredicate (isP : MachineInstr → Bool) (preg : Nat)
    (MI : MachineInstr) (hb : MI.isBundle = false) (ht : toPredicate isP MI = true)
    (hop : hasPredOperands MI = true) :
    predicateInstr isP preg MI = some (withPredicate preg MI) ∧
      ∃ i, MI.predIdx = some i ∧ (withPredicate preg MI).operands[i]? =
          some (MachineOperand.reg preg) ∧
        (withPredicate preg MI).operands[i + 1]? = some (MachineOperand.imm 0) := by
  simp only [toPredicate, Bool.and_eq_true, Bool.not_eq_true'] at ht
  obtain ⟨⟨h1, h2⟩, h3⟩ := ht
  unfold hasPredOperands at hop
  unfold predicateInstr withPredicate
  cases hi : MI.predIdx with
  | none => rw [hi] at hop; simp at hop
  | some i =>
    rw [hi] at hop
    simp only [] at hop
    cases h0 : MI.operands[i]? with
    | none => rw [h0] at hop; simp at hop
    | some o0 =>
      cases h1' : MI.operands[i + 1]? with
      | none => rw [h0, h1'] at hop; cases o0 <;> simp at hop
      | some o1 =>
        rw [h0, h1'] at hop
        cases o0 with
        | imm v => simp at hop
        | reg r =>
          cases o1 with
          | reg r' => simp at hop
          | imm v =>
            have hl0 : i < MI.operands.length := by
              by_contra hge
              rw [List.getElem?_eq_none (by omega)] at h0
              simp at h0
            have hl1 : i + 1 < MI.operands.length := by
              by_contra hge
              rw [List.getElem?_eq_none (by omega)] at h1'
              simp at h1'
            refine ⟨by simp [hb, h1, h2, h3, h0, h1'], i, rfl, ?_, ?_⟩
            · simp [List.getElem?_set, hl0]
            · simp [List.getElem?_set, hl1]

theorem predicateInstr_of_not_toPredicate (isP : MachineInstr → Bool) (preg : Nat)
    (MI : MachineInstr) (hb : MI.isBundle = false) (ht : toPredicate isP MI = false) :
    predicateInstr isP preg MI = some MI := by
  unfold predicateInstr
  simp only [hb, Bool.false_eq_true, if_false]
  by_cases h1 : MI.isReturn = true
  · simp [h1]
  · by_cases h2 : MI.isPredicable = true
    · have h3 : isP MI = true := by
        simp only [toPredicate, Bool.and_eq_false_iff, Bool.not_eq_false'] at ht
        rcases ht with (h | h) | h
        · exact absurd h h1
        · rw [h2] at h; simp at h
        · simpa using h
      simp [h1, h2, h3]
    · simp [h1, h2]

/-- The loop over the instructions of a block that meets the assertions: it
returns, keeps the number of instructions, and each instruction is predicated
or kept. -/
theorem predicateRange_spec (isP : MachineInstr → Bool) (preg : Nat) (l : List MachineInstr)
    (hok : ∀ MI ∈ l, MI.isBundle = false ∧
      (toPredicate isP MI = true → hasPredOperands MI = true)) :
    predicateRange isP preg l = some (l.map (fun MI =>
      if toPredicate isP MI = true then withPredicate preg MI else MI)) := by
  induction l with
  | nil => rfl
  | cons MI rest ih =>
    obtain ⟨hb, hop⟩ := hok MI (by simp)
    unfold predicateRange
    by_cases ht : toPredicate isP MI = true
    · rw [(predicateInstr_of_toPredicate isP preg MI hb ht (hop ht)).1]
      simp only [ih (fun x hx => hok x (by simp [hx])), Option.map_some', List.map_cons, ht,
        if_true]
    · have ht' : toPredicate isP MI = false := by simpa using ht
      rw [predicateInstr_of_not_toPredicate isP preg MI hb ht']
      simp only [ih (fun x hx => hok x (by simp [hx])), Option.map_some', List.map_cons]
      rw [if_neg ht]

/-- The result of `applyPredicates` on a block that meets the assertions. -/
theorem applyPredicatesBlock_spec (isP : MachineInstr → Bool) (preg : Nat)
    (instrs : List MachineInstr) (hok : BlockOK isP instrs) :
    applyPredicatesBlock isP preg instrs =
      some (instrs.take (firstNonPHIIdx instrs) ++
        (((instrs.take (firstTerminatorIdx instrs)).drop (firstNonPHIIdx instrs)).map
          (fun MI => if toPredicate isP MI = true then withPredicate preg MI else MI)) ++
        [predBBEnd preg] ++ instrs.drop (firstTerminatorIdx instrs)) := by
  unfold applyPredicatesBlock
  rw [if_pos hok.1, predicateRange_spec isP preg _ hok.2]
  rfl

/-- The loop of `applyPredicates` over blocks without repetition that meet the
assertions: it returns; a block with a use register gets the result of
`applyPredicatesBlock`, every other block keeps its instructions. -/
theorem applyPredicatesLoop_spec (isP : MachineInstr → Bool) (puv : R_t) (blocks : List MBB)
    (hnd : blocks.Nodup) :
    ∀ instrs : MBB → List MachineInstr,
      (∀ b ∈ blocks, (mapFind puv b).isSome → BlockOK isP (instrs b)) →
      ∃ instrs', applyPredicatesLoop isP puv blocks instrs = some instrs' ∧
        ∀ B, (∀ preg, B ∈ blocks → mapFind puv B = some preg →
            applyPredicatesBlock isP preg (instrs B) = some (instrs' B)) ∧
          ((B ∉ blocks ∨ mapFind puv B = none) → instrs' B = instrs B) := by
  induction blocks with
  | nil =>
    intro instrs _
    exact ⟨instrs, rfl, fun B => ⟨fun _ h => by simp at h, fun _ => rfl⟩⟩
  | cons b bs ih =>
    intro instrs hok
    have hbs : b ∉ bs := (List.nodup_cons.1 hnd).1
    unfold applyPredicatesLoop
    cases hf : mapFind puv b with
    | none =>
      simp only []
      obtain ⟨instrs', e, h⟩ := ih (List.nodup_cons.1 hnd).2 instrs
        (fun x hx => hok x (by simp [hx]))
      refine ⟨instrs', e, ?_⟩
      intro B
      refine ⟨?_, ?_⟩
      · intro preg hB hpreg
        rcases List.mem_cons.1 hB with h1 | h1
        · subst h1
          rw [hf] at hpreg
          simp at hpreg
        · exact (h B).1 preg h1 hpreg
      · intro hB
        apply (h B).2
        rcases hB with h1 | h1
        · exact Or.inl (fun hmem => h1 (by simp [hmem]))
        · exact Or.inr h1
    | some preg =>
      simp only []
      have hokb := hok b (by simp) (by simp [hf])
      rw [applyPredicatesBlock_spec isP preg (instrs b) hokb]
      simp only []
      obtain ⟨instrs', e, h⟩ := ih (List.nodup_cons.1 hnd).2 (upd instrs b _)
        (fun x hx hs => by
          have hxb : x ≠ b := fun hxb => hbs (hxb ▸ hx)
          simp only [upd, hxb, if_false]
          exact hok x (by simp [hx]) hs)
      refine ⟨instrs', e, ?_⟩
      intro B
      by_cases hBb : B = b
      · subst hBb
        have hkeep := (h B).2 (Or.inl hbs)
        simp only [upd, if_true] at hkeep
        refine ⟨?_, ?_⟩
        · intro preg' _ hpreg'
          rw [hf] at hpreg'
          have := Option.some.inj hpreg'
          subst this
          rw [applyPredicatesBlock_spec isP preg (instrs B) hokb, hkeep]
        · rintro (h1 | h1)
          · exact absurd (List.mem_cons_self _ _) h1
          · rw [hf] at h1
            simp at h1
      · refine ⟨?_, ?_⟩
        · intro preg' hB hpreg'
          have hB' : B ∈ bs := by
            rcases List.mem_cons.1 hB with h1 | h1
            · exact absurd h1 hBb
            · exact h1
          have := (h B).1 preg' hB' hpreg'
          simpa [upd, hBb] using this
        · intro hB
          have : instrs' B = _ := (h B).2 (by
            rcases hB with h1 | h1
            · exact Or.inl (fun hmem => h1 (by simp [hmem]))
            · exact Or.inr h1)
          simpa [upd, hBb] using this

/-- The instructions split at `getFirstTerminator` into a part that does not end
in a terminator and the terminators that end the block. -/
theorem firstTerminator_split (l : List MachineInstr) :
    l.take (firstTerminatorIdx l) ++ l.drop (firstTerminatorIdx l) = l ∧
    (l.take (firstTerminatorIdx l)).length = firstTerminatorIdx l ∧
    (∀ MI ∈ l.drop (firstTerminatorIdx l), MI.isTerminator = true) ∧
    ∀ MI, (l.take (firstTerminatorIdx l)).getLast? = some MI → MI.isTerminator = false := by
  obtain ⟨A, T, hsplit, hlen, hT, hA⟩ : ∃ A T : List MachineInstr, l = A ++ T ∧
      A.length = firstTerminatorIdx l ∧ (∀ MI ∈ T, MI.isTerminator = true) ∧
      ∀ MI, A.getLast? = some MI → MI.isTerminator = false := by
    refine ⟨(l.reverse.dropWhile (fun MI => MI.isTerminator)).reverse,
      (l.reverse.takeWhile (fun MI => MI.isTerminator)).reverse, ?_, ?_, ?_, ?_⟩
    · rw [← List.reverse_append, List.takeWhile_append_dropWhile, List.reverse_reverse]
    · unfold firstTerminatorIdx
      have h := congrArg List.length
        (List.takeWhile_append_dropWhile (fun MI : MachineInstr => MI.isTerminator) l.reverse)
      simp only [List.length_append, List.length_reverse] at h ⊢
      omega
    · intro MI hMI
      rw [List.mem_reverse] at hMI
      exact List.mem_takeWhile_imp hMI
    · intro MI hMI
      rw [List.getLast?_reverse] at hMI
      have := List.head?_dropWhile_not (fun MI => MI.isTerminator) l.reverse
      rw [hMI] at this
      simpa using this
  rw [← hlen]
  subst hsplit
  refine ⟨List.take_append_drop _ _, ?_, ?_, ?_⟩
  · simp
  · intro MI hMI
    rw [List.drop_left] at hMI
    exact hT MI hMI
  · intro MI hMI
    rw [List.take_left] at hMI
    exact hA MI hMI

theorem firstNonPHIIdx_le (l : List MachineInstr) : firstNonPHIIdx l ≤ l.length := by
  unfold firstNonPHIIdx
  exact (List.takeWhile_sublist _).length_le

/-- The instructions of a block after `applyPredicates`, by position: those
before the first non-PHI are kept, those up to the first terminator are
predicated or kept, the pseudo instruction follows, and the terminators are
kept behind it. -/
theorem applied_getElem? (f : MachineInstr → MachineInstr) (s : MachineInstr)
    (l : List MachineInstr) (b e : Nat) (hbe : b ≤ e) (he : e ≤ l.length) :
    (l.take b ++ ((l.take e).drop b).map f ++ [s] ++ l.drop e).length = l.length + 1 ∧
    (∀ j, j < b → (l.take b ++ ((l.take e).drop b).map f ++ [s] ++ l.drop e)[j]? = l[j]?) ∧
    (∀ j, b ≤ j → j < e →
      (l.take b ++ ((l.take e).drop b).map f ++ [s] ++ l.drop e)[j]? = (l[j]?).map f) ∧
    (l.take b ++ ((l.take e).drop b).map f ++ [s] ++ l.drop e)[e]? = some s ∧
    ∀ j, e ≤ j → (l.take b ++ ((l.take e).drop b).map f ++ [s] ++ l.drop e)[j + 1]? = l[j]? := by
  have h1 : (l.take b).length = b := by simp; omega
  have h2 : (((l.take e).drop b).map f).length = e - b := by simp; omega
  have h3 : (l.take b ++ ((l.take e).drop b).map f).length = e := by
    rw [List.length_append, h1, h2]; omega
  refine ⟨?_, ?_, ?_, ?_, ?_⟩
  · simp only [List.length_append, h1, h2, List.length_singleton, List.length_drop]
    omega
  · intro j hj
    rw [List.append_assoc, List.append_assoc, List.getElem?_append_left (by omega)]
    exact List.getElem?_take_of_lt hj
  · intro j hbj hje
    rw [List.append_assoc, List.append_assoc, List.getElem?_append_right (by omega), h1,
      List.getElem?_append_left (by omega), List.getElem?_map, List.getElem?_drop,
      List.getElem?_take_of_lt (by omega)]
    congr 2
    omega
  · rw [List.append_assoc, List.getElem?_append_right (by omega), h3]
    simp
  · intro j hj
    have h4 : (l.take b ++ ((l.take e).drop b).map f ++ [s]).length = e + 1 := by
      rw [List.length_append, h3]
      rfl
    rw [List.getElem?_append_right (by omega), h4, List.getElem?_drop]
    congr 1
    omega

/-- The function `applyPredicates` on blocks that meet its assertions: it
returns, and gives each block with a use register the result described by
`applied_getElem?`. -/
theorem applyPredicates_spec (isP : MachineInstr → Bool) (MF : MachineFunction) (puv : R_t)
    (instrs : MBB → List MachineInstr) (hnd : MF.blocks.Nodup)
    (hok : ∀ b ∈ MF.blocks, (mapFind puv b).isSome → BlockOK isP (instrs b)) :
    ∃ instrs', applyPredicates isP MF puv instrs = some instrs' ∧
      (∀ B, (B ∉ MF.blocks ∨ mapFind puv B = none) → instrs' B = instrs B) ∧
      ∀ B ∈ MF.blocks, ∀ preg, mapFind puv B = some preg →
        instrs' B = (instrs B).take (firstNonPHIIdx (instrs B)) ++
          (((instrs B).take (firstTerminatorIdx (instrs B))).drop
            (firstNonPHIIdx (instrs B))).map
              (fun MI => if toPredicate isP MI = true then withPredicate preg MI else MI) ++
          [predBBEnd preg] ++ (instrs B).drop (firstTerminatorIdx (instrs B)) := by
  obtain ⟨instrs', e, h⟩ := applyPredicatesLoop_spec isP puv MF.blocks hnd instrs hok
  refine ⟨instrs', e, fun B hB => (h B).2 hB, ?_⟩
  intro B hB preg hpreg
  have h1 := (h B).1 preg hB hpreg
  rw [applyPredicatesBlock_spec isP preg (instrs B) (hok B hB (by simp [hpreg]))] at h1
  exact (Option.some.inj h1).symm

theorem firstTerminatorIdx_le (l : List MachineInstr) : firstTerminatorIdx l ≤ l.length := by
  unfold firstTerminatorIdx
  omega

/-- C24: `applyPredicates`, on a function whose blocks with a use register meet
its assertions, returns, and in every block `B` with a recorded use register
`preg` every instruction from the first non-PHI up to the first terminator that
is predicable, not already predicated and no return has its predicate operand
pair set to `(preg, 0)`; its other operands and properties are kept. -/
theorem applyPredicates_sets_predicate (isP : MachineInstr → Bool) (MF : MachineFunction)
    (puv : R_t) (instrs : MBB → List MachineInstr) (hnd : MF.blocks.Nodup)
    (hok : ∀ b ∈ MF.blocks, (mapFind puv b).isSome → BlockOK isP (instrs b)) :
    ∃ instrs', applyPredicates isP MF puv instrs = some instrs' ∧
      ∀ B ∈ MF.blocks, ∀ preg, mapFind puv B = some preg →
        ∀ j MI, firstNonPHIIdx (instrs B) ≤ j → j < firstTerminatorIdx (instrs B) →
          (instrs B)[j]? = some MI → MI.isPredicable = true → isP MI = false →
          MI.isReturn = false →
          ∃ i, MI.predIdx = some i ∧ (instrs' B)[j]? = some (withPredicate preg MI) ∧
            (withPredicate preg MI).operands[i]? = some (MachineOperand.reg preg) ∧
            (withPredicate preg MI).operands[i + 1]? = some (MachineOperand.imm 0) ∧
            (withPredicate preg MI).operands.length = MI.operands.length ∧
            (∀ k, k ≠ i → k ≠ i + 1 →
              (withPredicate preg MI).operands[k]? = MI.operands[k]?) ∧
            (withPredicate preg MI).opcode = MI.opcode := by
  obtain ⟨instrs', e, _, h⟩ := applyPredicates_spec isP MF puv instrs hnd hok
  refine ⟨instrs', e, ?_⟩
  intro B hB preg hpreg j MI hbj hje hMI hp hnp hnr
  have hokB := hok B hB (by simp [hpreg])
  have hidx := (applied_getElem?
    (fun MI => if toPredicate isP MI = true then withPredicate preg MI else MI)
    (predBBEnd preg) (instrs B) _ _ hokB.1 (firstTerminatorIdx_le _)).2.2.1 j hbj hje
  rw [← h B hB preg hpreg, hMI] at hidx
  have ht : toPredicate isP MI = true := by simp [toPredicate, hp, hnp, hnr]
  simp only [Option.map_some', ht, if_true] at hidx
  have hmem : MI ∈ ((instrs B).take (firstTerminatorIdx (instrs B))).drop
      (firstNonPHIIdx (instrs B)) := by
    apply List.getElem?_mem (show _[j - firstNonPHIIdx (instrs B)]? = some MI from ?_)
    rw [List.getElem?_drop, List.getElem?_take_of_lt (by omega)]
    rw [← hMI]
    congr 1
    omega
  obtain ⟨hb, hop⟩ := hokB.2 MI hmem
  obtain ⟨_, i, hi, h0, h1⟩ := predicateInstr_of_toPredicate isP preg MI hb ht (hop ht)
  refine ⟨i, hi, hidx, h0, h1, ?_, ?_, ?_⟩
  · simp [withPredicate, hi]
  · intro k hk0 hk1
    simp only [withPredicate, hi, List.getElem?_set]
    rw [if_neg (fun h => hk1 h.symm), if_neg (fun h => hk0 h.symm)]
  · simp [withPredicate, hi]

/-- Witness of C24 on the example function, where block 0 has the use register
1000: its predicable instruction at position 1 gets the pair `(1000, 0)`. -/
theorem applyPredicates_sets_predicate_witness :
    ∃ instrs', applyPredicates predExIsPredicated predExMF [(0, 1000)] predExInstrs =
        some instrs' ∧
      ∀ B ∈ predExMF.blocks, ∀ preg, mapFind [(0, 1000)] B = some preg →
        ∀ j MI, firstNonPHIIdx (predExInstrs B) ≤ j →
          j < firstTerminatorIdx (predExInstrs B) →
          (predExInstrs B)[j]? = some MI → MI.isPredicable = true →
          predExIsPredicated MI = false → MI.isReturn = false →
          ∃ i, MI.predIdx = some i ∧ (instrs' B)[j]? = some (withPredicate preg MI) ∧
            (withPredicate preg MI).operands[i]? = some (MachineOperand.reg preg) ∧
            (withPredicate preg MI).operands[i + 1]? = some (MachineOperand.imm 0) ∧
            (withPredicate preg MI).operands.length = MI.operands.length ∧
            (∀ k, k ≠ i → k ≠ i + 1 →
              (withPredicate preg MI).operands[k]? = MI.operands[k]?) ∧
            (withPredicate preg MI).opcode = MI.opcode :=
  applyPredicates_sets_predicate predExIsPredicated predExMF [(0, 1000)] predExInstrs
    (by decide) (by decide)


/-- C25: `applyPredicates` keeps the instructions of every block without a
recorded use register, and in a block with a use register it keeps every
instruction before the first terminator that is already predicated, not
predicable or a return, every instruction before the first non-PHI, and every
instruction from the first terminator on, which moves one position up behind
the pseudo instruction. In a well-formed block (PHIs first, terminators last)
every PHI and every terminator is therefore kept. -/
theorem applyPredicates_frame (isP : MachineInstr → Bool) (MF : MachineFunction)
    (puv : R_t) (instrs : MBB → List MachineInstr) (hnd : MF.blocks.Nodup)
    (hok : ∀ b ∈ MF.blocks, (mapFind puv b).isSome → BlockOK isP (instrs b)) :
    ∃ instrs', applyPredicates isP MF puv instrs = some instrs' ∧
      (∀ B, (B ∉ MF.blocks ∨ mapFind puv B = none) → instrs' B = instrs B) ∧
      ∀ B ∈ MF.blocks, ∀ preg, mapFind puv B = some preg →
        (∀ j MI, j < firstTerminatorIdx (instrs B) → (instrs B)[j]? = some MI →
          (isP MI = true ∨ MI.isPredicable = false ∨ MI.isReturn = true) →
          (instrs' B)[j]? = some MI) ∧
        (∀ j, j < firstNonPHIIdx (instrs B) → (instrs' B)[j]? = (instrs B)[j]?) ∧
        (∀ j, firstTerminatorIdx (instrs B) ≤ j → (instrs' B)[j + 1]? = (instrs B)[j]?) ∧
        (WellFormedBlock (instrs B) → ∀ j MI, (instrs B)[j]? = some MI →
          (MI.isPHI = true ∨ MI.isTerminator = true) →
          (instrs' B)[if j < firstTerminatorIdx (instrs B) then j else j + 1]? = some MI) := by
  obtain ⟨instrs', e, hkeep, h⟩ := applyPredicates_spec isP MF puv instrs hnd hok
  refine ⟨instrs', e, hkeep, ?_⟩
  intro B hB preg hpreg
  have hokB := hok B hB (by simp [hpreg])
  obtain ⟨_, hpre, hmid, _, hpost⟩ := applied_getElem?
    (fun MI => if toPredicate isP MI = true then withPredicate preg MI else MI)
    (predBBEnd preg) (instrs B) _ _ hokB.1 (firstTerminatorIdx_le _)
  rw [← h B hB preg hpreg] at hpre hmid hpost
  refine ⟨?_, hpre, hpost, ?_⟩
  · intro j MI hje hMI hcase
    by_cases hjb : j < firstNonPHIIdx (instrs B)
    · rw [hpre j hjb, hMI]
    · rw [hmid j (by omega) hje, hMI]
      have ht : toPredicate isP MI = false := by
        simp only [toPredicate, Bool.and_eq_false_iff, Bool.not_eq_false']
        rcases hcase with h1 | h1 | h1
        · exact Or.inr (by simp [h1])
        · exact Or.inl (Or.inr h1)
        · exact Or.inl (Or.inl h1)
      simp [ht]
  · intro hwf j MI hMI hcase
    have hjl : j < (instrs B).length := by
      by_contra hge
      rw [List.getElem?_eq_none (by omega)] at hMI
      simp at hMI
    rcases hcase with hphi | hterm
    · -- a PHI lies before the first non-PHI
      have hjb : j < firstNonPHIIdx (instrs B) := by
        by_contra hge
        have hmem : MI ∈ (instrs B).drop (firstNonPHIIdx (instrs B)) := by
          apply List.getElem?_mem (show _[j - firstNonPHIIdx (instrs B)]? = some MI from ?_)
          rw [List.getElem?_drop, ← hMI]
          congr 1
          omega
        rw [hwf.1 MI hmem] at hphi
        simp at hphi
      rw [if_pos (by have := hokB.1; omega), hpre j hjb, hMI]
    · -- a terminator lies behind the first terminator
      have hje : ¬ j < firstTerminatorIdx (instrs B) := by
        intro hlt
        have hmem : MI ∈ (instrs B).take (firstTerminatorIdx (instrs B)) := by
          apply List.getElem?_mem (show _[j]? = some MI from ?_)
          rw [List.getElem?_take_of_lt hlt, hMI]
        rw [hwf.2 MI hmem] at hterm
        simp at hterm
      rw [if_neg hje, hpost j (by omega), hMI]

/-- Witness of C25 on the example function, where block 0 has the use register
1000 and block 1 has none. -/
theorem applyPredicates_frame_witness :
    ∃ instrs', applyPredicates predExIsPredicated predExMF [(0, 1000)] predExInstrs =
        some instrs' ∧
      (∀ B, (B ∉ predExMF.blocks ∨ mapFind [(0, 1000)] B = none) →
        instrs' B = predExInstrs B) ∧
      ∀ B ∈ predExMF.blocks, ∀ preg, mapFind [(0, 1000)] B = some preg →
        (∀ j MI, j < firstTerminatorIdx (predExInstrs B) → (predExInstrs B)[j]? = some MI →
          (predExIsPredicated MI = true ∨ MI.isPredicable = false ∨ MI.isReturn = true) →
          (instrs' B)[j]? = some MI) ∧
        (∀ j, j < firstNonPHIIdx (predExInstrs B) → (instrs' B)[j]? = (predExInstrs B)[j]?) ∧
        (∀ j, firstTerminatorIdx (predExInstrs B) ≤ j →
          (instrs' B)[j + 1]? = (predExInstrs B)[j]?) ∧
        (WellFormedBlock (predExInstrs B) → ∀ j MI, (predExInstrs B)[j]? = some MI →
          (MI.isPHI = true ∨ MI.isTerminator = true) →
          (instrs' B)[if j < firstTerminatorIdx (predExInstrs B) then j else j + 1]? =
            some MI) :=
  applyPredicates_frame predExIsPredicated predExMF [(0, 1000)] predExInstrs
    (by decide) (by decide)

/-- C26: `applyPredicates` inserts into every block `B` with a recorded use
register `preg` exactly one instruction, the pseudo instruction
`PSEUDO_SP_PRED_BBEND` with the operand `preg`, at the position of the first
terminator: the instructions before it keep their positions (each kept or
predicated, so a non-terminator stays one), the last of them is no terminator,
and the instructions from the first terminator on, all terminators, follow it
in their order. -/
theorem applyPredicates_inserts_sentinel (isP : MachineInstr → Bool) (MF : MachineFunction)
    (puv : R_t) (instrs : MBB → List MachineInstr) (hnd : MF.blocks.Nodup)
    (hok : ∀ b ∈ MF.blocks, (mapFind puv b).isSome → BlockOK isP (instrs b)) :
    ∃ instrs', applyPredicates isP MF puv instrs = some instrs' ∧
      ∀ B ∈ MF.blocks, ∀ preg, mapFind puv B = some preg →
        (instrs' B).length = (instrs B).length + 1 ∧
        (instrs' B)[firstTerminatorIdx (instrs B)]? = some (predBBEnd preg) ∧
        (∀ j MI, j < firstTerminatorIdx (instrs B) → (instrs B)[j]? = some MI →
          ∃ MI', (instrs' B)[j]? = some MI' ∧ (MI' = MI ∨ MI' = withPredicate preg MI) ∧
            MI'.opcode = MI.opcode ∧ MI'.isTerminator = MI.isTerminator) ∧
        (∀ j, firstTerminatorIdx (instrs B) ≤ j → (instrs' B)[j + 1]? = (instrs B)[j]?) ∧
        (∀ j MI', firstTerminatorIdx (instrs B) < j → (instrs' B)[j]? = some MI' →
          MI'.isTerminator = true) ∧
        (∀ MI', 0 < firstTerminatorIdx (instrs B) →
          (instrs' B)[firstTerminatorIdx (instrs B) - 1]? = some MI' →
          MI'.isTerminator = false) := by
  obtain ⟨instrs', e, _, h⟩ := applyPredicates_spec isP MF puv instrs hnd hok
  refine ⟨instrs', e, ?_⟩
  intro B hB preg hpreg
  have hokB := hok B hB (by simp [hpreg])
  obtain ⟨hlen, hpre, hmid, hat, hpost⟩ := applied_getElem?
    (fun MI => if toPredicate isP MI = true then withPredicate preg MI else MI)
    (predBBEnd preg) (instrs B) _ _ hokB.1 (firstTerminatorIdx_le _)
  rw [← h B hB preg hpreg] at hlen hpre hmid hat hpost
  obtain ⟨_, htl, hterm, hlast⟩ := firstTerminator_split (instrs B)
  have hwp : ∀ MI : MachineInstr, (withPredicate preg MI).opcode = MI.opcode ∧
      (withPredicate preg MI).isTerminator = MI.isTerminator := by
    intro MI
    unfold withPredicate
    cases MI.predIdx <;> exact ⟨rfl, rfl⟩
  have hbefore : ∀ j MI, j < firstTerminatorIdx (instrs B) → (instrs B)[j]? = some MI →
      ∃ MI', (instrs' B)[j]? = some MI' ∧ (MI' = MI ∨ MI' = withPredicate preg MI) ∧
        MI'.opcode = MI.opcode ∧ MI'.isTerminator = MI.isTerminator := by
    intro j MI hje hMI
    by_cases hjb : j < firstNonPHIIdx (instrs B)
    · exact ⟨MI, by rw [hpre j hjb, hMI], Or.inl rfl, rfl, rfl⟩
    · by_cases ht : toPredicate isP MI = true
      · exact ⟨withPredicate preg MI, by rw [hmid j (by omega) hje, hMI]; simp [ht],
          Or.inr rfl, (hwp MI).1, (hwp MI).2⟩
      · exact ⟨MI, by rw [hmid j (by omega) hje, hMI]; simp [ht], Or.inl rfl, rfl, rfl⟩
  refine ⟨hlen, hat, hbefore, hpost, ?_, ?_⟩
  · intro j MI' hj hMI'
    obtain ⟨k, hk⟩ : ∃ k, j = k + 1 := ⟨j - 1, by omega⟩
    subst hk
    rw [hpost k (by omega)] at hMI'
    apply hterm MI'
    apply List.getElem?_mem (show _[k - firstTerminatorIdx (instrs B)]? = some MI' from ?_)
    rw [List.getElem?_drop, ← hMI']
    congr 1
    omega
  · intro MI' hpos hMI'
    have hlt : firstTerminatorIdx (instrs B) - 1 < (instrs B).length := by
      have := firstTerminatorIdx_le (instrs B)
      omega
    obtain ⟨MI, hMI⟩ : ∃ MI, (instrs B)[firstTerminatorIdx (instrs B) - 1]? = some MI :=
      ⟨_, List.getElem?_eq_getElem hlt⟩
    obtain ⟨MI'', h1, _, _, h4⟩ := hbefore _ MI (by omega) hMI
    rw [hMI'] at h1
    have := Option.some.inj h1
    subst this
    rw [h4]
    apply hlast MI
    rw [List.getLast?_eq_getElem?, htl, List.getElem?_take_of_lt (by omega), hMI]

/-- Witness of C26 on the example function, where block 0 has the use register
1000. -/
theorem applyPredicates_inserts_sentinel_witness :
    ∃ instrs', applyPredicates predExIsPredicated predExMF [(0, 1000)] predExInstrs =
        some instrs' ∧
      ∀ B ∈ predExMF.blocks, ∀ preg, mapFind [(0, 1000)] B = some preg →
        (instrs' B).length = (predExInstrs B).length + 1 ∧
        (instrs' B)[firstTerminatorIdx (predExInstrs B)]? = some (predBBEnd preg) ∧
        (∀ j MI, j < firstTerminatorIdx (predExInstrs B) → (predExInstrs B)[j]? = some MI →
          ∃ MI', (instrs' B)[j]? = some MI' ∧ (MI' = MI ∨ MI' = withPredicate preg MI) ∧
            MI'.opcode = MI.opcode ∧ MI'.isTerminator = MI.isTerminator) ∧
        (∀ j, firstTerminatorIdx (predExInstrs B) ≤ j →
          (instrs' B)[j + 1]? = (predExInstrs B)[j]?) ∧
        (∀ j MI', firstTerminatorIdx (predExInstrs B) < j → (instrs' B)[j]? = some MI' →
          MI'.isTerminator = true) ∧
        (∀ MI', 0 < firstTerminatorIdx (predExInstrs B) →
          (instrs' B)[firstTerminatorIdx (predExInstrs B) - 1]? = some MI' →
          MI'.isTerminator = false) :=
  applyPredicates_inserts_sentinel predExIsPredicated predExMF [(0, 1000)] predExInstrs
    (by decide) (by decide)

/-- The instructions of the example function after `applyPredicates`: in block 0
the instruction at position 1 is predicated by register 1000, the instruction
already predicated by register 7 and the other instructions are kept, and the
pseudo instruction stands before the two terminators; block 1 is kept. -/
theorem applyPredicates_example :
    (applyPredicates predExIsPredicated predExMF [(0, 1000)] predExInstrs).map
        (fun instrs' => (instrs' 0, instrs' 1)) =
      some ([{ opcode := Opcode.other 0, operands := [MachineOperand.reg 50], isPHI := true },
        { opcode := Opcode.other 1, isPredicable := true, predIdx := some 1,
          operands := [MachineOperand.reg 51, MachineOperand.reg 1000, MachineOperand.imm 0] },
        { opcode := Opcode.other 2, isPredicable := true, predIdx := some 1,
          operands := [MachineOperand.reg 52, MachineOperand.reg 7, MachineOperand.imm 0] },
        { opcode := Opcode.other 3, operands := [MachineOperand.reg 53] },
        predBBEnd 1000,
        { opcode := Opcode.other 4, isTerminator := true, isPredicable := true,
          predIdx := some 0, operands := [MachineOperand.reg 100, MachineOperand.imm 0] },
        { opcode := Opcode.other 5, operands := [], isTerminator := true }],
       predExInstrs 1) := by
  decide

/-! ## C21: the order in which the defines are inserted -/

theorem insertPredLoop_append (TII : TargetHooks) (MF : MachineFunction) (R : R_t)
    (needsInit : BitVector) (K1 K2 : K_t) (i : Nat) (st : PredDefState) :
    insertPredLoop TII MF R needsInit (K1 ++ K2) i st =
      (insertPredLoop TII MF R needsInit K1 i st).bind
        (insertPredLoop TII MF R needsInit K2 (i + K1.length)) := by
  induction K1 generalizing i st with
  | nil => simp [insertPredLoop]
  | cons k ks ih =>
    simp only [List.cons_append, insertPredLoop, List.length_cons, List.append_eq]
    have hidx : i + (ks.length + 1) = i + 1 + ks.length := by omega
    split
    · rw [ih, hidx]
    · cases defineEdges TII MF.front needsInit i true k.iter st with
      | none => rfl
      | some st1 =>
        simp only []
        rw [ih, hidx]

/-- One defining edge: its register is the next one of `RegInfo`, and it is
made available to the SSA updater at the source of the edge, after an
`Initialize` when the edge is the first of its predicate. -/
theorem defineEdge_avail (TII : TargetHooks) (entry : Option MBB) (needsInit : BitVector)
    (i : Nat) (first : Bool) (src dst : MBB) (st st' : PredDefState)
    (h : defineEdge TII entry needsInit i first src dst st = some st') :
    st'.avail = (if first = true then [] else st.avail) ++ [(src, st.nextVReg)] ∧
      st.nextVReg < st'.nextVReg := by
  unfold defineEdge at h
  cases hc : edgeCond TII src dst with
  | none => simp [hc] at h
  | some Cond =>
    rw [hc] at h
    match Cond, h with
    | [], h => simp at h
    | [_], h => simp at h
    | c0 :: c1 :: _, h =>
      simp only [] at h
      cases first <;> cases hn : needsInit.test i <;> cases entry <;> simp [hn] at h <;>
        (subst h; refine ⟨by simp, by simp <;> omega⟩)

/-- The loop over the defining edges of a predicate: the edges are processed in
list order, each gets a larger register than the one before, and the registers
are made available at the sources in this order. -/
theorem defineEdges_avail (TII : TargetHooks) (entry : Option MBB) (needsInit : BitVector)
    (i : Nat) (es : List (MBB × MBB)) :
    ∀ (first : Bool) (st st' : PredDefState),
      defineEdges TII entry needsInit i first es st = some st' →
      ∃ new : List (MBB × Nat),
        st'.avail = (if first = true ∧ es ≠ [] then [] else st.avail) ++ new ∧
        new.map Prod.fst = es.map Prod.fst ∧
        (new.map Prod.snd).Pairwise (fun a b => a < b) ∧
        (∀ r ∈ new.map Prod.snd, st.nextVReg ≤ r ∧ r < st'.nextVReg) ∧
        st.nextVReg ≤ st'.nextVReg := by
  induction es with
  | nil =>
    intro first st st' h
    simp only [defineEdges, Option.some.injEq] at h
    subst h
    exact ⟨[], by simp, rfl, List.Pairwise.nil, by simp, le_refl _⟩
  | cons e es ih =>
    intro first st st' h
    obtain ⟨src, dst⟩ := e
    unfold defineEdges at h
    cases h1 : defineEdge TII entry needsInit i first src dst st with
    | none => rw [h1] at h; simp at h
    | some st1 =>
      rw [h1] at h
      simp only [] at h
      obtain ⟨ha, hlt⟩ := defineEdge_avail TII entry needsInit i first src dst st st1 h1
      obtain ⟨new, hnew, hfst, hpw, hrange, hle⟩ := ih false st1 st' h
      refine ⟨(src, st.nextVReg) :: new, ?_, ?_, ?_, ?_, by omega⟩
      · rw [hnew, ha]
        cases first <;> simp
      · simp [hfst]
      · simp only [List.map_cons, List.pairwise_cons]
        exact ⟨fun r hr => by have := (hrange r hr).1; omega, hpw⟩
      · intro r hr
        simp only [List.map_cons, List.mem_cons] at hr
        rcases hr with hr | hr
        · subst hr
          exact ⟨le_refl _, by omega⟩
        · have := hrange r hr
          exact ⟨by omega, this.2⟩

/-- Iteration over a legacy control-dependence set lists its edges in strictly
ascending order of source and destination. -/
theorem legacy_iter_sorted (k : CD_map_entry_t) :
    k.iter.Pairwise (fun a b => a.1 < b.1 ∨ (a.1 = b.1 ∧ a.2 < b.2)) := by
  obtain ⟨l, hl⟩ := Quot.exists_rep k.val
  have h1 : k.iter = List.insertionSort (fun a b => pairKey a ≤ pairKey b) l := by
    unfold CD_map_entry_t.iter setIter
    rw [← hl]
  have hnd : l.Nodup := by
    have := k.nodup
    rw [← hl] at this
    exact this
  haveI : IsTotal (MBB × MBB) (fun a b => pairKey a ≤ pairKey b) := ⟨fun x y => le_total _ _⟩
  haveI : IsTrans (MBB × MBB) (fun a b => pairKey a ≤ pairKey b) :=
    ⟨fun x y z h1 h2 => le_trans h1 h2⟩
  have hs : (List.insertionSort (fun a b => pairKey a ≤ pairKey b) l).Pairwise
      (fun a b => pairKey a ≤ pairKey b) := List.sorted_insertionSort _ l
  have hn : (List.insertionSort (fun a b => pairKey a ≤ pairKey b) l).Pairwise
      (fun a b => a ≠ b) := (List.perm_insertionSort _ l).nodup_iff.2 hnd
  rw [h1]
  refine (hs.and hn).imp ?_
  rintro ⟨a1, a2⟩ ⟨b1, b2⟩ ⟨hle, hne⟩
  simp only [pairKey, Prod.Lex.le_iff] at hle
  rcases hle with h | ⟨h, h'⟩
  · exact Or.inl h
  · right
    subst h
    refine ⟨rfl, lt_of_le_of_ne h' ?_⟩
    intro h2
    have h3 : a2 = b2 := h2
    exact hne (by rw [h3])

/-- C21, as the code has it: `insertPredDefinitions` iterates the predicates of
`K` in index order (the predicates before `K[i]` are finished when `K[i]`
starts, the later ones start from the state it leaves), and within a non-empty
`K[i]` it processes the defining edges in the order of the iteration over the
set, which is the ascending order of source and destination block, whatever
the order of their insertion: the defines are made available at the sources in
this order, with increasing registers. -/
theorem insertPredDefinitions_processing_order (TII : TargetHooks) (MF : MachineFunction)
    (R : R_t) (needsInit : BitVector) (K1 : K_t) (k : CD_map_entry_t) (K2 : K_t)
    (st st' : PredDefState) (hk : k.card ≠ 0)
    (h : insertPredDefinitions TII MF (K1 ++ k :: K2) R needsInit st = some st') :
    ∃ s0 s1, insertPredDefinitions TII MF K1 R needsInit st = some s0 ∧
      defineEdges TII MF.front needsInit K1.length true k.iter s0 = some s1 ∧
      insertPredLoop TII MF R needsInit K2 (K1.length + 1)
        (recordUses TII R K1.length MF.blocks s1) = some st' ∧
      s1.avail.map Prod.fst = k.iter.map Prod.fst ∧
      (s1.avail.map Prod.snd).Pairwise (fun a b => a < b) ∧
      (∀ r ∈ s1.avail.map Prod.snd, s0.nextVReg ≤ r) ∧
      k.iter.Pairwise (fun a b => a.1 < b.1 ∨ (a.1 = b.1 ∧ a.2 < b.2)) ∧
      ∀ e, e ∈ k.iter ↔ e ∈ k := by
  unfold insertPredDefinitions at h ⊢
  rw [insertPredLoop_append] at h
  obtain ⟨s0, h0, hrest⟩ := Option.bind_eq_some.1 h
  simp only [Nat.zero_add] at hrest
  unfold insertPredLoop at hrest
  simp only [hk, if_false] at hrest
  cases h1 : defineEdges TII MF.front needsInit K1.length true k.iter s0 with
  | none => rw [h1] at hrest; simp at hrest
  | some s1 =>
    rw [h1] at hrest
    simp only [] at hrest
    have hne : k.iter ≠ [] := by
      intro hnil
      apply hk
      rw [Finset.card_eq_zero]
      ext e
      rw [← mem_legacy_iter, hnil]
      simp
    obtain ⟨new, hnew, hfst, hpw, hrange, _⟩ :=
      defineEdges_avail TII MF.front needsInit K1.length k.iter true s0 s1 h1
    simp only [hne, ne_eq, not_false_eq_true, and_self, if_true, List.nil_append] at hnew
    subst hnew
    exact ⟨s0, s1, h0, h1, hrest, hfst, hpw, fun r hr => (hrange r hr).1,
      legacy_iter_sorted k, mem_legacy_iter k⟩

/-- Witness of the amended C21 on `swappedMF`: the last predicate, with the two
defining edges of the join block. -/
theorem insertPredDefinitions_processing_order_witness :
    ∃ s0 s1, insertPredDefinitions swappedHooks swappedMF [∅, {(1, 0)}, {(1, 2)}] swappedR
        { size := 4, bits := {0} } swappedStart = some s0 ∧
      defineEdges swappedHooks swappedMF.front { size := 4, bits := {0} }
        ([∅, {(1, 0)}, {(1, 2)}] : K_t).length true
        (({(1, 2), (0, 3)} : CD_map_entry_t)).iter s0 = some s1 ∧
      insertPredLoop swappedHooks swappedMF swappedR { size := 4, bits := {0} } []
        (([∅, {(1, 0)}, {(1, 2)}] : K_t).length + 1)
        (recordUses swappedHooks swappedR ([∅, {(1, 0)}, {(1, 2)}] : K_t).length
          swappedMF.blocks s1) = some swappedEnd ∧
      s1.avail.map Prod.fst = (({(1, 2), (0, 3)} : CD_map_entry_t)).iter.map Prod.fst ∧
      (s1.avail.map Prod.snd).Pairwise (fun a b => a < b) ∧
      (∀ r ∈ s1.avail.map Prod.snd, s0.nextVReg ≤ r) ∧
      (({(1, 2), (0, 3)} : CD_map_entry_t)).iter.Pairwise
        (fun a b => a.1 < b.1 ∨ (a.1 = b.1 ∧ a.2 < b.2)) ∧
      ∀ e, e ∈ (({(1, 2), (0, 3)} : CD_map_entry_t)).iter ↔
        e ∈ ({(1, 2), (0, 3)} : CD_map_entry_t) :=
  insertPredDefinitions_processing_order swappedHooks swappedMF swappedR
    { size := 4, bits := {0} } [∅, {(1, 0)}, {(1, 2)}] {(1, 2), (0, 3)} [] swappedStart
    swappedEnd (by decide) rfl

/-- Counterexample to C21 as stated: on `swappedMF`, whose entry block lies at a
higher address than its successor A, the edge (1, 2) from the entry is the first
edge inserted into the control-dependence set of the join block 3 (it is there
after the first block of the function was handled), and the edge (0, 3) from A
is inserted after it. The set is then iterated with (0, 3) first, and
`insertPredDefinitions` emits the define for (0, 3), with register 1002,
before the define for (1, 2), with register 1003. -/
theorem defines_follow_set_order :
    (cdBlocks swappedMF swappedPDT 5 [1] (fun _ => ∅)).map (fun CD => (CD 3).iter) =
      some [(1, 2)] ∧
    (computeControlDependence swappedMF swappedPDT 5 (fun _ => ∅)).map
      (fun CD => (CD 3).iter) = some [(0, 3), (1, 2)] ∧
    (legacyDecomposition swappedMF swappedPDT 5).map
      (fun KR => (KR.1.map (fun k => k.iter), KR.2)) =
      some ([[], [(1, 0)], [(1, 2)], [(0, 3), (1, 2)]], swappedR) ∧
    swappedDefined.map (fun st => st.avail) = some [(0, 1002), (1, 1003)] ∧
    swappedDefined.map (fun st => ((st.instrs 0).map (fun MI => MI.operands.head?),
        (st.instrs 1).map (fun MI => MI.operands.head?))) =
      some ([none, some (MachineOperand.reg 1002), some (MachineOperand.reg 100), none],
        [none, some (MachineOperand.reg 1000), some (MachineOperand.reg 1001),
          some (MachineOperand.reg 1003), some (MachineOperand.reg 101), none]) := by
  refine ⟨by decide, by decide, by decide, by decide, by decide⟩

/-! ## C28: the edges of the FCFG built by `buildfcfg` -/

theorem connect_succs_self (g : FCFG) (a b : Node) :
    ((g.connect a b).nodes a).succs = (g.nodes a).succs ++ [b] := by
  unfold FCFG.connect upd
  by_cases hab : a = b
  · subst hab
    simp
  · simp [hab]

theorem connect_outedges (g : FCFG) (a b x : Node) :
    ((g.connect a b).nodes x).outedges = (g.nodes x).outedges := by
  unfold FCFG.connect upd
  by_cases hxb : x = b
  · subst hxb
    by_cases hxa : x = a
    · subst hxa
      simp
    · simp [hxa]
  · by_cases hxa : x = a
    · subst hxa
      simp [hxb]
    · simp [hxa, hxb]

theorem connectEdge_succs_self (g : FCFG) (a b : Node) (e : Edge) :
    ((g.connectEdge a b e).nodes a).succs = (g.nodes a).succs ++ [b] := by
  unfold FCFG.connectEdge
  rw [connect_succs_self]
  simp [upd]

theorem connectEdge_outedges_self (g : FCFG) (a b : Node) (e : Edge) :
    ((g.connectEdge a b e).nodes a).outedges = upd (g.nodes a).outedges b (some e) := by
  unfold FCFG.connectEdge
  rw [connect_outedges]
  simp [upd]

theorem connectEdge_outedges_ne (g : FCFG) (a b x : Node) (e : Edge) (hx : x ≠ a) :
    ((g.connectEdge a b e).nodes x).outedges = (g.nodes x).outedges := by
  unfold FCFG.connectEdge
  rw [connect_outedges]
  simp [upd, hx]

/-- The tag of a tagged edge is the edge itself. -/
theorem specEdgeClass_tag (s : SPScope) (e tag : Edge) (ht : (specEdgeClass s e).2 = some tag) :
    tag = e := by
  unfold specEdgeClass at ht
  split at ht
  · split at ht
    · exact (Option.some.inj ht).symm
    · split at ht
      · simp at ht
      · exact (Option.some.inj ht).symm
  · split at ht
    · simp at ht
    · exact (Option.some.inj ht).symm

/-- The graph after one outgoing edge was handled by `buildfcfg`, by the class
of the edge. -/
theorem buildfcfgEdges_cons (s : SPScope) (h : MBB) (hhead : s.Blocks.head? = some h)
    (hnd : s.Blocks.Nodup) (n : Node) (e : Edge) (rest : List Edge) (g : FCFG) :
    buildfcfgEdges s.Blocks.tail s.getHeader n (e :: rest) g =
      buildfcfgEdges s.Blocks.tail s.getHeader n rest
        (match (specEdgeClass s e).2 with
          | some tag => g.connectEdge n (specEdgeClass s e).1 tag
          | none => g.connect n (specEdgeClass s e).1) := by
  have hbody : ∀ succ, succ ∈ s.Blocks.tail ↔ succ ∈ s.Blocks ∧ some succ ≠ s.getHeader := by
    intro succ
    unfold SPScope.getHeader
    cases hB : s.Blocks with
    | nil => rw [hB] at hhead; simp at hhead
    | cons x xs =>
      rw [hB] at hhead hnd
      simp only [List.head?_cons, Option.some.injEq] at hhead
      subst hhead
      simp only [List.tail_cons, List.mem_cons, List.head?_cons, ne_eq, Option.some.injEq]
      constructor
      · intro hs
        exact ⟨Or.inr hs, fun heq => (List.nodup_cons.1 hnd).1 (heq ▸ hs)⟩
      · rintro ⟨h1 | h1, h2⟩
        · exact absurd h1 h2
        · exact h1
  have hhd : s.getHeader = some h := hhead
  conv_lhs => unfold buildfcfgEdges
  unfold specEdgeClass
  cases he : e.2 with
  | none =>
    simp only [hhd]
    rw [if_pos (by simp), if_neg (by simp)]
    rfl
  | some succ =>
    simp only []
    by_cases hb : succ ∈ s.Blocks.tail
    · rw [if_pos hb, if_pos ((hbody succ).1 hb)]
    · rw [if_neg hb, if_neg (fun hc => hb ((hbody succ).2 hc))]
      by_cases hh : some succ = s.getHeader
      · rw [if_neg (not_not.2 hh), if_pos hh]
        rfl
      · rw [if_pos hh, if_neg hh]
        rfl

/-- The successors and the tags of the node `n` after its outgoing edges `es`
were handled by `buildfcfg`. -/
theorem buildfcfgEdges_spec (s : SPScope) (h : MBB) (hhead : s.Blocks.head? = some h)
    (hnd : s.Blocks.Nodup) (n : Node) (es : List Edge) :
    ∀ g : FCFG,
      ((buildfcfgEdges s.Blocks.tail s.getHeader n es g).nodes n).succs =
        (g.nodes n).succs ++ es.map (fun e => (specEdgeClass s e).1) ∧
      (∀ y, ((buildfcfgEdges s.Blocks.tail s.getHeader n es g).nodes n).outedges y =
        match specTag s es y with
        | some e => some e
        | none => (g.nodes n).outedges y) ∧
      ∀ x, x ≠ n → ((buildfcfgEdges s.Blocks.tail s.getHeader n es g).nodes x).outedges =
        (g.nodes x).outedges := by
  induction es with
  | nil =>
    intro g
    exact ⟨by simp [buildfcfgEdges], fun y => by simp [buildfcfgEdges, specTag],
      fun x _ => rfl⟩
  | cons e rest ih =>
    intro g
    rw [buildfcfgEdges_cons s h hhead hnd n e rest g]
    obtain ⟨h1, h2, h3⟩ := ih (match (specEdgeClass s e).2 with
      | some tag => g.connectEdge n (specEdgeClass s e).1 tag
      | none => g.connect n (specEdgeClass s e).1)
    have hsu : ((match (specEdgeClass s e).2 with
        | some tag => g.connectEdge n (specEdgeClass s e).1 tag
        | none => g.connect n (specEdgeClass s e).1).nodes n).succs =
        (g.nodes n).succs ++ [(specEdgeClass s e).1] := by
      cases (specEdgeClass s e).2 with
      | none => exact connect_succs_self _ _ _
      | some tag => exact connectEdge_succs_self _ _ _ _
    refine ⟨?_, ?_, ?_⟩
    · rw [h1, hsu]
      simp
    · intro y
      rw [h2 y]
      have hrev : specTag s (e :: rest) y =
          match specTag s rest y with
          | some e' => some e'
          | none =>
            if decide ((specEdgeClass s e).1 = y) && (specEdgeClass s e).2.isSome then some e
            else none := by
        unfold specTag
        rw [List.reverse_cons, List.find?_append]
        cases List.find? (fun e => decide ((specEdgeClass s e).1 = y) &&
            (specEdgeClass s e).2.isSome) rest.reverse with
        | some e' => rfl
        | none =>
          simp only [Option.none_or, List.find?_cons, List.find?_nil]
          cases hp : (decide ((specEdgeClass s e).1 = y) && (specEdgeClass s e).2.isSome) with
          | true => simp
          | false => simp
      rw [hrev]
      cases specTag s rest y with
      | some e' => rfl
      | none =>
        simp only []
        have htag := specEdgeClass_tag s e
        cases hc : (specEdgeClass s e).2 with
        | none =>
          simp only [Option.isSome_none, Bool.and_false, Bool.false_eq_true, if_false]
          rw [connect_outedges]
        | some tag =>
          have := htag tag hc
          subst this
          simp only [Option.isSome_some, Bool.and_true, decide_eq_true_eq]
          rw [connectEdge_outedges_self]
          unfold upd
          by_cases hy : y = (specEdgeClass s tag).1
          · rw [if_pos hy, if_pos hy.symm]
          · rw [if_neg hy, if_neg (fun h => hy h.symm)]
    · intro x hx
      rw [h3 x hx]
      cases (specEdgeClass s e).2 with
      | none => exact connect_outedges _ _ _ _
      | some tag => exact connectEdge_outedges_ne _ _ _ _ _ hx

theorem buildfcfgBlocks_cons (MF : MachineFunction) (s : SPScope) (b : MBB) (bs : List MBB)
    (g : FCFG) (hok : outedgesOf MF s b = [] → s.Parent = none) :
    buildfcfgBlocks MF s s.Blocks.tail (b :: bs) g =
      buildfcfgBlocks MF s s.Blocks.tail bs (afterBlock MF s b g) := by
  conv_lhs => unfold buildfcfgBlocks
  unfold afterBlock
  simp only [List.isEmpty_iff]
  by_cases he : outedgesOf MF s b = []
  · rw [if_pos he, if_pos he, hok he]
    simp
  · rw [if_neg he, if_neg he]

theorem afterBlock_ne (MF : MachineFunction) (s : SPScope) (b : MBB) (g : FCFG) (x : Node)
    (hx : x ≠ Node.blk b) :
    ((afterBlock MF s b g).nodes x).succs = (g.nodes x).succs ∧
      ((afterBlock MF s b g).nodes x).outedges = (g.nodes x).outedges := by
  unfold afterBlock
  by_cases he : outedgesOf MF s b = []
  · rw [if_pos he, he]
    unfold FCFG.toexit
    rw [connect_succs_ne _ _ _ _ hx, connect_outedges]
    exact ⟨rfl, rfl⟩
  · rw [if_neg he]
    refine ⟨buildfcfgEdges_succs_ne _ _ _ _ hx _ _, ?_⟩
    induction outedgesOf MF s b generalizing g with
    | nil => rfl
    | cons e rest ih =>
      unfold buildfcfgEdges
      split
      · split
        · rw [ih, connectEdge_outedges_ne _ _ _ _ _ hx]
        · split
          · rw [ih]
            exact connectEdge_outedges_ne _ _ _ _ _ hx
          · rw [ih]
            exact connect_outedges _ _ _ _
      · split
        · rw [ih]
          exact connectEdge_outedges_ne _ _ _ _ _ hx
        · rw [ih]
          exact connect_outedges _ _ _ _

theorem afterBlock_self (MF : MachineFunction) (s : SPScope) (h : MBB)
    (hhead : s.Blocks.head? = some h) (hnd : s.Blocks.Nodup) (b : MBB) (g : FCFG) :
    ((afterBlock MF s b g).nodes (Node.blk b)).succs =
        (g.nodes (Node.blk b)).succs ++
          ((outedgesOf MF s b).map (fun e => (specEdgeClass s e).1) ++
            if outedgesOf MF s b = [] then [Node.nexit] else []) ∧
      ∀ y, ((afterBlock MF s b g).nodes (Node.blk b)).outedges y =
        match specTag s (outedgesOf MF s b) y with
        | some e => some e
        | none => (g.nodes (Node.blk b)).outedges y := by
  obtain ⟨h1, h2, _⟩ := buildfcfgEdges_spec s h hhead hnd (Node.blk b) (outedgesOf MF s b) g
  unfold afterBlock
  by_cases he : outedgesOf MF s b = []
  · rw [if_pos he, if_pos he]
    unfold FCFG.toexit
    rw [connect_succs_self, connect_outedges, h1]
    exact ⟨by simp, h2⟩
  · rw [if_neg he, if_neg he, h1]
    exact ⟨by simp, h2⟩

/-- The successors and the tags of the nodes after the blocks `bs` were handled
by `buildfcfg`, which returns when every block without an outgoing edge is in a
top-level scope. -/
theorem buildfcfgBlocks_spec (MF : MachineFunction) (s : SPScope) (h : MBB)
    (hhead : s.Blocks.head? = some h) (hnd : s.Blocks.Nodup) (bs : List MBB) (hbs : bs.Nodup)
    (hok : ∀ b ∈ bs, outedgesOf MF s b = [] → s.Parent = none) :
    ∀ g : FCFG, ∃ g', buildfcfgBlocks MF s s.Blocks.tail bs g = some g' ∧
      (∀ x, (∀ b ∈ bs, x ≠ Node.blk b) →
        (g'.nodes x).succs = (g.nodes x).succs ∧ (g'.nodes x).outedges = (g.nodes x).outedges) ∧
      ∀ b ∈ bs,
        (g'.nodes (Node.blk b)).succs =
          (g.nodes (Node.blk b)).succs ++
            ((outedgesOf MF s b).map (fun e => (specEdgeClass s e).1) ++
              if outedgesOf MF s b = [] then [Node.nexit] else []) ∧
        ∀ y, (g'.nodes (Node.blk b)).outedges y =
          match specTag s (outedgesOf MF s b) y with
          | some e => some e
          | none => (g.nodes (Node.blk b)).outedges y := by
  induction bs with
  | nil =>
    intro g
    exact ⟨g, rfl, fun x _ => ⟨rfl, rfl⟩, fun b hb => by simp at hb⟩
  | cons b bs ih =>
    intro g
    rw [buildfcfgBlocks_cons MF s b bs g (hok b (List.mem_cons_self _ _))]
    obtain ⟨hbn, hbs'⟩ := List.nodup_cons.1 hbs
    obtain ⟨g', hg', hfr, hin⟩ :=
      ih hbs' (fun b' hb' => hok b' (List.mem_cons_of_mem _ hb')) (afterBlock MF s b g)
    refine ⟨g', hg', ?_, ?_⟩
    · intro x hx
      obtain ⟨h1, h2⟩ := hfr x (fun b' hb' => hx b' (List.mem_cons_of_mem _ hb'))
      obtain ⟨h3, h4⟩ := afterBlock_ne MF s b g x (hx b (List.mem_cons_self _ _))
      exact ⟨h1.trans h3, h2.trans h4⟩
    · intro b' hb'
      rcases List.mem_cons.1 hb' with rfl | hb'
      · obtain ⟨h1, h2⟩ := hfr (Node.blk b') (fun c hc heq => by
          have : b' = c := by injection heq
          exact hbn (this ▸ hc))
        obtain ⟨h3, h4⟩ := afterBlock_self MF s h hhead hnd b' g
        exact ⟨h1.trans h3, fun y => by rw [h2]; exact h4 y⟩
      · obtain ⟨h1, h2⟩ := hin b' hb'
        have hne : Node.blk b' ≠ Node.blk b := by
          intro heq
          have : b' = b := by injection heq
          exact hbn (this ▸ hb')
        obtain ⟨h3, h4⟩ := afterBlock_ne MF s b g (Node.blk b') hne
        rw [h3] at h1
        exact ⟨h1, fun y => by rw [h2 y, h4]⟩

/-- In the FCFG of a freshly constructed scope the nodes of the blocks have no
successor and no tag. -/
theorem init_blk (h b : MBB) :
    ((FCFG.init h).nodes (Node.blk b)).succs = [] ∧
      ∀ y, ((FCFG.init h).nodes (Node.blk b)).outedges y = none := by
  by_cases hb : b = h
  · subst hb
    exact ⟨by simp [FCFG.init, FCFG.toexit, FCFG.connectEdge, FCFG.connect, upd],
      fun y => by simp [FCFG.init, FCFG.toexit, FCFG.connectEdge, FCFG.connect, upd]⟩
  · exact ⟨by simp [FCFG.init, FCFG.toexit, FCFG.connectEdge, FCFG.connect, upd, hb],
      fun y => by simp [FCFG.init, FCFG.toexit, FCFG.connectEdge, FCFG.connect, upd, hb]⟩

/-- The FCFG built by `buildfcfg` from the FCFG of a freshly constructed scope:
`buildfcfg` returns when every block without an outgoing edge is in a top-level
scope; the successors of `nentry` are `nexit` and the node of the header,
`nexit` and the nodes of the blocks outside the scope have no successor, and
the successors and tags of the node of a block of the scope are given by the
classes of its outgoing edges. -/
theorem buildfcfg_spec (MF : MachineFunction) (s : SPScope) (h : MBB)
    (hinit : s.FCFG = FCFG.init h) (hhead : s.Blocks.head? = some h) (hnd : s.Blocks.Nodup)
    (hok : ∀ b ∈ s.Blocks, outedgesOf MF s b = [] → s.Parent = none) :
    ∃ s', buildfcfg MF s = some s' ∧ s'.Blocks = s.Blocks ∧
      (s'.FCFG.nodes Node.nentry).succs = [Node.nexit, Node.blk h] ∧
      (s'.FCFG.nodes Node.nexit).succs = [] ∧
      (∀ b, b ∉ s.Blocks → (s'.FCFG.nodes (Node.blk b)).succs = []) ∧
      ∀ b ∈ s.Blocks,
        (s'.FCFG.nodes (Node.blk b)).succs =
          (outedgesOf MF s b).map (fun e => (specEdgeClass s e).1) ++
            (if outedgesOf MF s b = [] then [Node.nexit] else []) ∧
        ∀ y, s'.FCFG.edgeto (Node.blk b) y = specTag s (outedgesOf MF s b) y := by
  obtain ⟨g', hg', hfr, hin⟩ := buildfcfgBlocks_spec MF s h hhead hnd s.Blocks hnd hok s.FCFG
  refine ⟨{ s with FCFG := g' }, by unfold buildfcfg; rw [hg']; rfl, rfl, ?_, ?_, ?_, ?_⟩
  · rw [(hfr Node.nentry (fun b _ => by simp)).1, hinit]
    rfl
  · rw [(hfr Node.nexit (fun b _ => by simp)).1, hinit]
    rfl
  · intro b hb
    show (g'.nodes (Node.blk b)).succs = []
    rw [(hfr (Node.blk b) (fun c hc heq => by
      have : b = c := by injection heq
      exact hb (this ▸ hc))).1, hinit]
    exact (init_blk h b).1
  · intro b hb
    obtain ⟨h1, h2⟩ := hin b hb
    have hs0 : (s.FCFG.nodes (Node.blk b)).succs = [] := by
      rw [hinit]
      exact (init_blk h b).1
    have ho0 : ∀ y, (s.FCFG.nodes (Node.blk b)).outedges y = none := by
      intro y
      rw [hinit]
      exact (init_blk h b).2 y
    refine ⟨?_, ?_⟩
    · show (g'.nodes (Node.blk b)).succs = _
      rw [h1, hs0]
      simp
    · intro y
      show (g'.nodes (Node.blk b)).outedges y = _
      rw [h2 y, ho0 y]
      cases specTag s (outedgesOf MF s b) y <;> rfl

/-- The FCFGs built for the loop of `exitSwitchMF` and for the root scope that
holds the loop as a nested scope: in the loop, the header 1 gets the tagged
connection to the node of 2 and a connection to `nexit` for each exit edge, and
block 2, whose only edge is the back edge, gets the connection to `nexit`
without tag; in the root scope, the node of the header 1 of the nested loop
gets the exit edges of the loop, and the blocks 3 and 4 without outgoing edge
the connection to `nexit` without tag. -/
theorem buildfcfg_example :
    (exitSwitchLoopBuilt.FCFG.nodes (Node.blk 1)).succs = [Node.blk 2, Node.nexit, Node.nexit] ∧
    exitSwitchLoopBuilt.FCFG.edgeto (Node.blk 1) (Node.blk 2) = some (some 1, some 2) ∧
    (exitSwitchLoopBuilt.FCFG.nodes (Node.blk 2)).succs = [Node.nexit] ∧
    exitSwitchLoopBuilt.FCFG.edgeto (Node.blk 2) Node.nexit = none ∧
    (exitSwitchRootBuilt.FCFG.nodes (Node.blk 0)).succs = [Node.blk 1] ∧
    (exitSwitchRootBuilt.FCFG.nodes (Node.blk 1)).succs = [Node.blk 3, Node.blk 4] ∧
    exitSwitchRootBuilt.FCFG.edgeto (Node.blk 1) (Node.blk 3) = some (some 1, some 3) ∧
    (exitSwitchRootBuilt.FCFG.nodes (Node.blk 3)).succs = [Node.nexit] ∧
    exitSwitchRootBuilt.FCFG.edgeto (Node.blk 3) Node.nexit = none := by
  decide

/-! ## C22, C23: the FCFG is acyclic and every node reaches `nexit` -/

/-- The node an edge is routed to is `nexit` or the node of a block of the
scope other than the header, the end of the edge. -/
theorem specEdgeClass_target (s : SPScope) (e : Edge) :
    (specEdgeClass s e).1 = Node.nexit ∨
      ∃ c, (specEdgeClass s e).1 = Node.blk c ∧ e.2 = some c ∧ c ∈ s.Blocks ∧
        some c ≠ s.getHeader := by
  unfold specEdgeClass
  split
  · rename_i succ hsucc
    split
    · rename_i hc
      exact Or.inr ⟨succ, rfl, hsucc, hc.1, hc.2⟩
    · split
      · exact Or.inl rfl
      · exact Or.inl rfl
  · split
    · exact Or.inl rfl
    · exact Or.inl rfl

/-- The edges of the FCFG built by `buildfcfg`: out of `nentry` to `nexit` and
to the node of the header, none out of `nexit`, and between the nodes of two
blocks only along a step of the scope. -/
theorem buildfcfg_steps (MF : MachineFunction) (s s' : SPScope) (h : MBB)
    (hinit : s.FCFG = FCFG.init h) (hhead : s.Blocks.head? = some h) (hnd : s.Blocks.Nodup)
    (hbuild : buildfcfg MF s = some s') :
    (s'.FCFG.nodes Node.nentry).succs = [Node.nexit, Node.blk h] ∧
    (s'.FCFG.nodes Node.nexit).succs = [] ∧
    (∀ b y, y ∈ (s'.FCFG.nodes (Node.blk b)).succs →
      b ∈ s.Blocks ∧ (y = Node.nexit ∨ ∃ c, y = Node.blk c ∧ scopeStep MF s b c)) ∧
    ∀ b ∈ s.Blocks, (s'.FCFG.nodes (Node.blk b)).succs ≠ [] := by
  have hok : ∀ b ∈ s.Blocks, outedgesOf MF s b = [] → s.Parent = none := by
    intro b hb he
    by_contra hp
    have hsplit : ∃ l1 l2, s.Blocks = l1 ++ b :: l2 ∧ b ∉ l1 := by
      obtain ⟨l1, l2, h1, h2⟩ := List.eq_append_cons_of_mem hb
      exact ⟨l1, l2, h1, h2⟩
    obtain ⟨l1, l2, hl, _⟩ := hsplit
    have hnone : ∀ (bs : List MBB) (g : FCFG), b ∈ bs →
        buildfcfgBlocks MF s s.Blocks.tail bs g = none := by
      intro bs
      induction bs with
      | nil => intro g hm; simp at hm
      | cons x xs ih =>
        intro g hm
        unfold buildfcfgBlocks
        simp only [List.isEmpty_iff]
        by_cases hx : x = b
        · subst hx
          rw [if_pos he, if_neg (by
            cases hP : s.Parent with
            | none => exact absurd hP hp
            | some p => simp)]
        · have hm' : b ∈ xs := by
            rcases List.mem_cons.1 hm with h1 | h1
            · exact absurd h1.symm hx
            · exact h1
          split
          · split
            · exact ih _ hm'
            · rfl
          · exact ih _ hm'
    unfold buildfcfg at hbuild
    rw [hnone s.Blocks s.FCFG hb] at hbuild
    simp at hbuild
  obtain ⟨s'', h1, _, h3, h4, h5, h6⟩ := buildfcfg_spec MF s h hinit hhead hnd hok
  rw [hbuild] at h1
  have : s' = s'' := Option.some.inj h1
  subst this
  refine ⟨h3, h4, ?_, ?_⟩
  · intro b y hy
    by_cases hb : b ∈ s.Blocks
    · refine ⟨hb, ?_⟩
      rw [(h6 b hb).1] at hy
      rcases List.mem_append.1 hy with hy | hy
      · obtain ⟨e, he, hey⟩ := List.mem_map.1 hy
        rcases specEdgeClass_target s e with ht | ⟨c, ht, h2, hc, hch⟩
        · left
          rw [← hey, ht]
        · right
          exact ⟨c, by rw [← hey, ht], hb, hc, hch, e, he, h2⟩
      · left
        split at hy
        · simpa using hy
        · simp at hy
    · rw [h5 b hb] at hy
      simp at hy
  · intro b hb
    rw [(h6 b hb).1]
    by_cases he : outedgesOf MF s b = []
    · rw [if_pos he]
      simp
    · simp [he]

/-- The nodes of the FCFG are closed under the successors. -/
theorem buildfcfg_closed (MF : MachineFunction) (s s' : SPScope) (h : MBB)
    (hinit : s.FCFG = FCFG.init h) (hhead : s.Blocks.head? = some h) (hnd : s.Blocks.Nodup)
    (hbuild : buildfcfg MF s = some s') :
    ∀ x ∈ fcfgNodes s, ∀ y ∈ (s'.FCFG.nodes x).succs, y ∈ fcfgNodes s := by
  obtain ⟨h1, h2, h3, _⟩ := buildfcfg_steps MF s s' h hinit hhead hnd hbuild
  have hh : h ∈ s.Blocks := head?_mem _ _ hhead
  intro x hx y hy
  unfold fcfgNodes at hx ⊢
  cases x with
  | nentry =>
    rw [h1] at hy
    simp only [List.mem_cons, List.mem_singleton, List.not_mem_nil, or_false] at hy
    rcases hy with rfl | rfl
    · simp
    · simp [hh]
  | nexit =>
    rw [h2] at hy
    simp at hy
  | blk b =>
    obtain ⟨_, hy' | ⟨c, rfl, hc⟩⟩ := h3 b y hy
    · subst hy'
      simp
    · simp [hc.2.1]

/-- In an acyclic graph in which every node other than `nexit` has a successor,
every node reaches `nexit`. -/
theorem reach_exit_of_acyclic (next : Node → List Node) (U : Finset Node)
    (hU : ∀ x ∈ U, ∀ y ∈ next x, y ∈ U) (hac : AcyclicOn U next)
    (hsucc : ∀ x ∈ U, x ≠ Node.nexit → next x ≠ []) :
    ∀ x ∈ U, Reach next x Node.nexit := by
  classical
  have key : ∀ n : Nat, ∀ x ∈ U,
      (U.filter (fun y => Relation.TransGen (fun a b => b ∈ next a) x y)).card ≤ n →
      Reach next x Node.nexit := by
    intro n
    induction n with
    | zero =>
      intro x hx hc
      by_cases hxe : x = Node.nexit
      · subst hxe
        exact Relation.ReflTransGen.refl
      · obtain ⟨y, hy⟩ := List.exists_mem_of_ne_nil _ (hsucc x hx hxe)
        have hmem : y ∈ U.filter (fun y => Relation.TransGen (fun a b => b ∈ next a) x y) :=
          Finset.mem_filter.2 ⟨hU x hx y hy, Relation.TransGen.single hy⟩
        have := Finset.card_pos.2 ⟨y, hmem⟩
        omega
    | succ n ih =>
      intro x hx hc
      by_cases hxe : x = Node.nexit
      · subst hxe
        exact Relation.ReflTransGen.refl
      · obtain ⟨y, hy⟩ := List.exists_mem_of_ne_nil _ (hsucc x hx hxe)
        have hyU : y ∈ U := hU x hx y hy
        refine Relation.ReflTransGen.head hy (ih y hyU ?_)
        have hlt : (U.filter (fun z => Relation.TransGen (fun a b => b ∈ next a) y z)).card <
            (U.filter (fun z => Relation.TransGen (fun a b => b ∈ next a) x z)).card := by
          apply Finset.card_lt_card
          refine Finset.ssubset_iff_of_subset (fun z hz => ?_) |>.2 ⟨y, ?_, ?_⟩
          · obtain ⟨hz1, hz2⟩ := Finset.mem_filter.1 hz
            exact Finset.mem_filter.2 ⟨hz1, Relation.TransGen.head hy hz2⟩
          · exact Finset.mem_filter.2 ⟨hyU, Relation.TransGen.single hy⟩
          · intro hyy
            obtain ⟨_, hyy⟩ := Finset.mem_filter.1 hyy
            obtain ⟨c, hc1, hc2⟩ := Relation.TransGen.head'_iff.1 hyy
            exact hac y hyU c hc1 hc2
        omega
  intro x hx
  exact key _ x hx (le_refl _)

/-- C23: after `buildfcfg` the node of every block of the scope has at least
one successor in the FCFG, so that in an acyclic FCFG every node (`nentry`,
`nexit` and the nodes of the blocks of the scope) has a path to `nexit`. -/
theorem fcfg_every_node_reaches_exit (MF : MachineFunction) (s : SPScope) (h : MBB)
    (hinit : s.FCFG = FCFG.init h) (hhead : s.Blocks.head? = some h) (hnd : s.Blocks.Nodup)
    (hok : ∀ b ∈ s.Blocks, outedgesOf MF s b = [] → s.Parent = none) :
    ∃ s', buildfcfg MF s = some s' ∧
      (∀ b ∈ s.Blocks, (s'.FCFG.nodes (Node.blk b)).succs ≠ []) ∧
      (AcyclicOn (fcfgNodes s) (fun n => (s'.FCFG.nodes n).succs) →
        ∀ x ∈ fcfgNodes s, Reach (fun n => (s'.FCFG.nodes n).succs) x Node.nexit ∧
          ∃ p, PathToExit (fun n => (s'.FCFG.nodes n).succs) x p) := by
  obtain ⟨s', hb, _⟩ := buildfcfg_spec MF s h hinit hhead hnd hok
  obtain ⟨h1, _, _, h4⟩ := buildfcfg_steps MF s s' h hinit hhead hnd hb
  refine ⟨s', hb, h4, fun hac x hx => ?_⟩
  have hr := reach_exit_of_acyclic (fun n => (s'.FCFG.nodes n).succs) (fcfgNodes s)
    (buildfcfg_closed MF s s' h hinit hhead hnd hb) hac (fun y hy hne => by
      unfold fcfgNodes at hy
      cases y with
      | nentry => simp only []; rw [h1]; simp
      | nexit => exact absurd rfl hne
      | blk b =>
        simp only [Finset.mem_insert, Finset.mem_image, List.mem_toFinset, Node.blk.injEq,
          exists_eq_right, false_or] at hy
        exact h4 b (by simpa using hy)) x hx
  exact ⟨hr, exists_path _ x hr⟩

/-- Witness of C23: the root scope of `exitSwitchMF`, in which the blocks 3
and 4 have no outgoing edge and the scope is top-level. -/
theorem fcfg_every_node_reaches_exit_witness :
    ∃ s', buildfcfg exitSwitchMF exitSwitchRoot = some s' ∧
      (∀ b ∈ exitSwitchRoot.Blocks, (s'.FCFG.nodes (Node.blk b)).succs ≠ []) ∧
      (AcyclicOn (fcfgNodes exitSwitchRoot) (fun n => (s'.FCFG.nodes n).succs) →
        ∀ x ∈ fcfgNodes exitSwitchRoot,
          Reach (fun n => (s'.FCFG.nodes n).succs) x Node.nexit ∧
          ∃ p, PathToExit (fun n => (s'.FCFG.nodes n).succs) x p) :=
  fcfg_every_node_reaches_exit exitSwitchMF exitSwitchRoot 0 rfl rfl (by decide) (by decide)

/-- A relation whose steps increase a rank has no cycle. -/
theorem no_cycle_of_rank {α : Type} (r : α → α → Prop) (f : α → Nat)
    (hr : ∀ a b, r a b → f a < f b) : ∀ x, ¬ Relation.TransGen r x x := by
  have hlt : ∀ a b, Relation.TransGen r a b → f a < f b := by
    intro a b hab
    induction hab with
    | single h => exact hr _ _ h
    | tail _ h ih => exact lt_trans ih (hr _ _ h)
  intro x hx
  exact lt_irrefl _ (hlt x x hx)

/-- A walk in the FCFG from the node of a block ends at `nexit` or follows
steps of the scope. -/
theorem fcfg_walk (MF : MachineFunction) (s s' : SPScope) (h : MBB)
    (hinit : s.FCFG = FCFG.init h) (hhead : s.Blocks.head? = some h) (hnd : s.Blocks.Nodup)
    (hbuild : buildfcfg MF s = some s') (b : MBB) (y : Node)
    (hw : Relation.TransGen (fun a c => c ∈ (s'.FCFG.nodes a).succs) (Node.blk b) y) :
    y = Node.nexit ∨ ∃ c, y = Node.blk c ∧ Relation.TransGen (scopeStep MF s) b c := by
  obtain ⟨_, h2, h3, _⟩ := buildfcfg_steps MF s s' h hinit hhead hnd hbuild
  induction hw with
  | single hy =>
    rcases (h3 b _ hy).2 with h | ⟨c, hc, hs⟩
    · exact Or.inl h
    · exact Or.inr ⟨c, hc, Relation.TransGen.single hs⟩
  | tail _ hyz ih =>
    rcases ih with h | ⟨c, hc, hs⟩
    · subst h
      rw [h2] at hyz
      simp at hyz
    · subst hc
      rcases (h3 c _ hyz).2 with h | ⟨c', hc', hs'⟩
      · exact Or.inl h
      · exact Or.inr ⟨c', hc', Relation.TransGen.tail hs hs'⟩

/-- C22: when the host CFG of the scope, with the nested scopes collapsed to
their headers and the edges into the header of the scope left out, has no
cycle (every cycle among the blocks of the loop passes through the header or
lies inside a nested scope), the FCFG built by `buildfcfg` is acyclic: no node
reaches itself along one or more edges. `buildfcfg` adds no edge from the node
of a block into the node of the header, no edge into `nentry`, and no edge out
of `nexit`. -/
theorem buildfcfg_is_acyclic (MF : MachineFunction) (s : SPScope) (h : MBB)
    (hinit : s.FCFG = FCFG.init h) (hhead : s.Blocks.head? = some h) (hnd : s.Blocks.Nodup)
    (hok : ∀ b ∈ s.Blocks, outedgesOf MF s b = [] → s.Parent = none)
    (hcyc : ∀ b, ¬ Relation.TransGen (scopeStep MF s) b b) :
    ∃ s', buildfcfg MF s = some s' ∧
      (∀ x, ¬ Relation.TransGen (fun a c => c ∈ (s'.FCFG.nodes a).succs) x x) ∧
      AcyclicOn (fcfgNodes s) (fun n => (s'.FCFG.nodes n).succs) ∧
      (∀ b, Node.blk h ∉ (s'.FCFG.nodes (Node.blk b)).succs) ∧
      (∀ x, Node.nentry ∉ (s'.FCFG.nodes x).succs) ∧
      (s'.FCFG.nodes Node.nexit).succs = [] := by
  obtain ⟨s', hb, _⟩ := buildfcfg_spec MF s h hinit hhead hnd hok
  obtain ⟨h1, h2, h3, _⟩ := buildfcfg_steps MF s s' h hinit hhead hnd hb
  have hentry : ∀ x, Node.nentry ∉ (s'.FCFG.nodes x).succs := by
    intro x hx
    cases x with
    | nentry => rw [h1] at hx; simp at hx
    | nexit => rw [h2] at hx; simp at hx
    | blk b =>
      rcases (h3 b _ hx).2 with h | ⟨c, hc, _⟩
      · cases h
      · cases hc
  have hnocycle : ∀ x, ¬ Relation.TransGen (fun a c => c ∈ (s'.FCFG.nodes a).succs) x x := by
    intro x hx
    cases x with
    | nentry =>
      obtain ⟨c, _, hc⟩ := Relation.TransGen.tail'_iff.1 hx
      exact hentry c hc
    | nexit =>
      obtain ⟨c, hc, _⟩ := Relation.TransGen.head'_iff.1 hx
      rw [h2] at hc
      simp at hc
    | blk b =>
      rcases fcfg_walk MF s s' h hinit hhead hnd hb b _ hx with h | ⟨c, hc, hs⟩
      · cases h
      · have : b = c := by injection hc
        subst this
        exact hcyc b hs
  refine ⟨s', hb, hnocycle, ?_, ?_, hentry, h2⟩
  · intro a _ c hc hr
    exact hnocycle a (Relation.TransGen.head' hc hr)
  · intro b hm
    rcases (h3 b _ hm).2 with h | ⟨c, hc, hs⟩
    · cases h
    · have : h = c := by injection hc
      subst this
      exact hs.2.2.1 hhead.symm

/-- The steps of the root scope of `exitSwitchMF` lead to blocks of higher
number. -/
theorem exitSwitchRoot_steps :
    ∀ b, ¬ Relation.TransGen (scopeStep exitSwitchMF exitSwitchRoot) b b := by
  apply no_cycle_of_rank _ id
  intro a b hs
  have hall : ∀ a ∈ exitSwitchRoot.Blocks, ∀ b ∈ exitSwitchRoot.Blocks,
      scopeStep exitSwitchMF exitSwitchRoot a b → a < b := by decide
  exact hall a hs.1 b hs.2.1 hs

/-- Witness of C22: the root scope of `exitSwitchMF`, whose only cycle lies
inside the nested loop. -/
theorem buildfcfg_is_acyclic_witness :
    ∃ s', buildfcfg exitSwitchMF exitSwitchRoot = some s' ∧
      (∀ x, ¬ Relation.TransGen (fun a c => c ∈ (s'.FCFG.nodes a).succs) x x) ∧
      AcyclicOn (fcfgNodes exitSwitchRoot) (fun n => (s'.FCFG.nodes n).succs) ∧
      (∀ b, Node.blk 0 ∉ (s'.FCFG.nodes (Node.blk b)).succs) ∧
      (∀ x, Node.nentry ∉ (s'.FCFG.nodes x).succs) ∧
      (s'.FCFG.nodes Node.nexit).succs = [] :=
  buildfcfg_is_acyclic exitSwitchMF exitSwitchRoot 0 rfl rfl (by decide) (by decide)
    exitSwitchRoot_steps

/-! ## C29: `toposort` yields a topological order -/

/-- An element of lower index comes before the other one in the list. -/
theorem indexOf_lt_split {α : Type} [DecidableEq α] (l : List α) (a b : α)
    (hlt : l.indexOf a < l.indexOf b) : ∃ A B, l = A ++ a :: B ∧ b ∈ B ∨ (l = A ++ a :: B ∧ b ∉ l) := by
  induction l with
  | nil => simp at hlt
  | cons c t ih =>
    by_cases hca : c = a
    · subst hca
      by_cases hb : b ∈ t
      · exact ⟨[], t, Or.inl ⟨rfl, hb⟩⟩
      · refine ⟨[], t, Or.inr ⟨rfl, ?_⟩⟩
        intro hbm
        rcases List.mem_cons.1 hbm with h | h
        · subst h
          simp at hlt
        · exact hb h
    · have hcb : c ≠ b := by
        intro h
        subst h
        simp at hlt
      rw [List.indexOf_cons_ne _ hca, List.indexOf_cons_ne _ hcb] at hlt
      obtain ⟨A, B, h | h⟩ := ih (by omega)
      · exact ⟨c :: A, B, Or.inl ⟨by rw [h.1]; rfl, h.2⟩⟩
      · refine ⟨c :: A, B, Or.inr ⟨by rw [h.1]; rfl, ?_⟩⟩
        intro hbm
        rcases List.mem_cons.1 hbm with h' | h'
        · exact hcb h'.symm
        · exact h.2 h'

/-- In a list without duplicates an element is of lower index than the
elements that follow it. -/
theorem indexOf_lt_of_split {α : Type} [DecidableEq α] (l A B : List α) (a b : α)
    (hl : l = A ++ a :: B) (hb : b ∈ B) (hnd : l.Nodup) : l.indexOf a < l.indexOf b := by
  subst hl
  have hnd' := List.nodup_append.1 hnd
  have haA : a ∉ A := fun h => hnd'.2.2 h (List.mem_cons_self _ _)
  have hbA : b ∉ A := fun h => hnd'.2.2 h (List.mem_cons_of_mem _ hb)
  have hab : a ≠ b := by
    intro h
    subst h
    exact (List.nodup_cons.1 hnd'.2.1).1 hb
  rw [List.indexOf_append_of_not_mem haA, List.indexOf_append_of_not_mem hbA,
    List.indexOf_cons_self, List.indexOf_cons_ne _ hab]
  omega

theorem filterMap_MBB_mem (l : List Node) (b : MBB) :
    b ∈ l.filterMap Node.MBB ↔ Node.blk b ∈ l := by
  rw [List.mem_filterMap]
  constructor
  · rintro ⟨x, hx, hb⟩
    cases x with
    | nentry => simp [Node.MBB] at hb
    | nexit => simp [Node.MBB] at hb
    | blk c =>
      simp only [Node.MBB, Option.some.injEq] at hb
      subst hb
      exact hx
  · intro h
    exact ⟨Node.blk b, h, rfl⟩

/-- C29: on an acyclic FCFG `toposort` returns, and the new `Blocks` are a
topological order of the blocks whose nodes are reached from `nentry`, each
listed once: for every FCFG edge from the node of a block `u` of `Blocks` to
the node of a block `v`, the block `v` is in `Blocks` and the index of `u` is
lower than the index of `v`. -/
theorem toposort_is_topological (fuel : Nat) (s : SPScope) (U : Finset Node)
    (hU : ∀ x ∈ U, ∀ y ∈ (s.FCFG.nodes x).succs, y ∈ U) (hin : Node.nentry ∈ U)
    (hf : U.card ≤ fuel) (hac : AcyclicOn U (fun n => (s.FCFG.nodes n).succs)) :
    ∃ s', toposort fuel s = some s' ∧ s'.FCFG = s.FCFG ∧ s'.Blocks.Nodup ∧
      (∀ b, b ∈ s'.Blocks ↔ Reach (fun n => (s.FCFG.nodes n).succs) Node.nentry (Node.blk b)) ∧
      ∀ u ∈ s'.Blocks, ∀ v, Node.blk v ∈ (s.FCFG.nodes (Node.blk u)).succs →
        v ∈ s'.Blocks ∧ s'.Blocks.indexOf u < s'.Blocks.indexOf v := by
  obtain ⟨st', hrun, hinv, hreach, _, _⟩ :=
    dfsVisit_from_empty (fun n => (s.FCFG.nodes n).succs) U hU Node.nentry hin fuel hf
  have hnd : ((st'.order.filterMap Node.MBB).reverse).Nodup := by
    rw [List.nodup_reverse]
    refine List.Nodup.filterMap ?_ hinv.nodup
    intro a a' b ha ha'
    cases a <;> cases a' <;> simp_all [Node.MBB]
  refine ⟨{ s with Blocks := (st'.order.filterMap Node.MBB).reverse }, ?_, rfl, hnd, ?_, ?_⟩
  · unfold toposort postOrder
    rw [hrun]
    rfl
  · intro b
    show b ∈ (st'.order.filterMap Node.MBB).reverse ↔ _
    rw [List.mem_reverse, filterMap_MBB_mem, hreach]
  · intro u hu v hv
    have hu' : u ∈ (st'.order.filterMap Node.MBB).reverse := hu
    rw [List.mem_reverse, filterMap_MBB_mem] at hu'
    obtain ⟨hvo, hlt⟩ := hinv.topo hac (Node.blk u) hu' (Node.blk v) hv
    have hvB : v ∈ (st'.order.filterMap Node.MBB).reverse := by
      rw [List.mem_reverse, filterMap_MBB_mem]
      exact hvo
    refine ⟨hvB, ?_⟩
    show ((st'.order.filterMap Node.MBB).reverse).indexOf u <
      ((st'.order.filterMap Node.MBB).reverse).indexOf v
    obtain ⟨A, B, h | h⟩ := indexOf_lt_split st'.order (Node.blk v) (Node.blk u) hlt
    · obtain ⟨hsplit, huB⟩ := h
      have huB' : u ∈ (B.filterMap Node.MBB).reverse := by
        rw [List.mem_reverse, filterMap_MBB_mem]
        exact huB
      obtain ⟨l1, l2, hl⟩ := List.append_of_mem huB'
      refine indexOf_lt_of_split _ l1 (l2 ++ v :: (A.filterMap Node.MBB).reverse) u v ?_
        (by simp) hnd
      rw [hsplit, List.filterMap_append, List.filterMap_cons]
      simp only [Node.MBB, List.reverse_append, List.reverse_cons, List.append_assoc,
        List.singleton_append]
      rw [hl]
      simp
    · exact absurd hu' h.2

/-- Witness of C29: the FCFG of the root scope of the diamond. -/
theorem toposort_is_topological_witness :
    ∃ s', toposort 16 diamondBuilt = some s' ∧ s'.FCFG = diamondBuilt.FCFG ∧ s'.Blocks.Nodup ∧
      (∀ b, b ∈ s'.Blocks ↔
        Reach (fun n => (diamondBuilt.FCFG.nodes n).succs) Node.nentry (Node.blk b)) ∧
      ∀ u ∈ s'.Blocks, ∀ v, Node.blk v ∈ (diamondBuilt.FCFG.nodes (Node.blk u)).succs →
        v ∈ s'.Blocks ∧ s'.Blocks.indexOf u < s'.Blocks.indexOf v :=
  toposort_is_topological 16 diamondBuilt diamondNodes (by decide) (by decide) (by decide)
    (acyclicOn_of_rank diamondNodes _ diamondRank (by decide) (by decide))

/-- The blocks of the root scope of the diamond after `toposort`. -/
theorem toposort_example :
    (toposort 16 diamondBuilt).map (fun s => s.Blocks) = some [0, 2, 1, 3, 4] := by
  decide

/-! ## C30: the control dependences of the exit edges -/

/-- The control dependences added by the second loop of `ctrldep` for the loop
of `loopMF`: the header 1 gets the element of the dual of the exit edge, the
edge from the header into the body; block 2 gets nothing. -/
theorem ctrldep_exit_edges_example :
    ((ctrldepExits loopMF loopMFPostdom (some 1) 8 (loopMFPostdom.nodes Node.nexit).preds
        (fun _ => none)).map
          (fun CD => [some 1, some 2, none].map (fun k => ((CD k).getD ∅).iter))) =
      some [[(Node.blk 1, some 1, some 2)], [], []] := by
  decide

theorem getDual_none_of_succ_size (MF : MachineFunction) (e : Edge) (src : MBB)
    (hsrc : e.1 = some src) (hn : (MF.succs src).length ≠ 2) : getDual MF e = none := by
  simp [getDual, hsrc, hn]

theorem ctrldepExits_none (MF : MachineFunction) (g : FCFG) (header : MBBPtr) (fuel : Nat)
    (it : Node) (e : Edge) (he : g.edgeto it Node.nexit = some e) (hdual : getDual MF e = none)
    (preds : List Node) (hit : it ∈ preds) (CD : MBBPtr → Option CDEntry) :
    ctrldepExits MF g header fuel preds CD = none := by
  induction preds generalizing CD with
  | nil => simp at hit
  | cons x rest ih =>
    by_cases hx : x = it
    · subst hx
      simp [ctrldepExits, he, hdual]
    · have hrest : it ∈ rest := by
        rcases List.mem_cons.1 hit with h | h
        · exact absurd h.symm hx
        · exact h
      unfold ctrldepExits
      cases g.edgeto x Node.nexit with
      | none => exact ih hrest CD
      | some e' =>
        simp only []
        cases getDual MF e' with
        | none => rfl
        | some dual =>
          cases header with
          | none => rfl
          | some h =>
            simp only []
            cases _walkpdt g Node.nentry dual x fuel (some (Node.blk h)) CD with
            | none => rfl
            | some CD' => exact ih hrest CD'

/-- The rejection by the assertion of `getDual`, for every fuel. -/
theorem ctrldep_none_of_succ_size (MF : MachineFunction) (fuel : Nat)
    (s : SPScope) (it : Node) (e : Edge) (src : MBB)
    (hit : it ∈ (s.FCFG.nodes Node.nexit).preds)
    (he : s.FCFG.edgeto it Node.nexit = some e) (hsrc : e.1 = some src)
    (hn : (MF.succs src).length ≠ 2) : ctrldep MF fuel s = none := by
  unfold ctrldep
  cases depthFirst (fun n => (s.FCFG.nodes n).succs) fuel Node.nentry with
  | none => rfl
  | some DF =>
    simp only []
    cases ctrldepNodes s.FCFG fuel DF s.CD with
    | none => rfl
    | some CD1 =>
      simp only []
      rw [ctrldepExits_none MF s.FCFG s.getHeader fuel it e he
        (getDual_none_of_succ_size MF e src hsrc hn) _ hit CD1]
      rfl

/-- The loop of `exitSwitchMF`, whose header has three successors and is the
source of the edge read as tag of its connection to `nexit`, is rejected. -/
theorem exit_switch_is_rejected :
    exitSwitchPrepared.FCFG.edgeto (Node.blk 1) Node.nexit = some (some 1, some 4) ∧
    (exitSwitchMF.succs 1).length = 3 ∧
    ctrldep exitSwitchMF 10 exitSwitchPrepared = none := by
  refine ⟨by decide, by decide, ?_⟩
  exact ctrldep_none_of_succ_size exitSwitchMF 10 exitSwitchPrepared (Node.blk 1)
    (some 1, some 4) 1 (by decide) (by decide) rfl (by decide)

/-- An exit edge whose source has three successors is accepted when its tag is
replaced: in the scope of the outer loop of `nestSwitchMF` the exit edges from
3 to 6 and from 3 to 9 of the inner loop are routed to `nexit`, block 3 has
three successors, and `ctrldep` returns the control-dependence sets, because
the tag read for the connection is the later edge from 4 to 7, whose source has
two successors. The scope of the inner loop, in which the edge from 3 to 9 is
read as a tag, is rejected. -/
theorem replaced_exit_switch_is_not_rejected :
    (some 3, some 6) ∈ outedgesOf nestSwitchMF nestSwitchOuter 2 ∧
    specEdgeClass nestSwitchOuter (some 3, some 6) = (Node.nexit, some (some 3, some 6)) ∧
    (nestSwitchMF.succs 3).length = 3 ∧
    nestSwitchOuterPrepared.FCFG.edgeto (Node.blk 2) Node.nexit = some (some 4, some 7) ∧
    (ctrldep nestSwitchMF 10 nestSwitchOuterPrepared).map
        (fun s => [some 1, some 2, some 5].map (fun k => ((s.CD k).getD ∅).iter)) =
      some [[(Node.nentry, none, some 1), (Node.blk 2, some 4, some 2)],
        [(Node.nentry, none, some 1), (Node.blk 2, some 4, some 2)],
        [(Node.blk 2, some 2, some 5)]] ∧
    nestSwitchInnerPrepared.FCFG.edgeto (Node.blk 3) Node.nexit = some (some 3, some 9) ∧
    (ctrldep nestSwitchMF 10 nestSwitchInnerPrepared).isSome = false := by
  decide

/-! ## C27: the fixed point of `computeUpwardsExposedUses` -/

/-- The function `computeUpwardsExposedUses` returns the set `bvIn[entry]` of
the final state of its worklist iteration. -/
theorem computeUpwardsExposedUses_eq (MF : MachineFunction) (K : K_t) (R : R_t)
    (fuelPO fuelWL : Nat) (entry : MBB) (hentry : MF.front = some entry) :
    computeUpwardsExposedUses MF K R fuelPO fuelWL =
      (ueuSolve MF K R fuelPO fuelWL).map (fun r => r.2.bvIn entry) := by
  unfold computeUpwardsExposedUses ueuSolve ueuGenKill
  cases fillGen K.length R {} with
  | none => rfl
  | some gk0 =>
    simp only []
    cases fillKill K 0 gk0.kill with
    | none => rfl
    | some kill =>
      simp only [hentry]
      cases postOrder MF.succs fuelPO entry with
      | none => rfl
      | some po =>
        simp only []
        cases (ueuInit { gen := gk0.gen, kill := kill } po).worklist with
        | nil => rfl
        | cons first rest =>
          simp only []
          cases ueuLoop MF K.length { gen := gk0.gen, kill := kill } fuelWL
            { worklist := rest,
              bvIn := upd (ueuInit { gen := gk0.gen, kill := kill } po).bvIn first
                ((ueuInit { gen := gk0.gen, kill := kill } po).bvIn first).setAll } with
          | none => rfl
          | some st => rfl

/-- The run of `computeUpwardsExposedUses` on a loop-free CFG: the maps `gen`
and `kill` are filled, the post-order `first :: rest` lists the blocks reached
from the entry, its first block has no successor, and the worklist iteration
ends in a state in which the set of `first` holds every predicate and the set
of every other block of the post-order is stable. -/
theorem ueuSolve_spec (MF : MachineFunction) (K : K_t) (R : R_t) (entry : MBB)
    (hentry : MF.front = some entry)
    (hcons : ∀ a ∈ MF.blocks.toFinset, ∀ b ∈ MF.blocks.toFinset,
      (b ∈ MF.succs a ↔ a ∈ MF.preds b))
    (hUs : ∀ x ∈ MF.blocks.toFinset, ∀ y ∈ MF.succs x, y ∈ MF.blocks.toFinset)
    (hUp : ∀ x ∈ MF.blocks.toFinset, ∀ y ∈ MF.preds x, y ∈ MF.blocks.toFinset)
    (hac : AcyclicOn MF.blocks.toFinset MF.succs)
    (hRkeys : (R.map Prod.fst).Nodup)
    (hRcov : ∀ b ∈ MF.blocks.toFinset, b ∈ R.map Prod.fst)
    (hRlt : ∀ e ∈ R, e.2 < K.length)
    (hKsrc : ∀ k ∈ K, ∀ e ∈ k, e.1 ∈ R.map Prod.fst)
    (fuelPO fuelWL : Nat) (hfPO : MF.blocks.toFinset.card ≤ fuelPO)
    (hfWL : ueuFuelBound MF K.length ≤ fuelWL) :
    ∃ gk first rest st, ueuGenKill K R = some gk ∧
      ueuSolve MF K R fuelPO fuelWL = some (first :: rest, st) ∧
      postOrder MF.succs fuelPO entry = some (first :: rest) ∧
      (first :: rest).Nodup ∧ MF.succs first = [] ∧
      (∀ x, x ∈ first :: rest ↔ Reach MF.succs entry x) ∧
      (st.bvIn first).bits = Finset.range K.length ∧
      (∀ b ∈ rest, (st.bvIn b).bits = (ueuOut MF K.length gk st.bvIn b).bits) ∧
      (∀ b i, (b, i) ∈ R → gk.gen b = { size := K.length, bits := {i} }) ∧
      ∀ b i, i ∈ (gk.kill b).bits ↔ definesPred K i b := by
  have hentryU : entry ∈ MF.blocks.toFinset := by
    unfold MachineFunction.front at hentry
    exact List.mem_toFinset.2 (List.mem_of_mem_head? hentry)
  -- gen and kill
  obtain ⟨gk0, e0, hgk0⟩ := fillGen_spec K.length R {} hRkeys hRlt
  have hk0 : ∀ b, (gk0.kill b).bits = ∅ := by
    intro b
    rw [(hgk0 b).2]
    cases mapFind R b <;> simp [BitVector.ofSize]
  obtain ⟨kill, ek, hkill⟩ := fillKill_spec K 0 gk0.kill (by
    intro k hk e he
    have := (mapFind_isSome_iff R e.1).2 (hKsrc k hk e he)
    obtain ⟨r, hr⟩ := Option.isSome_iff_exists.1 this
    rw [(hgk0 e.1).2, hr]
    simp [BitVector.ofSize])
  have hgenR : ∀ b i, (b, i) ∈ R → gk0.gen b = { size := K.length, bits := {i} } := by
    intro b i hbi
    rw [(hgk0 b).1, (mapFind_eq_some_iff R hRkeys b i).2 hbi]
  have hgen : ∀ b, (gk0.gen b).bits ⊆ Finset.range K.length := by
    intro b
    rw [(hgk0 b).1]
    cases hf : mapFind R b with
    | none => simp
    | some r =>
      have := hRlt (b, r) ((mapFind_eq_some_iff R hRkeys b r).1 hf)
      simpa using this
  have hkillbits : ∀ b i, i ∈ (kill b).bits ↔ definesPred K i b := by
    intro b i
    rw [hkill b i, hk0 b]
    simp only [Finset.not_mem_empty, false_or, zero_add, definesPred]
    constructor
    · rintro ⟨n, k, h1, h2, h3⟩
      exact ⟨k, h2 ▸ h1, h3⟩
    · rintro ⟨k, h1, h3⟩
      exact ⟨i, k, h1, rfl, h3⟩
  -- the post-order
  obtain ⟨dst, edst, inv, _, _, pre, hpre⟩ :=
    dfsVisit_from_empty MF.succs MF.blocks.toFinset hUs entry hentryU fuelPO hfPO
  have hpo : postOrder MF.succs fuelPO entry = some dst.order := by
    simp [postOrder, edst]
  obtain ⟨first, rest, hord⟩ : ∃ first rest, dst.order = first :: rest := by
    cases h : dst.order with
    | nil => rw [h] at hpre; simp at hpre
    | cons a l => exact ⟨a, l, rfl⟩
  have hfirstmem : first ∈ dst.order := by rw [hord]; simp
  have hfirstU : first ∈ MF.blocks.toFinset := inv.inU first hfirstmem
  have hnd : (first :: rest).Nodup := hord ▸ inv.nodup
  have hesucc : MF.succs first = [] := by
    cases hs : MF.succs first with
    | nil => rfl
    | cons y ys =>
      have := (inv.topo hac first hfirstmem y (by rw [hs]; simp)).2
      rw [hord] at this
      simp at this
  obtain ⟨hwl0, hin0⟩ := ueuInit_spec { gen := gk0.gen, kill := kill } dst.order
  have hfirstgen : ∃ i, gk0.gen first = { size := K.length, bits := {i} } := by
    obtain ⟨⟨b, i⟩, hi, hb⟩ := List.mem_map.1 (hRcov first hfirstU)
    simp only [] at hb
    subst hb
    exact ⟨i, hgenR b i hi⟩
  have hin1 : ∀ x, x ≠ first →
      (upd (ueuInit { gen := gk0.gen, kill := kill } dst.order).bvIn first
        ((ueuInit { gen := gk0.gen, kill := kill } dst.order).bvIn first).setAll) x =
      if x ∈ dst.order then gk0.gen x else {} := by
    intro x hx
    simp only [upd, hx, if_false]
    exact hin0 x
  have hin1e : ((upd (ueuInit { gen := gk0.gen, kill := kill } dst.order).bvIn first
        ((ueuInit { gen := gk0.gen, kill := kill } dst.order).bvIn first).setAll) first).bits =
      Finset.range K.length := by
    obtain ⟨i, hi⟩ := hfirstgen
    simp only [upd, if_true]
    rw [hin0 first]
    simp [hfirstmem, hi, BitVector.setAll]
  have hinv1 : UEUInv MF K.length { gen := gk0.gen, kill := kill } MF.blocks.toFinset
      (fun b => b ∈ dst.order) first
      { worklist := rest,
        bvIn := upd (ueuInit { gen := gk0.gen, kill := kill } dst.order).bvIn first
          ((ueuInit { gen := gk0.gen, kill := kill } dst.order).bvIn first).setAll } := by
    refine ⟨?_, (List.nodup_cons.1 hnd).1, ?_, ?_, ?_, hin1e⟩
    · intro b hb
      exact inv.inU b (by rw [hord]; simp [hb])
    · intro b hb hbe _
      simp only [] at hb
      rw [hord] at hb
      rcases List.mem_cons.1 hb with h | h
      · exact absurd h hbe
      · exact h
    · intro b hbe
      simp only []
      rw [hin1 b hbe]
      intro i hi
      rw [mem_ueuOut]
      left
      split at hi
      · exact hi
      · simp at hi
    · intro b
      simp only []
      by_cases hbe : b = first
      · subst hbe; rw [hin1e]
      · rw [hin1 b hbe]
        split
        · exact hgen b
        · simp
  have hfuel : rest.length + (MF.blocks.toFinset.sum (fun b => (MF.preds b).length)) *
      ueuSlack K.length MF.blocks.toFinset
        (upd (ueuInit { gen := gk0.gen, kill := kill } dst.order).bvIn first
          ((ueuInit { gen := gk0.gen, kill := kill } dst.order).bvIn first).setAll) < fuelWL := by
    have h1 : rest.length < MF.blocks.toFinset.card := by
      have hs : dst.order.toFinset ⊆ MF.blocks.toFinset :=
        fun x hx => inv.inU x (List.mem_toFinset.1 hx)
      have := Finset.card_le_card hs
      rw [List.toFinset_card_of_nodup inv.nodup, hord] at this
      simp at this
      omega
    have h2 : ∀ bvIn, ueuSlack K.length MF.blocks.toFinset bvIn ≤
        MF.blocks.toFinset.card * K.length := by
      intro bvIn
      unfold ueuSlack
      have := Finset.sum_le_sum (s := MF.blocks.toFinset)
        (f := fun b => K.length - (bvIn b).bits.card) (g := fun _ => K.length)
        (fun b _ => Nat.sub_le _ _)
      simpa using this
    have h3 := Nat.mul_le_mul_left (MF.blocks.toFinset.sum (fun b => (MF.preds b).length))
      (h2 (upd (ueuInit { gen := gk0.gen, kill := kill } dst.order).bvIn first
          ((ueuInit { gen := gk0.gen, kill := kill } dst.order).bvIn first).setAll))
    unfold ueuFuelBound at hfWL
    omega
  obtain ⟨fin, efin, invfin, hwlfin⟩ :=
    ueuLoop_spec MF K.length { gen := gk0.gen, kill := kill } MF.blocks.toFinset
      (fun b => b ∈ dst.order) first (fun b hb => inv.inU b hb) hfirstU hesucc hcons hUp hgen
      fuelWL _ hinv1 hfuel
  have hgk : ueuGenKill K R = some { gen := gk0.gen, kill := kill } := by
    unfold ueuGenKill
    rw [e0]
    simp only []
    rw [ek]
  have hreach : ∀ x, x ∈ dst.order ↔ Reach MF.succs entry x := by
    obtain ⟨st2, e2, _, hr, _, _⟩ :=
      dfsVisit_from_empty MF.succs MF.blocks.toFinset hUs entry hentryU fuelPO hfPO
    rw [edst] at e2
    have := Option.some.inj e2
    subst this
    exact hr
  refine ⟨{ gen := gk0.gen, kill := kill }, first, rest, fin, hgk, ?_, hord ▸ hpo, hnd, hesucc,
    hord ▸ hreach, invfin.exitAll, ?_, hgenR, hkillbits⟩
  · unfold ueuSolve
    rw [hgk]
    simp only [hentry, hpo]
    rw [hwl0, hord]
    simp only []
    rw [← hord, efin]
    rfl
  · intro b hb
    have hbe : b ≠ first := fun h => (List.nodup_cons.1 hnd).1 (h ▸ hb)
    by_contra hne
    have hbo : b ∈ dst.order := by
      rw [hord]
      exact List.mem_cons_of_mem _ hb
    have := invfin.unstable b hbo hbe hne
    rw [hwlfin] at this
    simp at this

/-- C27: on a loop-free CFG whose blocks all have a predicate below `|K|` in
`R`, `computeUpwardsExposedUses` terminates (given the fuel `ueuFuelBound` for
the worklist), and when it does: the first block of the depth-first post-order
has no successor, so it is the exit block when the function has a single exit,
and its set `in` holds all predicates; every other block `B` reached from the
entry satisfies `in[B] = ((union of in[s] over the successors s of B) \ kill[B])
∪ gen[B]`, where `gen[B]` holds the predicate `R[B]` and `kill[B]` the
predicates with a defining edge that leaves `B`; and the set returned is
`in[entry]`. -/
theorem upwardsExposedUses_fixpoint (MF : MachineFunction) (K : K_t) (R : R_t) (entry : MBB)
    (hentry : MF.front = some entry)
    (hcons : ∀ a ∈ MF.blocks.toFinset, ∀ b ∈ MF.blocks.toFinset,
      (b ∈ MF.succs a ↔ a ∈ MF.preds b))
    (hUs : ∀ x ∈ MF.blocks.toFinset, ∀ y ∈ MF.succs x, y ∈ MF.blocks.toFinset)
    (hUp : ∀ x ∈ MF.blocks.toFinset, ∀ y ∈ MF.preds x, y ∈ MF.blocks.toFinset)
    (hac : AcyclicOn MF.blocks.toFinset MF.succs)
    (hRkeys : (R.map Prod.fst).Nodup)
    (hRcov : ∀ b ∈ MF.blocks.toFinset, b ∈ R.map Prod.fst)
    (hRlt : ∀ e ∈ R, e.2 < K.length)
    (hKsrc : ∀ k ∈ K, ∀ e ∈ k, e.1 ∈ R.map Prod.fst)
    (fuelPO fuelWL : Nat) (hfPO : MF.blocks.toFinset.card ≤ fuelPO)
    (hfWL : ueuFuelBound MF K.length ≤ fuelWL) :
    ∃ gk first rest st, ueuGenKill K R = some gk ∧
      ueuSolve MF K R fuelPO fuelWL = some (first :: rest, st) ∧
      postOrder MF.succs fuelPO entry = some (first :: rest) ∧
      MF.succs first = [] ∧
      (∀ x, (∀ b ∈ MF.blocks, MF.succs b = [] → b = x) → first = x) ∧
      (st.bvIn first).bits = Finset.range K.length ∧
      (∀ B, Reach MF.succs entry B → B ≠ first →
        (st.bvIn B).bits =
          ((MF.succs B).toFinset.biUnion (fun s => (st.bvIn s).bits) \ (gk.kill B).bits) ∪
            (gk.gen B).bits) ∧
      computeUpwardsExposedUses MF K R fuelPO fuelWL = some (st.bvIn entry) ∧
      (∀ b i, (b, i) ∈ R → (gk.gen b).bits = {i}) ∧
      ∀ b i, i ∈ (gk.kill b).bits ↔ definesPred K i b := by
  obtain ⟨gk, first, rest, st, h1, h2, h3, h4, h5, h6, h7, h8, h9, h10⟩ :=
    ueuSolve_spec MF K R entry hentry hcons hUs hUp hac hRkeys hRcov hRlt hKsrc fuelPO fuelWL
      hfPO hfWL
  refine ⟨gk, first, rest, st, h1, h2, h3, h5, ?_, h7, ?_, ?_, ?_, h10⟩
  · intro x hx
    have hfr : Reach MF.succs entry first := (h6 first).1 (List.mem_cons_self _ _)
    have hentryU : entry ∈ MF.blocks.toFinset := by
      unfold MachineFunction.front at hentry
      exact List.mem_toFinset.2 (List.mem_of_mem_head? hentry)
    have hall : ∀ y, Reach MF.succs entry y → y ∈ MF.blocks.toFinset := by
      intro y hy
      induction hy with
      | refl => exact hentryU
      | tail _ hbc ih => exact hUs _ ih _ hbc
    have hfU : first ∈ MF.blocks.toFinset := hall first hfr
    exact hx first (List.mem_toFinset.1 hfU) h5
  · intro B hB hne
    have hBm : B ∈ rest := by
      rcases List.mem_cons.1 ((h6 B).2 hB) with h | h
      · exact absurd h hne
      · exact h
    rw [h8 B hBm]
    ext i
    rw [mem_ueuOut]
    simp only [Finset.mem_union, Finset.mem_sdiff, Finset.mem_biUnion, List.mem_toFinset]
    constructor
    · rintro (hg | ⟨hk, s, hs, his⟩)
      · exact Or.inr hg
      · exact Or.inl ⟨⟨s, hs, his⟩, hk⟩
    · rintro (⟨⟨s, hs, his⟩, hk⟩ | hg)
      · exact Or.inr ⟨hk, s, hs, his⟩
      · exact Or.inl hg
  · rw [computeUpwardsExposedUses_eq MF K R fuelPO fuelWL entry hentry, h2]
    rfl
  · intro b i hbi
    rw [h9 b i hbi]

/-- Witness of C27 on the diamond of S1 with its decomposition. -/
theorem upwardsExposedUses_fixpoint_witness :
    ∃ gk first rest st, ueuGenKill diamondK diamondR = some gk ∧
      ueuSolve diamondMF diamondK diamondR 5 81 = some (first :: rest, st) ∧
      postOrder diamondMF.succs 5 0 = some (first :: rest) ∧
      diamondMF.succs first = [] ∧
      (∀ x, (∀ b ∈ diamondMF.blocks, diamondMF.succs b = [] → b = x) → first = x) ∧
      (st.bvIn first).bits = Finset.range diamondK.length ∧
      (∀ B, Reach diamondMF.succs 0 B → B ≠ first →
        (st.bvIn B).bits =
          ((diamondMF.succs B).toFinset.biUnion (fun s => (st.bvIn s).bits) \
              (gk.kill B).bits) ∪
            (gk.gen B).bits) ∧
      computeUpwardsExposedUses diamondMF diamondK diamondR 5 81 = some (st.bvIn 0) ∧
      (∀ b i, (b, i) ∈ diamondR → (gk.gen b).bits = {i}) ∧
      ∀ b i, i ∈ (gk.kill b).bits ↔ definesPred diamondK i b :=
  upwardsExposedUses_fixpoint diamondMF diamondK diamondR 0 rfl (by decide) (by decide)
    (by decide)
    (acyclicOn_of_rank diamondMF.blocks.toFinset _ (fun b => 5 - b) (by decide) (by decide))
    (by decide) (by decide) (by decide) (by decide) 5 81 (by decide) (by decide)

/-- The post-order and the sets `in` of the blocks of the diamond when the
worklist iteration has ended: the exit block 4 comes first and holds all three
predicates, and the entry block 0, which defines the predicates 1 and 2, is left
with its own predicate 0. -/
theorem upwardsExposedUses_example :
    (ueuSolve diamondMF diamondK diamondR 5 81).map (fun r => r.1) = some [4, 3, 1, 2, 0] ∧
    (ueuSolve diamondMF diamondK diamondR 5 81).map
        (fun r => diamondMF.blocks.map
          (fun b => (List.range 3).filter (fun i => decide (i ∈ (r.2.bvIn b).bits)))) =
      some [[0], [0, 1, 2], [0, 1, 2], [0, 1, 2], [0, 1, 2]] := by
  decide

/-! ## C31: the dual of an edge -/

/-- C31: for an edge `(src, dst)` whose source has exactly two distinct
successors in the host CFG, `dst` and `other` in either order, `getDual`
returns the edge `(src, other)`; and `getDual` fails (its assertion on
`succ_size()`) on every edge whose source does not have exactly two
successors. -/
theorem getDual_other_successor (MF : MachineFunction) (src dst other : MBB)
    (hs : MF.succs src = [dst, other] ∨ MF.succs src = [other, dst]) (hne : other ≠ dst) :
    getDual MF (some src, some dst) = some (some src, some other) ∧
    ∀ (MF' : MachineFunction) (e : Edge) (src' : MBB), e.1 = some src' →
      (MF'.succs src').length ≠ 2 → getDual MF' e = none := by
  refine ⟨?_, fun MF' e src' h1 h2 => getDual_none_of_succ_size MF' e src' h1 h2⟩
  unfold getDual
  rcases hs with h | h
  · simp [h, hne]
  · simp [h, hne]

/-- Witness of C31: the header 1 of the loop of `loopMF` has the successors 2
and 3; the dual of the exit edge to 3 is the edge into the body. -/
theorem getDual_other_successor_witness :
    getDual loopMF (some 1, some 3) = some (some 1, some 2) ∧
    ∀ (MF' : MachineFunction) (e : Edge) (src' : MBB), e.1 = some src' →
      (MF'.succs src').length ≠ 2 → getDual MF' e = none :=
  getDual_other_successor loopMF 1 3 2 (Or.inr rfl) (by decide)

/-! ## C35: `doConvertFunction` rejects functions with loops -/

theorem foldl_count {α : Type} (l : List α) (n : Nat) :
    l.foldl (fun n _ => n + 1) n = n + l.length := by
  induction l generalizing n with
  | nil => rfl
  | cons a l ih =>
    simp only [List.foldl_cons, List.length_cons]
    rw [ih]
    omega

/-- The count of `doConvertFunction` is zero exactly when the forest has no
top-level loop. -/
theorem loopcnt_eq_zero_iff (LF : List MachineLoop) :
    (topLevelLoops LF).foldl (fun n _ => n + 1) 0 = 0 ↔ ∀ L ∈ LF, L.parentLoop ≠ none := by
  rw [foldl_count, Nat.zero_add, List.length_eq_zero]
  unfold topLevelLoops
  rw [List.filter_eq_nil_iff]
  constructor
  · intro h L hL hp
    exact h L hL (by simp [hp])
  · intro h L hL hp
    cases hpl : L.parentLoop with
    | none => exact h L hL hpl
    | some p => simp [hpl] at hp

/-- C35: `doConvertFunction` rejects, by the failure of its assertion and
without a conversion result, every function whose loop forest holds a top-level
loop, and so does `runOnMachineFunction` for a selected function. Whenever it
returns a result, the forest holds no top-level loop, so it is empty when every
nested loop comes after its parent in the forest: only loop-free functions
proceed to predication. -/
theorem doConvertFunction_rejects_loops (TII : TargetHooks)
    (isPredicated : MachineInstr → Bool) (MF : MachineFunction) (PDT : PostDomTree)
    (LF : List MachineLoop) (fuel fuelPO fuelWL : Nat) (instrs : MBB → List MachineInstr)
    (nextVReg : Nat) (L : MachineLoop) (hL : L ∈ LF) (htop : L.parentLoop = none) :
    doConvertFunction TII isPredicated MF PDT LF fuel fuelPO fuelWL instrs nextVReg = none ∧
    runOnMachineFunction TII isPredicated true MF PDT LF fuel fuelPO fuelWL instrs nextVReg =
      none ∧
    ∀ (LF' : List MachineLoop) (r : MBB → List MachineInstr),
      doConvertFunction TII isPredicated MF PDT LF' fuel fuelPO fuelWL instrs nextVReg = some r →
      (∀ L' ∈ LF', L'.parentLoop ≠ none) ∧
      ((∀ (i : Nat) (L' : MachineLoop), LF'[i]? = some L' →
          ∀ p, L'.parentLoop = some p → p < i) → LF' = []) := by
  have hrej : doConvertFunction TII isPredicated MF PDT LF fuel fuelPO fuelWL instrs nextVReg =
      none := by
    unfold doConvertFunction
    have : (topLevelLoops LF).foldl (fun n _ => n + 1) 0 ≠ 0 :=
      fun h => (loopcnt_eq_zero_iff LF).1 h L hL htop
    simp only []
    rw [if_pos this]
  refine ⟨hrej, by simp [runOnMachineFunction, hrej], ?_⟩
  intro LF' r hr
  have hno : ∀ L' ∈ LF', L'.parentLoop ≠ none := by
    apply (loopcnt_eq_zero_iff LF').1
    by_contra hne
    unfold doConvertFunction at hr
    simp only [] at hr
    rw [if_pos hne] at hr
    simp at hr
  refine ⟨hno, fun hparent => ?_⟩
  cases hLF : LF' with
  | nil => rfl
  | cons L0 rest =>
    exfalso
    have h0 : LF'[0]? = some L0 := by rw [hLF]; simp
    cases hp : L0.parentLoop with
    | none => exact hno L0 (by rw [hLF]; simp) hp
    | some p =>
      have := hparent 0 L0 h0 p hp
      omega

/-- Witness of C35: the diamond given with the loop forest of one loop. -/
theorem doConvertFunction_rejects_loops_witness :
    doConvertFunction diamondHooks predExIsPredicated diamondMF diamondPDT [exLoop] 5 5 25
      diamondInstrs 1000 = none ∧
    runOnMachineFunction diamondHooks predExIsPredicated true diamondMF diamondPDT [exLoop]
      5 5 25 diamondInstrs 1000 = none ∧
    ∀ (LF' : List MachineLoop) (r : MBB → List MachineInstr),
      doConvertFunction diamondHooks predExIsPredicated diamondMF diamondPDT LF' 5 5 25
        diamondInstrs 1000 = some r →
      (∀ L' ∈ LF', L'.parentLoop ≠ none) ∧
      ((∀ (i : Nat) (L' : MachineLoop), LF'[i]? = some L' →
          ∀ p, L'.parentLoop = some p → p < i) → LF' = []) :=
  doConvertFunction_rejects_loops diamondHooks predExIsPredicated diamondMF diamondPDT [exLoop]
    5 5 25 diamondInstrs 1000 exLoop (by simp) rfl

/-- On the diamond without loops `doConvertFunction` returns the predicated
function, in which the instructions of the blocks 1 and 2 are guarded by the
registers of their defines; a function that is not selected is left alone; and
with a forest that holds a nested loop next to its top-level loop the function
is rejected. -/
theorem doConvertFunction_example :
    (doConvertFunction diamondHooks predExIsPredicated diamondMF diamondPDT [] 5 5 25
      diamondPredInstrs 1000).map
        (fun r => [1, 2].map (fun b => (r b).map (fun MI => MI.operands))) =
      some [[[MachineOperand.reg 51, MachineOperand.reg 1000, MachineOperand.imm 0],
          [MachineOperand.reg 1000]],
        [[MachineOperand.reg 51, MachineOperand.reg 1001, MachineOperand.imm 0],
          [MachineOperand.reg 1001]]] ∧
    (runOnMachineFunction diamondHooks predExIsPredicated false diamondMF diamondPDT [exLoop]
      5 5 25 diamondPredInstrs 1000).map (fun r => r.2) = some false ∧
    (doConvertFunction diamondHooks predExIsPredicated diamondMF diamondPDT nestedForest 5 5 25
      diamondPredInstrs 1000).isSome = false := by
  refine ⟨by decide, by decide, by decide⟩

/-! ## C38: the blocks kept by `toposort` -/

/-- C38: `toposort` returns, and the new `Blocks` hold each block whose FCFG
node is reached from `nentry` exactly once and no other block. When the old
`Blocks` have no duplicates and the block nodes of the FCFG are nodes of blocks
of the scope, the new `Blocks` are a permutation of the old ones exactly when
the node of every block of the scope is reached from `nentry`; a block whose
node is not reached is dropped. -/
theorem toposort_keeps_reachable_blocks (fuel : Nat) (s : SPScope) (U : Finset Node)
    (hU : ∀ x ∈ U, ∀ y ∈ (s.FCFG.nodes x).succs, y ∈ U) (hin : Node.nentry ∈ U)
    (hf : U.card ≤ fuel) (hnd : s.Blocks.Nodup) (hsub : ∀ x ∈ U, ∀ b ∈ x.MBB, b ∈ s.Blocks) :
    ∃ s', toposort fuel s = some s' ∧
      (∀ b, Reach (fun n => (s.FCFG.nodes n).succs) Node.nentry (Node.blk b) →
        s'.Blocks.count b = 1) ∧
      (∀ b, ¬ Reach (fun n => (s.FCFG.nodes n).succs) Node.nentry (Node.blk b) →
        s'.Blocks.count b = 0) ∧
      (s'.Blocks.Perm s.Blocks ↔
        ∀ b ∈ s.Blocks, Reach (fun n => (s.FCFG.nodes n).succs) Node.nentry (Node.blk b)) ∧
      (∀ b ∈ s'.Blocks, b ∈ s.Blocks) ∧
      ∀ b ∈ s.Blocks, ¬ Reach (fun n => (s.FCFG.nodes n).succs) Node.nentry (Node.blk b) →
        b ∉ s'.Blocks := by
  obtain ⟨st', hrun, hinv, hreach, _, _⟩ :=
    dfsVisit_from_empty (fun n => (s.FCFG.nodes n).succs) U hU Node.nentry hin fuel hf
  have hnd' : ((st'.order.filterMap Node.MBB).reverse).Nodup := by
    rw [List.nodup_reverse]
    refine List.Nodup.filterMap ?_ hinv.nodup
    intro a a' b ha ha'
    cases a <;> cases a' <;> simp_all [Node.MBB]
  have hmem : ∀ b, b ∈ (st'.order.filterMap Node.MBB).reverse ↔
      Reach (fun n => (s.FCFG.nodes n).succs) Node.nentry (Node.blk b) := by
    intro b
    rw [List.mem_reverse, filterMap_MBB_mem, hreach]
  have hold : ∀ b, Reach (fun n => (s.FCFG.nodes n).succs) Node.nentry (Node.blk b) →
      b ∈ s.Blocks := by
    intro b hb
    exact hsub (Node.blk b) (reach_mem _ U hU _ _ hin hb) b rfl
  refine ⟨{ s with Blocks := (st'.order.filterMap Node.MBB).reverse }, ?_, ?_, ?_, ?_, ?_, ?_⟩
  · unfold toposort postOrder
    rw [hrun]
    rfl
  · intro b hb
    exact List.count_eq_one_of_mem hnd' ((hmem b).2 hb)
  · intro b hb
    exact List.count_eq_zero_of_not_mem (fun h => hb ((hmem b).1 h))
  · show ((st'.order.filterMap Node.MBB).reverse).Perm s.Blocks ↔ _
    rw [List.perm_ext_iff_of_nodup hnd' hnd]
    constructor
    · intro h b hb
      exact (hmem b).1 ((h b).2 hb)
    · intro h b
      exact ⟨fun hb => hold b ((hmem b).1 hb), fun hb => (hmem b).2 (h b hb)⟩
  · intro b hb
    exact hold b ((hmem b).1 hb)
  · intro b _ hb h
    exact hb ((hmem b).1 h)

/-- Witness of C38: the FCFG of the root scope of the diamond. -/
theorem toposort_keeps_reachable_blocks_witness :
    ∃ s', toposort 16 diamondBuilt = some s' ∧
      (∀ b, Reach (fun n => (diamondBuilt.FCFG.nodes n).succs) Node.nentry (Node.blk b) →
        s'.Blocks.count b = 1) ∧
      (∀ b, ¬ Reach (fun n => (diamondBuilt.FCFG.nodes n).succs) Node.nentry (Node.blk b) →
        s'.Blocks.count b = 0) ∧
      (s'.Blocks.Perm diamondBuilt.Blocks ↔
        ∀ b ∈ diamondBuilt.Blocks,
          Reach (fun n => (diamondBuilt.FCFG.nodes n).succs) Node.nentry (Node.blk b)) ∧
      (∀ b ∈ s'.Blocks, b ∈ diamondBuilt.Blocks) ∧
      ∀ b ∈ diamondBuilt.Blocks,
        ¬ Reach (fun n => (diamondBuilt.FCFG.nodes n).succs) Node.nentry (Node.blk b) →
        b ∉ s'.Blocks :=
  toposort_keeps_reachable_blocks 16 diamondBuilt diamondNodes (by decide) (by decide)
    (by decide) (by decide) (by decide)

/-- On the function `deadMF` the block 2, whose node is not reached from
`nentry`, is dropped from the root scope by `toposort`. -/
theorem toposort_drops_unreachable_block :
    deadBuilt.Blocks = [0, 1, 2] ∧
    (toposort 16 deadBuilt).map (fun s => s.Blocks) = some [0, 1] := by
  decide

/-! ## C39: the walk of `_walkpdt` ends before `nexit` -/

/-- The function `_walkpdt` runs the body of its loop for the nodes of
`walkpdtNodes`, in their order. -/
theorem walkpdt_eq_fold (g : FCFG) (a : Node) (e : Edge) (edgesrc : Node) (fuel : Nat) :
    ∀ (t : Option Node) (CD : MBBPtr → Option CDEntry),
      _walkpdt g a e edgesrc fuel t CD =
        (walkpdtNodes g a fuel t).map (fun ns => ns.foldl (chargeNode edgesrc e) CD) := by
  induction fuel with
  | zero => intro t CD; rfl
  | succ f ih =>
    intro t CD
    unfold _walkpdt walkpdtNodes
    by_cases h : t = (g.nodes a).ipdom
    · rw [if_pos h, if_pos h]
      rfl
    · rw [if_neg h, if_neg h]
      cases t with
      | none => rfl
      | some tn =>
        simp only []
        rw [ih]
        cases walkpdtNodes g a f (g.nodes tn).ipdom with
        | none => rfl
        | some ns => rfl

/-- The walk of `_walkpdt` from a node `t` post-dominated by `m`, the immediate
post-dominator of `a`: it ends, and the nodes visited are the nodes that
post-dominate `t` but not `m`, each once, none of them `nexit`. The nodes of
`seen` were walked before. -/
theorem walkpdtNodes_spec (g : FCFG) (U : Finset Node) (a m : Node)
    (hUs : ∀ x ∈ U, ∀ y ∈ (g.nodes x).succs, y ∈ U)
    (hac : AcyclicOn U (fun x => (g.nodes x).succs))
    (hreach : ∀ x ∈ U, Reach (fun x => (g.nodes x).succs) x Node.nexit)
    (hcorrect : ∀ x ∈ U, x ≠ Node.nexit →
      ∃ d, (g.nodes x).ipdom = some d ∧ d ≠ x ∧ PDom (fun x => (g.nodes x).succs) d x ∧
        ∀ t, t ≠ x → PDom (fun x => (g.nodes x).succs) t x →
          PDom (fun x => (g.nodes x).succs) t d)
    (ham : (g.nodes a).ipdom = some m) (fuel : Nat) :
    ∀ (t : Node) (seen : Finset Node), t ∈ U →
      PDom (fun x => (g.nodes x).succs) m t → seen ⊆ U →
      (∀ v ∈ seen, v ≠ t ∧ PDom (fun x => (g.nodes x).succs) t v) →
      U.card < fuel + seen.card →
      ∃ ns, walkpdtNodes g a fuel (some t) = some ns ∧ ns.Nodup ∧
        (∀ v ∈ ns, v ∈ U ∧ v ∉ seen ∧ v ≠ Node.nexit) ∧
        ∀ v, v ∈ ns ↔
          PDom (fun x => (g.nodes x).succs) v t ∧ ¬ PDom (fun x => (g.nodes x).succs) v m := by
  induction fuel with
  | zero =>
    intro t seen ht _ hseen _ hfuel
    exfalso
    have := Finset.card_le_card hseen
    omega
  | succ f ih =>
    intro t seen ht hmt hseen hprev hfuel
    unfold walkpdtNodes
    by_cases htm : t = m
    · subst htm
      simp only [ham, if_true]
      refine ⟨[], rfl, List.nodup_nil, by simp, ?_⟩
      intro v
      constructor
      · intro h
        simp at h
      · rintro ⟨h1, h2⟩
        exact absurd h1 h2
    · have hif : ¬ (some t = (g.nodes a).ipdom) := by
        rw [ham]
        intro h
        exact htm (Option.some.inj h)
      simp only [hif, if_false]
      have htne : t ≠ Node.nexit := by
        intro h
        subst h
        exact htm ((pdom_exit _ m).1 hmt).symm
      obtain ⟨d, hd, hdt, hdp, hdmin⟩ := hcorrect t ht htne
      rw [hd]
      have hdU : d ∈ U := reach_mem _ U hUs t d ht (pdom_reach _ U hreach d t ht hdp)
      have hmd : PDom (fun x => (g.nodes x).succs) m d := hdmin m (fun h => htm h.symm) hmt
      have hseen' : insert t seen ⊆ U := Finset.insert_subset ht hseen
      have htseen : t ∉ seen := fun h => (hprev t h).1 rfl
      have hprev' : ∀ v ∈ insert t seen,
          v ≠ d ∧ PDom (fun x => (g.nodes x).succs) d v := by
        intro v hv
        rcases Finset.mem_insert.1 hv with h | h
        · subst h
          exact ⟨fun h => hdt h.symm, hdp⟩
        · have hvd : PDom (fun x => (g.nodes x).succs) d v :=
            pdom_trans _ d t v hdp (hprev v h).2
          refine ⟨?_, hvd⟩
          intro hvd'
          subst hvd'
          exact hdt (pdom_antisymm _ U hUs hac hreach v t ht hdp (hprev v h).2)
      obtain ⟨ns, hrun, hnd, hin, hchar⟩ := ih d (insert t seen) hdU hmd hseen' hprev'
        (by rw [Finset.card_insert_of_not_mem htseen]; omega)
      rw [hrun]
      have htnm : ¬ PDom (fun x => (g.nodes x).succs) t m := by
        intro h
        exact htm (pdom_antisymm _ U hUs hac hreach t m
          (reach_mem _ U hUs t m ht (pdom_reach _ U hreach m t ht hmt)) h hmt)
      have htns : t ∉ ns := fun h => (hin t h).2.1 (Finset.mem_insert_self _ _)
      refine ⟨t :: ns, rfl, List.nodup_cons.2 ⟨htns, hnd⟩, ?_, ?_⟩
      · intro v hv
        rcases List.mem_cons.1 hv with h | h
        · subst h
          exact ⟨ht, htseen, htne⟩
        · obtain ⟨h1, h2, h3⟩ := hin v h
          exact ⟨h1, fun hs => h2 (Finset.mem_insert_of_mem hs), h3⟩
      · intro v
        rw [List.mem_cons, hchar v]
        constructor
        · rintro (h | ⟨h3, h4⟩)
          · subst h
            exact ⟨pdom_refl _ v, htnm⟩
          · exact ⟨pdom_trans _ v d t h3 hdp, h4⟩
        · rintro ⟨h3, h4⟩
          by_cases hvt : v = t
          · exact Or.inl hvt
          · exact Or.inr ⟨hdmin v hvt h3, h4⟩

/-- C39: in an acyclic FCFG, given by its node set `U`, in which every node
reaches `nexit` and every node other than `nexit` has its true immediate
post-dominator, the loop of `_walkpdt(a, b, e, edgesrc)` for a successor `b` of
`a` (the node of the header is a successor of `nentry`) ends after fewer steps
than the FCFG has nodes; the nodes it visits are pairwise distinct nodes of the
FCFG, none of them `nexit`, so the control-dependence set of every visited node
belongs to a node other than `nexit`; and when no edge enters `nentry`, the
set kept for the block-less nodes is not touched at all. -/
theorem walkpdt_terminates_before_exit (g : FCFG) (U : Finset Node) (a b edgesrc : Node)
    (e : Edge) (fuel : Nat) (CD : MBBPtr → Option CDEntry)
    (hUs : ∀ x ∈ U, ∀ y ∈ (g.nodes x).succs, y ∈ U)
    (hac : AcyclicOn U (fun x => (g.nodes x).succs))
    (hreach : ∀ x ∈ U, Reach (fun x => (g.nodes x).succs) x Node.nexit)
    (hcorrect : ∀ x ∈ U, x ≠ Node.nexit →
      ∃ d, (g.nodes x).ipdom = some d ∧ d ≠ x ∧ PDom (fun x => (g.nodes x).succs) d x ∧
        ∀ t, t ≠ x → PDom (fun x => (g.nodes x).succs) t x →
          PDom (fun x => (g.nodes x).succs) t d)
    (ha : a ∈ U) (hb : b ∈ (g.nodes a).succs) (hfuel : U.card < fuel) :
    ∃ ns CD', walkpdtNodes g a fuel (some b) = some ns ∧
      _walkpdt g a e edgesrc fuel (some b) CD = some CD' ∧
      CD' = ns.foldl (chargeNode edgesrc e) CD ∧
      ns.length < U.card ∧ ns.Nodup ∧ Node.nexit ∉ ns ∧
      (∀ v ∈ ns, v ∈ U ∧ v ≠ Node.nexit ∧ PDom (fun x => (g.nodes x).succs) v b) ∧
      ((∀ x ∈ U, Node.nentry ∉ (g.nodes x).succs) →
        (∀ v ∈ ns, ∃ blk, v = Node.blk blk) ∧ CD' none = CD none) := by
  have hbU : b ∈ U := hUs a ha b hb
  have hne : a ≠ Node.nexit := by
    intro h
    subst h
    exact hac _ ha b hb (hreach b hbU)
  obtain ⟨m, hm, hmn, hmp, _⟩ := hcorrect a ha hne
  have hmb : PDom (fun x => (g.nodes x).succs) m b := by
    rcases (pdom_step _ a m hne).1 hmp with h | h
    · exact absurd h hmn
    · exact h b hb
  obtain ⟨ns, hrun, hnd, hin, hchar⟩ := walkpdtNodes_spec g U a m hUs hac hreach hcorrect hm
    fuel b ∅ hbU hmb (by simp) (by simp) (by simpa using hfuel)
  have hexit : Node.nexit ∉ ns := fun h => (hin _ h).2.2 rfl
  have hlen : ns.length < U.card := by
    have hsub : ns.toFinset ⊆ U.erase Node.nexit := by
      intro v hv
      have hv' := List.mem_toFinset.1 hv
      exact Finset.mem_erase.2 ⟨(hin v hv').2.2, (hin v hv').1⟩
    have h1 := Finset.card_le_card hsub
    rw [List.toFinset_card_of_nodup hnd] at h1
    have hxU : Node.nexit ∈ U := reach_mem _ U hUs b _ hbU (hreach b hbU)
    have h2 := Finset.card_erase_lt_of_mem hxU
    omega
  refine ⟨ns, ns.foldl (chargeNode edgesrc e) CD, hrun, ?_, rfl, hlen, hnd, hexit, ?_, ?_⟩
  · rw [walkpdt_eq_fold, hrun]
    rfl
  · intro v hv
    exact ⟨(hin v hv).1, (hin v hv).2.2, ((hchar v).1 hv).1⟩
  · intro hentry
    have hblk : ∀ v ∈ ns, ∃ blk, v = Node.blk blk := by
      intro v hv
      cases v with
      | blk c => exact ⟨c, rfl⟩
      | nexit => exact absurd hv hexit
      | nentry =>
        exfalso
        have hr : Reach (fun x => (g.nodes x).succs) b Node.nentry :=
          pdom_reach _ U hreach _ b hbU ((hchar _).1 hv).1
        rcases Relation.ReflTransGen.cases_tail hr with h | ⟨x, hx, hxe⟩
        · rw [← h] at hb
          exact hentry a ha hb
        · exact hentry x (reach_mem _ U hUs b x hbU hx) hxe
    refine ⟨hblk, ?_⟩
    have hfold : ∀ (l : List Node) (CD0 : MBBPtr → Option CDEntry),
        (∀ v ∈ l, ∃ blk, v = Node.blk blk) →
        (l.foldl (chargeNode edgesrc e) CD0) none = CD0 none := by
      intro l
      induction l with
      | nil => intro CD0 _; rfl
      | cons v l ih =>
        intro CD0 hl
        rw [List.foldl_cons, ih _ (fun w hw => hl w (List.mem_cons_of_mem _ hw))]
        obtain ⟨c, hc⟩ := hl v (List.mem_cons_self _ _)
        subst hc
        simp [chargeNode, upd, Node.MBB]
    exact hfold ns CD hblk

/-- Witness of C39 on the diamond after `postdominators`: the walk for the edge
from the entry block 0 to its successor 1. -/
theorem walkpdt_terminates_before_exit_witness :
    ∃ ns CD', walkpdtNodes diamondPostdom (Node.blk 0) 8 (some (Node.blk 1)) = some ns ∧
      _walkpdt diamondPostdom (Node.blk 0) (some 0, some 1) (Node.blk 0) 8
        (some (Node.blk 1)) (fun _ => none) = some CD' ∧
      CD' = ns.foldl (chargeNode (Node.blk 0) (some 0, some 1)) (fun _ => none) ∧
      ns.length < diamondNodes.card ∧ ns.Nodup ∧ Node.nexit ∉ ns ∧
      (∀ v ∈ ns, v ∈ diamondNodes ∧ v ≠ Node.nexit ∧
        PDom (fun x => (diamondPostdom.nodes x).succs) v (Node.blk 1)) ∧
      ((∀ x ∈ diamondNodes, Node.nentry ∉ (diamondPostdom.nodes x).succs) →
        (∀ v ∈ ns, ∃ blk, v = Node.blk blk) ∧
          CD' none = ((fun _ => none) : MBBPtr → Option CDEntry) none) :=
  walkpdt_terminates_before_exit diamondPostdom diamondNodes (Node.blk 0) (Node.blk 1)
    (Node.blk 0) (some 0, some 1) 8 (fun _ => none) (by decide)
    (acyclicOn_of_rank diamondNodes _ diamondRank (by decide) (by decide))
    (reach_sink_of_rank diamondNodes _ diamondRank Node.nexit (by decide) (by decide)
      (by decide))
    diamond_ipdoms_correct (by decide) (by decide) (by decide)

/-- The nodes visited by the walks of `ctrldep` on the diamond: from the
successor 1 of the entry block only the node of 1, and from the node of the
header for the pseudo-edge of `nentry` the nodes of 0, 3 and 4. -/
theorem walkpdt_example :
    walkpdtNodes diamondPostdom (Node.blk 0) 8 (some (Node.blk 1)) = some [Node.blk 1] ∧
    walkpdtNodes diamondPostdom Node.nentry 8 (some (Node.blk 0)) =
      some [Node.blk 0, Node.blk 3, Node.blk 4] := by
  decide

/-! ## C33: the defines recorded by `decompose` -/

theorem mem_cd_iter (s : CDEntry) (x : CDElem) : x ∈ s.iter ↔ x ∈ s := by
  unfold CDEntry.iter
  exact mem_setIter _ _ s x

/-- The defines recorded for the elements `l` of `K[i]`: the loop completes
when the pseudo-edges of `nentry` end at the header, and it records a define of
predicate `i` along `e` on `n.MBB` for the elements `(n, e)` other than those
of `nentry`. -/
theorem decomposeDefs_spec (header : MBBPtr) (i : Nat) (l : List CDElem)
    (hl : ∀ x ∈ l, x.1 = Node.nentry → x.2.2 = header) :
    ∀ defs : MBBPtr → Option PredDefInfo,
      ∃ defs', decomposeDefs header i l defs = some defs' ∧
        ∀ (b : MBBPtr) (j : Nat) (e : Edge), (j, e) ∈ (defs' b).getD [] ↔
          (j, e) ∈ (defs b).getD [] ∨
            (j = i ∧ ∃ n, (n, e) ∈ l ∧ n ≠ Node.nentry ∧ n.MBB = b) := by
  induction l with
  | nil =>
    intro defs
    exact ⟨defs, rfl, fun b j e => by simp⟩
  | cons x rest ih =>
    intro defs
    obtain ⟨n, e⟩ := x
    have hrest : ∀ x ∈ rest, x.1 = Node.nentry → x.2.2 = header :=
      fun x hx => hl x (List.mem_cons_of_mem _ hx)
    unfold decomposeDefs
    by_cases hn : n = Node.nentry
    · rw [if_pos hn, if_pos (hl (n, e) (List.mem_cons_self _ _) hn)]
      obtain ⟨defs', hrun, hchar⟩ := ih hrest defs
      refine ⟨defs', hrun, fun b j e' => ?_⟩
      rw [hchar b j e']
      constructor
      · rintro (h | ⟨h1, n', h2, h3, h4⟩)
        · exact Or.inl h
        · exact Or.inr ⟨h1, n', List.mem_cons_of_mem _ h2, h3, h4⟩
      · rintro (h | ⟨h1, n', h2, h3, h4⟩)
        · exact Or.inl h
        · rcases List.mem_cons.1 h2 with h2 | h2
          · have : n' = n := (Prod.ext_iff.1 h2).1
            exact absurd (this.trans hn) h3
          · exact Or.inr ⟨h1, n', h2, h3, h4⟩
    · rw [if_neg hn]
      obtain ⟨defs', hrun, hchar⟩ := ih hrest (defineAt defs n.MBB i e)
      refine ⟨defs', hrun, fun b j e' => ?_⟩
      rw [hchar b j e']
      have hupd : (j, e') ∈ ((defineAt defs n.MBB i e) b).getD [] ↔
          (j, e') ∈ (defs b).getD [] ∨ (j = i ∧ e' = e ∧ n.MBB = b) := by
        unfold defineAt upd
        by_cases hb : b = n.MBB
        · subst hb
          simp only [if_true, Option.getD_some, List.mem_append, List.mem_singleton,
            Prod.mk.injEq, and_true]
        · simp only [hb, if_false]
          constructor
          · exact fun h => Or.inl h
          · rintro (h | ⟨_, _, h⟩)
            · exact h
            · exact absurd h.symm hb
      rw [hupd]
      constructor
      · rintro ((h | ⟨h1, h2, h3⟩) | ⟨h1, n', h2, h3, h4⟩)
        · exact Or.inl h
        · exact Or.inr ⟨h1, n, by rw [h2]; exact List.mem_cons_self _ _, hn, h3⟩
        · exact Or.inr ⟨h1, n', List.mem_cons_of_mem _ h2, h3, h4⟩
      · rintro (h | ⟨h1, n', h2, h3, h4⟩)
        · exact Or.inl (Or.inl h)
        · rcases List.mem_cons.1 h2 with h2 | h2
          · obtain ⟨h5, h6⟩ := Prod.ext_iff.1 h2
            simp only [] at h5 h6
            subst h5
            exact Or.inl (Or.inr ⟨h1, h6, h4⟩)
          · exact Or.inr ⟨h1, n', h2, h3, h4⟩

/-- The defines recorded by the last loop of `decompose` for the sets `K`,
numbered from `i0`. -/
theorem decomposeAllDefs_spec (header : MBBPtr) (K : List CDEntry)
    (hK : ∀ k ∈ K, ∀ x ∈ k, x.1 = Node.nentry → x.2.2 = header) :
    ∀ (i0 : Nat) (defs : MBBPtr → Option PredDefInfo),
      ∃ defs', decomposeAllDefs header K i0 defs = some defs' ∧
        ∀ (b : MBBPtr) (j : Nat) (e : Edge), (j, e) ∈ (defs' b).getD [] ↔
          (j, e) ∈ (defs b).getD [] ∨
            ∃ q k n, K[q]? = some k ∧ j = i0 + q ∧ (n, e) ∈ k ∧ n ≠ Node.nentry ∧
              n.MBB = b := by
  induction K with
  | nil =>
    intro i0 defs
    exact ⟨defs, rfl, fun b j e => by simp⟩
  | cons k ks ih =>
    intro i0 defs
    obtain ⟨defs1, hrun1, hchar1⟩ := decomposeDefs_spec header i0 k.iter
      (fun x hx => hK k (List.mem_cons_self _ _) x ((mem_cd_iter k x).1 hx)) defs
    obtain ⟨defs', hrun, hchar⟩ :=
      ih (fun k' hk' => hK k' (List.mem_cons_of_mem _ hk')) (i0 + 1) defs1
    refine ⟨defs', ?_, fun b j e => ?_⟩
    · unfold decomposeAllDefs
      rw [hrun1]
      exact hrun
    · rw [hchar b j e, hchar1 b j e]
      constructor
      · rintro ((h | ⟨h1, n, h2, h3, h4⟩) | ⟨q, k', n, h1, h2, h3, h4, h5⟩)
        · exact Or.inl h
        · exact Or.inr ⟨0, k, n, by simp, by omega, (mem_cd_iter k _).1 h2, h3, h4⟩
        · exact Or.inr ⟨q + 1, k', n, by simpa using h1, by omega, h3, h4, h5⟩
      · rintro (h | ⟨q, k', n, h1, h2, h3, h4, h5⟩)
        · exact Or.inl (Or.inl h)
        · cases q with
          | zero =>
            have : k' = k := by simpa using h1.symm
            subst this
            exact Or.inl (Or.inr ⟨by omega, n, (mem_cd_iter k' _).2 h3, h4, h5⟩)
          | succ q =>
            exact Or.inr ⟨q, k', n, by simpa using h1, by omega, h3, h4, h5⟩

/-- C33: on a scope with a duplicate-free `Blocks` list whose blocks all have a
control-dependence entry, in which the pseudo-edges of `nentry` end at the
header, and with no define recorded yet, `decompose` returns, and the defines
it records are exactly the triples `(n.MBB, i, e)` for the elements `(n, e)`
of `K[i]` whose node `n` is not `nentry`: such an element is recorded as a
define of predicate `i` along `e` on `n.MBB`, the pseudo-edges of `nentry`
give no record, and nothing else is recorded. -/
theorem decompose_records_defines (s : SPScope) (hnd : s.Blocks.Nodup)
    (hcd : ∀ b ∈ s.Blocks, (s.CD (some b)).isSome)
    (hpseudo : ∀ b ∈ s.Blocks, ∀ t ∈ s.CD (some b), ∀ x ∈ t,
      x.1 = Node.nentry → x.2.2 = s.getHeader)
    (hfresh : s.PredDefs = fun _ => none) :
    ∃ s' K, decompose s = some s' ∧ decomposeK s = some K ∧
      (∀ (b : MBBPtr) (i : Nat) (e : Edge), (i, e) ∈ (s'.PredDefs b).getD [] ↔
        ∃ k n, K[i]? = some k ∧ (n, e) ∈ k ∧ n ≠ Node.nentry ∧ n.MBB = b) ∧
      ∀ (i : Nat) (k : CDEntry) (e : Edge), K[i]? = some k → (Node.nentry, e) ∈ k →
        e.2 = s.getHeader ∧ ∀ b, (i, e) ∈ (s'.PredDefs b).getD [] →
          ∃ n, (n, e) ∈ k ∧ n ≠ Node.nentry ∧ n.MBB = b := by
  obtain ⟨acc, hacc⟩ := Option.isSome_iff_exists.1
    (decomposeLoop_succeeds s.CD s.Blocks {} hnd hcd (fun _ _ => rfl))
  have hinv := decomposeLoop_inv s.CD s.Blocks [] {} acc (decompInv_init s.CD) hacc
  simp only [List.nil_append] at hinv
  have hK : ∀ k ∈ acc.K, ∀ x ∈ k, x.1 = Node.nentry → x.2.2 = s.getHeader := by
    intro k hk x hx hxn
    obtain ⟨b, hb, hbk⟩ := hinv.fromBlocks k hk
    exact hpseudo b hb k hbk x hx hxn
  obtain ⟨defs', hrun, hchar⟩ := decomposeAllDefs_spec s.getHeader acc.K hK 0 s.PredDefs
  have hmem : ∀ (b : MBBPtr) (i : Nat) (e : Edge), (i, e) ∈ (defs' b).getD [] ↔
      ∃ k n, acc.K[i]? = some k ∧ (n, e) ∈ k ∧ n ≠ Node.nentry ∧ n.MBB = b := by
    intro b i e
    rw [hchar b i e, hfresh]
    simp only [Option.getD_none, List.not_mem_nil, false_or, Nat.zero_add]
    constructor
    · rintro ⟨q, k, n, h1, h2, h3, h4, h5⟩
      subst h2
      exact ⟨k, n, h1, h3, h4, h5⟩
    · rintro ⟨k, n, h1, h3, h4, h5⟩
      exact ⟨i, k, n, h1, rfl, h3, h4, h5⟩
  refine ⟨{ s with
      PredCount := acc.K.length
      PredUse := acc.mbbPreds
      NumPredDefEdges := acc.K.map (fun k => k.card)
      PredDefs := defs' }, acc.K, ?_, ?_, hmem, ?_⟩
  · unfold decompose
    rw [hacc]
    simp only []
    rw [hrun]
  · unfold decomposeK
    rw [hacc]
    rfl
  · intro i k e hk he
    refine ⟨hK k (List.getElem?_mem hk) (Node.nentry, e) he rfl, fun b hb => ?_⟩
    obtain ⟨k', n, h1, h2, h3, h4⟩ := (hmem b i e).1 hb
    rw [hk] at h1
    have := Option.some.inj h1
    subst this
    exact ⟨n, h2, h3, h4⟩

/-- Witness of C33 on `exScope`, in which the blocks 0 and 2 depend on the
pseudo-edge of `nentry` and block 1 on an edge that leaves block 0. -/
theorem decompose_records_defines_witness :
    ∃ s' K, decompose exScope = some s' ∧ decomposeK exScope = some K ∧
      (∀ (b : MBBPtr) (i : Nat) (e : Edge), (i, e) ∈ (s'.PredDefs b).getD [] ↔
        ∃ k n, K[i]? = some k ∧ (n, e) ∈ k ∧ n ≠ Node.nentry ∧ n.MBB = b) ∧
      ∀ (i : Nat) (k : CDEntry) (e : Edge), K[i]? = some k → (Node.nentry, e) ∈ k →
        e.2 = exScope.getHeader ∧ ∀ b, (i, e) ∈ (s'.PredDefs b).getD [] →
          ∃ n, (n, e) ∈ k ∧ n ≠ Node.nentry ∧ n.MBB = b :=
  decompose_records_defines exScope (by decide) (by decide) (by decide) rfl

/-- The defines recorded by `decompose` on `exScope`: one define of predicate 1
on block 0 along the edge to block 1, and none for the pseudo-edge. -/
theorem decompose_defines_example :
    [some 0, some 1, some 2, none].map (fun b => (exScopeDecomposed.PredDefs b).getD []) =
      [[(1, (some 0, some 1))], [], [], []] ∧
    (decomposeK exScope).map (fun K => K.map (fun k => k.iter)) =
      some [[(Node.nentry, (none, some 0))], [(Node.blk 0, (some 0, some 1))]] := by
  decide

/-! ## C40: the legacy and the scoped decomposition agree -/

theorem lookupK_map {σ τ : Type} [DecidableEq σ] [DecidableEq τ] (f : σ → τ)
    (hf : Function.Injective f) (t : σ) (K : List σ) (i : Nat) :
    lookupK (f t) (K.map f) i = lookupK t K i := by
  induction K generalizing i with
  | nil => rfl
  | cons k ks ih =>
    simp only [List.map_cons, lookupK]
    by_cases h : t = k
    · rw [if_pos h, if_pos (by rw [h])]
    · rw [if_neg h, if_neg (fun h' => h (hf h'))]
      exact ih (i + 1)

theorem scopedElem_injective : Function.Injective scopedElem := by
  rintro ⟨a1, b1⟩ ⟨a2, b2⟩ h
  simp only [scopedElem, Prod.mk.injEq, Node.blk.injEq, Option.some.injEq] at h
  obtain ⟨h1, _, h3⟩ := h
  rw [h1, h3]

theorem scopedEntry_injective : Function.Injective scopedEntry :=
  Finset.image_injective scopedElem_injective

/-- The loop of `decomposeControlDependence` and the first loop of `decompose`
run in lockstep over the same distinct blocks, on control-dependence maps that
correspond by the injective translation `f`. -/
theorem decompose_lockstep (CD : CD_map_t) (CD2 : MBBPtr → Option CDEntry)
    (f : CD_map_entry_t → CDEntry) (hf : Function.Injective f) (bs : List MBB) :
    ∀ (st : LegacyDecomp) (acc : DecompAcc), bs.Nodup →
      (∀ b ∈ bs, CD2 (some b) = some (f (CD b))) → (∀ b ∈ bs, mapFind st.R b = none) →
      acc.K = st.K.map f → acc.p = st.p →
      (∀ b, acc.mbbPreds b = (mapFind st.R b).map (fun r => [r])) →
      ∃ acc', decomposeLoop CD2 bs acc = some acc' ∧
        acc'.K = (bs.foldl (decomposeCDStep CD) st).K.map f ∧
        acc'.p = (bs.foldl (decomposeCDStep CD) st).p ∧
        ∀ b, acc'.mbbPreds b = (mapFind (bs.foldl (decomposeCDStep CD) st).R b).map
          (fun r => [r]) := by
  induction bs with
  | nil =>
    intro st acc _ _ _ hK hp hR
    exact ⟨acc, rfl, hK, hp, hR⟩
  | cons b bs ih =>
    intro st acc hnd hcd hfresh hK hp hR
    obtain ⟨hbn, hnd'⟩ := List.nodup_cons.1 hnd
    have hb : acc.mbbPreds b = none := by
      rw [hR b, hfresh b (List.mem_cons_self _ _)]
      rfl
    have hstep : ∃ acc1, decomposeStep CD2 acc b = some acc1 ∧
        acc1.K = (decomposeCDStep CD st b).K.map f ∧ acc1.p = (decomposeCDStep CD st b).p ∧
        ∀ x, acc1.mbbPreds x = (mapFind (decomposeCDStep CD st b).R x).map (fun r => [r]) := by
      unfold decomposeStep decomposeCDStep
      rw [hcd b (List.mem_cons_self _ _), hb]
      simp only []
      rw [hK, lookupK_map f hf]
      cases lookupK (CD b) st.K 0 with
      | some q =>
        refine ⟨_, rfl, rfl, hp, ?_⟩
        intro x
        simp only []
        rw [mapFind_mapAssign]
        unfold upd
        by_cases hx : x = b
        · rw [if_pos hx, if_pos hx]
          rfl
        · rw [if_neg hx, if_neg hx]
          exact hR x
      | none =>
        refine ⟨_, rfl, by simp, by simp [hp], ?_⟩
        intro x
        simp only []
        rw [mapFind_mapAssign]
        unfold upd
        by_cases hx : x = b
        · rw [if_pos hx, if_pos hx, hp]
          rfl
        · rw [if_neg hx, if_neg hx]
          exact hR x
    obtain ⟨acc1, hrun1, hK1, hp1, hR1⟩ := hstep
    have hfresh1 : ∀ x ∈ bs, mapFind (decomposeCDStep CD st b).R x = none := by
      intro x hx
      have hxb : x ≠ b := fun h => hbn (h ▸ hx)
      have h0 := hfresh x (List.mem_cons_of_mem _ hx)
      unfold decomposeCDStep
      cases lookupK (CD b) st.K 0 with
      | some q =>
        simp only []
        rw [mapFind_mapAssign, if_neg hxb]
        exact h0
      | none =>
        simp only []
        rw [mapFind_mapAssign, if_neg hxb]
        exact h0
    obtain ⟨acc', hrun, hK', hp', hR'⟩ := ih (decomposeCDStep CD st b) acc1 hnd'
      (fun x hx => hcd x (List.mem_cons_of_mem _ hx)) hfresh1 hK1 hp1 hR1
    refine ⟨acc', ?_, hK', hp', hR'⟩
    unfold decomposeLoop
    rw [hrun1]
    exact hrun

/-- C40: the legacy `decomposeControlDependence` and the scoped `decompose`
agree. On the same sequence of distinct blocks and on control-dependence maps
that hold, for every block, the same set (the scoped set is the translation
`f` of the legacy set, for an injective translation of the representations,
and a pseudo-edge of `nentry` in it ends at the header), `decompose` returns,
the list `K` it builds is the translation of the legacy list `K`, there are as
many predicates, and the predicate-use list of every block `B` is the
singleton of the legacy `R[B]`. -/
theorem decompositions_agree (MF : MachineFunction) (CD : CD_map_t) (s : SPScope)
    (f : CD_map_entry_t → CDEntry) (hf : Function.Injective f)
    (hblocks : s.Blocks = MF.blocks) (hnd : MF.blocks.Nodup)
    (hcd : ∀ b ∈ MF.blocks, s.CD (some b) = some (f (CD b)))
    (hpseudo : ∀ t, ∀ x ∈ f t, x.1 = Node.nentry → x.2.2 = s.getHeader) :
    ∃ s', decompose s = some s' ∧
      decomposeK s = some ((decomposeControlDependence MF CD [] []).1.map f) ∧
      s'.PredCount = (decomposeControlDependence MF CD [] []).1.length ∧
      ∀ B ∈ MF.blocks, ∃ r, mapFind (decomposeControlDependence MF CD [] []).2 B = some r ∧
        mapGet (decomposeControlDependence MF CD [] []).2 B = r ∧
        getPredUse s' B = some [r] := by
  obtain ⟨acc, hrun, hK, _, hR⟩ := decompose_lockstep CD s.CD f hf MF.blocks
    { K := [], R := [] } {} hnd hcd (fun _ _ => rfl) rfl rfl (fun _ => rfl)
  rw [← hblocks] at hrun
  have hinv := decomposeLoop_inv s.CD s.Blocks [] {} acc (decompInv_init s.CD) hrun
  simp only [List.nil_append] at hinv
  have hKp : ∀ k ∈ acc.K, ∀ x ∈ k, x.1 = Node.nentry → x.2.2 = s.getHeader := by
    intro k hk x hx hxn
    rw [hK] at hk
    obtain ⟨t, _, ht⟩ := List.mem_map.1 hk
    subst ht
    exact hpseudo t x hx hxn
  obtain ⟨defs', hdefs, _⟩ := decomposeAllDefs_spec s.getHeader acc.K hKp 0 s.PredDefs
  have hKeq : acc.K = (decomposeControlDependence MF CD [] []).1.map f := hK
  refine ⟨{ s with
      PredCount := acc.K.length
      PredUse := acc.mbbPreds
      NumPredDefEdges := acc.K.map (fun k => k.card)
      PredDefs := defs' }, ?_, ?_, ?_, ?_⟩
  · unfold decompose
    rw [hrun]
    simp only []
    rw [hdefs]
  · unfold decomposeK
    rw [hrun, ← hKeq]
    rfl
  · show acc.K.length = _
    rw [hKeq, List.length_map]
  · intro B hB
    obtain ⟨q, _, _, hq, _⟩ := hinv.used B (hblocks ▸ hB)
    have hRB := hR B
    rw [hq] at hRB
    have hfind : mapFind (decomposeControlDependence MF CD [] []).2 B = some q := by
      show mapFind (MF.blocks.foldl (decomposeCDStep CD) { K := [], R := [] }).R B = some q
      cases hm : mapFind (MF.blocks.foldl (decomposeCDStep CD) { K := [], R := [] }).R B with
      | none =>
        rw [hm] at hRB
        simp at hRB
      | some r =>
        rw [hm] at hRB
        simp only [Option.map_some', Option.some.injEq, List.cons.injEq, and_true] at hRB
        rw [hRB]
    refine ⟨q, hfind, ?_, hq⟩
    unfold mapGet
    rw [hfind]
    rfl

/-- Witness of C40 on the diamond with its legacy control-dependence map and
the scope that holds the scoped form of the map. -/
theorem decompositions_agree_witness :
    ∃ s', decompose (scopedOf diamondMF diamondCD) = some s' ∧
      decomposeK (scopedOf diamondMF diamondCD) =
        some ((decomposeControlDependence diamondMF diamondCD [] []).1.map scopedEntry) ∧
      s'.PredCount = (decomposeControlDependence diamondMF diamondCD [] []).1.length ∧
      ∀ B ∈ diamondMF.blocks,
        ∃ r, mapFind (decomposeControlDependence diamondMF diamondCD [] []).2 B = some r ∧
          mapGet (decomposeControlDependence diamondMF diamondCD [] []).2 B = r ∧
          getPredUse s' B = some [r] :=
  decompositions_agree diamondMF diamondCD (scopedOf diamondMF diamondCD) scopedEntry
    scopedEntry_injective rfl (by decide) (fun _ _ => rfl) (fun t x hx hxn => by
      obtain ⟨e, _, he⟩ := Finset.mem_image.1 hx
      rw [← he] at hxn
      simp [scopedElem] at hxn)

/-- The two decompositions of the diamond: the legacy lists `K` and `R`, and the
predicate uses of the scoped decomposition. -/
theorem decompositions_example :
    (decomposeControlDependence diamondMF diamondCD [] []).1.map (fun k => k.iter) =
      [[], [(0, 1)], [(0, 2)]] ∧
    (decomposeControlDependence diamondMF diamondCD [] []).2 =
      [(0, 0), (1, 1), (2, 2), (3, 0), (4, 0)] ∧
    ((decompose (scopedOf diamondMF diamondCD)).map
        (fun s => diamondMF.blocks.map (getPredUse s))) =
      some [some [0], some [1], some [2], some [0], some [0]] := by
  decide

/-! ## C36: the worklist iteration terminates -/

/-- The worklist iteration terminates with an empty worklist when the fuel
exceeds the worklist length plus the remaining slack weighted by the number of
predecessor entries; the sets only grow. -/
theorem ueuLoop_terminates (MF : MachineFunction) (Ksize : Nat) (gk : GenKill) (U : Finset MBB)
    (e : MBB) (he : e ∈ U) (hesucc : MF.succs e = [])
    (hcons : ∀ a ∈ U, ∀ b ∈ U, (b ∈ MF.succs a ↔ a ∈ MF.preds b))
    (hUp : ∀ x ∈ U, ∀ y ∈ MF.preds x, y ∈ U)
    (hgen : ∀ b, (gk.gen b).bits ⊆ Finset.range Ksize) (f : Nat) :
    ∀ st, UEUTermInv MF Ksize gk U e st →
      st.worklist.length + (U.sum (fun b => (MF.preds b).length)) * ueuSlack Ksize U st.bvIn < f →
      ∃ st', ueuLoop MF Ksize gk f st = some st' ∧ UEUTermInv MF Ksize gk U e st' ∧
        st'.worklist = [] ∧ ∀ b, (st.bvIn b).bits ⊆ (st'.bvIn b).bits := by
  induction f with
  | zero => intro st _ h; omega
  | succ f ih =>
    intro st hinv hf
    unfold ueuLoop
    cases hwl : st.worklist with
    | nil => exact ⟨st, rfl, hinv, hwl, fun b => Finset.Subset.refl _⟩
    | cons b rest =>
      simp only []
      have hbU : b ∈ U := hinv.wlU b (by simp [hwl])
      have hbe : b ≠ e := fun h => hinv.wlNe (by simp [hwl, h])
      have hrestU : ∀ x ∈ rest, x ∈ U := fun x hx => hinv.wlU x (by simp [hwl, hx])
      have hrestNe : e ∉ rest := fun h => hinv.wlNe (by simp [hwl, h])
      by_cases hch : (ueuOut MF Ksize gk st.bvIn b).bits ≠ (st.bvIn b).bits
      · have hne : (ueuOut MF Ksize gk st.bvIn b).ne (st.bvIn b) = true := by
          simp [BitVector.ne, hch]
        simp only [hne, if_true]
        have hpw : ∀ x, (st.bvIn x).bits ⊆
            ((upd st.bvIn b (ueuOut MF Ksize gk st.bvIn b)) x).bits := by
          intro x
          unfold upd
          split
          · rename_i h; subst h; exact hinv.mono x hbe
          · exact Finset.Subset.refl _
        have hinv' : UEUTermInv MF Ksize gk U e
            { worklist := rest ++ MF.preds b,
              bvIn := upd st.bvIn b (ueuOut MF Ksize gk st.bvIn b) } := by
          refine ⟨?_, ?_, ?_, ?_⟩
          · intro x hx
            rcases List.mem_append.1 hx with h | h
            · exact hrestU x h
            · exact hUp b hbU x h
          · intro h
            rcases List.mem_append.1 h with h | h
            · exact hrestNe h
            · have := (hcons e he b hbU).2 h
              rw [hesucc] at this
              simp at this
          · intro x hxe
            simp only []
            have h1 := ueuOut_mono MF Ksize gk st.bvIn _ hpw x
            by_cases hxb : x = b
            · subst hxb
              simpa [upd] using ueuOut_mono MF Ksize gk st.bvIn _ hpw x
            · have hx' : (upd st.bvIn b (ueuOut MF Ksize gk st.bvIn b)) x = st.bvIn x := by
                simp [upd, hxb]
              rw [hx']
              exact Finset.Subset.trans (hinv.mono x hxe) h1
          · intro x
            simp only []
            unfold upd
            split
            · exact ueuOut_bound MF Ksize gk st.bvIn hgen hinv.bound b
            · exact hinv.bound x
        have hslack := ueuSlack_update Ksize U st.bvIn b (ueuOut MF Ksize gk st.bvIn b) hbU
          (hinv.mono b hbe) hch (ueuOut_bound MF Ksize gk st.bvIn hgen hinv.bound b)
        obtain ⟨st', hrun, hinv'', hwl', hgrow⟩ := ih _ hinv' (by
          simp only [List.length_append]
          rw [hwl] at hf
          simp only [List.length_cons] at hf
          have hD : (MF.preds b).length ≤ U.sum (fun x => (MF.preds x).length) :=
            Finset.single_le_sum (f := fun x => (MF.preds x).length)
              (fun _ _ => Nat.zero_le _) hbU
          have hmul : U.sum (fun x => (MF.preds x).length) *
              (ueuSlack Ksize U (upd st.bvIn b (ueuOut MF Ksize gk st.bvIn b)) + 1) ≤
              U.sum (fun x => (MF.preds x).length) * ueuSlack Ksize U st.bvIn :=
            Nat.mul_le_mul_left _ hslack
          rw [Nat.mul_add, Nat.mul_one] at hmul
          omega)
        exact ⟨st', hrun, hinv'', hwl', fun x => Finset.Subset.trans (hpw x) (hgrow x)⟩
      · push_neg at hch
        have hne : (ueuOut MF Ksize gk st.bvIn b).ne (st.bvIn b) = false := by
          simp [BitVector.ne, hch]
        simp only [hne, Bool.false_eq_true, if_false]
        have hinv' : UEUTermInv MF Ksize gk U e { st with worklist := rest } :=
          ⟨hrestU, hrestNe, hinv.mono, hinv.bound⟩
        obtain ⟨st', hrun, hinv'', hwl', hgrow⟩ := ih _ hinv' (by
          rw [hwl] at hf
          simp only [List.length_cons] at hf
          simp only []
          omega)
        exact ⟨st', hrun, hinv'', hwl', hgrow⟩

/-- The sets `gen` filled by the first loop of `computeUpwardsExposedUses` hold
bits within their length, which is at most `Ksize`; the loop completes only
when every predicate of `R` is below `Ksize`. -/
theorem fillGen_bound (Ksize : Nat) (R : R_t) :
    ∀ gk gk', fillGen Ksize R gk = some gk' →
      (∀ b, (gk.gen b).bits ⊆ Finset.range (gk.gen b).size ∧ (gk.gen b).size ≤ Ksize) →
      (∀ b, (gk'.gen b).bits ⊆ Finset.range (gk'.gen b).size ∧ (gk'.gen b).size ≤ Ksize) ∧
      ∀ e ∈ R, e.2 < Ksize := by
  induction R with
  | nil =>
    intro gk gk' h hb
    simp only [fillGen, Option.some.injEq] at h
    subst h
    exact ⟨hb, by simp⟩
  | cons hd tl ih =>
    intro gk gk' h hb
    obtain ⟨k, r⟩ := hd
    unfold fillGen at h
    by_cases hr : r < Ksize
    · have hset : (BitVector.ofSize Ksize).set r =
          some { size := Ksize, bits := insert r ∅ } := by
        simp [BitVector.set, BitVector.ofSize, hr]
      rw [hset] at h
      simp only [] at h
      obtain ⟨h1, h2⟩ := ih _ gk' h (by
        intro b
        simp only []
        unfold upd
        split
        · refine ⟨?_, le_refl _⟩
          intro i hi
          simp only [Finset.mem_insert, Finset.not_mem_empty, or_false] at hi
          subst hi
          simpa using hr
        · exact hb b)
      refine ⟨h1, ?_⟩
      intro e he
      rcases List.mem_cons.1 he with h3 | h3
      · subst h3
        exact hr
      · exact h2 e h3
    · have hset : (BitVector.ofSize Ksize).set r = none := by
        simp [BitVector.set, BitVector.ofSize, hr]
      rw [hset] at h
      simp at h

theorem ueuGenKill_some (K : K_t) (R : R_t) (gk : GenKill) (h : ueuGenKill K R = some gk) :
    ∃ gk0 kill, fillGen K.length R {} = some gk0 ∧ fillKill K 0 gk0.kill = some kill ∧
      gk = { gen := gk0.gen, kill := kill } := by
  unfold ueuGenKill at h
  split at h
  · simp at h
  · rename_i gk0 h0
    split at h
    · simp at h
    · rename_i kill hk
      exact ⟨gk0, kill, h0, hk, (Option.some.inj h).symm⟩

/-- The sets `gen` of a completed filling hold bits within their length, which
is at most the number of predicates. -/
theorem ueuGenKill_bound (K : K_t) (R : R_t) (gk : GenKill) (h : ueuGenKill K R = some gk) :
    ∀ b, (gk.gen b).bits ⊆ Finset.range (gk.gen b).size ∧ (gk.gen b).size ≤ K.length := by
  obtain ⟨gk0, kill, h0, _, hgk⟩ := ueuGenKill_some K R gk h
  subst hgk
  exact (fillGen_bound K.length R {} gk0 h0 (fun b => ⟨by simp, Nat.zero_le _⟩)).1

/-- C36: the worklist iteration of `computeUpwardsExposedUses` terminates on
every finite loop-free CFG, for every `K` and `R` for which the maps `gen` and
`kill` were filled: with the fuel `ueuFuelBound` it ends with an empty worklist
and the function returns. The set of a block only grows in the course of the
iteration, from its initial value to its final one; in the end it contains
`gen[B]` for every block of the post-order and no set holds a bit beyond the
`|K|` predicates, so the sets can change only finitely often. -/
theorem worklist_iteration_terminates (MF : MachineFunction) (K : K_t) (R : R_t)
    (entry : MBB) (gk : GenKill) (hentry : MF.front = some entry)
    (hcons : ∀ a ∈ MF.blocks.toFinset, ∀ b ∈ MF.blocks.toFinset,
      (b ∈ MF.succs a ↔ a ∈ MF.preds b))
    (hUs : ∀ x ∈ MF.blocks.toFinset, ∀ y ∈ MF.succs x, y ∈ MF.blocks.toFinset)
    (hUp : ∀ x ∈ MF.blocks.toFinset, ∀ y ∈ MF.preds x, y ∈ MF.blocks.toFinset)
    (hac : AcyclicOn MF.blocks.toFinset MF.succs)
    (hgk : ueuGenKill K R = some gk)
    (fuelPO fuelWL : Nat) (hfPO : MF.blocks.toFinset.card ≤ fuelPO)
    (hfWL : ueuFuelBound MF K.length ≤ fuelWL) :
    ∃ first rest st,
      postOrder MF.succs fuelPO entry = some (first :: rest) ∧
      ueuLoop MF K.length gk fuelWL
        { worklist := rest,
          bvIn := upd (ueuInit gk (first :: rest)).bvIn first
            ((ueuInit gk (first :: rest)).bvIn first).setAll } = some st ∧
      st.worklist = [] ∧
      ueuSolve MF K R fuelPO fuelWL = some (first :: rest, st) ∧
      computeUpwardsExposedUses MF K R fuelPO fuelWL = some (st.bvIn entry) ∧
      (∀ b, ((upd (ueuInit gk (first :: rest)).bvIn first
          ((ueuInit gk (first :: rest)).bvIn first).setAll) b).bits ⊆ (st.bvIn b).bits) ∧
      (∀ b ∈ first :: rest, (gk.gen b).bits ⊆ (st.bvIn b).bits) ∧
      ∀ b, (st.bvIn b).bits ⊆ Finset.range K.length := by
  have hentryU : entry ∈ MF.blocks.toFinset := by
    unfold MachineFunction.front at hentry
    exact List.mem_toFinset.2 (List.mem_of_mem_head? hentry)
  have hgb := ueuGenKill_bound K R gk hgk
  have hgen : ∀ b, (gk.gen b).bits ⊆ Finset.range K.length := by
    intro b i hi
    have := (hgb b).1 hi
    simp only [Finset.mem_range] at this ⊢
    exact lt_of_lt_of_le this (hgb b).2
  -- the post-order
  obtain ⟨dst, edst, inv, _, _, pre, hpre⟩ :=
    dfsVisit_from_empty MF.succs MF.blocks.toFinset hUs entry hentryU fuelPO hfPO
  have hpo : postOrder MF.succs fuelPO entry = some dst.order := by
    simp [postOrder, edst]
  obtain ⟨first, rest, hord⟩ : ∃ first rest, dst.order = first :: rest := by
    cases h : dst.order with
    | nil => rw [h] at hpre; simp at hpre
    | cons a l => exact ⟨a, l, rfl⟩
  have hfirstmem : first ∈ dst.order := by rw [hord]; simp
  have hfirstU : first ∈ MF.blocks.toFinset := inv.inU first hfirstmem
  have hnd : (first :: rest).Nodup := hord ▸ inv.nodup
  have hesucc : MF.succs first = [] := by
    cases hs : MF.succs first with
    | nil => rfl
    | cons y ys =>
      have := (inv.topo hac first hfirstmem y (by rw [hs]; simp)).2
      rw [hord] at this
      simp at this
  rw [hord] at hpo
  obtain ⟨hwl0, hin0⟩ := ueuInit_spec gk (first :: rest)
  have hin1 : ∀ x, x ≠ first →
      (upd (ueuInit gk (first :: rest)).bvIn first
        ((ueuInit gk (first :: rest)).bvIn first).setAll) x =
      if x ∈ first :: rest then gk.gen x else {} := by
    intro x hx
    simp only [upd, hx, if_false]
    exact hin0 x
  have hin1e : ((upd (ueuInit gk (first :: rest)).bvIn first
        ((ueuInit gk (first :: rest)).bvIn first).setAll) first).bits =
      Finset.range (gk.gen first).size := by
    simp only [upd, if_true]
    rw [hin0 first]
    simp [BitVector.setAll]
  have hinv1 : UEUTermInv MF K.length gk MF.blocks.toFinset first
      { worklist := rest,
        bvIn := upd (ueuInit gk (first :: rest)).bvIn first
          ((ueuInit gk (first :: rest)).bvIn first).setAll } := by
    refine ⟨?_, (List.nodup_cons.1 hnd).1, ?_, ?_⟩
    · intro b hb
      exact inv.inU b (by rw [hord]; simp [hb])
    · intro b hbe
      simp only []
      rw [hin1 b hbe]
      intro i hi
      rw [mem_ueuOut]
      left
      split at hi
      · exact hi
      · simp at hi
    · intro b
      simp only []
      by_cases hbe : b = first
      · subst hbe
        rw [hin1e]
        intro i hi
        simp only [Finset.mem_range] at hi ⊢
        exact lt_of_lt_of_le hi (hgb b).2
      · rw [hin1 b hbe]
        split
        · exact hgen b
        · simp
  have hfuel : rest.length + (MF.blocks.toFinset.sum (fun b => (MF.preds b).length)) *
      ueuSlack K.length MF.blocks.toFinset
        (upd (ueuInit gk (first :: rest)).bvIn first
          ((ueuInit gk (first :: rest)).bvIn first).setAll) < fuelWL := by
    have h1 : rest.length < MF.blocks.toFinset.card := by
      have hs : dst.order.toFinset ⊆ MF.blocks.toFinset :=
        fun x hx => inv.inU x (List.mem_toFinset.1 hx)
      have := Finset.card_le_card hs
      rw [List.toFinset_card_of_nodup inv.nodup, hord] at this
      simp at this
      omega
    have h2 : ∀ bvIn, ueuSlack K.length MF.blocks.toFinset bvIn ≤
        MF.blocks.toFinset.card * K.length := by
      intro bvIn
      unfold ueuSlack
      have := Finset.sum_le_sum (s := MF.blocks.toFinset)
        (f := fun b => K.length - (bvIn b).bits.card) (g := fun _ => K.length)
        (fun b _ => Nat.sub_le _ _)
      simpa using this
    have h3 := Nat.mul_le_mul_left (MF.blocks.toFinset.sum (fun b => (MF.preds b).length))
      (h2 (upd (ueuInit gk (first :: rest)).bvIn first
          ((ueuInit gk (first :: rest)).bvIn first).setAll))
    unfold ueuFuelBound at hfWL
    omega
  obtain ⟨fin, efin, invfin, hwlfin, hgrow⟩ :=
    ueuLoop_terminates MF K.length gk MF.blocks.toFinset first hfirstU hesucc hcons hUp hgen
      fuelWL _ hinv1 hfuel
  have hsolve : ueuSolve MF K R fuelPO fuelWL = some (first :: rest, fin) := by
    unfold ueuSolve
    rw [hgk]
    simp only [hentry, hpo]
    rw [hwl0]
    simp only []
    rw [efin]
    rfl
  refine ⟨first, rest, fin, hpo, efin, hwlfin, hsolve, ?_, hgrow, ?_, invfin.bound⟩
  · rw [computeUpwardsExposedUses_eq MF K R fuelPO fuelWL entry hentry, hsolve]
    rfl
  · intro b hb
    have hg := hgrow b
    simp only [] at hg
    by_cases hbe : b = first
    · subst hbe
      rw [hin1e] at hg
      exact Finset.Subset.trans (hgb b).1 hg
    · rw [hin1 b hbe, if_pos hb] at hg
      exact hg

/-- Witness of C36 on the diamond of S1 with its decomposition. -/
theorem worklist_iteration_terminates_witness :
    ∃ first rest st,
      postOrder diamondMF.succs 5 0 = some (first :: rest) ∧
      ueuLoop diamondMF diamondK.length diamondGenKill 81
        { worklist := rest,
          bvIn := upd (ueuInit diamondGenKill (first :: rest)).bvIn first
            ((ueuInit diamondGenKill (first :: rest)).bvIn first).setAll } = some st ∧
      st.worklist = [] ∧
      ueuSolve diamondMF diamondK diamondR 5 81 = some (first :: rest, st) ∧
      computeUpwardsExposedUses diamondMF diamondK diamondR 5 81 = some (st.bvIn 0) ∧
      (∀ b, ((upd (ueuInit diamondGenKill (first :: rest)).bvIn first
          ((ueuInit diamondGenKill (first :: rest)).bvIn first).setAll) b).bits ⊆
        (st.bvIn b).bits) ∧
      (∀ b ∈ first :: rest, (diamondGenKill.gen b).bits ⊆ (st.bvIn b).bits) ∧
      ∀ b, (st.bvIn b).bits ⊆ Finset.range diamondK.length :=
  worklist_iteration_terminates diamondMF diamondK diamondR 0 diamondGenKill rfl (by decide)
    (by decide) (by decide)
    (acyclicOn_of_rank diamondMF.blocks.toFinset _ (fun b => 5 - b) (by decide) (by decide))
    rfl 5 81 (by decide) (by decide)

/-! ## C37: the initialization set holds the predicate of the entry block -/

/-- The keys of a `std::map` stay in ascending order under assignment. -/
theorem mapAssign_sorted (m : R_t) (k : MBB) (v : Nat)
    (h : (m.map Prod.fst).Pairwise (fun a b => a < b)) :
    ((mapAssign m k v).map Prod.fst).Pairwise (fun a b => a < b) ∧
      ∀ x, x ∈ (mapAssign m k v).map Prod.fst → x = k ∨ x ∈ m.map Prod.fst := by
  induction m with
  | nil => simp [mapAssign]
  | cons hd tl ih =>
    obtain ⟨a, b⟩ := hd
    simp only [List.map_cons, List.pairwise_cons] at h
    obtain ⟨h1, h2⟩ := h
    obtain ⟨ih1, ih2⟩ := ih h2
    unfold mapAssign
    by_cases hka : k < a
    · simp only [hka, if_true, List.map_cons, List.pairwise_cons, List.mem_cons]
      refine ⟨⟨?_, h1, h2⟩, ?_⟩
      · intro x hx
        rcases hx with hx | hx
        · rw [hx]; exact hka
        · exact lt_trans hka (h1 x hx)
      · intro x hx
        rcases hx with hx | hx | hx
        · exact Or.inl hx
        · exact Or.inr (Or.inl hx)
        · exact Or.inr (Or.inr hx)
    · simp only [hka, if_false]
      by_cases hk : k = a
      · simp only [hk, if_true, List.map_cons, List.pairwise_cons, List.mem_cons]
        exact ⟨⟨h1, h2⟩, fun x hx => Or.inr hx⟩
      · simp only [hk, if_false, List.map_cons, List.pairwise_cons, List.mem_cons]
        refine ⟨⟨?_, ih1⟩, ?_⟩
        · intro x hx
          rcases ih2 x hx with hx | hx
          · rw [hx]
            exact lt_of_le_of_ne (not_lt.1 hka) (fun h => hk h.symm)
          · exact h1 x hx
        · intro x hx
          rcases hx with hx | hx
          · exact Or.inr (Or.inl hx)
          · rcases ih2 x hx with hx | hx
            · exact Or.inl hx
            · exact Or.inr (Or.inr hx)

/-- The map `R` built by `decomposeControlDependence` from an empty map has
distinct keys, and the entry block has the predicate 0 in it. -/
theorem decomposeControlDependence_entry (MF : MachineFunction) (CD : CD_map_t) (entry : MBB)
    (hentry : MF.front = some entry) :
    ((decomposeControlDependence MF CD [] []).2.map Prod.fst).Nodup ∧
      mapFind (decomposeControlDependence MF CD [] []).2 entry = some 0 := by
  have hstep : ∀ (bs : List MBB) (st : LegacyDecomp),
      (st.R.map Prod.fst).Pairwise (fun a b => a < b) →
      ((bs.foldl (decomposeCDStep CD) st).R.map Prod.fst).Pairwise (fun a b => a < b) ∧
      ((∃ K', st.K = CD entry :: K') → mapFind st.R entry = some 0 →
        (∃ K', (bs.foldl (decomposeCDStep CD) st).K = CD entry :: K') ∧
          mapFind (bs.foldl (decomposeCDStep CD) st).R entry = some 0) := by
    intro bs
    induction bs with
    | nil => intro st hs; exact ⟨hs, fun h1 h2 => ⟨h1, h2⟩⟩
    | cons b bs ih =>
      intro st hs
      have hs1 : ((decomposeCDStep CD st b).R.map Prod.fst).Pairwise (fun a b => a < b) := by
        unfold decomposeCDStep
        cases lookupK (CD b) st.K 0 with
        | some q => exact (mapAssign_sorted st.R b q hs).1
        | none => exact (mapAssign_sorted st.R b st.p hs).1
      obtain ⟨ih1, ih2⟩ := ih (decomposeCDStep CD st b) hs1
      refine ⟨ih1, ?_⟩
      rintro ⟨K', hK'⟩ hR
      apply ih2
      · unfold decomposeCDStep
        cases lookupK (CD b) st.K 0 with
        | some q => exact ⟨K', hK'⟩
        | none => exact ⟨K' ++ [CD b], by simp [hK']⟩
      · unfold decomposeCDStep
        by_cases hb : b = entry
        · subst hb
          have : lookupK (CD b) st.K 0 = some 0 := by
            rw [hK']
            simp [lookupK]
          rw [this]
          simp only []
          rw [mapFind_mapAssign, if_pos rfl]
        · have hne : entry ≠ b := fun h => hb h.symm
          cases lookupK (CD b) st.K 0 with
          | some q =>
            simp only []
            rw [mapFind_mapAssign, if_neg hne]
            exact hR
          | none =>
            simp only []
            rw [mapFind_mapAssign, if_neg hne]
            exact hR
  unfold MachineFunction.front at hentry
  cases hbl : MF.blocks with
  | nil => rw [hbl] at hentry; simp at hentry
  | cons b0 rest =>
    rw [hbl] at hentry
    simp only [List.head?_cons, Option.some.injEq] at hentry
    subst hentry
    have h0 : decomposeCDStep CD { K := [], R := [] } b0 =
        { K := [CD b0], R := [(b0, 0)], p := 1 } := by
      simp [decomposeCDStep, lookupK, mapAssign]
    obtain ⟨h1, h2⟩ := hstep rest { K := [CD b0], R := [(b0, 0)], p := 1 } (by simp)
    obtain ⟨_, h3⟩ := h2 ⟨[], rfl⟩ (by simp [mapFind])
    unfold decomposeControlDependence
    simp only [hbl, List.foldl_cons, h0]
    refine ⟨?_, h3⟩
    exact List.Pairwise.imp (fun h => ne_of_lt h) h1

/-- An assignment of the worklist iteration keeps `gen[b]` in the set of `b`. -/
theorem ueuLoop_gen_subset (MF : MachineFunction) (Ksize : Nat) (gk : GenKill) (b : MBB)
    (f : Nat) :
    ∀ st st', ueuLoop MF Ksize gk f st = some st' →
      (gk.gen b).bits ⊆ (st.bvIn b).bits → (gk.gen b).bits ⊆ (st'.bvIn b).bits := by
  induction f with
  | zero => intro st st' h; simp [ueuLoop] at h
  | succ f ih =>
    intro st st' h hsub
    unfold ueuLoop at h
    cases hwl : st.worklist with
    | nil =>
      rw [hwl] at h
      simp only [Option.some.injEq] at h
      subst h
      exact hsub
    | cons x rest =>
      rw [hwl] at h
      simp only [] at h
      split at h
      · refine ih _ st' h ?_
        simp only []
        unfold upd
        split
        · rename_i hbx
          subst hbx
          intro i hi
          rw [mem_ueuOut]
          exact Or.inl hi
        · exact hsub
      · exact ih _ st' h hsub

theorem ueuSolve_some (MF : MachineFunction) (K : K_t) (R : R_t) (fuelPO fuelWL : Nat)
    (po : List MBB) (st : UEUState) (h : ueuSolve MF K R fuelPO fuelWL = some (po, st)) :
    ∃ gk entry first rest, ueuGenKill K R = some gk ∧ MF.front = some entry ∧
      postOrder MF.succs fuelPO entry = some po ∧ (ueuInit gk po).worklist = first :: rest ∧
      ueuLoop MF K.length gk fuelWL
        { worklist := rest,
          bvIn := upd (ueuInit gk po).bvIn first ((ueuInit gk po).bvIn first).setAll } =
        some st := by
  unfold ueuSolve at h
  split at h
  · simp at h
  · rename_i gk hgk
    split at h
    · simp at h
    · rename_i entry hentry
      split at h
      · simp at h
      · rename_i po' hpo
        simp only [] at h
        split at h
        · simp at h
        · rename_i first rest hwl
          obtain ⟨st', hst', heq⟩ := Option.map_eq_some'.1 h
          obtain ⟨h1, h2⟩ := Prod.ext_iff.1 heq
          simp only [] at h1 h2
          subst h1
          subst h2
          exact ⟨gk, entry, first, rest, hgk, hentry, hpo, hwl, hst'⟩

/-- The set returned by `computeUpwardsExposedUses` holds the predicate that
`R` gives to the entry block. -/
theorem upwardsExposedUses_holds_entry (MF : MachineFunction) (K : K_t) (R : R_t)
    (entry : MBB) (r : Nat) (fuelPO fuelWL : Nat) (init : BitVector)
    (hentry : MF.front = some entry) (hRkeys : (R.map Prod.fst).Nodup)
    (hr : mapFind R entry = some r)
    (h : computeUpwardsExposedUses MF K R fuelPO fuelWL = some init) : r ∈ init.bits := by
  rw [computeUpwardsExposedUses_eq MF K R fuelPO fuelWL entry hentry] at h
  obtain ⟨⟨po, st⟩, hsolve, hinit⟩ := Option.map_eq_some'.1 h
  simp only [] at hinit
  subst hinit
  obtain ⟨gk, entry', first, rest, hgk, hentry', hpo, hwl, hloop⟩ :=
    ueuSolve_some MF K R fuelPO fuelWL po st hsolve
  rw [hentry] at hentry'
  have := Option.some.inj hentry'
  subst this
  obtain ⟨gk0, kill, h0, _, hgk'⟩ := ueuGenKill_some K R gk hgk
  have hlt := (fillGen_bound K.length R {} gk0 h0 (fun b => ⟨by simp, Nat.zero_le _⟩)).2
  obtain ⟨gk1, e1, hchar⟩ := fillGen_spec K.length R {} hRkeys hlt
  rw [h0] at e1
  have := Option.some.inj e1
  subst this
  have hgen : gk.gen entry = { size := K.length, bits := {r} } := by
    rw [hgk']
    simp only []
    rw [(hchar entry).1, hr]
  have hrlt : r < K.length := hlt (entry, r) ((mapFind_eq_some_iff R hRkeys entry r).1 hr)
  -- the entry block is in the post-order
  have hmem : entry ∈ po := by
    unfold postOrder at hpo
    obtain ⟨dst, hdst, hord⟩ := Option.map_eq_some'.1 hpo
    obtain ⟨⟨mid, hmid⟩, _, _⟩ := dfsVisit_order MF.succs fuelPO entry {} dst hdst
    rw [← hord, hmid]
    simp
  obtain ⟨_, hin0⟩ := ueuInit_spec gk po
  have hstart : (gk.gen entry).bits ⊆
      ((upd (ueuInit gk po).bvIn first ((ueuInit gk po).bvIn first).setAll) entry).bits := by
    unfold upd
    by_cases he : entry = first
    · rw [if_pos he, ← he, hin0 entry, if_pos hmem, hgen]
      intro i hi
      simp only [Finset.mem_singleton] at hi
      subst hi
      simpa [BitVector.setAll] using hrlt
    · rw [if_neg he, hin0 entry, if_pos hmem]
  have := ueuLoop_gen_subset MF K.length gk entry fuelWL _ st hloop hstart
  apply this
  rw [hgen]
  simp

/-- The loop of `decomposeControlDependence` keeps the numbers of `R` below
the length of `K`, the sets of `K` among the sets of the blocks, and gives
every block it visits an entry of `R`. -/
theorem decomposeCD_fold_wf (CD : CD_map_t) (all : List MBB) :
    ∀ (bs : List MBB) (st : LegacyDecomp), (∀ b ∈ bs, b ∈ all) → st.p = st.K.length →
      (∀ b r, mapFind st.R b = some r → r < st.K.length) →
      (∀ k ∈ st.K, ∃ b ∈ all, k = CD b) →
      (∀ b r, mapFind (bs.foldl (decomposeCDStep CD) st).R b = some r →
        r < (bs.foldl (decomposeCDStep CD) st).K.length) ∧
      (∀ k ∈ (bs.foldl (decomposeCDStep CD) st).K, ∃ b ∈ all, k = CD b) ∧
      ∀ b, (b ∈ bs ∨ (mapFind st.R b).isSome) →
        (mapFind (bs.foldl (decomposeCDStep CD) st).R b).isSome := by
  intro bs
  induction bs with
  | nil =>
    intro st _ _ h2 h3
    refine ⟨h2, h3, ?_⟩
    rintro b (hb | hb)
    · simp at hb
    · exact hb
  | cons b bs ih =>
    intro st hall h1 h2 h3
    have hb : b ∈ all := hall b (List.mem_cons_self _ _)
    have hbs : ∀ x ∈ bs, x ∈ all := fun x hx => hall x (List.mem_cons_of_mem _ hx)
    simp only [List.foldl_cons]
    have hstep : (decomposeCDStep CD st b).p = (decomposeCDStep CD st b).K.length ∧
        (∀ b' r, mapFind (decomposeCDStep CD st b).R b' = some r →
          r < (decomposeCDStep CD st b).K.length) ∧
        (∀ k ∈ (decomposeCDStep CD st b).K, ∃ b' ∈ all, k = CD b') ∧
        ∀ b', (b' = b ∨ (mapFind st.R b').isSome) →
          (mapFind (decomposeCDStep CD st b).R b').isSome := by
      unfold decomposeCDStep
      cases hl : lookupK (CD b) st.K 0 with
      | some q =>
        simp only []
        obtain ⟨j, hj, hK⟩ := lookupK_some (CD b) st.K 0 q hl
        have hq : q < st.K.length := by
          have := (List.getElem?_eq_some.1 hK).1
          omega
        refine ⟨h1, ?_, h3, ?_⟩
        · intro b' r hr
          rw [mapFind_mapAssign] at hr
          split at hr
          · rw [← Option.some.inj hr]
            exact hq
          · exact h2 b' r hr
        · intro b' hb'
          rw [mapFind_mapAssign]
          split
          · rfl
          · rcases hb' with hb' | hb'
            · contradiction
            · exact hb'
      | none =>
        simp only []
        refine ⟨by simp [h1], ?_, ?_, ?_⟩
        · intro b' r hr
          rw [mapFind_mapAssign] at hr
          simp only [List.length_append, List.length_singleton]
          split at hr
          · rw [← Option.some.inj hr, h1]
            omega
          · have := h2 b' r hr
            omega
        · intro k hk
          rcases List.mem_append.1 hk with hk | hk
          · exact h3 k hk
          · simp only [List.mem_singleton] at hk
            exact ⟨b, hb, hk⟩
        · intro b' hb'
          rw [mapFind_mapAssign]
          split
          · rfl
          · rcases hb' with hb' | hb'
            · contradiction
            · exact hb'
    obtain ⟨s1, s2, s3, s4⟩ := hstep
    obtain ⟨i1, i2, i3⟩ := ih (decomposeCDStep CD st b) hbs s1 s2 s3
    refine ⟨i1, i2, ?_⟩
    rintro b' (hb' | hb')
    · rcases List.mem_cons.1 hb' with hb' | hb'
      · exact i3 b' (Or.inr (s4 b' (Or.inl hb')))
      · exact i3 b' (Or.inl hb')
    · exact i3 b' (Or.inr (s4 b' (Or.inr hb')))

/-- A walk of `computeControlDependence` for an edge that leaves a block of
`blocks` keeps the sources of all recorded edges in `blocks`. -/
theorem cdWalk_sources (PDT : PostDomTree) (ipdom : Option MBB) (e : MBB × MBB)
    (blocks : List MBB) (he : e.1 ∈ blocks) (fuel : Nat) :
    ∀ (t : Option MBB) (CD CD' : CD_map_t), cdWalk PDT ipdom e fuel t CD = some CD' →
      (∀ x, ∀ e' ∈ CD x, e'.1 ∈ blocks) → ∀ x, ∀ e' ∈ CD' x, e'.1 ∈ blocks := by
  induction fuel with
  | zero =>
    intro t CD CD' h
    simp [cdWalk] at h
  | succ f ih =>
    intro t CD CD' h hinv
    unfold cdWalk at h
    split at h
    · rw [← Option.some.inj h]
      exact hinv
    · split at h
      · simp at h
      · rename_i b
        apply ih _ _ _ h
        intro x e' he'
        unfold upd at he'
        split at he'
        · rcases Finset.mem_insert.1 he' with h1 | h1
          · rw [h1]
            exact he
          · exact hinv _ e' h1
        · exact hinv x e' he'

/-- The control-dependence map computed by `computeControlDependence` from the
empty map holds edges that leave blocks of the function. -/
theorem computeControlDependence_sources (MF : MachineFunction) (PDT : PostDomTree)
    (fuel : Nat) (CD : CD_map_t)
    (h : computeControlDependence MF PDT fuel (fun _ => ∅) = some CD) :
    ∀ x, ∀ e ∈ CD x, e.1 ∈ MF.blocks := by
  have hsuccs : ∀ (b : MBB), b ∈ MF.blocks → ∀ (ss : List MBB) (C C' : CD_map_t),
      cdSuccs PDT fuel b ss C = some C' →
      (∀ x, ∀ e ∈ C x, e.1 ∈ MF.blocks) → ∀ x, ∀ e ∈ C' x, e.1 ∈ MF.blocks := by
    intro b hb ss
    induction ss with
    | nil =>
      intro C C' hrun hinv
      simp only [cdSuccs, Option.some.injEq] at hrun
      rw [← hrun]
      exact hinv
    | cons s0 ss ih =>
      intro C C' hrun hinv
      unfold cdSuccs at hrun
      split at hrun
      · exact ih C C' hrun hinv
      · split at hrun
        · simp at hrun
        · rename_i C1 h1
          exact ih C1 C' hrun
            (cdWalk_sources PDT (PDT.idom b) (b, s0) MF.blocks hb fuel (some s0) C C1 h1 hinv)
  have hblocks : ∀ (bs : List MBB), (∀ b ∈ bs, b ∈ MF.blocks) → ∀ (C C' : CD_map_t),
      cdBlocks MF PDT fuel bs C = some C' →
      (∀ x, ∀ e ∈ C x, e.1 ∈ MF.blocks) → ∀ x, ∀ e ∈ C' x, e.1 ∈ MF.blocks := by
    intro bs
    induction bs with
    | nil =>
      intro _ C C' hrun hinv
      simp only [cdBlocks, Option.some.injEq] at hrun
      rw [← hrun]
      exact hinv
    | cons b bs ih =>
      intro hbs C C' hrun hinv
      unfold cdBlocks at hrun
      split at hrun
      · simp at hrun
      · rename_i C1 h1
        exact ih (fun x hx => hbs x (List.mem_cons_of_mem _ hx)) C1 C' hrun
          (hsuccs b (hbs b (List.mem_cons_self _ _)) _ C C1 h1 hinv)
  unfold computeControlDependence at h
  split at h
  · exact hblocks MF.blocks (fun b hb => hb) _ CD h (fun x e he => by simp at he)
  · simp at h

/-- C37: on every loop-free function with consistent successor and
predecessor lists, whose control-dependence map holds edges that leave blocks of
the function (as the map of `computeControlDependence` does),
`computeUpwardsExposedUses` returns for the `K` and `R` of
`decomposeControlDependence`, which always gives the entry block the predicate
0, and the set returned holds the predicate 0: the initialization set is never
empty. Whenever the function returns a set, for any function, also one with
loops, and any `K` and `R`, the set holds the predicate `R[entry]` used by the
entry block. -/
theorem initialization_set_holds_entry_predicate (MF : MachineFunction) (CD : CD_map_t)
    (entry : MBB) (hentry : MF.front = some entry)
    (hcons : ∀ a ∈ MF.blocks.toFinset, ∀ b ∈ MF.blocks.toFinset,
      (b ∈ MF.succs a ↔ a ∈ MF.preds b))
    (hUs : ∀ x ∈ MF.blocks.toFinset, ∀ y ∈ MF.succs x, y ∈ MF.blocks.toFinset)
    (hUp : ∀ x ∈ MF.blocks.toFinset, ∀ y ∈ MF.preds x, y ∈ MF.blocks.toFinset)
    (hac : AcyclicOn MF.blocks.toFinset MF.succs)
    (hCD : ∀ b ∈ MF.blocks, ∀ e ∈ CD b, e.1 ∈ MF.blocks)
    (fuelPO fuelWL : Nat) (hfPO : MF.blocks.toFinset.card ≤ fuelPO)
    (hfWL : ueuFuelBound MF (decomposeControlDependence MF CD [] []).1.length ≤ fuelWL) :
    mapFind (decomposeControlDependence MF CD [] []).2 entry = some 0 ∧
    (∃ init, computeUpwardsExposedUses MF (decomposeControlDependence MF CD [] []).1
        (decomposeControlDependence MF CD [] []).2 fuelPO fuelWL = some init ∧
      0 ∈ init.bits ∧ init.bits ≠ ∅) ∧
    ∀ (MF2 : MachineFunction) (K : K_t) (R : R_t) (entry2 : MBB) (r f1 f2 : Nat)
      (init2 : BitVector), MF2.front = some entry2 → (R.map Prod.fst).Nodup →
      mapFind R entry2 = some r → computeUpwardsExposedUses MF2 K R f1 f2 = some init2 →
      r ∈ init2.bits := by
  obtain ⟨hnd, h0⟩ := decomposeControlDependence_entry MF CD entry hentry
  obtain ⟨w1, w2, w3⟩ := decomposeCD_fold_wf CD MF.blocks MF.blocks { K := [], R := [] }
    (fun b hb => hb) rfl (fun b r h => by simp [mapFind] at h) (fun k hk => by simp at hk)
  have hK : (decomposeControlDependence MF CD [] []).1 =
      (MF.blocks.foldl (decomposeCDStep CD) { K := [], R := [] }).K := rfl
  have hR : (decomposeControlDependence MF CD [] []).2 =
      (MF.blocks.foldl (decomposeCDStep CD) { K := [], R := [] }).R := rfl
  have hRcov : ∀ b ∈ MF.blocks.toFinset,
      b ∈ (decomposeControlDependence MF CD [] []).2.map Prod.fst := by
    intro b hb
    rw [hR]
    exact (mapFind_isSome_iff _ b).1 (w3 b (Or.inl (List.mem_toFinset.1 hb)))
  have hRlt : ∀ e ∈ (decomposeControlDependence MF CD [] []).2,
      e.2 < (decomposeControlDependence MF CD [] []).1.length := by
    intro e he
    have := (mapFind_eq_some_iff _ hnd e.1 e.2).2 he
    rw [hK]
    rw [hR] at this
    exact w1 e.1 e.2 this
  have hKsrc : ∀ k ∈ (decomposeControlDependence MF CD [] []).1, ∀ e ∈ k,
      e.1 ∈ (decomposeControlDependence MF CD [] []).2.map Prod.fst := by
    intro k hk e he
    rw [hK] at hk
    obtain ⟨b, hb, hkb⟩ := w2 k hk
    subst hkb
    exact hRcov e.1 (List.mem_toFinset.2 (hCD b hb e he))
  obtain ⟨gk, first, rest, st, _, hsolve, _⟩ :=
    ueuSolve_spec MF _ _ entry hentry hcons hUs hUp hac hnd hRcov hRlt hKsrc fuelPO fuelWL
      hfPO hfWL
  have hrun : computeUpwardsExposedUses MF (decomposeControlDependence MF CD [] []).1
      (decomposeControlDependence MF CD [] []).2 fuelPO fuelWL = some (st.bvIn entry) := by
    rw [computeUpwardsExposedUses_eq MF _ _ fuelPO fuelWL entry hentry, hsolve]
    rfl
  have hmem := upwardsExposedUses_holds_entry MF _ _ entry 0 fuelPO fuelWL _ hentry hnd h0 hrun
  refine ⟨h0, ⟨st.bvIn entry, hrun, hmem, fun h => ?_⟩, ?_⟩
  · rw [h] at hmem
    simp at hmem
  · intro MF2 K R entry2 r f1 f2 init2 he hk hr h
    exact upwardsExposedUses_holds_entry MF2 K R entry2 r f1 f2 init2 he hk hr h

/-- Witness of C37 on the diamond with its legacy control-dependence map. -/
theorem initialization_set_holds_entry_predicate_witness :
    mapFind (decomposeControlDependence diamondMF diamondCD [] []).2 0 = some 0 ∧
    (∃ init, computeUpwardsExposedUses diamondMF
        (decomposeControlDependence diamondMF diamondCD [] []).1
        (decomposeControlDependence diamondMF diamondCD [] []).2 5 81 = some init ∧
      0 ∈ init.bits ∧ init.bits ≠ ∅) ∧
    ∀ (MF2 : MachineFunction) (K : K_t) (R : R_t) (entry2 : MBB) (r f1 f2 : Nat)
      (init2 : BitVector), MF2.front = some entry2 → (R.map Prod.fst).Nodup →
      mapFind R entry2 = some r → computeUpwardsExposedUses MF2 K R f1 f2 = some init2 →
      r ∈ init2.bits :=
  initialization_set_holds_entry_predicate diamondMF diamondCD 0 rfl (by decide) (by decide)
    (by decide)
    (acyclicOn_of_rank diamondMF.blocks.toFinset _ (fun b => 5 - b) (by decide) (by decide))
    (by decide) 5 81 (by decide) (by decide)

/-- The initialization set of the diamond, computed from its legacy
control-dependence map: it holds the predicate 0 of the entry block and nothing
else. -/
theorem initialization_set_example :
    (computeUpwardsExposedUses diamondMF
        (decomposeControlDependence diamondMF diamondCD [] []).1
        (decomposeControlDependence diamondMF diamondCD [] []).2 5 81).map
      (fun init => (List.range 3).filter (fun i => decide (i ∈ init.bits))) = some [0] := by
  decide

/-! ## C34: the order of the calls of `walk` -/

theorem headerMapFind_mem (hm : List (MBB × SPScope)) (b : MBB) (sub : SPScope)
    (h : headerMapFind hm b = some sub) : ∃ k, (k, sub) ∈ hm := by
  induction hm with
  | nil => simp [headerMapFind] at h
  | cons hd tl ih =>
    obtain ⟨k, v⟩ := hd
    unfold headerMapFind at h
    split at h
    · exact ⟨k, by rw [Option.some.inj h]; simp⟩
    · obtain ⟨k', hk'⟩ := ih h
      exact ⟨k', List.mem_cons_of_mem _ hk'⟩

/-- A nested scope is smaller than the scope that holds it. -/
theorem sizeOf_sub_lt (S : SPScope) (b : MBB) (sub : SPScope)
    (h : headerMapFind S.HeaderMap b = some sub) : sizeOf sub < sizeOf S := by
  obtain ⟨k, hk⟩ := headerMapFind_mem S.HeaderMap b sub h
  have h1 : sizeOf (k, sub) < sizeOf S.HeaderMap := List.sizeOf_lt_of_mem hk
  have h2 : sizeOf sub < sizeOf (k, sub) := by
    simp only [Prod.mk.sizeOf_spec]
    omega
  have h3 : sizeOf S.HeaderMap < sizeOf S := by
    cases S
    simp only [SPScope.mk.sizeOf_spec]
    omega
  omega

theorem nested_append (a b : List WalkEvent) (ha : Nested a) (hb : Nested b) :
    Nested (a ++ b) := by
  induction ha with
  | nil => exact hb
  | block c rest _ ih => exact Nested.block c _ ih
  | scope S body rest hbody _ _ ih2 =>
    have : (WalkEvent.enterSubscope S :: body ++ WalkEvent.exitSubscope S :: rest) ++ b =
        WalkEvent.enterSubscope S :: body ++ WalkEvent.exitSubscope S :: (rest ++ b) := by
      simp
    rw [this]
    exact Nested.scope S body _ hbody ih2

/-- A longer recursion of `walk` makes the same calls. -/
theorem walkBlocks_mono (w1 w2 : SPScope → Option (List WalkEvent))
    (hw : ∀ sub tr, w1 sub = some tr → w2 sub = some tr) (hm : List (MBB × SPScope))
    (bs : List MBB) :
    ∀ body, walkBlocks w1 hm bs = some body → walkBlocks w2 hm bs = some body := by
  induction bs with
  | nil => intro body h; exact h
  | cons b bs ih =>
    intro body h
    unfold walkBlocks at h ⊢
    cases hf : headerMapFind hm b with
    | none =>
      rw [hf] at h
      simp only [] at h ⊢
      obtain ⟨rest, hrest, hbody⟩ := Option.map_eq_some'.1 h
      rw [ih rest hrest]
      exact congrArg some hbody
    | some sub =>
      rw [hf] at h
      simp only [] at h ⊢
      cases hs : w1 sub with
      | none => rw [hs] at h; simp at h
      | some tr =>
        rw [hs] at h
        simp only [] at h
        rw [hw sub tr hs]
        simp only []
        obtain ⟨rest, hrest, hbody⟩ := Option.map_eq_some'.1 h
        rw [ih rest hrest]
        exact congrArg some hbody

theorem walk_mono (f : Nat) :
    ∀ S tr, walk f S = some tr → walk (f + 1) S = some tr := by
  induction f with
  | zero => intro S tr h; simp [walk] at h
  | succ f ih =>
    intro S tr h
    unfold walk at h ⊢
    obtain ⟨body, hbody, htr⟩ := Option.map_eq_some'.1 h
    rw [walkBlocks_mono (walk f) (walk (f + 1)) ih S.HeaderMap S.Blocks body hbody]
    exact congrArg some htr

theorem walk_mono_le (f f2 : Nat) (hle : f ≤ f2) (S : SPScope) (tr : List WalkEvent)
    (h : walk f S = some tr) : walk f2 S = some tr := by
  induction hle with
  | refl => exact h
  | step _ ih => exact walk_mono _ S tr ih

/-- The calls made by the loop of `walk` over the blocks `bs`, when the walks
of the nested scopes return with the fuel `m`. -/
theorem walkBlocks_spec (hm : List (MBB × SPScope)) (m : Nat)
    (hsub : ∀ b sub, headerMapFind hm b = some sub → sizeOf sub ≤ m ∧
      ∃ seg segBody, (∀ fuel, sizeOf sub ≤ fuel → walk fuel sub = some seg) ∧
        seg = WalkEvent.enterSubscope sub :: segBody ++ [WalkEvent.exitSubscope sub] ∧
        Nested segBody)
    (bs : List MBB) :
    ∃ body segs, (∀ f, m ≤ f → walkBlocks (walk f) hm bs = some body) ∧ body = segs.flatten ∧
      Nested body ∧ List.Forall₂ (walkSegment hm) bs segs := by
  induction bs with
  | nil => exact ⟨[], [], fun f _ => rfl, rfl, Nested.nil, List.Forall₂.nil⟩
  | cons b bs ih =>
    obtain ⟨body, segs, hrun, hjoin, hnest, hall⟩ := ih
    cases hf : headerMapFind hm b with
    | none =>
      refine ⟨WalkEvent.nextMBB b :: body, [WalkEvent.nextMBB b] :: segs, ?_, ?_,
        Nested.block b body hnest, List.Forall₂.cons (Or.inl ⟨hf, rfl⟩) hall⟩
      · intro f hfm
        unfold walkBlocks
        rw [hf]
        simp only []
        rw [hrun f hfm]
        rfl
      · rw [hjoin]
        rfl
    | some sub =>
      obtain ⟨hsz, seg, segBody, hseg, hshape, hsb⟩ := hsub b sub hf
      have hnseg : Nested seg := by
        rw [hshape]
        exact Nested.scope sub segBody [] hsb Nested.nil
      refine ⟨seg ++ body, seg :: segs, ?_, ?_, nested_append seg body hnseg hnest,
        List.Forall₂.cons (Or.inr ⟨sub, segBody, hf, hseg, hshape, hsb⟩) hall⟩
      · intro f hfm
        unfold walkBlocks
        rw [hf]
        simp only []
        rw [hseg f (le_trans hsz hfm)]
        simp only []
        rw [hrun f hfm]
        rfl
      · rw [hjoin]
        rfl

/-- The calls of `walk` on a scope: the walk returns for every scope (with
fuel for the depth of the tree) and encloses the calls for the blocks in
`enterSubscope(S)` and `exitSubscope(S)`. -/
theorem walk_spec (n : Nat) :
    ∀ S : SPScope, sizeOf S ≤ n →
      ∃ tr body segs, (∀ fuel, sizeOf S ≤ fuel → walk fuel S = some tr) ∧
        tr = WalkEvent.enterSubscope S :: body ++ [WalkEvent.exitSubscope S] ∧
        body = segs.flatten ∧ Nested body ∧ List.Forall₂ (walkSegment S.HeaderMap) S.Blocks segs := by
  induction n with
  | zero =>
    intro S hS
    exfalso
    have : 0 < sizeOf S := by
      cases S
      simp only [SPScope.mk.sizeOf_spec]
      omega
    omega
  | succ n ih =>
    intro S hS
    have hsub : ∀ b sub, headerMapFind S.HeaderMap b = some sub → sizeOf sub ≤ sizeOf S - 1 ∧
        ∃ seg segBody, (∀ fuel, sizeOf sub ≤ fuel → walk fuel sub = some seg) ∧
          seg = WalkEvent.enterSubscope sub :: segBody ++ [WalkEvent.exitSubscope sub] ∧
          Nested segBody := by
      intro b sub hb
      have hlt := sizeOf_sub_lt S b sub hb
      obtain ⟨tr, body, segs, h1, h2, _, h4, _⟩ := ih sub (by omega)
      exact ⟨by omega, tr, body, h1, h2, h4⟩
    obtain ⟨body, segs, hrun, hjoin, hnest, hall⟩ :=
      walkBlocks_spec S.HeaderMap (sizeOf S - 1) hsub S.Blocks
    refine ⟨_, body, segs, ?_, rfl, hjoin, hnest, hall⟩
    intro fuel hfuel
    cases fuel with
    | zero =>
      exfalso
      have : 0 < sizeOf S := by
        cases S
        simp only [SPScope.mk.sizeOf_spec]
        omega
      omega
    | succ f =>
      unfold walk
      rw [hrun f (by omega)]
      rfl

/-- The segment of a block of the list lies inside the sequence of all
segments. -/
theorem forall₂_segment {α β : Type} (R : α → List β → Prop) (bs : List α)
    (segs : List (List β)) (h : List.Forall₂ R bs segs) (b : α) (hb : b ∈ bs) :
    ∃ seg pre post, R b seg ∧ segs.flatten = pre ++ seg ++ post := by
  induction h with
  | nil => simp at hb
  | @cons a seg l1 l2 ha _ ih =>
    rcases List.mem_cons.1 hb with h | h
    · subst h
      exact ⟨seg, [], l2.flatten, ha, by simp⟩
    · obtain ⟨seg', pre, post, h1, h2⟩ := ih h
      exact ⟨seg', seg ++ pre, post, h1, by simp [h2]⟩

/-- C34: `walk` traverses the scope tree depth-first: it returns for every
scope, and every run that returns makes the same calls. The sequence of the
calls starts with `enterSubscope(S)`, ends with `exitSubscope(S)` and is
properly nested; between the two, the blocks of `S` are handled in `Blocks`
order, a block that heads no nested scope by `nextMBB`, and the header of a
nested scope by the whole sequence of the calls of `walk` on that scope, from
its `enterSubscope` to its `exitSubscope`; so `exitSubscope` of every child
scope comes before `exitSubscope` of its parent. -/
theorem walk_children_before_parent (S : SPScope) :
    ∃ tr body segs, (∀ fuel, sizeOf S ≤ fuel → walk fuel S = some tr) ∧
      (∀ fuel tr2, walk fuel S = some tr2 → tr2 = tr) ∧
      tr = WalkEvent.enterSubscope S :: body ++ [WalkEvent.exitSubscope S] ∧
      Nested tr ∧ Nested body ∧
      body = segs.flatten ∧ List.Forall₂ (walkSegment S.HeaderMap) S.Blocks segs ∧
      ∀ b ∈ S.Blocks, ∀ sub, headerMapFind S.HeaderMap b = some sub →
        ∃ subBody pre post,
          (∀ fuel, sizeOf sub ≤ fuel → walk fuel sub =
            some (WalkEvent.enterSubscope sub :: subBody ++ [WalkEvent.exitSubscope sub])) ∧
          tr = WalkEvent.enterSubscope S :: pre ++
            (WalkEvent.enterSubscope sub :: subBody ++ [WalkEvent.exitSubscope sub]) ++
            post ++ [WalkEvent.exitSubscope S] := by
  obtain ⟨tr, body, segs, hrun, htr, hjoin, hnest, hall⟩ := walk_spec (sizeOf S) S (le_refl _)
  refine ⟨tr, body, segs, hrun, ?_, htr, ?_, hnest, hjoin, hall, ?_⟩
  · intro fuel tr2 h2
    have h3 := walk_mono_le fuel (max fuel (sizeOf S)) (le_max_left _ _) S tr2 h2
    rw [hrun _ (le_max_right _ _)] at h3
    exact (Option.some.inj h3).symm
  · rw [htr]
    exact Nested.scope S body [] hnest Nested.nil
  · intro b hb sub hsub
    obtain ⟨seg, pre, post, hseg, hsplit⟩ :=
      forall₂_segment (walkSegment S.HeaderMap) S.Blocks segs hall b hb
    rcases hseg with ⟨hnone, _⟩ | ⟨sub', segBody, hsome, hwalk, hshape, _⟩
    · rw [hnone] at hsub
      simp at hsub
    · rw [hsome] at hsub
      have := Option.some.inj hsub
      subst this
      refine ⟨segBody, pre, post, ?_, ?_⟩
      · intro fuel hfuel
        rw [hwalk fuel hfuel, hshape]
      · rw [htr, hjoin, hsplit, hshape]
        simp

/-- The calls of `walk` on the root scope of `exitSwitchMF`, which holds the
loop of the header 1 as a nested scope. -/
theorem walk_example :
    walk 2 exitSwitchRoot =
      some [WalkEvent.enterSubscope exitSwitchRoot, WalkEvent.nextMBB 0,
        WalkEvent.enterSubscope exitSwitchLoop, WalkEvent.nextMBB 1, WalkEvent.nextMBB 2,
        WalkEvent.exitSubscope exitSwitchLoop, WalkEvent.nextMBB 3, WalkEvent.nextMBB 4,
        WalkEvent.exitSubscope exitSwitchRoot] := by
  rfl

/-- The scope tree built for `nestMF` and the calls of `walk` on its root: the
blocks assigned to a scope after its construction, and the scope of the inner
loop constructed after the scope of the outer loop, are seen from the root
through the `HeaderMap` pointers. -/
theorem walk_built_tree_example :
    (createSPScopeTree nestMF true nestLoops nestLoopOf (fun _ => [])).map blocksOf =
      some [[0, 1, 6, 7, 8], [1, 2, 5], [2, 3, 4]] ∧
    ((createSPScopeTree nestMF true nestLoops nestLoopOf (fun _ => [])).bind
        (fun heap => (heap[0]?).bind (walk 3))).map (fun tr => tr.map WalkEvent.code) =
      some [(0, some 0), (1, some 0), (0, some 1), (1, some 1), (0, some 2), (1, some 2),
        (1, some 3), (1, some 4), (2, some 2), (1, some 5), (2, some 1), (1, some 6),
        (1, some 7), (1, some 8), (2, some 0)] := by
  refine ⟨by decide, by decide⟩

/-! ## C32: the instructions emitted by `insertPredDefinitions` -/

/-- The instructions of the entry block of the diamond after
`insertPredDefinitions` for the initialization set that holds the predicates 0
and 1: the clear of the register 1001 at the start, and before the branch the
select for the edge to block 1, which reads 1001, and the move for the edge to
block 2; the other blocks are unchanged. -/
theorem insertPredDefinitions_emits_example :
    (insertPredDefinitions diamondHooks diamondMF diamondK diamondR
      diamondNeedsInit diamondStart).map
        (fun st => (st.instrs 0).map (fun MI => (MI.opcode, MI.operands.take 1))) =
      some [(Opcode.PCLR, [MachineOperand.reg 1001]), (Opcode.other 1, []),
        (Opcode.PCMOV2, [MachineOperand.reg 1000]), (Opcode.PMOV, [MachineOperand.reg 1002]),
        (Opcode.other 2, [MachineOperand.reg 100]), (Opcode.other 3, [])] ∧
    (insertPredDefinitions diamondHooks diamondMF diamondK diamondR
      diamondNeedsInit diamondStart).map
        (fun st => [1, 2, 3, 4].map (fun b => (st.instrs b).map (fun MI => MI.opcode))) =
      some [[Opcode.other 1], [Opcode.other 1], [Opcode.other 1], [Opcode.other 1]] := by
  decide

/-- The instructions of `swappedMF` after `insertPredDefinitions` with an SSA
updater that materializes a phi, for the initialization set that holds the
predicates 0 and 3: the entry block 1 gets the clear of the register 1003 at its
start and the moves of the predicates 1, 2 and 3 before its branch, block 0 the
select of predicate 3, which reads 1003, and the join 3 the phi of the register
1005 inserted by the updater, which is the use register of the join. -/
theorem insertPredDefinitions_phi_example :
    (insertPredDefinitions swappedPhiHooks swappedMF swappedK swappedR swappedNeedsInit
      swappedStart).map
        (fun st => ([0, 1, 2, 3, 4].map
            (fun b => (st.instrs b).map (fun MI => (MI.opcode, MI.operands.take 1))),
          swappedMF.blocks.map (mapFind st.pred_use_vregs))) =
      some ([[(Opcode.other 1, []), (Opcode.PCMOV2, [MachineOperand.reg 1002]),
          (Opcode.other 2, [MachineOperand.reg 100]), (Opcode.other 3, [])],
        [(Opcode.PCLR, [MachineOperand.reg 1003]), (Opcode.other 1, []),
          (Opcode.PMOV, [MachineOperand.reg 1000]), (Opcode.PMOV, [MachineOperand.reg 1001]),
          (Opcode.PMOV, [MachineOperand.reg 1004]),
          (Opcode.other 2, [MachineOperand.reg 101]), (Opcode.other 3, [])],
        [(Opcode.other 1, [])],
        [(Opcode.other 0, [MachineOperand.reg 1005]), (Opcode.other 1, [])],
        [(Opcode.other 1, [])]],
        [none, some 1000, some 1001, some 1005, none]) := by
  decide


end Patmos
